import Mathlib

/-!
# SimpleLib red-black tree (`red_black_tree.hpp`): a shallow embedding

The C++ class `RedBlackTree<Key, Value, Comp>` is a pointer structure: nodes on the
free store linked by `_left`, `_right` and `_parent`, with one shared sentinel node
standing for every missing child and for the parent of the root.

The embedding keeps that shape.  A state `RBT K V` is a store (a map from addresses
to nodes) together with the data members `_sentinel`, `_root` and `_size`.  Address `0`
is the null pointer and is never allocated; reading or writing through null, or through
an address that was freed, yields `none`.  Loops carry a fuel argument and yield `none`
when the fuel is used up.  `_size` is a `uint32_t`: arithmetic on it is modulo `2^32`.

Some functions have a second copy, named `..._traced`, that returns the same result
together with a record of the run (the runs of a loop, the values of a local variable,
the colour writes, the rotations): statements about what happens during a call are
statements about these records, and each comes with the equation that the copy returns
the state the function returns.

The class `SimpleBlockingQueue<T>` of `simple_blocking_queue.hpp` is embedded for runs
with a single thread, as the contents of its container.
-/

/-- Sequencing in the embedding: run `x`, and when it did not fault run `f` on its result. -/
@[noinline]
def Option.andThen {α β : Type} (x : Option α) (f : α → Option β) : Option β :=
  match x with
  | none => none
  | some a => f a

namespace SimpleLib

/-- Colours of nodes: `enum class Color { RED, BLACK }`. -/
inductive Color where
  | RED
  | BLACK
  deriving DecidableEq, Repr

/-- The record `struct Node`: `_k`, `_v`, `_c`, `_left`, `_right`, `_parent`.
Pointers are addresses, `0` is `nullptr`. -/
structure Node (K V : Type) where
  k : K
  v : V
  c : Color
  left : Nat
  right : Nat
  parent : Nat

/-- The state of one `RedBlackTree` object: the free store holding its nodes, the data
members `_sentinel`, `_root`, `_size`, and `next`, the next address `new` hands out. -/
structure RBT (K V : Type) where
  heap : Nat → Option (Node K V)
  sentinel : Nat
  root : Nat
  size : Nat
  next : Nat

section Embedding

variable {K V : Type}

/-- Read `a->_k`. -/
def RBT.key (s : RBT K V) (a : Nat) : Option K := (s.heap a).map Node.k

/-- Read `a->_v`. -/
def RBT.val (s : RBT K V) (a : Nat) : Option V := (s.heap a).map Node.v

/-- Read `a->_c`. -/
def RBT.color (s : RBT K V) (a : Nat) : Option Color := (s.heap a).map Node.c

/-- Read `a->_left`. -/
def RBT.left (s : RBT K V) (a : Nat) : Option Nat := (s.heap a).map Node.left

/-- Read `a->_right`. -/
def RBT.right (s : RBT K V) (a : Nat) : Option Nat := (s.heap a).map Node.right

/-- Read `a->_parent`. -/
def RBT.parent (s : RBT K V) (a : Nat) : Option Nat := (s.heap a).map Node.parent

/-- Store a whole node at address `a`. -/
def RBT.wr (s : RBT K V) (a : Nat) (n : Node K V) : RBT K V :=
  { s with heap := Function.update s.heap a (some n) }

/-- Assignment `a->_k = x`. -/
def RBT.setKey (s : RBT K V) (a : Nat) (x : K) : Option (RBT K V) :=
  (s.heap a).map fun n => s.wr a { n with k := x }

/-- Assignment `a->_v = x`. -/
def RBT.setVal (s : RBT K V) (a : Nat) (x : V) : Option (RBT K V) :=
  (s.heap a).map fun n => s.wr a { n with v := x }

/-- Assignment `a->_c = x`. -/
def RBT.setColor (s : RBT K V) (a : Nat) (x : Color) : Option (RBT K V) :=
  (s.heap a).map fun n => s.wr a { n with c := x }

/-- Assignment `a->_left = x`. -/
def RBT.setLeft (s : RBT K V) (a : Nat) (x : Nat) : Option (RBT K V) :=
  (s.heap a).map fun n => s.wr a { n with left := x }

/-- Assignment `a->_right = x`. -/
def RBT.setRight (s : RBT K V) (a : Nat) (x : Nat) : Option (RBT K V) :=
  (s.heap a).map fun n => s.wr a { n with right := x }

/-- Assignment `a->_parent = x`. -/
def RBT.setParent (s : RBT K V) (a : Nat) (x : Nat) : Option (RBT K V) :=
  (s.heap a).map fun n => s.wr a { n with parent := x }

/-- Assignment `_root = x`. -/
def RBT.setRoot (s : RBT K V) (x : Nat) : RBT K V := { s with root := x }

/-- The expression `new Node(...)`: the node is stored at the fresh address `s.next`,
which is returned with the new state. -/
def RBT.alloc (s : RBT K V) (n : Node K V) : Nat × RBT K V :=
  (s.next, { s with heap := Function.update s.heap s.next (some n), next := s.next + 1 })

/-- The statement `delete a`: the address must hold a node, which is removed. -/
def RBT.free (s : RBT K V) (a : Nat) : Option (RBT K V) :=
  (s.heap a).map fun _ => { s with heap := Function.update s.heap a none }

/-- The constructor `RedBlackTree()`: `_sentinel = new Node(); _root = _sentinel;`,
where `Node()` is BLACK with default key and value and null links. -/
def RBT.new [Inhabited K] [Inhabited V] : RBT K V :=
  { heap := Function.update (fun _ => none) 1 (some ⟨default, default, Color.BLACK, 0, 0, 0⟩)
    sentinel := 1
    root := 1
    size := 0
    next := 2 }

/-- The method `left_rotate(Node *node)`. -/
def left_rotate (s : RBT K V) (node : Nat) : Option (RBT K V) :=
  (s.right node).andThen fun temp =>
  (s.left temp).andThen fun tl =>
  (s.setRight node tl).andThen fun s =>
  (s.left temp).andThen fun tl =>
  (if tl ≠ s.sentinel then s.setParent tl node else some s).andThen fun s =>
  (s.parent node).andThen fun np =>
  (s.setParent temp np).andThen fun s =>
  (s.parent node).andThen fun np =>
  (if np = s.sentinel then some (s.setRoot temp)
    else (s.left np).andThen fun npl =>
      if node = npl then s.setLeft np temp else s.setRight np temp).andThen fun s =>
  (s.setLeft temp node).andThen fun s =>
  s.setParent node temp

/-- The method `right_rotate(Node *node)`. -/
def right_rotate (s : RBT K V) (node : Nat) : Option (RBT K V) :=
  (s.left node).andThen fun temp =>
  (s.right temp).andThen fun tr =>
  (s.setLeft node tr).andThen fun s =>
  (s.right temp).andThen fun tr =>
  (if tr ≠ s.sentinel then s.setParent tr node else some s).andThen fun s =>
  (s.parent node).andThen fun np =>
  (s.setParent temp np).andThen fun s =>
  (s.parent node).andThen fun np =>
  (if np = s.sentinel then some (s.setRoot temp)
    else (s.left np).andThen fun npl =>
      if node = npl then s.setLeft np temp else s.setRight np temp).andThen fun s =>
  (s.setRight temp node).andThen fun s =>
  s.setParent node temp

/-- Case 1 (and 4) of `insert_fixup`, with `temp` the uncle:
`node->_parent->_c = BLACK; temp->_c = BLACK; node->_parent->_parent->_c = RED;
node = node->_parent->_parent;`.  The new state and the new `node`. -/
def insert_fixup_recolor (s : RBT K V) (node temp : Nat) : Option (RBT K V × Nat) :=
  (s.parent node).andThen fun p =>
  (s.setColor p Color.BLACK).andThen fun s =>
  (s.setColor temp Color.BLACK).andThen fun s =>
  (s.parent node).andThen fun p =>
  (s.parent p).andThen fun pp =>
  (s.setColor pp Color.RED).andThen fun s =>
  (s.parent node).andThen fun p =>
  (s.parent p).andThen fun pp =>
  some (s, pp)

/-- The body of the loop of `insert_fixup` when the parent is a left child (cases 1
to 3): the new state and the new value of `node`. -/
def insert_fixup_left (s : RBT K V) (node : Nat) : Option (RBT K V × Nat) :=
  (s.parent node).andThen fun p =>
  (s.parent p).andThen fun pp =>
  (s.right pp).andThen fun temp =>
  (s.color temp).andThen fun tc =>
  if tc = Color.RED then insert_fixup_recolor s node temp
  else
    (s.parent node).andThen fun p =>
    (s.right p).andThen fun pr =>
    (if node = pr then (left_rotate s p).andThen fun s => some (s, p)
      else some (s, node)).andThen fun (s, node) =>
    (s.parent node).andThen fun p =>
    (s.setColor p Color.BLACK).andThen fun s =>
    (s.parent node).andThen fun p =>
    (s.parent p).andThen fun pp =>
    (s.setColor pp Color.RED).andThen fun s =>
    (s.parent node).andThen fun p =>
    (s.parent p).andThen fun pp =>
    (right_rotate s pp).andThen fun s =>
    some (s, node)

/-- The body of the loop of `insert_fixup` when the parent is a right child (cases 4
to 6): the new state and the new value of `node`. -/
def insert_fixup_right (s : RBT K V) (node : Nat) : Option (RBT K V × Nat) :=
  (s.parent node).andThen fun p =>
  (s.parent p).andThen fun pp =>
  (s.left pp).andThen fun temp =>
  (s.color temp).andThen fun tc =>
  if tc = Color.RED then insert_fixup_recolor s node temp
  else
    (s.parent node).andThen fun p =>
    (s.left p).andThen fun pl =>
    (if node = pl then (right_rotate s p).andThen fun s => some (s, p)
      else some (s, node)).andThen fun (s, node) =>
    (s.parent node).andThen fun p =>
    (s.setColor p Color.BLACK).andThen fun s =>
    (s.parent node).andThen fun p =>
    (s.parent p).andThen fun pp =>
    (s.setColor pp Color.RED).andThen fun s =>
    (s.parent node).andThen fun p =>
    (s.parent p).andThen fun pp =>
    (left_rotate s pp).andThen fun s =>
    some (s, node)

/-- The method `insert_fixup(Node *node)`; one unit of fuel per evaluation of the loop
condition. -/
def insert_fixup : Nat → RBT K V → Nat → Option (RBT K V)
  | 0, _, _ => none
  | fuel + 1, s, node =>
    (s.parent node).andThen fun p =>
    (s.color p).andThen fun pc =>
    if pc = Color.RED then
      (s.parent node).andThen fun p =>
      (s.parent p).andThen fun pp =>
      (s.left pp).andThen fun ppl =>
      (if p = ppl then insert_fixup_left s node
        else insert_fixup_right s node).andThen fun (s, node) =>
      insert_fixup fuel s node
    else
      s.setColor s.root Color.BLACK

/-- The method `inner_insert(k, v, parent)`.  The fixup loop gets as fuel the number
of addresses handed out so far, which bounds the length of any chain of parents. -/
def inner_insert (comp : K → K → Bool) (s : RBT K V) (k : K) (v : V) (parent : Nat) :
    Option (RBT K V) :=
  let (node, s) := s.alloc ⟨k, v, Color.RED, 0, 0, 0⟩
  (if parent = s.sentinel then some (s.setRoot node)
    else (s.key node).andThen fun nk =>
      (s.key parent).andThen fun pk =>
      if comp nk pk then s.setLeft parent node else s.setRight parent node).andThen fun s =>
  (s.setLeft node s.sentinel).andThen fun s =>
  (s.setRight node s.sentinel).andThen fun s =>
  (s.setParent node parent).andThen fun s =>
  insert_fixup s.next s node

/-- The first loop of `successor`: `while (ret->_left != _sentinel) ret = ret->_left;`. -/
def successor_down : Nat → RBT K V → Nat → Option Nat
  | 0, _, _ => none
  | fuel + 1, s, ret =>
    (s.left ret).andThen fun rl =>
    if rl ≠ s.sentinel then successor_down fuel s rl else some ret

/-- The second loop of `successor`:
`while (ret != _sentinel && node == ret->_right) { node = ret; ret = ret->_parent; }`. -/
def successor_up : Nat → RBT K V → Nat → Nat → Option Nat
  | 0, _, _, _ => none
  | fuel + 1, s, node, ret =>
    if ret ≠ s.sentinel then
      (s.right ret).andThen fun rr =>
      if node = rr then
        (s.parent ret).andThen fun rp =>
        successor_up fuel s ret rp
      else some ret
    else some ret

/-- The method `successor(Node *node)`. -/
def successor (s : RBT K V) (node : Nat) : Option Nat :=
  (s.right node).andThen fun nr =>
  if nr ≠ s.sentinel then
    successor_down s.next s nr
  else
    (s.parent node).andThen fun np =>
    successor_up s.next s node np

/-- The loop of `inner_find`, with its two local variables `temp` and `parent`. -/
def inner_find_loop (comp : K → K → Bool) (k : K) : Nat → RBT K V → Nat → Nat → Option Nat
  | 0, _, _, _ => none
  | fuel + 1, s, temp, parent =>
    if temp ≠ s.sentinel then
      (s.key temp).andThen fun tk =>
      if comp k tk then
        (s.left temp).andThen fun tl =>
        inner_find_loop comp k fuel s tl temp
      else if comp tk k then
        (s.right temp).andThen fun tr =>
        inner_find_loop comp k fuel s tr temp
      else some temp
    else some parent

/-- The method `inner_find(const Key &k)`. -/
def inner_find (comp : K → K → Bool) (s : RBT K V) (k : K) : Option Nat :=
  inner_find_loop comp k s.next s s.root s.sentinel

/-- Case 4 of `delete_fixup`, with `temp` the sibling:
`temp->_c = node->_parent->_c; node->_parent->_c = BLACK; temp->_right->_c = BLACK;
left_rotate(node->_parent); node = _root;`. -/
def delete_fixup_case4 (s : RBT K V) (node temp : Nat) : Option (RBT K V × Nat) :=
  (s.parent node).andThen fun p =>
  (s.color p).andThen fun pc =>
  (s.setColor temp pc).andThen fun s =>
  (s.parent node).andThen fun p =>
  (s.setColor p Color.BLACK).andThen fun s =>
  (s.right temp).andThen fun tr =>
  (s.setColor tr Color.BLACK).andThen fun s =>
  (s.parent node).andThen fun p =>
  (left_rotate s p).andThen fun s =>
  some (s, s.root)

/-- Case 8 of `delete_fixup`, with `temp` the sibling:
`temp->_c = node->_parent->_c; node->_parent->_c = BLACK; temp->_left->_c = BLACK;
right_rotate(node->_parent); node = _root;`. -/
def delete_fixup_case8 (s : RBT K V) (node temp : Nat) : Option (RBT K V × Nat) :=
  (s.parent node).andThen fun p =>
  (s.color p).andThen fun pc =>
  (s.setColor temp pc).andThen fun s =>
  (s.parent node).andThen fun p =>
  (s.setColor p Color.BLACK).andThen fun s =>
  (s.left temp).andThen fun tl =>
  (s.setColor tl Color.BLACK).andThen fun s =>
  (s.parent node).andThen fun p =>
  (right_rotate s p).andThen fun s =>
  some (s, s.root)

/-- Cases 2 to 4 of `delete_fixup`, the part of the body of the loop for a left child
`node` that follows case 1, with `temp` the sibling. -/
def delete_fixup_left_rest (s : RBT K V) (node temp : Nat) : Option (RBT K V × Nat) :=
  (s.left temp).andThen fun tl =>
  (s.color tl).andThen fun tlc =>
  (if tlc = Color.BLACK then
      (s.right temp).andThen fun tr =>
      (s.color tr).andThen fun trc =>
      some (decide (trc = Color.BLACK))
    else some false).andThen fun bothBlack =>
  if bothBlack then
    (s.setColor temp Color.RED).andThen fun s =>
    (s.parent node).andThen fun p =>
    some (s, p)
  else
    (s.right temp).andThen fun tr =>
    (s.color tr).andThen fun trc =>
    (if trc = Color.BLACK then
        (s.left temp).andThen fun tl =>
        (s.setColor tl Color.BLACK).andThen fun s =>
        (s.setColor temp Color.RED).andThen fun s =>
        (right_rotate s temp).andThen fun s =>
        (s.parent node).andThen fun p =>
        (s.right p).andThen fun temp =>
        some (s, temp)
      else some (s, temp)).andThen fun (s, temp) =>
    delete_fixup_case4 s node temp

/-- The body of the loop of `delete_fixup` when `node` is a left child (cases 1 to 4):
the new state and the new value of `node`. -/
def delete_fixup_left (s : RBT K V) (node : Nat) : Option (RBT K V × Nat) :=
  (s.parent node).andThen fun p =>
  (s.right p).andThen fun temp =>
  (s.color temp).andThen fun tc =>
  (if tc = Color.RED then
      (s.setColor temp Color.BLACK).andThen fun s =>
      (s.parent node).andThen fun p =>
      (s.setColor p Color.RED).andThen fun s =>
      (s.parent node).andThen fun p =>
      (left_rotate s p).andThen fun s =>
      (s.parent node).andThen fun p =>
      (s.right p).andThen fun temp =>
      some (s, temp)
    else some (s, temp)).andThen fun (s, temp) =>
  delete_fixup_left_rest s node temp

/-- Cases 6 to 8 of `delete_fixup`, the part of the body of the loop for a right child
`node` that follows case 5, with `temp` the sibling. -/
def delete_fixup_right_rest (s : RBT K V) (node temp : Nat) : Option (RBT K V × Nat) :=
  (s.left temp).andThen fun tl =>
  (s.color tl).andThen fun tlc =>
  (if tlc = Color.BLACK then
      (s.right temp).andThen fun tr =>
      (s.color tr).andThen fun trc =>
      some (decide (trc = Color.BLACK))
    else some false).andThen fun bothBlack =>
  if bothBlack then
    (s.setColor temp Color.RED).andThen fun s =>
    (s.parent node).andThen fun p =>
    some (s, p)
  else
    (s.left temp).andThen fun tl =>
    (s.color tl).andThen fun tlc =>
    (if tlc = Color.BLACK then
        (s.right temp).andThen fun tr =>
        (s.setColor tr Color.BLACK).andThen fun s =>
        (s.setColor temp Color.RED).andThen fun s =>
        (left_rotate s temp).andThen fun s =>
        (s.parent node).andThen fun p =>
        (s.left p).andThen fun temp =>
        some (s, temp)
      else some (s, temp)).andThen fun (s, temp) =>
    delete_fixup_case8 s node temp

/-- The body of the loop of `delete_fixup` when `node` is a right child (cases 5 to 8):
the new state and the new value of `node`. -/
def delete_fixup_right (s : RBT K V) (node : Nat) : Option (RBT K V × Nat) :=
  (s.parent node).andThen fun p =>
  (s.left p).andThen fun temp =>
  (s.color temp).andThen fun tc =>
  (if tc = Color.RED then
      (s.setColor temp Color.BLACK).andThen fun s =>
      (s.parent node).andThen fun p =>
      (s.setColor p Color.RED).andThen fun s =>
      (s.parent node).andThen fun p =>
      (right_rotate s p).andThen fun s =>
      (s.parent node).andThen fun p =>
      (s.left p).andThen fun temp =>
      some (s, temp)
    else some (s, temp)).andThen fun (s, temp) =>
  delete_fixup_right_rest s node temp

/-- The method `delete_fixup(Node *node)`; one unit of fuel per evaluation of the loop
condition. -/
def delete_fixup : Nat → RBT K V → Nat → Option (RBT K V)
  | 0, _, _ => none
  | fuel + 1, s, node =>
    (if node ≠ s.root then
        (s.color node).andThen fun c => some (decide (c = Color.BLACK))
      else some false).andThen fun go =>
    if go then
      (s.parent node).andThen fun p =>
      (s.left p).andThen fun pl =>
      (if node = pl then delete_fixup_left s node
        else delete_fixup_right s node).andThen fun (s, node) =>
      delete_fixup fuel s node
    else
      s.setColor node Color.BLACK

/-- The method `inner_delete(Node *node)`. -/
def inner_delete (s : RBT K V) (node : Nat) : Option (RBT K V) :=
  (s.left node).andThen fun nl =>
  (if nl = s.sentinel then some true
    else (s.right node).andThen fun nr => some (decide (nr = s.sentinel))).andThen fun one =>
  (if one then some node else successor s node).andThen fun p =>
  (s.left p).andThen fun pl =>
  (if pl ≠ s.sentinel then some pl else s.right p).andThen fun q =>
  (s.parent p).andThen fun pp =>
  (s.setParent q pp).andThen fun s =>
  (s.parent p).andThen fun pp =>
  (if pp = s.sentinel then some (s.setRoot q)
    else (s.left pp).andThen fun ppl =>
      if p = ppl then s.setLeft pp q else s.setRight pp q).andThen fun s =>
  (if p ≠ node then
      (s.key p).andThen fun pk =>
      (s.setKey node pk).andThen fun s =>
      (s.val p).andThen fun pv =>
      s.setVal node pv
    else some s).andThen fun s =>
  (s.color p).andThen fun pc =>
  (if pc = Color.BLACK then delete_fixup s.next s q else some s).andThen fun s =>
  s.free p

/-- The method `inner_destroy(Node *node)`; the fuel bounds the depth of the recursion. -/
def inner_destroy : Nat → RBT K V → Nat → Option (RBT K V)
  | 0, _, _ => none
  | fuel + 1, s, node =>
    (s.left node).andThen fun nl =>
    (if nl ≠ s.sentinel then inner_destroy fuel s nl else some s).andThen fun s =>
    (s.right node).andThen fun nr =>
    (if nr ≠ s.sentinel then inner_destroy fuel s nr else some s).andThen fun s =>
    s.free node

/-- The method `tree_insert(k, v)`: the returned flag and the new state.  `_size++` is
on a `uint32_t`. -/
def tree_insert [BEq K] (comp : K → K → Bool) (s : RBT K V) (k : K) (v : V) :
    Option (Bool × RBT K V) :=
  (inner_find comp s k).andThen fun target =>
  (if target ≠ s.sentinel then (s.key target).andThen fun tk => some (tk == k)
    else some false).andThen fun dup =>
  if dup then some (false, s)
  else
    (inner_insert comp s k v target).andThen fun s =>
    some (true, { s with size := (s.size + 1) % 2 ^ 32 })

/-- The method `tree_delete(k)`: the returned flag and the new state.  `_size--` is on
a `uint32_t`. -/
def tree_delete [BEq K] (comp : K → K → Bool) (s : RBT K V) (k : K) :
    Option (Bool × RBT K V) :=
  (inner_find comp s k).andThen fun target =>
  (if target = s.sentinel then some true
    else (s.key target).andThen fun tk => some (tk != k)).andThen fun miss =>
  if miss then some (false, s)
  else
    (inner_delete s target).andThen fun s =>
    some (true, { s with size := (s.size + 2 ^ 32 - 1) % 2 ^ 32 })

/-- The method `tree_find(k, v)`: `some x` stands for `true` with `*v = x`, `none` for
`false` (and `*v` untouched).  The state is not changed. -/
def tree_find [BEq K] (comp : K → K → Bool) (s : RBT K V) (k : K) : Option (Option V) :=
  (inner_find comp s k).andThen fun target =>
  (if target = s.sentinel then some true
    else (s.key target).andThen fun tk => some (tk != k)).andThen fun miss =>
  if miss then some none
  else
    (s.val target).andThen fun x =>
    some (some x)

/-- The method `tree_clear()`. -/
def tree_clear (s : RBT K V) : Option (RBT K V) :=
  (if s.root ≠ s.sentinel then inner_destroy s.next s s.root else some s).andThen fun s =>
  some { s with root := s.sentinel, size := 0 }

/-- The method `tree_size()`. -/
def tree_size (s : RBT K V) : Nat := s.size

/-- Operations of the public interface that change the tree. -/
inductive Op (K V : Type) where
  | insert (k : K) (v : V)
  | delete (k : K)
  | clear

/-- One call of a public operation; the returned flag is dropped. -/
def step [BEq K] (comp : K → K → Bool) (s : RBT K V) : Op K V → Option (RBT K V)
  | Op.insert k v => (tree_insert comp s k v).andThen fun r => some r.2
  | Op.delete k => (tree_delete comp s k).andThen fun r => some r.2
  | Op.clear => tree_clear s

/-- The state after a sequence of calls on a freshly constructed tree. -/
def run [BEq K] [Inhabited K] [Inhabited V] (comp : K → K → Bool) (ops : List (Op K V)) :
    Option (RBT K V) :=
  ops.foldl (fun os op => os.andThen fun s => step comp s op) (some RBT.new)

/-- The comparator `std::less<int>`. -/
def less (a b : Int) : Bool := decide (a < b)

/-- Binary trees of nodes as they lie in the store: the address, colour, key and value
of each node; `nil` stands for the sentinel. -/
inductive Tree (K V : Type) where
  | nil
  | node (a : Nat) (c : Color) (l : Tree K V) (k : K) (v : V) (r : Tree K V)

/-- The tree of nodes reached from address `p` by following `_left` and `_right` links
down to the sentinel; the fuel bounds the depth. -/
def toTree : Nat → RBT K V → Nat → Option (Tree K V)
  | 0, _, _ => none
  | fuel + 1, s, p =>
    if p = s.sentinel then some Tree.nil
    else
      (s.heap p).andThen fun n =>
      (toTree fuel s n.left).andThen fun l =>
      (toTree fuel s n.right).andThen fun r =>
      some (Tree.node p n.c l n.k n.v r)

/-- The tree of nodes reached from `_root`. -/
def RBT.tree (s : RBT K V) : Option (Tree K V) := toTree s.next s s.root

namespace Tree

/-- Address of the root node of a tree, the sentinel for the empty tree. -/
def ptr (sent : Nat) : Tree K V → Nat
  | nil => sent
  | node a _ _ _ _ _ => a

/-- Colour of the root node; the sentinel is BLACK. -/
def color : Tree K V → Color
  | nil => Color.BLACK
  | node _ c _ _ _ _ => c

/-- Addresses of all nodes. -/
def addrs : Tree K V → List Nat
  | nil => []
  | node a _ l _ _ r => a :: (l.addrs ++ r.addrs)

/-- Number of nodes. -/
def count : Tree K V → Nat
  | nil => 0
  | node _ _ l _ _ r => l.count + 1 + r.count

/-- In-order sequence of the stored key/value pairs. -/
def toList : Tree K V → List (K × V)
  | nil => []
  | node _ _ l k v r => l.toList ++ (k, v) :: r.toList

/-- In-order sequence of the keys. -/
def keys (t : Tree K V) : List K := t.toList.map Prod.fst

/-- BST ordering under the comparator: at every node, the keys of the left subtree
compare less than the key of the node, which compares less than the keys of the right
subtree. -/
def ordered (comp : K → K → Bool) : Tree K V → Prop
  | nil => True
  | node _ _ l k _ r =>
    (∀ x ∈ l.keys, comp x k = true) ∧ (∀ x ∈ r.keys, comp k x = true) ∧
      l.ordered comp ∧ r.ordered comp

/-- All subtrees of a tree, one for each node, and the empty ones. -/
def subtrees : Tree K V → List (Tree K V)
  | nil => [nil]
  | node a c l k v r => node a c l k v r :: (l.subtrees ++ r.subtrees)

/-- For every path from the root of the tree down to a sentinel leaf, the number of
BLACK nodes on it. -/
def pathBlacks : Tree K V → List Nat
  | nil => [0]
  | node _ c l _ _ r =>
    (l.pathBlacks ++ r.pathBlacks).map fun n => if c = Color.BLACK then n + 1 else n

/-- Number of BLACK nodes along the leftmost path. -/
def bh : Tree K V → Nat
  | nil => 0
  | node _ c l _ _ _ => if c = Color.BLACK then l.bh + 1 else l.bh

/-- At every node the two subtrees have the same black height. -/
def balanced : Tree K V → Prop
  | nil => True
  | node _ _ l _ _ r => l.bh = r.bh ∧ l.balanced ∧ r.balanced

/-- No RED node has a RED child. -/
def noRedRed : Tree K V → Prop
  | nil => True
  | node _ c l _ _ r =>
    (c = Color.RED → l.color = Color.BLACK ∧ r.color = Color.BLACK) ∧ l.noRedRed ∧ r.noRedRed

/-- The same tree with the root node coloured `c`. -/
def setColor (c : Color) : Tree K V → Tree K V
  | nil => nil
  | node a _ l k v r => node a c l k v r

end Tree

/-- One step of a path from a node up to the root: the parent node and the subtree on
the other side.  `lft` is a parent whose left child is the place left open, `rgt` one
whose right child is. -/
inductive Frame (K V : Type) where
  | lft (a : Nat) (c : Color) (k : K) (v : V) (r : Tree K V)
  | rgt (a : Nat) (c : Color) (l : Tree K V) (k : K) (v : V)

/-- Address of the parent node of a frame. -/
def Frame.addr : Frame K V → Nat
  | Frame.lft a _ _ _ _ => a
  | Frame.rgt a _ _ _ _ => a

/-- Colour of the parent node of a frame. -/
def Frame.color : Frame K V → Color
  | Frame.lft _ c _ _ _ => c
  | Frame.rgt _ c _ _ _ => c

/-- The subtree hanging on the other side of a frame. -/
def Frame.sib : Frame K V → Tree K V
  | Frame.lft _ _ _ _ r => r
  | Frame.rgt _ _ l _ _ => l

/-- Put a subtree into the open place of a frame. -/
def Frame.fill : Frame K V → Tree K V → Tree K V
  | Frame.lft a c k v r, t => Tree.node a c t k v r
  | Frame.rgt a c l k v, t => Tree.node a c l k v t

/-- Put a subtree into the open place of a path; the first frame is the innermost. -/
def plug : List (Frame K V) → Tree K V → Tree K V
  | [], t => t
  | f :: p, t => plug p (f.fill t)

/-- Addresses of the nodes on a path and in the subtrees hanging off it. -/
def pathAddrs : List (Frame K V) → List Nat
  | [] => []
  | f :: p => (f.addr :: f.sib.addrs) ++ pathAddrs p

/-- Address of the innermost parent of a path, the sentinel for the empty path. -/
def parentOf (sent : Nat) : List (Frame K V) → Nat
  | [] => sent
  | f :: _ => f.addr

/-- The store `h` holds the tree `t` below a node at address `par`: every node lies at
its address with its colour, key and value, its links point at its children (at the
sentinel where there is none) and at its parent. -/
def Rep (h : Nat → Option (Node K V)) (sent : Nat) : Nat → Tree K V → Prop
  | _, Tree.nil => True
  | par, Tree.node a c l k v r =>
    h a = some ⟨k, v, c, l.ptr sent, r.ptr sent, par⟩ ∧ Rep h sent a l ∧ Rep h sent a r

/-- The store `h` holds the path `p` above an open place whose link is `hp`, up to the
root pointer `root`. -/
def RepPath (h : Nat → Option (Node K V)) (sent root : Nat) : List (Frame K V) → Nat → Prop
  | [], hp => root = hp
  | Frame.lft a c k v r :: p, hp =>
    h a = some ⟨k, v, c, hp, r.ptr sent, parentOf sent p⟩ ∧ Rep h sent a r ∧
      RepPath h sent root p a
  | Frame.rgt a c l k v :: p, hp =>
    h a = some ⟨k, v, c, l.ptr sent, hp, parentOf sent p⟩ ∧ Rep h sent a l ∧
      RepPath h sent root p a

/-- The state `s` is well formed and holds the tree `t`: the root pointer and the
links are those of `t`, the parent link of the root is the sentinel, no address occurs
twice, the sentinel is a BLACK node outside the tree, and every address in use was
handed out by `new`. -/
structure WF (s : RBT K V) (t : Tree K V) : Prop where
  root : s.root = t.ptr s.sentinel
  rep : Rep s.heap s.sentinel s.sentinel t
  nodup : t.addrs.Nodup
  sent_notin : s.sentinel ∉ t.addrs
  sent_black : s.color s.sentinel = some Color.BLACK
  lt_next : ∀ a ∈ t.addrs, a < s.next
  sent_lt : s.sentinel < s.next

/-- A step from state `s` holding `t` to state `s1` holding `t1` that keeps the nodes
of the tree in place: it touches no address outside the tree, allocates and frees
nothing and leaves `_sentinel` and `_size` alone. -/
structure Evolves (s : RBT K V) (t : Tree K V) (s1 : RBT K V) (t1 : Tree K V) : Prop where
  wf : WF s1 t1
  sentinel : s1.sentinel = s.sentinel
  size : s1.size = s.size
  next : s1.next = s.next
  perm : t1.addrs.Perm t.addrs
  frame : ∀ a, a ∉ t.addrs → s1.heap a = s.heap a

/-- The state `s1` arises from `s` by assignments to fields of the nodes at the
addresses in `A` and to `_root` only. -/
structure Mod (s s1 : RBT K V) (A : List Nat) : Prop where
  sentinel : s1.sentinel = s.sentinel
  size : s1.size = s.size
  next : s1.next = s.next
  heap : ∀ a, a ∉ A → s1.heap a = s.heap a

/-- The same frame with the parent node coloured `c`. -/
def Frame.setColor (c : Color) : Frame K V → Frame K V
  | Frame.lft a _ k v r => Frame.lft a c k v r
  | Frame.rgt a _ l k v => Frame.rgt a c l k v

/-- One run of the body of the loop of `insert_fixup` on trees, for a subtree `t` under
a parent frame `f` and a grandparent frame `g`: the new subtree in the place of the
grandparent, and whether the loop goes on from it (`Sum.inl`, cases 1 and 4) or the
body ended with a rotation (`Sum.inr`, cases 2, 3, 5 and 6). -/
def insCase : Frame K V → Frame K V → Tree K V → Sum (Tree K V) (Tree K V)
  | f, Frame.lft ga gc gk gv u, t =>
    if u.color = Color.RED then
      Sum.inl (Tree.node ga Color.RED ((f.setColor Color.BLACK).fill t) gk gv
        (u.setColor Color.BLACK))
    else
      match f, t with
      | Frame.rgt fa fc fl fk fv, Tree.node n _ nl nk nv nr =>
        Sum.inr (Tree.node n Color.BLACK (Tree.node fa fc fl fk fv nl) nk nv
          (Tree.node ga Color.RED nr gk gv u))
      | Frame.rgt fa fc fl fk fv, Tree.nil =>
        Sum.inr (Tree.node ga gc (Tree.node fa fc fl fk fv Tree.nil) gk gv u)
      | Frame.lft fa _ fk fv fr, t =>
        Sum.inr (Tree.node fa Color.BLACK t fk fv (Tree.node ga Color.RED fr gk gv u))
  | f, Frame.rgt ga gc u gk gv, t =>
    if u.color = Color.RED then
      Sum.inl (Tree.node ga Color.RED (u.setColor Color.BLACK) gk gv
        ((f.setColor Color.BLACK).fill t))
    else
      match f, t with
      | Frame.lft fa fc fk fv fr, Tree.node n _ nl nk nv nr =>
        Sum.inr (Tree.node n Color.BLACK (Tree.node ga Color.RED u gk gv nl) nk nv
          (Tree.node fa fc nr fk fv fr))
      | Frame.lft fa fc fk fv fr, Tree.nil =>
        Sum.inr (Tree.node ga gc u gk gv (Tree.node fa fc Tree.nil fk fv fr))
      | Frame.rgt fa _ fl fk fv, t =>
        Sum.inr (Tree.node fa Color.BLACK (Tree.node ga Color.RED u gk gv fl) fk fv t)

/-- What `insert_fixup` makes of the whole tree when started at the root of the subtree
`t` at the end of the path `p`. -/
def insFix : List (Frame K V) → Tree K V → Tree K V
  | f :: g :: p, t =>
    if f.color = Color.RED then
      match insCase f g t with
      | Sum.inl t1 => insFix p t1
      | Sum.inr t1 => (plug p t1).setColor Color.BLACK
    else (plug (f :: g :: p) t).setColor Color.BLACK
  | p, t => (plug p t).setColor Color.BLACK

/-- The outermost node of a path, the root of the tree, is BLACK. -/
def rootBlack : List (Frame K V) → Prop
  | [] => True
  | [f] => f.color = Color.BLACK
  | _ :: g :: p => rootBlack (g :: p)

/-- Number of nodes on the longest path from the root down to a sentinel. -/
def Tree.height : Tree K V → Nat
  | Tree.nil => 0
  | Tree.node _ _ l _ _ r => max l.height r.height + 1

/-- The descent of `inner_find` on trees, from the subtree `t` at the end of the path
`p`: the path to and the subtree at the place where the descent stops, which is a node
whose key is equivalent to `k` or an empty place. -/
def search (comp : K → K → Bool) (k : K) : List (Frame K V) → Tree K V →
    List (Frame K V) × Tree K V
  | p, Tree.nil => (p, Tree.nil)
  | p, Tree.node a c l x v r =>
    if comp k x then search comp k (Frame.lft a c x v r :: p) l
    else if comp x k then search comp k (Frame.rgt a c l x v :: p) r
    else (p, Tree.node a c l x v r)

/-- The address `inner_find` returns for a place: that of the node there, or for an empty
place that of the parent, the last node visited. -/
def landing (sent : Nat) : List (Frame K V) → Tree K V → Nat
  | p, Tree.nil => parentOf sent p
  | _, Tree.node a _ _ _ _ _ => a

/-- The side of the open place of a path agrees with the comparison of `k` with the key
of the innermost parent: left when `k` compares less, right when it does not. -/
def headDir (comp : K → K → Bool) (k : K) : List (Frame K V) → Prop
  | [] => True
  | Frame.lft _ _ x _ _ :: _ => comp k x = true
  | Frame.rgt _ _ _ x _ :: _ => comp k x = false

/-- Colour of the innermost parent of a path; the sentinel above the root is BLACK. -/
def headColor : List (Frame K V) → Color
  | [] => Color.BLACK
  | f :: _ => f.color

/-- The red-black conditions on a path around a place for a subtree of black height `h`:
every subtree hanging off the path is balanced, free of RED-RED pairs and of the black
height that its place asks for, and a RED node on the path has a BLACK sibling subtree
and a BLACK parent. -/
def ctxOK : List (Frame K V) → Nat → Prop
  | [], _ => True
  | f :: p, h =>
    f.sib.bh = h ∧ f.sib.balanced ∧ f.sib.noRedRed ∧
      (f.color = Color.RED → f.sib.color = Color.BLACK ∧ headColor p = Color.BLACK) ∧
      ctxOK p (if f.color = Color.BLACK then h + 1 else h)

/-- The key/value pairs of a path that come before the open place in the in-order
sequence. -/
def pathLeft : List (Frame K V) → List (K × V)
  | [] => []
  | Frame.lft _ _ _ _ _ :: p => pathLeft p
  | Frame.rgt _ _ l k v :: p => pathLeft p ++ (l.toList ++ [(k, v)])

/-- The key/value pairs of a path that come after the open place in the in-order
sequence. -/
def pathRight : List (Frame K V) → List (K × V)
  | [] => []
  | Frame.lft _ _ k v r :: p => (k, v) :: r.toList ++ pathRight p
  | Frame.rgt _ _ _ _ _ :: p => pathRight p

/-- The invariant of the public interface for `RedBlackTree<int, V>` with `std::less`:
the state is well formed and holds a tree `t` whose in-order key sequence is strictly
increasing, whose root is BLACK, which has no RED node with a RED child and is balanced
in black height, and `_size` is the number of nodes, as a `uint32_t`. -/
structure Inv {V : Type} (s : RBT Int V) (t : Tree Int V) : Prop where
  wf : WF s t
  sorted : t.keys.Pairwise (· < ·)
  black : t.color = Color.BLACK
  nrr : t.noRedRed
  bal : t.balanced
  size : s.size = t.count % 2 ^ 32

/-- How one run of the body of the loop of `delete_fixup` ends, on trees: `up t` is case
2 or 6, the loop goes on from the parent, whose subtree is now `t`; `root t` is case 4
or 8, `node` is set to `_root` and the subtree of the parent is now `t`; `stop g t` is
case 1 followed by 2 (or 5 followed by 6), the loop goes on from the RED parent with
subtree `t`, which is now below the former sibling `g`. -/
inductive DelStep (K V : Type) where
  | up (t : Tree K V)
  | root (t : Tree K V)
  | stop (g : Frame K V) (t : Tree K V)

/-- Cases 2 to 4 of `delete_fixup` on trees: `q` is the left child of the node `fa`,
its sibling is `w`.  `Sum.inl` is case 2, `Sum.inr` is case 4, after case 3 when the far
child of the sibling is BLACK. -/
def delCaseL (fa : Nat) (fc : Color) (fk : K) (fv : V) (q : Tree K V) :
    Tree K V → Sum (Tree K V) (Tree K V)
  | Tree.node wa _ wl wk wv wr =>
    if wl.color = Color.BLACK ∧ wr.color = Color.BLACK then
      Sum.inl (Tree.node fa fc q fk fv (Tree.node wa Color.RED wl wk wv wr))
    else if wr.color = Color.BLACK then
      match wl with
      | Tree.node la _ ll lk lv lr =>
        Sum.inr (Tree.node la fc (Tree.node fa Color.BLACK q fk fv ll) lk lv
          (Tree.node wa Color.BLACK lr wk wv wr))
      | Tree.nil => Sum.inr (Tree.node fa fc q fk fv (Tree.node wa Color.RED wl wk wv wr))
    else
      Sum.inr (Tree.node wa fc (Tree.node fa Color.BLACK q fk fv wl) wk wv
        (wr.setColor Color.BLACK))
  | Tree.nil => Sum.inr (Tree.node fa fc q fk fv Tree.nil)

/-- Cases 6 to 8 of `delete_fixup` on trees: `q` is the right child of the node `fa`,
its sibling is `w`.  `Sum.inl` is case 6, `Sum.inr` is case 8, after case 7 when the far
child of the sibling is BLACK. -/
def delCaseR (fa : Nat) (fc : Color) (fk : K) (fv : V) (q : Tree K V) :
    Tree K V → Sum (Tree K V) (Tree K V)
  | Tree.node wa _ wl wk wv wr =>
    if wl.color = Color.BLACK ∧ wr.color = Color.BLACK then
      Sum.inl (Tree.node fa fc (Tree.node wa Color.RED wl wk wv wr) fk fv q)
    else if wl.color = Color.BLACK then
      match wr with
      | Tree.node ra _ rl rk rv rr =>
        Sum.inr (Tree.node ra fc (Tree.node wa Color.BLACK wl wk wv rl) rk rv
          (Tree.node fa Color.BLACK rr fk fv q))
      | Tree.nil => Sum.inr (Tree.node fa fc (Tree.node wa Color.RED wl wk wv wr) fk fv q)
    else
      Sum.inr (Tree.node wa fc (wl.setColor Color.BLACK) wk wv
        (Tree.node fa Color.BLACK wr fk fv q))
  | Tree.nil => Sum.inr (Tree.node fa fc Tree.nil fk fv q)

/-- One run of the body of the loop of `delete_fixup` on trees, for the subtree `q`
under the parent frame `f`. -/
def delCase : Frame K V → Tree K V → DelStep K V
  | Frame.lft fa fc fk fv w, q =>
    if w.color = Color.RED then
      match w with
      | Tree.node wa _ wl wk wv wr =>
        match delCaseL fa Color.RED fk fv q wl with
        | Sum.inl t => DelStep.stop (Frame.lft wa Color.BLACK wk wv wr) t
        | Sum.inr t => DelStep.root (Tree.node wa Color.BLACK t wk wv wr)
      | Tree.nil => DelStep.root (Tree.node fa fc q fk fv w)
    else
      match delCaseL fa fc fk fv q w with
      | Sum.inl t => DelStep.up t
      | Sum.inr t => DelStep.root t
  | Frame.rgt fa fc w fk fv, q =>
    if w.color = Color.RED then
      match w with
      | Tree.node wa _ wl wk wv wr =>
        match delCaseR fa Color.RED fk fv q wr with
        | Sum.inl t => DelStep.stop (Frame.rgt wa Color.BLACK wl wk wv) t
        | Sum.inr t => DelStep.root (Tree.node wa Color.BLACK wl wk wv t)
      | Tree.nil => DelStep.root (Tree.node fa fc w fk fv q)
    else
      match delCaseR fa fc fk fv q w with
      | Sum.inl t => DelStep.up t
      | Sum.inr t => DelStep.root t

/-- What `delete_fixup` makes of the whole tree when started at the root of the subtree
`q` at the end of the path `p`. -/
def delFix : List (Frame K V) → Tree K V → Tree K V
  | [], q => q.setColor Color.BLACK
  | f :: p, q =>
    if q.color = Color.RED then plug (f :: p) (q.setColor Color.BLACK)
    else
      match delCase f q with
      | DelStep.up t => delFix p t
      | DelStep.root t => (plug p t).setColor Color.BLACK
      | DelStep.stop g t => plug (g :: p) (t.setColor Color.BLACK)

/-- The descent of the first loop of `successor` on trees: the path to and the subtree
at the leftmost node of `t`, from the end of the path `p`. -/
def leftmost : List (Frame K V) → Tree K V → List (Frame K V) × Tree K V
  | p, Tree.nil => (p, Tree.nil)
  | p, Tree.node a c l k v r =>
    match l with
    | Tree.nil => (p, Tree.node a c Tree.nil k v r)
    | Tree.node _ _ _ _ _ _ => leftmost (Frame.lft a c k v r :: p) l

/-- What `inner_delete` makes of the whole tree when called with the node at the root of
the subtree at the end of the path `p`: a node with at most one child is spliced out; for
a node with two children its successor, the leftmost node `m` of the right subtree, is
spliced out and the key and value of `m` are copied into the node.  `delete_fixup` runs
from the child that took the place of the spliced node when that node was BLACK. -/
def delAt (p : List (Frame K V)) : Tree K V → Tree K V
  | Tree.nil => plug p Tree.nil
  | Tree.node a c l k v r =>
    match l, r with
    | Tree.nil, _ => if c = Color.BLACK then delFix p r else plug p r
    | Tree.node _ _ _ _ _ _, Tree.nil => if c = Color.BLACK then delFix p l else plug p l
    | Tree.node _ _ _ _ _ _, Tree.node _ _ _ _ _ _ =>
      match leftmost [] r with
      | (pm, Tree.node _ mc _ mk mv mr) =>
        if mc = Color.BLACK then delFix (pm ++ Frame.rgt a c l mk mv :: p) mr
        else plug (pm ++ Frame.rgt a c l mk mv :: p) mr
      | (_, Tree.nil) => plug p (Tree.node a c l k v r)

/-- The calls `tree_insert(i - 2^31, 0)` for `i = 0, ..., n - 1` in this order: the
first `n` values of `int`, from `INT_MIN` upwards, are inserted with the value 0. -/
def insertsUpTo (n : Nat) : List (Op Int Int) :=
  (List.range n).map fun i : Nat => Op.insert ((i : Int) - 2 ^ 31) 0

/-- The calls of the scenario of the spec: 10, 20 and 30 are inserted in this order,
with the values 1, 2 and 3. -/
def demoOps : List (Op Int Int) := [Op.insert 10 1, Op.insert 20 2, Op.insert 30 3]

/-- The state after the calls `demoOps` on a freshly constructed tree. -/
def demoState : RBT Int Int := (run less demoOps).getD RBT.new

/-- Addition of two values of `int`.  Signed overflow is undefined behaviour: a fault. -/
def intAdd (a b : Int) : Option Int :=
  if -(2 ^ 31) ≤ a + b ∧ a + b < 2 ^ 31 then some (a + b) else none

/-- The method `inner_check_balance(Node *node)` of the `UNIT_TEST` build: the black
height that the check computes for the subtree of `node`, or `-1`.  The fuel bounds the
depth of the recursion.  `bl` and `br` are `black_height_left` and `black_height_right`,
which stay 0 for a sentinel child. -/
def inner_check_balance : Nat → RBT K V → Nat → Option Int
  | 0, _, _ => none
  | fuel + 1, s, node =>
    if node = s.sentinel then some 0
    else
      (s.left node).andThen fun nl =>
      (if nl ≠ s.sentinel then inner_check_balance fuel s nl else some 0).andThen fun bl =>
      if nl ≠ s.sentinel ∧ bl < 0 then some (-1)
      else
        (s.right node).andThen fun nr =>
        (if nr ≠ s.sentinel then inner_check_balance fuel s nr else some 0).andThen fun br =>
        if nr ≠ s.sentinel ∧ br < 0 then some (-1)
        else
          (s.color node).andThen fun c =>
          (some (if c = Color.BLACK then (1 : Int) else 0)).andThen fun delta =>
          if nl ≠ s.sentinel ∧ nr ≠ s.sentinel then
            if bl ≠ br then some (-1) else intAdd bl delta
          else if nl ≠ s.sentinel then intAdd bl delta
          else if nr ≠ s.sentinel then intAdd br delta
          else some delta

/-- The method `check_balanced()`: `inner_check_balance(_root) < 0 ? false : true`. -/
def check_balanced (s : RBT K V) : Option Bool :=
  (inner_check_balance s.next s s.root).andThen fun r => some (if r < 0 then false else true)

/-- A store that `tree_insert` cannot build: the BLACK root (key 2, address 2) has a BLACK
left child (key 1, address 3) and the sentinel (address 1) as its right child. -/
def lopsided : RBT Int Int :=
  { heap := fun a =>
      if a = 1 then some ⟨0, 0, Color.BLACK, 0, 0, 0⟩
      else if a = 2 then some ⟨2, 0, Color.BLACK, 3, 1, 1⟩
      else if a = 3 then some ⟨1, 0, Color.BLACK, 1, 1, 2⟩
      else none
    sentinel := 1
    root := 2
    size := 2
    next := 4 }

/-- The key of an `insert` call is a value of `int`. -/
def Op.keyIsInt : Op Int Int → Bool
  | Op.insert k _ => decide (-(2 ^ 31) ≤ k) && decide (k < 2 ^ 31)
  | Op.delete _ => true
  | Op.clear => true

/-- In-order sequence of the nodes of a tree: the address, key, value and colour of
each. -/
def Tree.nodes : Tree K V → List (Nat × K × V × Color)
  | Tree.nil => []
  | Tree.node a c l k v r => l.nodes ++ (a, k, v, c) :: r.nodes

/-- In-order sequence of the (key, value, colour) triples of a tree. -/
def Tree.triples (t : Tree K V) : List (K × V × Color) := t.nodes.map fun n => n.2

/-- Key, value and colour of a node in the store: all of it but the links. -/
def Node.payload (n : Node K V) : K × V × Color := (n.k, n.v, n.c)

/-- Equivalence of two keys under the comparator: neither compares less than the
other. -/
def keyEquiv (comp : K → K → Bool) (a b : K) : Prop := comp a b = false ∧ comp b a = false

/-- The comparator is a strict weak ordering: it is irreflexive and transitive, and the
equivalence it induces is transitive. -/
structure StrictWeak (comp : K → K → Bool) : Prop where
  irrefl : ∀ a, comp a a = false
  trans : ∀ a b c, comp a b = true → comp b c = true → comp a c = true
  equiv_trans : ∀ a b c, keyEquiv comp a b → keyEquiv comp b c → keyEquiv comp a c

/-- The `operator==` of the keys is the equivalence of the comparator. -/
def EqIsEquiv [BEq K] (comp : K → K → Bool) : Prop :=
  ∀ a b, (a == b) = true ↔ keyEquiv comp a b

/-- The invariant of the public interface for a comparator `comp`: the state is well
formed and holds a tree `t` whose in-order key sequence is strictly increasing under
`comp`, whose root is BLACK, which has no RED node with a RED child and is balanced in
black height, and `_size` is the number of nodes, as a `uint32_t`. -/
structure InvC (comp : K → K → Bool) (s : RBT K V) (t : Tree K V) : Prop where
  wf : WF s t
  sorted : t.keys.Pairwise (fun a b => comp a b = true)
  black : t.color = Color.BLACK
  nrr : t.noRedRed
  bal : t.balanced
  size : s.size = t.count % 2 ^ 32

/-- A comparator on `int` that is a strict weak ordering but not a total one: `a` is
less than `b` when `a / 2 < b / 2`, so that 0 and 1 are equivalent. -/
def halfLess (a b : Int) : Bool := decide (a / 2 < b / 2)

/-- The node reached from the node at address `a` by following child links, `true` for
`_right` and `false` for `_left`; a path ends at the sentinel, which has no children. -/
def follow (s : RBT K V) : Nat → List Bool → Option Nat
  | a, [] => some a
  | a, b :: d =>
    if a = s.sentinel then none
    else (if b then s.right a else s.left a).andThen fun c => follow s c d

/-- The tree of `demoState`: 20 at the root, BLACK, with the RED children 10 and 30. -/
def demoTree : Tree Int Int :=
  Tree.node 3 Color.BLACK (Tree.node 2 Color.RED Tree.nil 10 1 Tree.nil) 20 2
    (Tree.node 4 Color.RED Tree.nil 30 3 Tree.nil)

/-- The nodes of a path that come before the open place in the in-order sequence. -/
def pathBefore : List (Frame K V) → List (Nat × K × V × Color)
  | [] => []
  | Frame.lft _ _ _ _ _ :: p => pathBefore p
  | Frame.rgt a c l k v :: p => pathBefore p ++ (l.nodes ++ [(a, k, v, c)])

/-- The nodes of a path that come after the open place in the in-order sequence. -/
def pathAfter : List (Frame K V) → List (Nat × K × V × Color)
  | [] => []
  | Frame.lft a c k v r :: p => (a, k, v, c) :: r.nodes ++ pathAfter p
  | Frame.rgt _ _ _ _ _ :: p => pathAfter p

/-- The climb of the second loop of `successor` on paths: the address of the first node
on the path whose left child is the step below it, the sentinel when there is none. -/
def climb (sent : Nat) : List (Frame K V) → Nat
  | [] => sent
  | Frame.lft a _ _ _ _ :: _ => a
  | Frame.rgt _ _ _ _ _ :: p => climb sent p

/-- Case 1 (and 4) of `insert_fixup`, as `insert_fixup_recolor`, with a record of the
run: the colour writes made, in order, each as the address written and the colour
stored. -/
def insert_fixup_recolor_traced (s : RBT K V) (node temp : Nat) :
    Option (RBT K V × Nat × List (Nat × Color)) :=
  (s.parent node).andThen fun p =>
  (s.setColor p Color.BLACK).andThen fun s =>
  (s.setColor temp Color.BLACK).andThen fun s =>
  (s.parent node).andThen fun p1 =>
  (s.parent p1).andThen fun pp =>
  (s.setColor pp Color.RED).andThen fun s =>
  (s.parent node).andThen fun p2 =>
  (s.parent p2).andThen fun pp2 =>
  some (s, pp2, [(p, Color.BLACK), (temp, Color.BLACK), (pp, Color.RED)])

/-- The body of the loop of `insert_fixup` when the parent is a left child, as
`insert_fixup_left`, with a record of the run: the colour read from the uncle `temp`,
the number of calls of `left_rotate` and `right_rotate` made, and the colour writes
made, in order, each as the address written and the colour stored. -/
def insert_fixup_left_traced (s : RBT K V) (node : Nat) :
    Option (RBT K V × Nat × Color × Nat × List (Nat × Color)) :=
  (s.parent node).andThen fun p =>
  (s.parent p).andThen fun pp =>
  (s.right pp).andThen fun temp =>
  (s.color temp).andThen fun tc =>
  if tc = Color.RED then
    (insert_fixup_recolor_traced s node temp).andThen fun (s, node, ws) =>
      some (s, node, tc, 0, ws)
  else
    (s.parent node).andThen fun p =>
    (s.right p).andThen fun pr =>
    (if node = pr then (left_rotate s p).andThen fun s => some (s, p, 1)
      else some (s, node, 0)).andThen fun (s, node, rots) =>
    (s.parent node).andThen fun p =>
    (s.setColor p Color.BLACK).andThen fun s =>
    (s.parent node).andThen fun p1 =>
    (s.parent p1).andThen fun pp =>
    (s.setColor pp Color.RED).andThen fun s =>
    (s.parent node).andThen fun p2 =>
    (s.parent p2).andThen fun pp2 =>
    (right_rotate s pp2).andThen fun s =>
    some (s, node, tc, rots + 1, [(p, Color.BLACK), (pp, Color.RED)])

/-- The body of the loop of `insert_fixup` when the parent is a right child, as
`insert_fixup_right`, with a record of the run: the colour read from the uncle `temp`,
the number of calls of `left_rotate` and `right_rotate` made, and the colour writes
made, in order, each as the address written and the colour stored. -/
def insert_fixup_right_traced (s : RBT K V) (node : Nat) :
    Option (RBT K V × Nat × Color × Nat × List (Nat × Color)) :=
  (s.parent node).andThen fun p =>
  (s.parent p).andThen fun pp =>
  (s.left pp).andThen fun temp =>
  (s.color temp).andThen fun tc =>
  if tc = Color.RED then
    (insert_fixup_recolor_traced s node temp).andThen fun (s, node, ws) =>
      some (s, node, tc, 0, ws)
  else
    (s.parent node).andThen fun p =>
    (s.left p).andThen fun pl =>
    (if node = pl then (right_rotate s p).andThen fun s => some (s, p, 1)
      else some (s, node, 0)).andThen fun (s, node, rots) =>
    (s.parent node).andThen fun p =>
    (s.setColor p Color.BLACK).andThen fun s =>
    (s.parent node).andThen fun p1 =>
    (s.parent p1).andThen fun pp =>
    (s.setColor pp Color.RED).andThen fun s =>
    (s.parent node).andThen fun p2 =>
    (s.parent p2).andThen fun pp2 =>
    (left_rotate s pp2).andThen fun s =>
    some (s, node, tc, rots + 1, [(p, Color.BLACK), (pp, Color.RED)])

/-- The method `insert_fixup(Node *node)`, as `insert_fixup`, with a record of the run:
for every run of the body of the loop, in order, the colour read from the uncle and the
number of rotations made; and the colour writes made, in order, each as the address
written and the colour stored, the last being that of `_root->_c = BLACK`. -/
def insert_fixup_traced : Nat → RBT K V → Nat →
    Option (RBT K V × List (Color × Nat) × List (Nat × Color))
  | 0, _, _ => none
  | fuel + 1, s, node =>
    (s.parent node).andThen fun p =>
    (s.color p).andThen fun pc =>
    if pc = Color.RED then
      (s.parent node).andThen fun p =>
      (s.parent p).andThen fun pp =>
      (s.left pp).andThen fun ppl =>
      (if p = ppl then insert_fixup_left_traced s node
        else insert_fixup_right_traced s node).andThen fun (s, node, tc, rots, ws) =>
      (insert_fixup_traced fuel s node).andThen fun (s, tr, ws1) =>
      some (s, (tc, rots) :: tr, ws ++ ws1)
    else
      (s.setColor s.root Color.BLACK).andThen fun s1 =>
      some (s1, [], [(s.root, Color.BLACK)])

/-- The part of `inner_insert` before the call of `insert_fixup`: the new state and the
new node, linked below `parent`. -/
def inner_insert_link (comp : K → K → Bool) (s : RBT K V) (k : K) (v : V) (parent : Nat) :
    Option (RBT K V × Nat) :=
  let (node, s) := s.alloc ⟨k, v, Color.RED, 0, 0, 0⟩
  (if parent = s.sentinel then some (s.setRoot node)
    else (s.key node).andThen fun nk =>
      (s.key parent).andThen fun pk =>
      if comp nk pk then s.setLeft parent node else s.setRight parent node).andThen fun s =>
  (s.setLeft node s.sentinel).andThen fun s =>
  (s.setRight node s.sentinel).andThen fun s =>
  (s.setParent node parent).andThen fun s =>
  some (s, node)

/-- The number of parent links from `node` up to the root, the depth of `node` in the
tree; the fuel bounds the length of the chain. -/
def depth : Nat → RBT K V → Nat → Option Nat
  | 0, _, _ => none
  | fuel + 1, s, node =>
    if node = s.root then some 0
    else (s.parent node).andThen fun p => (depth fuel s p).andThen fun d => some (d + 1)

/-- An entry of the record of the rotations of `delete_fixup`: the value of `node`, the
cursor, when the rotation was made, whether the rotation was made in the branch
`node == node->_parent->_left`, and the state right after the rotation. -/
structure Rotated (K V : Type) where
  cursor : Nat
  isLeft : Bool
  state : RBT K V

/-- Case 4 of `delete_fixup`, as `delete_fixup_case4`, with a record of the run: the
colour writes made, in order, each as the address written and the colour stored, and the
rotation made. -/
def delete_fixup_case4_traced (s : RBT K V) (node temp : Nat) :
    Option (RBT K V × Nat × List (Nat × Color) × List (Rotated K V)) :=
  (s.parent node).andThen fun p =>
  (s.color p).andThen fun pc =>
  (s.setColor temp pc).andThen fun s =>
  (s.parent node).andThen fun p1 =>
  (s.setColor p1 Color.BLACK).andThen fun s =>
  (s.right temp).andThen fun tr =>
  (s.setColor tr Color.BLACK).andThen fun s =>
  (s.parent node).andThen fun p2 =>
  (left_rotate s p2).andThen fun s =>
  some (s, s.root, [(temp, pc), (p1, Color.BLACK), (tr, Color.BLACK)], [⟨node, true, s⟩])

/-- Case 8 of `delete_fixup`, as `delete_fixup_case8`, with a record of the run: the
colour writes made, in order, each as the address written and the colour stored, and the
rotation made. -/
def delete_fixup_case8_traced (s : RBT K V) (node temp : Nat) :
    Option (RBT K V × Nat × List (Nat × Color) × List (Rotated K V)) :=
  (s.parent node).andThen fun p =>
  (s.color p).andThen fun pc =>
  (s.setColor temp pc).andThen fun s =>
  (s.parent node).andThen fun p1 =>
  (s.setColor p1 Color.BLACK).andThen fun s =>
  (s.left temp).andThen fun tl =>
  (s.setColor tl Color.BLACK).andThen fun s =>
  (s.parent node).andThen fun p2 =>
  (right_rotate s p2).andThen fun s =>
  some (s, s.root, [(temp, pc), (p1, Color.BLACK), (tl, Color.BLACK)], [⟨node, false, s⟩])

/-- Cases 2 to 4 of `delete_fixup`, as `delete_fixup_left_rest`, with a record of the
run: the values assigned to the sibling `temp` (in case 3), whether the test
`temp == _sentinel` before case 4 held, so that `printf("here")` was run, the colour
writes made, in order, each as the address written and the colour stored, and the
rotations made, in order. -/
def delete_fixup_left_rest_traced (s : RBT K V) (node temp : Nat) :
    Option (RBT K V × Nat × List Nat × Bool × List (Nat × Color) × List (Rotated K V)) :=
  (s.left temp).andThen fun tl =>
  (s.color tl).andThen fun tlc =>
  (if tlc = Color.BLACK then
      (s.right temp).andThen fun tr =>
      (s.color tr).andThen fun trc =>
      some (decide (trc = Color.BLACK))
    else some false).andThen fun bothBlack =>
  if bothBlack then
    (s.setColor temp Color.RED).andThen fun s =>
    (s.parent node).andThen fun p =>
    some (s, p, [], false, [(temp, Color.RED)], [])
  else
    (s.right temp).andThen fun tr =>
    (s.color tr).andThen fun trc =>
    (if trc = Color.BLACK then
        (s.left temp).andThen fun tl =>
        (s.setColor tl Color.BLACK).andThen fun s =>
        (s.setColor temp Color.RED).andThen fun s =>
        (right_rotate s temp).andThen fun s =>
        (s.parent node).andThen fun p =>
        (s.right p).andThen fun temp1 =>
        some (s, temp1, [temp1], [(tl, Color.BLACK), (temp, Color.RED)],
          [(⟨node, true, s⟩ : Rotated K V)])
      else some (s, temp, [], [], [])).andThen fun (s, temp, temps, ws, rs) =>
    (delete_fixup_case4_traced s node temp).andThen fun (s1, node, ws1, rs1) =>
    some (s1, node, temps, decide (temp = s.sentinel), ws ++ ws1, rs ++ rs1)

/-- The body of the loop of `delete_fixup` when `node` is a left child, as
`delete_fixup_left`, with a record of the run: the values assigned to the sibling
`temp`, in order, whether `printf("here")` was run, the colour writes made, in order,
each as the address written and the colour stored, and the rotations made, in order. -/
def delete_fixup_left_traced (s : RBT K V) (node : Nat) :
    Option (RBT K V × Nat × List Nat × Bool × List (Nat × Color) × List (Rotated K V)) :=
  (s.parent node).andThen fun p =>
  (s.right p).andThen fun temp =>
  (s.color temp).andThen fun tc =>
  (if tc = Color.RED then
      (s.setColor temp Color.BLACK).andThen fun s =>
      (s.parent node).andThen fun p1 =>
      (s.setColor p1 Color.RED).andThen fun s =>
      (s.parent node).andThen fun p =>
      (left_rotate s p).andThen fun s =>
      (s.parent node).andThen fun p =>
      (s.right p).andThen fun temp1 =>
      some (s, temp1, [temp, temp1], [(temp, Color.BLACK), (p1, Color.RED)],
        [(⟨node, true, s⟩ : Rotated K V)])
    else some (s, temp, [temp], [], [])).andThen fun (s, temp, temps, ws, rs) =>
  (delete_fixup_left_rest_traced s node temp).andThen
    fun (s, node, temps1, here, ws1, rs1) =>
  some (s, node, temps ++ temps1, here, ws ++ ws1, rs ++ rs1)

/-- Cases 6 to 8 of `delete_fixup`, as `delete_fixup_right_rest`, with a record of the
run: the values assigned to the sibling `temp` (in case 7), the colour writes made, in
order, each as the address written and the colour stored, and the rotations made, in
order. -/
def delete_fixup_right_rest_traced (s : RBT K V) (node temp : Nat) :
    Option (RBT K V × Nat × List Nat × List (Nat × Color) × List (Rotated K V)) :=
  (s.left temp).andThen fun tl =>
  (s.color tl).andThen fun tlc =>
  (if tlc = Color.BLACK then
      (s.right temp).andThen fun tr =>
      (s.color tr).andThen fun trc =>
      some (decide (trc = Color.BLACK))
    else some false).andThen fun bothBlack =>
  if bothBlack then
    (s.setColor temp Color.RED).andThen fun s =>
    (s.parent node).andThen fun p =>
    some (s, p, [], [(temp, Color.RED)], [])
  else
    (s.left temp).andThen fun tl =>
    (s.color tl).andThen fun tlc =>
    (if tlc = Color.BLACK then
        (s.right temp).andThen fun tr =>
        (s.setColor tr Color.BLACK).andThen fun s =>
        (s.setColor temp Color.RED).andThen fun s =>
        (left_rotate s temp).andThen fun s =>
        (s.parent node).andThen fun p =>
        (s.left p).andThen fun temp1 =>
        some (s, temp1, [temp1], [(tr, Color.BLACK), (temp, Color.RED)],
          [(⟨node, false, s⟩ : Rotated K V)])
      else some (s, temp, [], [], [])).andThen fun (s, temp, temps, ws, rs) =>
    (delete_fixup_case8_traced s node temp).andThen fun (s, node, ws1, rs1) =>
    some (s, node, temps, ws ++ ws1, rs ++ rs1)

/-- The body of the loop of `delete_fixup` when `node` is a right child, as
`delete_fixup_right`, with a record of the run: the values assigned to the sibling
`temp`, in order, the colour writes made, in order, each as the address written and the
colour stored, and the rotations made, in order. -/
def delete_fixup_right_traced (s : RBT K V) (node : Nat) :
    Option (RBT K V × Nat × List Nat × List (Nat × Color) × List (Rotated K V)) :=
  (s.parent node).andThen fun p =>
  (s.left p).andThen fun temp =>
  (s.color temp).andThen fun tc =>
  (if tc = Color.RED then
      (s.setColor temp Color.BLACK).andThen fun s =>
      (s.parent node).andThen fun p1 =>
      (s.setColor p1 Color.RED).andThen fun s =>
      (s.parent node).andThen fun p =>
      (right_rotate s p).andThen fun s =>
      (s.parent node).andThen fun p =>
      (s.left p).andThen fun temp1 =>
      some (s, temp1, [temp, temp1], [(temp, Color.BLACK), (p1, Color.RED)],
        [(⟨node, false, s⟩ : Rotated K V)])
    else some (s, temp, [temp], [], [])).andThen fun (s, temp, temps, ws, rs) =>
  (delete_fixup_right_rest_traced s node temp).andThen fun (s, node, temps1, ws1, rs1) =>
  some (s, node, temps ++ temps1, ws ++ ws1, rs ++ rs1)

/-- The method `delete_fixup(Node *node)`, as `delete_fixup`, with a record of the run:
the number of runs of the body of the loop, the values assigned to the sibling `temp`,
in order, whether `printf("here")` was run, the colour writes made, in order, each as
the address written and the colour stored, the last being that of `node->_c = BLACK`,
and the rotations made, in order. -/
def delete_fixup_traced : Nat → RBT K V → Nat →
    Option (RBT K V × Nat × List Nat × Bool × List (Nat × Color) × List (Rotated K V))
  | 0, _, _ => none
  | fuel + 1, s, node =>
    (if node ≠ s.root then
        (s.color node).andThen fun c => some (decide (c = Color.BLACK))
      else some false).andThen fun go =>
    if go then
      (s.parent node).andThen fun p =>
      (s.left p).andThen fun pl =>
      (if node = pl then delete_fixup_left_traced s node
        else (delete_fixup_right_traced s node).andThen fun (s, node, temps, ws, rs) =>
          some (s, node, temps, false, ws, rs)).andThen
        fun (s, node, temps, here, ws, rs) =>
      (delete_fixup_traced fuel s node).andThen fun (s, iters, temps1, here1, ws1, rs1) =>
      some (s, iters + 1, temps ++ temps1, here || here1, ws ++ ws1, rs ++ rs1)
    else
      (s.setColor node Color.BLACK).andThen fun s1 =>
      some (s1, 0, [], false, [(node, Color.BLACK)], [])

/-- The part of `inner_delete` before the test `p->_c == BLACK`: the new state, the
node `p` that was spliced out and the child `q` that took its place. -/
def inner_delete_splice (s : RBT K V) (node : Nat) : Option (RBT K V × Nat × Nat) :=
  (s.left node).andThen fun nl =>
  (if nl = s.sentinel then some true
    else (s.right node).andThen fun nr => some (decide (nr = s.sentinel))).andThen fun one =>
  (if one then some node else successor s node).andThen fun p =>
  (s.left p).andThen fun pl =>
  (if pl ≠ s.sentinel then some pl else s.right p).andThen fun q =>
  (s.parent p).andThen fun pp =>
  (s.setParent q pp).andThen fun s =>
  (s.parent p).andThen fun pp =>
  (if pp = s.sentinel then some (s.setRoot q)
    else (s.left pp).andThen fun ppl =>
      if p = ppl then s.setLeft pp q else s.setRight pp q).andThen fun s =>
  (if p ≠ node then
      (s.key p).andThen fun pk =>
      (s.setKey node pk).andThen fun s =>
      (s.val p).andThen fun pv =>
      s.setVal node pv
    else some s).andThen fun s =>
  some (s, p, q)

/-- The fields of a node other than the parent link. -/
def Node.butParent (n : Node K V) : K × V × Color × Nat × Nat :=
  (n.k, n.v, n.c, n.left, n.right)

/-- In-order sequence of the nodes of a tree without their colours: the address, key
and value of each. -/
def Tree.cells : Tree K V → List (Nat × K × V)
  | Tree.nil => []
  | Tree.node a _ l k v r => l.cells ++ (a, k, v) :: r.cells

/-- The state `s1` after the first part of `inner_delete` in a state `s` that holds the
tree `t`: the node at `m`, whose fields are `n`, is spliced out of the tree, which is now
`plug p q` with the child `q` of the spliced node at the end of the path `p`.  The node
at `m` is still in the store, and nothing outside the tree was touched but the parent
link of the sentinel. -/
structure Spliced (s : RBT K V) (t : Tree K V) (s1 : RBT K V) (m : Nat) (n : Node K V)
    (p : List (Frame K V)) (q : Tree K V) : Prop where
  wf : WF s1 (plug p q)
  sentinel : s1.sentinel = s.sentinel
  size : s1.size = s.size
  next : s1.next = s.next
  old : s.heap m = some n
  new : s1.heap m = some n
  notin : m ∉ (plug p q).addrs
  ne_sent : m ≠ s.sentinel
  mem : m ∈ t.addrs
  sub : ∀ x, x ∈ (plug p q).addrs → x ∈ t.addrs
  cur : q = Tree.nil → s1.parent s1.sentinel = some (parentOf s1.sentinel p)
  frame : ∀ x, x ∉ t.addrs → x ≠ s.sentinel → s1.heap x = s.heap x
  sent : (s1.heap s.sentinel).map Node.butParent = (s.heap s.sentinel).map Node.butParent

/-- The child links of the sentinel are null, as the constructor `Node()` leaves them,
and there is no node at the null address, `0`: dereferencing a child link of the sentinel
is a fault. -/
def NullLinks (s : RBT K V) : Prop :=
  s.heap 0 = none ∧ s.left s.sentinel = some 0 ∧ s.right s.sentinel = some 0

/-- The calls of `demoOps` followed by `tree_insert(40, 4)`. -/
def demoOps4 : List (Op Int Int) := demoOps ++ [Op.insert 40 4]

/-- The state after `demoOps4`: 20 at the root with the BLACK children 10 and 30, and 40
the RED right child of 30. -/
def demoState4 : RBT Int Int := (run less demoOps4).getD RBT.new

/-- The state of one `SimpleBlockingQueue<T>` object (`simple_blocking_queue.hpp`) in a
run with a single thread: the container `queue_`, a `std::deque<T>`, front first, and the
bound `max_size_`.  The mutex and the condition variables hold no data. -/
structure SimpleBlockingQueue (T : Type) where
  queue_ : List T
  max_size_ : Nat

/-- The method `PopFront(T *t)` in a run with a single thread:
`(*t) = std::move(queue_.front()); queue_.pop_front();`.  The result is the value stored
in `*t` and the new state; `none` when the queue is empty, where the wait on `not_empty_`
never ends. -/
def SimpleBlockingQueue.PopFront {T : Type} (q : SimpleBlockingQueue T) :
    Option (T × SimpleBlockingQueue T) :=
  match q.queue_ with
  | [] => none
  | x :: xs => some (x, { q with queue_ := xs })

/-- The method `PopBack(T *t)` in a run with a single thread:
`(*t) = std::move(queue_.front()); queue_.pop_back();`.  The move assignment reads the
front element and leaves `moved x` in its place, for `x` the value read (`moved` is the
identity for a scalar type such as `int`).  The result is the value stored in `*t` and
the new state; `none` when the queue is empty, where the wait on `not_empty_` never
ends. -/
def SimpleBlockingQueue.PopBack {T : Type} (moved : T → T) (q : SimpleBlockingQueue T) :
    Option (T × SimpleBlockingQueue T) :=
  match q.queue_ with
  | [] => none
  | x :: xs => some (x, { q with queue_ := (moved x :: xs).dropLast })

/-- The method `PopBackWithTimeout(T *t, int timeout)` in a run with a single thread,
with `t` the value of `*t` before the call: the value returned, the value of `*t` after
the call and the new state.  On an empty queue `wait_for` times out, whatever the
timeout, and nothing is changed. -/
def SimpleBlockingQueue.PopBackWithTimeout {T : Type} (moved : T → T)
    (q : SimpleBlockingQueue T) (t : T) (_timeout : Int) : Bool × T × SimpleBlockingQueue T :=
  match q.queue_ with
  | [] => (false, t, q)
  | x :: xs => (true, x, { q with queue_ := (moved x :: xs).dropLast })

/-- The loop of `inner_find`, as `inner_find_loop`, with a count of the run: the number
of nodes visited, those whose key is compared with `k`. -/
def inner_find_loop_traced (comp : K → K → Bool) (k : K) :
    Nat → RBT K V → Nat → Nat → Option (Nat × Nat)
  | 0, _, _, _ => none
  | fuel + 1, s, temp, parent =>
    if temp ≠ s.sentinel then
      (s.key temp).andThen fun tk =>
      if comp k tk then
        (s.left temp).andThen fun tl =>
        (inner_find_loop_traced comp k fuel s tl temp).andThen fun (r, n) => some (r, n + 1)
      else if comp tk k then
        (s.right temp).andThen fun tr =>
        (inner_find_loop_traced comp k fuel s tr temp).andThen fun (r, n) => some (r, n + 1)
      else some (temp, 1)
    else some (parent, 0)

/-- The method `inner_find(const Key &k)`, as `inner_find`, with the number of nodes
visited. -/
def inner_find_traced (comp : K → K → Bool) (s : RBT K V) (k : K) : Option (Nat × Nat) :=
  inner_find_loop_traced comp k s.next s s.root s.sentinel

/-- What is wanted of an entry of the record of rotations of a run that starts in a state
with the sentinel `sent` holding `n0`: in the state right after the rotation the sentinel
holds what it held, and the parent link of the cursor names a node, not the sentinel,
whose child link on the side of the cursor is the cursor. -/
def Rotated.ok (sent : Nat) (n0 : Option (Node K V)) (r : Rotated K V) : Prop :=
  r.state.heap sent = n0 ∧ ∃ P, r.state.parent r.cursor = some P ∧ P ≠ sent ∧
    (if r.isLeft then r.state.left P else r.state.right P) = some r.cursor

end Embedding

/-! ## Theorems -/

section Proofs

variable {K V : Type}

@[simp] theorem andThen_some {α β : Type} (a : α) (f : α → Option β) :
    (some a).andThen f = f a := rfl

@[simp] theorem andThen_none {α β : Type} (f : α → Option β) :
    (none : Option α).andThen f = none := rfl

theorem andThen_eq_some {α β : Type} {x : Option α} {f : α → Option β} {b : β} :
    x.andThen f = some b ↔ ∃ a, x = some a ∧ f a = some b := by
  cases x <;> simp

/-! ### Reading and writing the store -/

theorem key_of_heap {s : RBT K V} {a : Nat} {n : Node K V} (h : s.heap a = some n) :
    s.key a = some n.k := by simp [RBT.key, h]

theorem val_of_heap {s : RBT K V} {a : Nat} {n : Node K V} (h : s.heap a = some n) :
    s.val a = some n.v := by simp [RBT.val, h]

theorem color_of_heap {s : RBT K V} {a : Nat} {n : Node K V} (h : s.heap a = some n) :
    s.color a = some n.c := by simp [RBT.color, h]

theorem left_of_heap {s : RBT K V} {a : Nat} {n : Node K V} (h : s.heap a = some n) :
    s.left a = some n.left := by simp [RBT.left, h]

theorem right_of_heap {s : RBT K V} {a : Nat} {n : Node K V} (h : s.heap a = some n) :
    s.right a = some n.right := by simp [RBT.right, h]

theorem parent_of_heap {s : RBT K V} {a : Nat} {n : Node K V} (h : s.heap a = some n) :
    s.parent a = some n.parent := by simp [RBT.parent, h]

@[simp] theorem wr_heap (s : RBT K V) (a : Nat) (n : Node K V) (b : Nat) :
    (s.wr a n).heap b = if b = a then some n else s.heap b := by
  simp [RBT.wr, Function.update_apply]

@[simp] theorem wr_sentinel (s : RBT K V) (a : Nat) (n : Node K V) :
    (s.wr a n).sentinel = s.sentinel := rfl

@[simp] theorem wr_root (s : RBT K V) (a : Nat) (n : Node K V) : (s.wr a n).root = s.root := rfl

@[simp] theorem wr_size (s : RBT K V) (a : Nat) (n : Node K V) : (s.wr a n).size = s.size := rfl

@[simp] theorem wr_next (s : RBT K V) (a : Nat) (n : Node K V) : (s.wr a n).next = s.next := rfl

@[simp] theorem setRoot_heap (s : RBT K V) (x : Nat) : (s.setRoot x).heap = s.heap := rfl

@[simp] theorem setRoot_sentinel (s : RBT K V) (x : Nat) :
    (s.setRoot x).sentinel = s.sentinel := rfl

@[simp] theorem setRoot_root (s : RBT K V) (x : Nat) : (s.setRoot x).root = x := rfl

@[simp] theorem setRoot_size (s : RBT K V) (x : Nat) : (s.setRoot x).size = s.size := rfl

@[simp] theorem setRoot_next (s : RBT K V) (x : Nat) : (s.setRoot x).next = s.next := rfl

/-! ### Trees and paths in the store -/

theorem Rep.congr {h h1 : Nat → Option (Node K V)} {sent : Nat} :
    ∀ {t : Tree K V} {par : Nat}, (∀ a ∈ t.addrs, h1 a = h a) → Rep h sent par t →
      Rep h1 sent par t
  | Tree.nil, _, _, _ => trivial
  | Tree.node a c l k v r, par, hag, hr => by
    simp only [Tree.addrs, List.mem_cons, List.mem_append] at hag
    refine ⟨?_, Rep.congr (fun x hx => hag x (Or.inr (Or.inl hx))) hr.2.1,
      Rep.congr (fun x hx => hag x (Or.inr (Or.inr hx))) hr.2.2⟩
    rw [hag a (Or.inl rfl)]
    exact hr.1

theorem RepPath.congrPath {h h1 : Nat → Option (Node K V)} {sent root : Nat} :
    ∀ {p : List (Frame K V)} {hp : Nat}, (∀ a ∈ pathAddrs p, h1 a = h a) →
      RepPath h sent root p hp → RepPath h1 sent root p hp
  | [], _, _, hr => hr
  | Frame.lft a c k v r :: p, hp, hag, hr => by
    simp only [pathAddrs, Frame.addr, Frame.sib, List.mem_cons, List.mem_append,
      List.cons_append] at hag
    refine ⟨?_, Rep.congr (fun x hx => hag x (Or.inr (Or.inl hx))) hr.2.1,
      RepPath.congrPath (fun x hx => hag x (Or.inr (Or.inr hx))) hr.2.2⟩
    rw [hag a (Or.inl rfl)]
    exact hr.1
  | Frame.rgt a c l k v :: p, hp, hag, hr => by
    simp only [pathAddrs, Frame.addr, Frame.sib, List.mem_cons, List.mem_append,
      List.cons_append] at hag
    refine ⟨?_, Rep.congr (fun x hx => hag x (Or.inr (Or.inl hx))) hr.2.1,
      RepPath.congrPath (fun x hx => hag x (Or.inr (Or.inr hx))) hr.2.2⟩
    rw [hag a (Or.inl rfl)]
    exact hr.1

theorem ptr_plug_cons (sent : Nat) (f : Frame K V) :
    ∀ (p : List (Frame K V)) (t t1 : Tree K V),
      (plug (f :: p) t).ptr sent = (plug (f :: p) t1).ptr sent
  | [], t, t1 => by cases f <;> rfl
  | g :: p, t, t1 => by
    show (plug (g :: p) (f.fill t)).ptr sent = (plug (g :: p) (f.fill t1)).ptr sent
    exact ptr_plug_cons sent g p _ _

theorem fill_ptr (sent : Nat) (f : Frame K V) (t : Tree K V) :
    (f.fill t).ptr sent = f.addr := by cases f <;> rfl

/-- A tree with a subtree at the end of a path is held by the store exactly when the
path and the subtree are. -/
theorem rep_plug {h : Nat → Option (Node K V)} {sent root : Nat} :
    ∀ {p : List (Frame K V)} {t : Tree K V},
      (root = (plug p t).ptr sent ∧ Rep h sent sent (plug p t)) ↔
        (RepPath h sent root p (t.ptr sent) ∧ Rep h sent (parentOf sent p) t)
  | [], t => by simp [plug, RepPath, parentOf]
  | Frame.lft a c k v r :: p, t => by
    have ih := @rep_plug h sent root p
      (Tree.node a c t k v r)
    simp only [plug, Frame.fill]
    rw [ih]
    simp only [RepPath, Rep, Tree.ptr, parentOf, Frame.addr]
    tauto
  | Frame.rgt a c l k v :: p, t => by
    have ih := @rep_plug h sent root p
      (Tree.node a c l k v t)
    simp only [plug, Frame.fill]
    rw [ih]
    simp only [RepPath, Rep, Tree.ptr, parentOf, Frame.addr]
    tauto

theorem addrs_plug : ∀ (p : List (Frame K V)) (t : Tree K V),
    (plug p t).addrs.Perm (t.addrs ++ pathAddrs p)
  | [], t => by simp [plug, pathAddrs]
  | Frame.lft a c k v r :: p, t => by
    refine (addrs_plug p _).trans ?_
    simp only [Tree.addrs, pathAddrs, Frame.addr, Frame.sib, List.cons_append,
      List.append_assoc]
    exact List.perm_middle.symm
  | Frame.rgt a c l k v :: p, t => by
    refine (addrs_plug p _).trans ?_
    simp only [Tree.addrs, pathAddrs, Frame.addr, Frame.sib, List.cons_append,
      List.append_assoc]
    refine List.Perm.trans ?_ List.perm_middle.symm
    refine List.Perm.cons a ?_
    rw [← List.append_assoc, ← List.append_assoc]
    exact List.Perm.append_right _ List.perm_append_comm

theorem mem_addrs_plug {p : List (Frame K V)} {t : Tree K V} {a : Nat} :
    a ∈ (plug p t).addrs ↔ a ∈ t.addrs ∨ a ∈ pathAddrs p := by
  rw [(addrs_plug p t).mem_iff, List.mem_append]

theorem nodup_addrs_plug {p : List (Frame K V)} {t : Tree K V} :
    (plug p t).addrs.Nodup ↔ (t.addrs ++ pathAddrs p).Nodup :=
  (addrs_plug p t).nodup_iff

theorem addrs_plug_perm {p : List (Frame K V)} {t t1 : Tree K V}
    (h : t1.addrs.Perm t.addrs) : (plug p t1).addrs.Perm (plug p t).addrs :=
  ((addrs_plug p t1).trans (List.Perm.append_right _ h)).trans (addrs_plug p t).symm


theorem ptr_eq_or_mem (sent : Nat) (t : Tree K V) : t.ptr sent = sent ∨ t.ptr sent ∈ t.addrs := by
  cases t <;> simp [Tree.ptr, Tree.addrs]

theorem WF.unplug {s : RBT K V} {p : List (Frame K V)} {t : Tree K V} (hwf : WF s (plug p t)) :
    RepPath s.heap s.sentinel s.root p (t.ptr s.sentinel) ∧
      Rep s.heap s.sentinel (parentOf s.sentinel p) t ∧ (t.addrs ++ pathAddrs p).Nodup ∧
      s.sentinel ∉ t.addrs ∧ s.sentinel ∉ pathAddrs p := by
  have h1 := (@rep_plug _ _ s.heap s.sentinel s.root p
    t).1 ⟨hwf.root, hwf.rep⟩
  have h2 := hwf.sent_notin
  rw [mem_addrs_plug] at h2
  exact ⟨h1.1, h1.2, nodup_addrs_plug.1 hwf.nodup, fun h => h2 (Or.inl h), fun h => h2 (Or.inr h)⟩

/-- Replacing the subtree at the end of a path by another one on the same addresses. -/
theorem WF.replace {s s1 : RBT K V} {p : List (Frame K V)} {t t1 : Tree K V}
    (hwf : WF s (plug p t))
    (hsent : s1.sentinel = s.sentinel) (hsize : s1.size = s.size) (hnext : s1.next = s.next)
    (hpath : RepPath s1.heap s.sentinel s1.root p (t1.ptr s.sentinel))
    (hsub : Rep s1.heap s.sentinel (parentOf s.sentinel p) t1)
    (hperm : t1.addrs.Perm t.addrs)
    (hframe : ∀ a, a ∉ t.addrs → a ∉ pathAddrs p → s1.heap a = s.heap a) :
    Evolves s (plug p t) s1 (plug p t1) := by
  have hpp := addrs_plug_perm (p := p) hperm
  have hfr : ∀ a, a ∉ (plug p t).addrs → s1.heap a = s.heap a := by
    intro a ha
    rw [mem_addrs_plug] at ha
    exact hframe a (fun h => ha (Or.inl h)) (fun h => ha (Or.inr h))
  have h1 := (@rep_plug _ _ s1.heap s.sentinel s1.root p
    t1).2 ⟨hpath, hsub⟩
  refine ⟨⟨?_, ?_, ?_, ?_, ?_, ?_, ?_⟩, hsent, hsize, hnext, hpp, hfr⟩
  · rw [hsent]; exact h1.1
  · rw [hsent]; exact h1.2
  · exact hpp.nodup_iff.2 hwf.nodup
  · rw [hsent, hpp.mem_iff]; exact hwf.sent_notin
  · have := hwf.sent_black
    simp only [RBT.color] at this ⊢
    rw [hsent, hfr _ hwf.sent_notin]; exact this
  · intro a ha
    rw [hnext]; exact hwf.lt_next a (hpp.mem_iff.1 ha)
  · rw [hsent, hnext]; exact hwf.sent_lt

theorem Evolves.trans {s s1 s2 : RBT K V} {t t1 t2 : Tree K V} (h1 : Evolves s t s1 t1)
    (h2 : Evolves s1 t1 s2 t2) : Evolves s t s2 t2 :=
  ⟨h2.wf, h2.sentinel.trans h1.sentinel, h2.size.trans h1.size, h2.next.trans h1.next,
    h2.perm.trans h1.perm, fun a ha =>
      (h2.frame a (fun h => ha (h1.perm.mem_iff.1 h))).trans (h1.frame a ha)⟩

theorem Evolves.refl {s : RBT K V} {t : Tree K V} (h : WF s t) : Evolves s t s t :=
  ⟨h, rfl, rfl, rfl, List.Perm.refl _, fun _ _ => rfl⟩

/-- The store at the sentinel is not touched by a step that keeps the nodes in place. -/
theorem Evolves.heap_sent {s s1 : RBT K V} {t t1 : Tree K V} (h : Evolves s t s1 t1)
    (hwf : WF s t) : s1.heap s.sentinel = s.heap s.sentinel :=
  h.frame _ hwf.sent_notin

/-- Linking the parent of `node` (or the root pointer) to `temp` instead: the common
tail of the rotations and of the splice in `inner_delete`. -/
theorem relink_spec {s : RBT K V} {p : List (Frame K V)} {node : Nat} (temp : Nat)
    (hp : RepPath s.heap s.sentinel s.root p node)
    (hn1 : node ∉ pathAddrs p) (hn2 : node ≠ s.sentinel)
    (hs : s.sentinel ∉ pathAddrs p) (hnd : (pathAddrs p).Nodup) :
    ∃ s1, (if parentOf s.sentinel p = s.sentinel then some (s.setRoot temp)
        else (s.left (parentOf s.sentinel p)).andThen fun npl =>
          if node = npl then s.setLeft (parentOf s.sentinel p) temp
          else s.setRight (parentOf s.sentinel p) temp) = some s1 ∧
      RepPath s1.heap s.sentinel s1.root p temp ∧ Mod s s1 (pathAddrs p) := by
  cases p with
  | nil =>
    refine ⟨s.setRoot temp, by simp [parentOf], ?_, rfl, rfl, rfl, fun _ _ => rfl⟩
    simp [RepPath]
  | cons f p =>
    cases f with
    | lft a c k v r =>
      simp only [pathAddrs, Frame.addr, Frame.sib, List.cons_append, List.mem_cons,
        List.mem_append, not_or, List.nodup_cons, List.nodup_append] at hn1 hs hnd
      obtain ⟨ha, hr, hp2⟩ := hp
      refine ⟨s.wr a ⟨k, v, c, temp, r.ptr s.sentinel, parentOf s.sentinel p⟩, ?_, ?_, rfl, rfl,
        rfl, ?_⟩
      · simp [parentOf, Frame.addr, Ne.symm hs.1, left_of_heap ha, RBT.setLeft, ha]
      · refine ⟨by simp, Rep.congr ?_ hr, RepPath.congrPath ?_ hp2⟩
        · intro x hx
          have : x ≠ a := by rintro rfl; exact hnd.1.1 hx
          simp [this]
        · intro x hx
          have : x ≠ a := by rintro rfl; exact hnd.1.2 hx
          simp [this]
      · intro x hx
        simp only [pathAddrs, Frame.addr, Frame.sib, List.cons_append, List.mem_cons,
          List.mem_append, not_or] at hx
        simp [hx.1]
    | rgt a c l k v =>
      simp only [pathAddrs, Frame.addr, Frame.sib, List.cons_append, List.mem_cons,
        List.mem_append, not_or, List.nodup_cons, List.nodup_append] at hn1 hs hnd
      obtain ⟨ha, hr, hp2⟩ := hp
      have hne : node ≠ l.ptr s.sentinel := by
        rcases ptr_eq_or_mem s.sentinel l with h | h
        · rw [h]; exact hn2
        · rintro rfl; exact hn1.2.1 h
      refine ⟨s.wr a ⟨k, v, c, l.ptr s.sentinel, temp, parentOf s.sentinel p⟩, ?_, ?_, rfl, rfl,
        rfl, ?_⟩
      · simp [parentOf, Frame.addr, Ne.symm hs.1, left_of_heap ha, RBT.setRight, ha, hne]
      · refine ⟨by simp, Rep.congr ?_ hr, RepPath.congrPath ?_ hp2⟩
        · intro x hx
          have : x ≠ a := by rintro rfl; exact hnd.1.1 hx
          simp [this]
        · intro x hx
          have : x ≠ a := by rintro rfl; exact hnd.1.2 hx
          simp [this]
      · intro x hx
        simp only [pathAddrs, Frame.addr, Frame.sib, List.cons_append, List.mem_cons,
          List.mem_append, not_or] at hx
        simp [hx.1]

/-- Setting the parent link of the root of a subtree, when there is one. -/
theorem reparent_spec {s : RBT K V} {b : Tree K V} {par : Nat} (x : Nat)
    (hb : Rep s.heap s.sentinel par b) (hs : s.sentinel ∉ b.addrs) (hnd : b.addrs.Nodup) :
    ∃ s1, (if b.ptr s.sentinel ≠ s.sentinel then s.setParent (b.ptr s.sentinel) x else some s)
        = some s1 ∧
      Rep s1.heap s.sentinel x b ∧ s1.root = s.root ∧ Mod s s1 b.addrs := by
  cases b with
  | nil => exact ⟨s, by simp [Tree.ptr], trivial, rfl, rfl, rfl, rfl, fun _ _ => rfl⟩
  | node a c l k v r =>
    simp only [Tree.addrs, List.mem_cons, List.mem_append, not_or, List.nodup_cons,
      List.nodup_append] at hs hnd
    obtain ⟨ha, hl, hr⟩ := hb
    refine ⟨s.wr a ⟨k, v, c, l.ptr s.sentinel, r.ptr s.sentinel, x⟩, ?_, ?_, rfl, rfl, rfl, rfl,
      ?_⟩
    · simp [Tree.ptr, Ne.symm hs.1, RBT.setParent, ha]
    · refine ⟨by simp, Rep.congr ?_ hl, Rep.congr ?_ hr⟩
      · intro y hy
        have : y ≠ a := by rintro rfl; exact hnd.1.1 hy
        simp [this]
      · intro y hy
        have : y ≠ a := by rintro rfl; exact hnd.1.2 hy
        simp [this]
    · intro y hy
      simp only [Tree.addrs, List.mem_cons, List.mem_append, not_or] at hy
      simp [hy.1]

@[simp] theorem ptr_nil (sent : Nat) : (Tree.nil : Tree K V).ptr sent = sent := rfl

@[simp] theorem ptr_node (sent a : Nat) (c : Color) (l : Tree K V) (k : K) (v : V)
    (r : Tree K V) : (Tree.node a c l k v r).ptr sent = a := rfl

theorem Mod.same (s : RBT K V) (A : List Nat) : Mod s s A := ⟨rfl, rfl, rfl, fun _ _ => rfl⟩

theorem Mod.seq {s s1 s2 : RBT K V} {A B : List Nat} (h1 : Mod s s1 A) (h2 : Mod s1 s2 B) :
    Mod s s2 (A ++ B) :=
  ⟨h2.sentinel.trans h1.sentinel, h2.size.trans h1.size, h2.next.trans h1.next, fun a ha => by
    rw [List.mem_append, not_or] at ha
    rw [h2.heap a ha.2, h1.heap a ha.1]⟩

theorem Mod.mono {s s1 : RBT K V} {A B : List Nat} (h : Mod s s1 A) (hAB : ∀ a ∈ A, a ∈ B) :
    Mod s s1 B :=
  ⟨h.sentinel, h.size, h.next, fun a ha => h.heap a (fun h1 => ha (hAB a h1))⟩

theorem Mod.wr (s : RBT K V) (a : Nat) (n : Node K V) : Mod s (s.wr a n) [a] :=
  ⟨rfl, rfl, rfl, fun b hb => by simp at hb; simp [hb]⟩

/-- Assignment to `_k` of a node that is there. -/
theorem setKey_spec {s : RBT K V} {a : Nat} {k : K} {v : V} {c : Color} {l r par : Nat}
    (h : s.heap a = some ⟨k, v, c, l, r, par⟩) (x : K) :
    ∃ s1, s.setKey a x = some s1 ∧ s1.heap a = some ⟨x, v, c, l, r, par⟩ ∧
      s1.root = s.root ∧ Mod s s1 [a] :=
  ⟨s.wr a ⟨x, v, c, l, r, par⟩, by simp [RBT.setKey, h], by simp, rfl, Mod.wr _ _ _⟩

/-- Assignment to `_v` of a node that is there. -/
theorem setVal_spec {s : RBT K V} {a : Nat} {k : K} {v : V} {c : Color} {l r par : Nat}
    (h : s.heap a = some ⟨k, v, c, l, r, par⟩) (x : V) :
    ∃ s1, s.setVal a x = some s1 ∧ s1.heap a = some ⟨k, x, c, l, r, par⟩ ∧
      s1.root = s.root ∧ Mod s s1 [a] :=
  ⟨s.wr a ⟨k, x, c, l, r, par⟩, by simp [RBT.setVal, h], by simp, rfl, Mod.wr _ _ _⟩

/-- Assignment to `_c` of a node that is there. -/
theorem setColor_spec {s : RBT K V} {a : Nat} {k : K} {v : V} {c : Color} {l r par : Nat}
    (h : s.heap a = some ⟨k, v, c, l, r, par⟩) (x : Color) :
    ∃ s1, s.setColor a x = some s1 ∧ s1.heap a = some ⟨k, v, x, l, r, par⟩ ∧
      s1.root = s.root ∧ Mod s s1 [a] :=
  ⟨s.wr a ⟨k, v, x, l, r, par⟩, by simp [RBT.setColor, h], by simp, rfl, Mod.wr _ _ _⟩

/-- Assignment to `_left` of a node that is there. -/
theorem setLeft_spec {s : RBT K V} {a : Nat} {k : K} {v : V} {c : Color} {l r par : Nat}
    (h : s.heap a = some ⟨k, v, c, l, r, par⟩) (x : Nat) :
    ∃ s1, s.setLeft a x = some s1 ∧ s1.heap a = some ⟨k, v, c, x, r, par⟩ ∧
      s1.root = s.root ∧ Mod s s1 [a] :=
  ⟨s.wr a ⟨k, v, c, x, r, par⟩, by simp [RBT.setLeft, h], by simp, rfl, Mod.wr _ _ _⟩

/-- Assignment to `_right` of a node that is there. -/
theorem setRight_spec {s : RBT K V} {a : Nat} {k : K} {v : V} {c : Color} {l r par : Nat}
    (h : s.heap a = some ⟨k, v, c, l, r, par⟩) (x : Nat) :
    ∃ s1, s.setRight a x = some s1 ∧ s1.heap a = some ⟨k, v, c, l, x, par⟩ ∧
      s1.root = s.root ∧ Mod s s1 [a] :=
  ⟨s.wr a ⟨k, v, c, l, x, par⟩, by simp [RBT.setRight, h], by simp, rfl, Mod.wr _ _ _⟩

/-- Assignment to `_parent` of a node that is there. -/
theorem setParent_spec {s : RBT K V} {a : Nat} {k : K} {v : V} {c : Color} {l r par : Nat}
    (h : s.heap a = some ⟨k, v, c, l, r, par⟩) (x : Nat) :
    ∃ s1, s.setParent a x = some s1 ∧ s1.heap a = some ⟨k, v, c, l, r, x⟩ ∧
      s1.root = s.root ∧ Mod s s1 [a] :=
  ⟨s.wr a ⟨k, v, c, l, r, x⟩, by simp [RBT.setParent, h], by simp, rfl, Mod.wr _ _ _⟩

/-- `left_rotate` at the root `x` of a subtree whose right child `y` is a node. -/
theorem left_rotate_spec {s : RBT K V} {p : List (Frame K V)} {x y : Nat} {cx cy : Color}
    {a b g : Tree K V} {kx ky : K} {vx vy : V}
    (hwf : WF s (plug p (Tree.node x cx a kx vx (Tree.node y cy b ky vy g)))) :
    ∃ s1, left_rotate s x = some s1 ∧
      Evolves s (plug p (Tree.node x cx a kx vx (Tree.node y cy b ky vy g)))
        s1 (plug p (Tree.node y cy (Tree.node x cx a kx vx b) ky vy g)) := by
  obtain ⟨hpath, hsub, hnd, hst, hsp⟩ := hwf.unplug
  simp only [Rep, ptr_node] at hsub hpath
  obtain ⟨hx, ha, hy, hb, hg⟩ := hsub
  simp only [Tree.addrs, List.cons_append, List.nodup_cons, List.nodup_append, List.mem_cons,
    List.mem_append, not_or, List.append_assoc, List.disjoint_cons_right,
    List.disjoint_append_right] at hnd hst
  obtain ⟨⟨hxa, hxy, hxb, hxg, hxp⟩, hnda, ⟨⟨hyb, hyg, hyp⟩, hndb, ⟨hndg, hndp, hdgp⟩, hdbg, hdbp⟩,
    hay, hdab, hdag, hdap⟩ := hnd
  obtain ⟨hsx, hsa, hsy, hsb, hsg⟩ := hst
  have hyx : ¬y = x := fun h => hxy h.symm
  -- `node->_right = temp->_left`
  obtain ⟨s1, e1, h1x, r1, m1⟩ := setRight_spec hx (b.ptr s.sentinel)
  have h1y : s1.heap y = _ := (m1.heap y (by simpa using hyx)).trans hy
  -- `if (temp->_left != _sentinel) temp->_left->_parent = node`
  obtain ⟨s2, e2, h2b, r2, m2⟩ := @reparent_spec _ _ s1 b y x
    (by rw [m1.sentinel]
        exact Rep.congr (fun z hz => m1.heap z (by simpa using ne_of_mem_of_not_mem hz hxb)) hb)
    (by rw [m1.sentinel]; exact hsb) hndb
  rw [m1.sentinel] at e2 h2b
  have h2x : s2.heap x = _ := (m2.heap x hxb).trans h1x
  have h2y : s2.heap y = _ := (m2.heap y hyb).trans h1y
  -- `temp->_parent = node->_parent`
  obtain ⟨s3, e3, h3y, r3, m3⟩ := setParent_spec h2y (parentOf s.sentinel p)
  have h3x : s3.heap x = _ := (m3.heap x (by simpa using hxy)).trans h2x
  have m03 := (m1.seq m2).seq m3
  -- the link from above
  obtain ⟨s4, e4, h4p, m4⟩ := @relink_spec _ _ s3 p x y
    (by rw [m03.sentinel, r3, r2, r1]
        refine RepPath.congrPath (fun z hz => m03.heap z ?_) hpath
        simp only [List.mem_append, List.mem_singleton, not_or]
        exact ⟨⟨ne_of_mem_of_not_mem hz hxp, fun h => hdbp h hz⟩, ne_of_mem_of_not_mem hz hyp⟩)
    hxp (by rw [m03.sentinel]; exact fun h => hsx h.symm) (by rw [m03.sentinel]; exact hsp) hndp
  rw [m03.sentinel] at e4 h4p
  have h4x : s4.heap x = _ := (m4.heap x hxp).trans h3x
  have h4y : s4.heap y = _ := (m4.heap y hyp).trans h3y
  -- `temp->_left = node; node->_parent = temp`
  obtain ⟨s5, e5, h5y, r5, m5⟩ := setLeft_spec h4y x
  have h5x : s5.heap x = _ := (m5.heap x (by simpa using hxy)).trans h4x
  obtain ⟨s6, e6, h6x, r6, m6⟩ := setParent_spec h5x y
  have h6y : s6.heap y = _ := (m6.heap y (by simpa using hyx)).trans h5y
  have m06 := ((m03.seq m4).seq m5).seq m6
  refine ⟨s6, ?_, ?_⟩
  · simp only [left_rotate, right_of_heap hx, left_of_heap hy, andThen_some, e1,
      left_of_heap h1y, m1.sentinel, e2, parent_of_heap h2x, e3, parent_of_heap h3x,
      m03.sentinel, e4, e5, e6]
  · refine WF.replace hwf m06.sentinel m06.size m06.next ?_ ?_ ?_ ?_
    · rw [r6, r5, ptr_node]
      refine RepPath.congrPath (fun z hz => (m5.seq m6).heap z ?_) h4p
      simp only [List.mem_append, List.mem_singleton, not_or]
      exact ⟨ne_of_mem_of_not_mem hz hyp, ne_of_mem_of_not_mem hz hxp⟩
    · simp only [Rep, ptr_node]
      refine ⟨h6y, ⟨h6x, ?_, ?_⟩, ?_⟩
      · refine Rep.congr (fun z hz => m06.heap z ?_) ha
        simp only [List.mem_append, List.mem_singleton, not_or]
        exact ⟨⟨⟨⟨⟨ne_of_mem_of_not_mem hz hxa, fun h => hdab hz h⟩, ne_of_mem_of_not_mem hz hay⟩,
          fun h => hdap hz h⟩, ne_of_mem_of_not_mem hz hay⟩, ne_of_mem_of_not_mem hz hxa⟩
      · refine Rep.congr (fun z hz => (((m3.seq m4).seq m5).seq m6).heap z ?_) h2b
        simp only [List.mem_append, List.mem_singleton, not_or]
        exact ⟨⟨⟨ne_of_mem_of_not_mem hz hyb, fun h => hdbp hz h⟩, ne_of_mem_of_not_mem hz hyb⟩,
          ne_of_mem_of_not_mem hz hxb⟩
      · refine Rep.congr (fun z hz => m06.heap z ?_) hg
        simp only [List.mem_append, List.mem_singleton, not_or]
        exact ⟨⟨⟨⟨⟨ne_of_mem_of_not_mem hz hxg, fun h => hdbg h hz⟩, ne_of_mem_of_not_mem hz hyg⟩,
          fun h => hdgp hz h⟩, ne_of_mem_of_not_mem hz hyg⟩, ne_of_mem_of_not_mem hz hxg⟩
    · simp only [Tree.addrs, List.cons_append, List.append_assoc]
      exact (List.Perm.swap _ _ _).trans (List.Perm.cons _ List.perm_middle.symm)
    · intro z hz1 hz2
      simp only [Tree.addrs, List.mem_cons, List.mem_append, not_or] at hz1
      refine m06.heap z ?_
      simp only [List.mem_append, List.mem_singleton, not_or]
      exact ⟨⟨⟨⟨⟨hz1.1, hz1.2.2.2.1⟩, hz1.2.2.1⟩, hz2⟩, hz1.2.2.1⟩, hz1.1⟩

/-- `right_rotate` at the root `x` of a subtree whose left child `y` is a node. -/
theorem right_rotate_spec {s : RBT K V} {p : List (Frame K V)} {x y : Nat} {cx cy : Color}
    {a b g : Tree K V} {kx ky : K} {vx vy : V}
    (hwf : WF s (plug p (Tree.node x cx (Tree.node y cy a ky vy b) kx vx g))) :
    ∃ s1, right_rotate s x = some s1 ∧
      Evolves s (plug p (Tree.node x cx (Tree.node y cy a ky vy b) kx vx g))
        s1 (plug p (Tree.node y cy a ky vy (Tree.node x cx b kx vx g))) := by
  obtain ⟨hpath, hsub, hnd, hst, hsp⟩ := hwf.unplug
  simp only [Rep, ptr_node] at hsub hpath
  obtain ⟨hx, ⟨hy, ha, hb⟩, hg⟩ := hsub
  simp only [Tree.addrs, List.cons_append, List.nodup_cons, List.nodup_append, List.mem_cons,
    List.mem_append, not_or, List.append_assoc, List.disjoint_cons_right,
    List.disjoint_append_right, List.disjoint_cons_left, List.disjoint_append_left] at hnd hst
  obtain ⟨⟨hxy, hxa, hxb, hxg, hxp⟩, ⟨hya, hyb, hyg, hyp⟩, hnda, ⟨hndb, ⟨hndg, hndp, hdgp⟩, hdbg,
    hdbp⟩, hdab, hdag, hdap⟩ := hnd
  obtain ⟨hsx, hsy, hsa, hsb, hsg⟩ := hst
  have hyx : ¬y = x := fun h => hxy h.symm
  -- `node->_left = temp->_right`
  obtain ⟨s1, e1, h1x, r1, m1⟩ := setLeft_spec hx (b.ptr s.sentinel)
  have h1y : s1.heap y = _ := (m1.heap y (by simpa using hyx)).trans hy
  -- `if (temp->_right != _sentinel) temp->_right->_parent = node`
  obtain ⟨s2, e2, h2b, r2, m2⟩ := @reparent_spec _ _ s1 b y x
    (by rw [m1.sentinel]
        exact Rep.congr (fun z hz => m1.heap z (by simpa using ne_of_mem_of_not_mem hz hxb)) hb)
    (by rw [m1.sentinel]; exact hsb) hndb
  rw [m1.sentinel] at e2 h2b
  have h2x : s2.heap x = _ := (m2.heap x hxb).trans h1x
  have h2y : s2.heap y = _ := (m2.heap y hyb).trans h1y
  -- `temp->_parent = node->_parent`
  obtain ⟨s3, e3, h3y, r3, m3⟩ := setParent_spec h2y (parentOf s.sentinel p)
  have h3x : s3.heap x = _ := (m3.heap x (by simpa using hxy)).trans h2x
  have m03 := (m1.seq m2).seq m3
  -- the link from above
  obtain ⟨s4, e4, h4p, m4⟩ := @relink_spec _ _ s3 p x y
    (by rw [m03.sentinel, r3, r2, r1]
        refine RepPath.congrPath (fun z hz => m03.heap z ?_) hpath
        simp only [List.mem_append, List.mem_singleton, not_or]
        exact ⟨⟨ne_of_mem_of_not_mem hz hxp, fun h => hdbp h hz⟩, ne_of_mem_of_not_mem hz hyp⟩)
    hxp (by rw [m03.sentinel]; exact fun h => hsx h.symm) (by rw [m03.sentinel]; exact hsp) hndp
  rw [m03.sentinel] at e4 h4p
  have h4x : s4.heap x = _ := (m4.heap x hxp).trans h3x
  have h4y : s4.heap y = _ := (m4.heap y hyp).trans h3y
  -- `temp->_right = node; node->_parent = temp`
  obtain ⟨s5, e5, h5y, r5, m5⟩ := setRight_spec h4y x
  have h5x : s5.heap x = _ := (m5.heap x (by simpa using hxy)).trans h4x
  obtain ⟨s6, e6, h6x, r6, m6⟩ := setParent_spec h5x y
  have h6y : s6.heap y = _ := (m6.heap y (by simpa using hyx)).trans h5y
  have m06 := ((m03.seq m4).seq m5).seq m6
  refine ⟨s6, ?_, ?_⟩
  · simp only [right_rotate, left_of_heap hx, right_of_heap hy, andThen_some, e1,
      right_of_heap h1y, m1.sentinel, e2, parent_of_heap h2x, e3, parent_of_heap h3x,
      m03.sentinel, e4, e5, e6]
  · refine WF.replace hwf m06.sentinel m06.size m06.next ?_ ?_ ?_ ?_
    · rw [r6, r5, ptr_node]
      refine RepPath.congrPath (fun z hz => (m5.seq m6).heap z ?_) h4p
      simp only [List.mem_append, List.mem_singleton, not_or]
      exact ⟨ne_of_mem_of_not_mem hz hyp, ne_of_mem_of_not_mem hz hxp⟩
    · simp only [Rep, ptr_node]
      refine ⟨h6y, ?_, h6x, ?_, ?_⟩
      · refine Rep.congr (fun z hz => m06.heap z ?_) ha
        simp only [List.mem_append, List.mem_singleton, not_or]
        exact ⟨⟨⟨⟨⟨ne_of_mem_of_not_mem hz hxa, fun h => hdab hz h⟩, ne_of_mem_of_not_mem hz hya⟩,
          fun h => hdap hz h⟩, ne_of_mem_of_not_mem hz hya⟩, ne_of_mem_of_not_mem hz hxa⟩
      · refine Rep.congr (fun z hz => (((m3.seq m4).seq m5).seq m6).heap z ?_) h2b
        simp only [List.mem_append, List.mem_singleton, not_or]
        exact ⟨⟨⟨ne_of_mem_of_not_mem hz hyb, fun h => hdbp hz h⟩, ne_of_mem_of_not_mem hz hyb⟩,
          ne_of_mem_of_not_mem hz hxb⟩
      · refine Rep.congr (fun z hz => m06.heap z ?_) hg
        simp only [List.mem_append, List.mem_singleton, not_or]
        exact ⟨⟨⟨⟨⟨ne_of_mem_of_not_mem hz hxg, fun h => hdbg h hz⟩, ne_of_mem_of_not_mem hz hyg⟩,
          fun h => hdgp hz h⟩, ne_of_mem_of_not_mem hz hyg⟩, ne_of_mem_of_not_mem hz hxg⟩
    · simp only [Tree.addrs, List.cons_append, List.append_assoc]
      exact (List.Perm.cons _ List.perm_middle).trans (List.Perm.swap _ _ _)
    · intro z hz1 hz2
      simp only [Tree.addrs, List.mem_cons, List.mem_append, not_or] at hz1
      refine m06.heap z ?_
      simp only [List.mem_append, List.mem_singleton, not_or]
      exact ⟨⟨⟨⟨⟨hz1.1, hz1.2.1.2.2⟩, hz1.2.1.1⟩, hz2⟩, hz1.2.1.1⟩, hz1.1⟩

/-- The node at the end of a path, as it lies in the store. -/
theorem WF.heap_focus {s : RBT K V} {p : List (Frame K V)} {a : Nat} {c : Color}
    {l r : Tree K V} {k : K} {v : V} (hwf : WF s (plug p (Tree.node a c l k v r))) :
    s.heap a = some ⟨k, v, c, l.ptr s.sentinel, r.ptr s.sentinel, parentOf s.sentinel p⟩ :=
  hwf.unplug.2.1.1

/-- The sentinel as it lies in the store: some BLACK node. -/
theorem WF.heap_sentinel {s : RBT K V} {t : Tree K V} (hwf : WF s t) :
    ∃ n, s.heap s.sentinel = some n ∧ n.c = Color.BLACK := by
  have h := hwf.sent_black
  simp only [RBT.color] at h
  cases hn : s.heap s.sentinel with
  | none => simp [hn] at h
  | some n => exact ⟨n, rfl, by simpa [hn] using h⟩

/-- Reading the colour through the link to a subtree, be it a node or the sentinel. -/
theorem WF.color_ptr {s : RBT K V} {p : List (Frame K V)} {t : Tree K V}
    (hwf : WF s (plug p t)) : s.color (t.ptr s.sentinel) = some t.color := by
  cases t with
  | nil => exact hwf.sent_black
  | node a c l k v r => exact color_of_heap hwf.heap_focus

/-- A subtree at the end of a path is a node exactly when its link is not the sentinel. -/
theorem WF.ptr_ne_sentinel {s : RBT K V} {p : List (Frame K V)} {a : Nat} {c : Color}
    {l r : Tree K V} {k : K} {v : V} (hwf : WF s (plug p (Tree.node a c l k v r))) :
    a ≠ s.sentinel := by
  have h := hwf.unplug.2.2.2.1
  simp only [Tree.addrs, List.mem_cons, not_or] at h
  exact fun e => h.1 e.symm

/-- Assignment to `_c` of the node at the end of a path. -/
theorem setColor_focus {s : RBT K V} {p : List (Frame K V)} {a : Nat} {c : Color}
    {l r : Tree K V} {k : K} {v : V} (hwf : WF s (plug p (Tree.node a c l k v r)))
    (c1 : Color) :
    ∃ s1, s.setColor a c1 = some s1 ∧
      Evolves s (plug p (Tree.node a c l k v r)) s1 (plug p (Tree.node a c1 l k v r)) := by
  obtain ⟨hpath, hsub, hnd, hst, hsp⟩ := hwf.unplug
  simp only [Rep, ptr_node] at hsub hpath
  obtain ⟨ha, hl, hr⟩ := hsub
  simp only [Tree.addrs, List.cons_append, List.nodup_cons, List.mem_append, not_or] at hnd
  obtain ⟨⟨⟨hal, har⟩, hap⟩, -⟩ := hnd
  obtain ⟨s1, e1, h1a, r1, m1⟩ := setColor_spec ha c1
  refine ⟨s1, e1, WF.replace hwf m1.sentinel m1.size m1.next ?_ ?_ (List.Perm.refl _) ?_⟩
  · rw [r1, ptr_node]
    exact RepPath.congrPath (fun z hz => m1.heap z (by simpa using ne_of_mem_of_not_mem hz hap)) hpath
  · exact ⟨h1a, Rep.congr (fun z hz => m1.heap z (by simpa using ne_of_mem_of_not_mem hz hal)) hl,
      Rep.congr (fun z hz => m1.heap z (by simpa using ne_of_mem_of_not_mem hz har)) hr⟩
  · intro z hz _
    simp only [Tree.addrs, List.mem_cons, not_or] at hz
    exact m1.heap z (by simpa using hz.1)

/-- Assignment of BLACK to `_c` through the link to a subtree, be it a node or the
sentinel. -/
theorem setBlack_ptr {s : RBT K V} {p : List (Frame K V)} {t : Tree K V}
    (hwf : WF s (plug p t)) :
    ∃ s1, s.setColor (t.ptr s.sentinel) Color.BLACK = some s1 ∧
      Evolves s (plug p t) s1 (plug p (t.setColor Color.BLACK)) := by
  cases t with
  | node a c l k v r => exact setColor_focus hwf Color.BLACK
  | nil =>
    obtain ⟨n, hn, hc⟩ := hwf.heap_sentinel
    refine ⟨s.wr s.sentinel n, ?_, ?_⟩
    · obtain ⟨k, v, c, l, r, par⟩ := n
      simp only at hc
      subst hc
      simp [RBT.setColor, hn]
    · have hh : ∀ a, (s.wr s.sentinel n).heap a = s.heap a := by
        intro a
        by_cases h : a = s.sentinel
        · subst h; simp [hn]
        · simp [h]
      have hp := hwf.unplug
      refine WF.replace hwf rfl rfl rfl ?_ ?_ (List.Perm.refl _) (fun a _ _ => hh a)
      · exact RepPath.congrPath (fun a _ => hh a) hp.1
      · trivial

theorem WF.parent_focus {s : RBT K V} {p : List (Frame K V)} {a : Nat} {c : Color}
    {l r : Tree K V} {k : K} {v : V} (hwf : WF s (plug p (Tree.node a c l k v r))) :
    s.parent a = some (parentOf s.sentinel p) :=
  parent_of_heap hwf.heap_focus

/-- Cases 1 and 4 of `insert_fixup`, the parent being a left child. -/
theorem insert_fixup_recolor_left {s : RBT K V} {p : List (Frame K V)} {f : Frame K V}
    {ga ua n : Nat} {gc uc nc : Color} {gk uk nk : K} {gv uv nv : V} {ul ur nl nr : Tree K V}
    (hwf : WF s (plug (f :: Frame.lft ga gc gk gv (Tree.node ua uc ul uk uv ur) :: p)
      (Tree.node n nc nl nk nv nr))) :
    ∃ s1, insert_fixup_recolor s n ua = some (s1, ga) ∧
      Evolves s (plug (f :: Frame.lft ga gc gk gv (Tree.node ua uc ul uk uv ur) :: p)
          (Tree.node n nc nl nk nv nr))
        s1 (plug p (Tree.node ga Color.RED ((f.setColor Color.BLACK).fill
          (Tree.node n nc nl nk nv nr)) gk gv (Tree.node ua Color.BLACK ul uk uv ur))) := by
  cases f with
  | lft fa fc fk fv fr =>
    have hp0 := hwf.parent_focus
    obtain ⟨s1, e1, ev1⟩ := setColor_focus (p := Frame.lft ga gc gk gv _ :: p) (a := fa) hwf
      Color.BLACK
    obtain ⟨s2, e2, ev2⟩ := setColor_focus (p := Frame.rgt ga gc _ gk gv :: p) (a := ua) ev1.wf
      Color.BLACK
    have hp1 := ev2.wf.parent_focus (p := Frame.lft fa _ fk fv fr :: Frame.lft ga gc gk gv _ :: p)
      (a := n)
    have hp2 := ev2.wf.parent_focus (p := Frame.lft ga gc gk gv _ :: p) (a := fa)
    obtain ⟨s3, e3, ev3⟩ := setColor_focus (p := p) (a := ga) ev2.wf Color.RED
    have hp3 := ev3.wf.parent_focus (p := Frame.lft fa _ fk fv fr :: Frame.lft ga _ gk gv _ :: p)
      (a := n)
    have hp4 := ev3.wf.parent_focus (p := Frame.lft ga _ gk gv _ :: p) (a := fa)
    simp only [parentOf, Frame.addr] at hp0 hp1 hp2 hp3 hp4
    refine ⟨s3, ?_, (ev1.trans ev2).trans ev3⟩
    simp only [insert_fixup_recolor, hp0, andThen_some, e1, e2, hp1, hp2, e3, hp3, hp4]
  | rgt fa fc fl fk fv =>
    have hp0 := hwf.parent_focus
    obtain ⟨s1, e1, ev1⟩ := setColor_focus (p := Frame.lft ga gc gk gv _ :: p) (a := fa) hwf
      Color.BLACK
    obtain ⟨s2, e2, ev2⟩ := setColor_focus (p := Frame.rgt ga gc _ gk gv :: p) (a := ua) ev1.wf
      Color.BLACK
    have hp1 := ev2.wf.parent_focus (p := Frame.rgt fa _ fl fk fv :: Frame.lft ga gc gk gv _ :: p)
      (a := n)
    have hp2 := ev2.wf.parent_focus (p := Frame.lft ga gc gk gv _ :: p) (a := fa)
    obtain ⟨s3, e3, ev3⟩ := setColor_focus (p := p) (a := ga) ev2.wf Color.RED
    have hp3 := ev3.wf.parent_focus (p := Frame.rgt fa _ fl fk fv :: Frame.lft ga _ gk gv _ :: p)
      (a := n)
    have hp4 := ev3.wf.parent_focus (p := Frame.lft ga _ gk gv _ :: p) (a := fa)
    simp only [parentOf, Frame.addr] at hp0 hp1 hp2 hp3 hp4
    refine ⟨s3, ?_, (ev1.trans ev2).trans ev3⟩
    simp only [insert_fixup_recolor, hp0, andThen_some, e1, e2, hp1, hp2, e3, hp3, hp4]

/-- The root of a subtree under a frame is not the node on the other side. -/
theorem WF.ne_sib_ptr {s : RBT K V} {p : List (Frame K V)} {f : Frame K V} {a : Nat}
    {c : Color} {l r : Tree K V} {k : K} {v : V}
    (hwf : WF s (plug (f :: p) (Tree.node a c l k v r))) : a ≠ f.sib.ptr s.sentinel := by
  obtain ⟨-, -, hnd, hst, -⟩ := hwf.unplug
  simp only [Tree.addrs, pathAddrs, List.cons_append, List.nodup_cons, List.mem_cons,
    List.mem_append, not_or] at hnd hst
  rcases ptr_eq_or_mem s.sentinel f.sib with h | h
  · rw [h]; exact fun e => hst.1 e.symm
  · exact fun e => hnd.1.2.2.1 (e ▸ h)

/-- Cases 1 and 4 of `insert_fixup`, the parent being a right child. -/
theorem insert_fixup_recolor_right {s : RBT K V} {p : List (Frame K V)} {f : Frame K V}
    {ga ua n : Nat} {gc uc nc : Color} {gk uk nk : K} {gv uv nv : V} {ul ur nl nr : Tree K V}
    (hwf : WF s (plug (f :: Frame.rgt ga gc (Tree.node ua uc ul uk uv ur) gk gv :: p)
      (Tree.node n nc nl nk nv nr))) :
    ∃ s1, insert_fixup_recolor s n ua = some (s1, ga) ∧
      Evolves s (plug (f :: Frame.rgt ga gc (Tree.node ua uc ul uk uv ur) gk gv :: p)
          (Tree.node n nc nl nk nv nr))
        s1 (plug p (Tree.node ga Color.RED (Tree.node ua Color.BLACK ul uk uv ur) gk gv
          ((f.setColor Color.BLACK).fill (Tree.node n nc nl nk nv nr)))) := by
  cases f with
  | lft fa fc fk fv fr =>
    have hp0 := hwf.parent_focus
    obtain ⟨s1, e1, ev1⟩ := setColor_focus (p := Frame.rgt ga gc _ gk gv :: p) (a := fa) hwf
      Color.BLACK
    obtain ⟨s2, e2, ev2⟩ := setColor_focus (p := Frame.lft ga gc gk gv _ :: p) (a := ua) ev1.wf
      Color.BLACK
    have hp1 := ev2.wf.parent_focus (p := Frame.lft fa _ fk fv fr :: Frame.rgt ga gc _ gk gv :: p)
      (a := n)
    have hp2 := ev2.wf.parent_focus (p := Frame.rgt ga gc _ gk gv :: p) (a := fa)
    obtain ⟨s3, e3, ev3⟩ := setColor_focus (p := p) (a := ga) ev2.wf Color.RED
    have hp3 := ev3.wf.parent_focus (p := Frame.lft fa _ fk fv fr :: Frame.rgt ga _ _ gk gv :: p)
      (a := n)
    have hp4 := ev3.wf.parent_focus (p := Frame.rgt ga _ _ gk gv :: p) (a := fa)
    simp only [parentOf, Frame.addr] at hp0 hp1 hp2 hp3 hp4
    refine ⟨s3, ?_, (ev1.trans ev2).trans ev3⟩
    simp only [insert_fixup_recolor, hp0, andThen_some, e1, e2, hp1, hp2, e3, hp3, hp4]
  | rgt fa fc fl fk fv =>
    have hp0 := hwf.parent_focus
    obtain ⟨s1, e1, ev1⟩ := setColor_focus (p := Frame.rgt ga gc _ gk gv :: p) (a := fa) hwf
      Color.BLACK
    obtain ⟨s2, e2, ev2⟩ := setColor_focus (p := Frame.lft ga gc gk gv _ :: p) (a := ua) ev1.wf
      Color.BLACK
    have hp1 := ev2.wf.parent_focus (p := Frame.rgt fa _ fl fk fv :: Frame.rgt ga gc _ gk gv :: p)
      (a := n)
    have hp2 := ev2.wf.parent_focus (p := Frame.rgt ga gc _ gk gv :: p) (a := fa)
    obtain ⟨s3, e3, ev3⟩ := setColor_focus (p := p) (a := ga) ev2.wf Color.RED
    have hp3 := ev3.wf.parent_focus (p := Frame.rgt fa _ fl fk fv :: Frame.rgt ga _ _ gk gv :: p)
      (a := n)
    have hp4 := ev3.wf.parent_focus (p := Frame.rgt ga _ _ gk gv :: p) (a := fa)
    simp only [parentOf, Frame.addr] at hp0 hp1 hp2 hp3 hp4
    refine ⟨s3, ?_, (ev1.trans ev2).trans ev3⟩
    simp only [insert_fixup_recolor, hp0, andThen_some, e1, e2, hp1, hp2, e3, hp3, hp4]

/-- The body of the loop of `insert_fixup` for a parent that is a left child does on
the store what `insCase` does on trees; after a rotation the parent of the new `node`
is BLACK. -/
theorem insert_fixup_left_spec {s : RBT K V} {p : List (Frame K V)} {f : Frame K V}
    {ga n : Nat} {gc nc : Color} {gk nk : K} {gv nv : V} {u nl nr : Tree K V}
    (hwf : WF s (plug (f :: Frame.lft ga gc gk gv u :: p) (Tree.node n nc nl nk nv nr))) :
    ∃ s1 n1 t1, insert_fixup_left s n = some (s1, n1) ∧
      Evolves s (plug (f :: Frame.lft ga gc gk gv u :: p) (Tree.node n nc nl nk nv nr))
        s1 (plug p t1) ∧
      ((insCase f (Frame.lft ga gc gk gv u) (Tree.node n nc nl nk nv nr) = Sum.inl t1 ∧
          ∃ l1 k1 v1 r1, t1 = Tree.node n1 Color.RED l1 k1 v1 r1) ∨
        (insCase f (Frame.lft ga gc gk gv u) (Tree.node n nc nl nk nv nr) = Sum.inr t1 ∧
          ∃ pa, s1.parent n1 = some pa ∧ s1.color pa = some Color.BLACK)) := by
  cases f with
  | rgt fa fc fl fk fv =>
    have hp0 := hwf.parent_focus
    have hp0f := WF.parent_focus (p := Frame.lft ga gc gk gv u :: p) (a := fa) hwf
    have hgr := right_of_heap (WF.heap_focus (p := p) (a := ga) hwf)
    have huc := WF.color_ptr (p := Frame.rgt ga gc _ gk gv :: p) (t := u) hwf
    simp only [parentOf, Frame.addr] at hp0 hp0f hgr
    by_cases hu : u.color = Color.RED
    · -- case 1
      cases u with
      | nil => simp [Tree.color] at hu
      | node ua uc ul uk uv ur =>
        simp only [ptr_node, Tree.color] at huc hgr hu
        obtain ⟨s1, e1, ev1⟩ := insert_fixup_recolor_left hwf
        refine ⟨s1, ga, _, ?_, ev1, Or.inl ⟨?_, _, _, _, _, rfl⟩⟩
        · simp only [insert_fixup_left, hp0, andThen_some, hp0f, hgr, huc, hu, if_true, e1]
        · simp [insCase, Tree.color, hu, Tree.setColor]
    · -- case 2, then case 3
      have hfr : s.right fa = some n :=
        right_of_heap (WF.heap_focus (p := Frame.lft ga gc gk gv u :: p) (a := fa) hwf)
      obtain ⟨s1, e1, ev1⟩ := left_rotate_spec (p := Frame.lft ga gc gk gv u :: p) (x := fa)
        (y := n) hwf
      have hq1 := ev1.wf.parent_focus (p := Frame.lft n nc nk nv nr :: Frame.lft ga gc gk gv u :: p)
        (a := fa)
      obtain ⟨s2, e2, ev2⟩ := setColor_focus (p := Frame.lft ga gc gk gv u :: p) (a := n) ev1.wf
        Color.BLACK
      have hq2 := ev2.wf.parent_focus (p := Frame.lft n _ nk nv nr :: Frame.lft ga gc gk gv u :: p)
        (a := fa)
      have hq3 := ev2.wf.parent_focus (p := Frame.lft ga gc gk gv u :: p) (a := n)
      obtain ⟨s3, e3, ev3⟩ := setColor_focus (p := p) (a := ga) ev2.wf Color.RED
      have hq4 := ev3.wf.parent_focus (p := Frame.lft n _ nk nv nr :: Frame.lft ga _ gk gv u :: p)
        (a := fa)
      have hq5 := ev3.wf.parent_focus (p := Frame.lft ga _ gk gv u :: p) (a := n)
      obtain ⟨s4, e4, ev4⟩ := right_rotate_spec (p := p) (x := ga) (y := n) ev3.wf
      have hq6 := ev4.wf.parent_focus (p := Frame.lft n _ nk nv _ :: p) (a := fa)
      have hq7 := color_of_heap (ev4.wf.heap_focus (p := p) (a := n))
      simp only [parentOf, Frame.addr] at hq1 hq2 hq3 hq4 hq5 hq6
      refine ⟨s4, fa, _, ?_, ((ev1.trans ev2).trans ev3).trans ev4, Or.inr ⟨?_, n, hq6, hq7⟩⟩
      · simp only [insert_fixup_left, hp0, andThen_some, hp0f, hgr, huc, hu, if_false,
          hfr, if_true, e1, hq1, e2, hq2, hq3, e3, hq4, hq5, e4]
      · simp [insCase, hu]
  | lft fa fc fk fv fr =>
    have hp0 := hwf.parent_focus
    have hp0f := WF.parent_focus (p := Frame.lft ga gc gk gv u :: p) (a := fa) hwf
    have hgr := right_of_heap (WF.heap_focus (p := p) (a := ga) hwf)
    have huc := WF.color_ptr (p := Frame.rgt ga gc _ gk gv :: p) (t := u) hwf
    simp only [parentOf, Frame.addr] at hp0 hp0f hgr
    by_cases hu : u.color = Color.RED
    · -- case 1
      cases u with
      | nil => simp [Tree.color] at hu
      | node ua uc ul uk uv ur =>
        simp only [ptr_node, Tree.color] at huc hgr hu
        obtain ⟨s1, e1, ev1⟩ := insert_fixup_recolor_left hwf
        refine ⟨s1, ga, _, ?_, ev1, Or.inl ⟨?_, _, _, _, _, rfl⟩⟩
        · simp only [insert_fixup_left, hp0, andThen_some, hp0f, hgr, huc, hu, if_true, e1]
        · simp [insCase, Tree.color, hu, Tree.setColor]
    · -- case 3
      have hfr : s.right fa = some (fr.ptr s.sentinel) :=
        right_of_heap (WF.heap_focus (p := Frame.lft ga gc gk gv u :: p) (a := fa) hwf)
      have hne : n ≠ fr.ptr s.sentinel := hwf.ne_sib_ptr
      obtain ⟨s2, e2, ev2⟩ := setColor_focus (p := Frame.lft ga gc gk gv u :: p) (a := fa) hwf
        Color.BLACK
      have hq2 := ev2.wf.parent_focus (p := Frame.lft fa _ fk fv fr :: Frame.lft ga gc gk gv u :: p)
        (a := n)
      have hq3 := ev2.wf.parent_focus (p := Frame.lft ga gc gk gv u :: p) (a := fa)
      obtain ⟨s3, e3, ev3⟩ := setColor_focus (p := p) (a := ga) ev2.wf Color.RED
      have hq4 := ev3.wf.parent_focus (p := Frame.lft fa _ fk fv fr :: Frame.lft ga _ gk gv u :: p)
        (a := n)
      have hq5 := ev3.wf.parent_focus (p := Frame.lft ga _ gk gv u :: p) (a := fa)
      obtain ⟨s4, e4, ev4⟩ := right_rotate_spec (p := p) (x := ga) (y := fa) ev3.wf
      have hq6 := ev4.wf.parent_focus (p := Frame.lft fa _ fk fv _ :: p) (a := n)
      have hq7 := color_of_heap (ev4.wf.heap_focus (p := p) (a := fa))
      simp only [parentOf, Frame.addr] at hq2 hq3 hq4 hq5 hq6
      refine ⟨s4, n, _, ?_, (ev2.trans ev3).trans ev4, Or.inr ⟨?_, fa, hq6, hq7⟩⟩
      · simp only [insert_fixup_left, hp0, andThen_some, hp0f, hgr, huc, hu, if_false,
          hfr, hne, e2, hq2, hq3, e3, hq4, hq5, e4]
      · simp [insCase, hu]

/-- The body of the loop of `insert_fixup` for a parent that is a right child does on
the store what `insCase` does on trees; after a rotation the parent of the new `node`
is BLACK. -/
theorem insert_fixup_right_spec {s : RBT K V} {p : List (Frame K V)} {f : Frame K V}
    {ga n : Nat} {gc nc : Color} {gk nk : K} {gv nv : V} {u nl nr : Tree K V}
    (hwf : WF s (plug (f :: Frame.rgt ga gc u gk gv :: p) (Tree.node n nc nl nk nv nr))) :
    ∃ s1 n1 t1, insert_fixup_right s n = some (s1, n1) ∧
      Evolves s (plug (f :: Frame.rgt ga gc u gk gv :: p) (Tree.node n nc nl nk nv nr))
        s1 (plug p t1) ∧
      ((insCase f (Frame.rgt ga gc u gk gv) (Tree.node n nc nl nk nv nr) = Sum.inl t1 ∧
          ∃ l1 k1 v1 r1, t1 = Tree.node n1 Color.RED l1 k1 v1 r1) ∨
        (insCase f (Frame.rgt ga gc u gk gv) (Tree.node n nc nl nk nv nr) = Sum.inr t1 ∧
          ∃ pa, s1.parent n1 = some pa ∧ s1.color pa = some Color.BLACK)) := by
  cases f with
  | lft fa fc fk fv fr =>
    have hp0 := hwf.parent_focus
    have hp0f := WF.parent_focus (p := Frame.rgt ga gc u gk gv :: p) (a := fa) hwf
    have hgl := left_of_heap (WF.heap_focus (p := p) (a := ga) hwf)
    have huc := WF.color_ptr (p := Frame.lft ga gc gk gv _ :: p) (t := u) hwf
    simp only [parentOf, Frame.addr] at hp0 hp0f hgl
    by_cases hu : u.color = Color.RED
    · -- case 4
      cases u with
      | nil => simp [Tree.color] at hu
      | node ua uc ul uk uv ur =>
        simp only [ptr_node, Tree.color] at huc hgl hu
        obtain ⟨s1, e1, ev1⟩ := insert_fixup_recolor_right hwf
        refine ⟨s1, ga, _, ?_, ev1, Or.inl ⟨?_, _, _, _, _, rfl⟩⟩
        · simp only [insert_fixup_right, hp0, andThen_some, hp0f, hgl, huc, hu, if_true, e1]
        · simp [insCase, Tree.color, hu, Tree.setColor]
    · -- case 5, then case 6
      have hfl : s.left fa = some n :=
        left_of_heap (WF.heap_focus (p := Frame.rgt ga gc u gk gv :: p) (a := fa) hwf)
      obtain ⟨s1, e1, ev1⟩ := right_rotate_spec (p := Frame.rgt ga gc u gk gv :: p) (x := fa)
        (y := n) hwf
      have hq1 := ev1.wf.parent_focus (p := Frame.rgt n nc nl nk nv :: Frame.rgt ga gc u gk gv :: p)
        (a := fa)
      obtain ⟨s2, e2, ev2⟩ := setColor_focus (p := Frame.rgt ga gc u gk gv :: p) (a := n) ev1.wf
        Color.BLACK
      have hq2 := ev2.wf.parent_focus (p := Frame.rgt n _ nl nk nv :: Frame.rgt ga gc u gk gv :: p)
        (a := fa)
      have hq3 := ev2.wf.parent_focus (p := Frame.rgt ga gc u gk gv :: p) (a := n)
      obtain ⟨s3, e3, ev3⟩ := setColor_focus (p := p) (a := ga) ev2.wf Color.RED
      have hq4 := ev3.wf.parent_focus (p := Frame.rgt n _ nl nk nv :: Frame.rgt ga _ u gk gv :: p)
        (a := fa)
      have hq5 := ev3.wf.parent_focus (p := Frame.rgt ga _ u gk gv :: p) (a := n)
      obtain ⟨s4, e4, ev4⟩ := left_rotate_spec (p := p) (x := ga) (y := n) ev3.wf
      have hq6 := ev4.wf.parent_focus (p := Frame.rgt n _ _ nk nv :: p) (a := fa)
      have hq7 := color_of_heap (ev4.wf.heap_focus (p := p) (a := n))
      simp only [parentOf, Frame.addr] at hq1 hq2 hq3 hq4 hq5 hq6
      refine ⟨s4, fa, _, ?_, ((ev1.trans ev2).trans ev3).trans ev4, Or.inr ⟨?_, n, hq6, hq7⟩⟩
      · simp only [insert_fixup_right, hp0, andThen_some, hp0f, hgl, huc, hu, if_false,
          hfl, if_true, e1, hq1, e2, hq2, hq3, e3, hq4, hq5, e4]
      · simp [insCase, hu]
  | rgt fa fc fl fk fv =>
    have hp0 := hwf.parent_focus
    have hp0f := WF.parent_focus (p := Frame.rgt ga gc u gk gv :: p) (a := fa) hwf
    have hgl := left_of_heap (WF.heap_focus (p := p) (a := ga) hwf)
    have huc := WF.color_ptr (p := Frame.lft ga gc gk gv _ :: p) (t := u) hwf
    simp only [parentOf, Frame.addr] at hp0 hp0f hgl
    by_cases hu : u.color = Color.RED
    · -- case 4
      cases u with
      | nil => simp [Tree.color] at hu
      | node ua uc ul uk uv ur =>
        simp only [ptr_node, Tree.color] at huc hgl hu
        obtain ⟨s1, e1, ev1⟩ := insert_fixup_recolor_right hwf
        refine ⟨s1, ga, _, ?_, ev1, Or.inl ⟨?_, _, _, _, _, rfl⟩⟩
        · simp only [insert_fixup_right, hp0, andThen_some, hp0f, hgl, huc, hu, if_true, e1]
        · simp [insCase, Tree.color, hu, Tree.setColor]
    · -- case 6
      have hfl : s.left fa = some (fl.ptr s.sentinel) :=
        left_of_heap (WF.heap_focus (p := Frame.rgt ga gc u gk gv :: p) (a := fa) hwf)
      have hne : n ≠ fl.ptr s.sentinel := hwf.ne_sib_ptr
      obtain ⟨s2, e2, ev2⟩ := setColor_focus (p := Frame.rgt ga gc u gk gv :: p) (a := fa) hwf
        Color.BLACK
      have hq2 := ev2.wf.parent_focus (p := Frame.rgt fa _ fl fk fv :: Frame.rgt ga gc u gk gv :: p)
        (a := n)
      have hq3 := ev2.wf.parent_focus (p := Frame.rgt ga gc u gk gv :: p) (a := fa)
      obtain ⟨s3, e3, ev3⟩ := setColor_focus (p := p) (a := ga) ev2.wf Color.RED
      have hq4 := ev3.wf.parent_focus (p := Frame.rgt fa _ fl fk fv :: Frame.rgt ga _ u gk gv :: p)
        (a := n)
      have hq5 := ev3.wf.parent_focus (p := Frame.rgt ga _ u gk gv :: p) (a := fa)
      obtain ⟨s4, e4, ev4⟩ := left_rotate_spec (p := p) (x := ga) (y := fa) ev3.wf
      have hq6 := ev4.wf.parent_focus (p := Frame.rgt fa _ _ fk fv :: p) (a := n)
      have hq7 := color_of_heap (ev4.wf.heap_focus (p := p) (a := fa))
      simp only [parentOf, Frame.addr] at hq2 hq3 hq4 hq5 hq6
      refine ⟨s4, n, _, ?_, (ev2.trans ev3).trans ev4, Or.inr ⟨?_, fa, hq6, hq7⟩⟩
      · simp only [insert_fixup_right, hp0, andThen_some, hp0f, hgl, huc, hu, if_false,
          hfl, hne, e2, hq2, hq3, e3, hq4, hq5, e4]
      · simp [insCase, hu]

theorem Color.eq_black_of_ne_red {c : Color} (h : c ≠ Color.RED) : c = Color.BLACK := by
  cases c
  · exact absurd rfl h
  · rfl

@[simp] theorem addr_lft (a : Nat) (c : Color) (k : K) (v : V) (r : Tree K V) :
    (Frame.lft a c k v r).addr = a := rfl

@[simp] theorem addr_rgt (a : Nat) (c : Color) (l : Tree K V) (k : K) (v : V) :
    (Frame.rgt a c l k v).addr = a := rfl

theorem rootBlack_tail {f g : Frame K V} {p : List (Frame K V)} (h : rootBlack (f :: g :: p)) :
    rootBlack p := by
  cases p with
  | nil => trivial
  | cons a p => exact h

/-- Leaving the loop of `insert_fixup`: the parent of `node` is BLACK and the root is
coloured BLACK. -/
theorem insert_fixup_exit {s : RBT K V} {t : Tree K V} {c pa : Nat} (hwf : WF s t)
    (hpar : s.parent c = some pa) (hcol : s.color pa = some Color.BLACK) (fuel : Nat) :
    ∃ s1, insert_fixup (fuel + 1) s c = some s1 ∧ Evolves s t s1 (t.setColor Color.BLACK) := by
  obtain ⟨s1, e1, ev1⟩ := setBlack_ptr (p := []) (t := t) hwf
  refine ⟨s1, ?_, ev1⟩
  rw [← hwf.root] at e1
  simp only [insert_fixup, hpar, andThen_some, hcol]
  simpa using e1

/-- `insert_fixup` started at a node at the end of a path does on the store what
`insFix` does on trees, given fuel for the length of the path. -/
theorem insert_fixup_spec : ∀ (fuel : Nat) (p : List (Frame K V)) (s : RBT K V) (n : Nat)
    (nc : Color) (nl : Tree K V) (nk : K) (nv : V) (nr : Tree K V),
    WF s (plug p (Tree.node n nc nl nk nv nr)) → rootBlack p → p.length < fuel →
    ∃ s1, insert_fixup fuel s n = some s1 ∧
      Evolves s (plug p (Tree.node n nc nl nk nv nr)) s1 (insFix p (Tree.node n nc nl nk nv nr))
  | 0, _, _, _, _, _, _, _, _, _, _, hlen => absurd hlen (Nat.not_lt_zero _)
  | fuel + 1, [], s, n, nc, nl, nk, nv, nr, hwf, _, _ => by
    have hp := hwf.parent_focus (p := [])
    have hc := hwf.sent_black
    simpa [insFix] using insert_fixup_exit hwf hp hc fuel
  | fuel + 1, [f], s, n, nc, nl, nk, nv, nr, hwf, hrb, _ => by
    have hp := hwf.parent_focus
    have hc : s.color f.addr = some Color.BLACK := by
      have h := WF.color_ptr (p := []) (t := f.fill _) hwf
      cases f <;> simpa [Frame.fill, Tree.color, rootBlack, Frame.color, Frame.addr] using
        (show _ = some Color.BLACK from hrb ▸ h)
    simpa [insFix] using insert_fixup_exit hwf hp hc fuel
  | fuel + 1, f :: g :: p, s, n, nc, nl, nk, nv, nr, hwf, hrb, hlen => by
    have hp := hwf.parent_focus
    simp only [parentOf] at hp
    have hc : s.color f.addr = some f.color := by
      have h := WF.color_ptr (p := g :: p) (t := f.fill _) hwf
      cases f <;> simpa [Frame.fill, Tree.color, Frame.color, Frame.addr] using h
    by_cases hf : f.color = Color.RED
    · have hpf : s.parent f.addr = some g.addr := by
        cases f <;> exact WF.parent_focus (p := g :: p) hwf
      have hfuel : ∃ fuel1, fuel = fuel1 + 1 := by
        cases fuel with
        | zero => simp at hlen
        | succ m => exact ⟨m, rfl⟩
      have key : ∃ s1 n1 t1, insert_fixup (fuel + 1) s n = insert_fixup fuel s1 n1 ∧
          Evolves s (plug (f :: g :: p) (Tree.node n nc nl nk nv nr)) s1 (plug p t1) ∧
          ((insCase f g (Tree.node n nc nl nk nv nr) = Sum.inl t1 ∧
              ∃ l1 k1 v1 r1, t1 = Tree.node n1 Color.RED l1 k1 v1 r1) ∨
            (insCase f g (Tree.node n nc nl nk nv nr) = Sum.inr t1 ∧
              ∃ pa, s1.parent n1 = some pa ∧ s1.color pa = some Color.BLACK)) := by
        cases g with
        | lft ga gc gk gv u =>
          have hgl : s.left ga = some f.addr := by
            cases f <;> exact left_of_heap (WF.heap_focus (p := p) (a := ga) hwf)
          obtain ⟨s1, n1, t1, e, ev, hcase⟩ := insert_fixup_left_spec hwf
          refine ⟨s1, n1, t1, ?_, ev, hcase⟩
          simp only [addr_lft, addr_rgt] at hpf
          simp only [insert_fixup, hp, andThen_some, hc, hf, if_true, hpf, hgl, e]
        | rgt ga gc u gk gv =>
          have hgl : s.left ga = some (u.ptr s.sentinel) := by
            cases f <;> exact left_of_heap (WF.heap_focus (p := p) (a := ga) hwf)
          have hne : f.addr ≠ u.ptr s.sentinel := by
            cases f <;> exact WF.ne_sib_ptr (p := p) (f := Frame.rgt ga gc u gk gv) hwf
          obtain ⟨s1, n1, t1, e, ev, hcase⟩ := insert_fixup_right_spec hwf
          refine ⟨s1, n1, t1, ?_, ev, hcase⟩
          simp only [addr_lft, addr_rgt] at hpf
          simp only [insert_fixup, hp, andThen_some, hc, hf, if_true, hpf, hgl, hne, if_false, e]
      obtain ⟨s1, n1, t1, e, ev, hcase⟩ := key
      rw [e]
      rcases hcase with ⟨hins, l1, k1, v1, r1, rfl⟩ | ⟨hins, pa, hpa, hcol⟩
      · obtain ⟨s2, e2, ev2⟩ := insert_fixup_spec fuel p s1 n1 Color.RED l1 k1 v1 r1 ev.wf
          (rootBlack_tail hrb) (by simp only [List.length_cons] at hlen; omega)
        refine ⟨s2, e2, ev.trans ?_⟩
        simpa [insFix, hf, hins] using ev2
      · obtain ⟨fuel1, rfl⟩ := hfuel
        obtain ⟨s2, e2, ev2⟩ := insert_fixup_exit ev.wf hpa hcol fuel1
        refine ⟨s2, e2, ev.trans ?_⟩
        simpa [insFix, hf, hins] using ev2
    · have hc2 : s.color f.addr = some Color.BLACK := by
        rw [hc, Color.eq_black_of_ne_red hf]
      obtain ⟨s1, e1, ev1⟩ := insert_fixup_exit hwf hp hc2 fuel
      refine ⟨s1, e1, ?_⟩
      simpa [insFix, hf] using ev1

/-- The descent only moves the place: the whole tree stays the same. -/
theorem plug_search (comp : K → K → Bool) (k : K) : ∀ (t : Tree K V) (p : List (Frame K V)),
    plug (search comp k p t).1 (search comp k p t).2 = plug p t
  | Tree.nil, p => rfl
  | Tree.node a c l x v r, p => by
    simp only [search]
    split
    · exact plug_search comp k l _
    · split
      · exact plug_search comp k r _
      · rfl

/-- The loop of `inner_find` does on the store what `search` does on trees. -/
theorem inner_find_loop_spec (comp : K → K → Bool) (k : K) {s : RBT K V} :
    ∀ (fuel : Nat) (t : Tree K V) (p : List (Frame K V)), WF s (plug p t) → t.height < fuel →
      inner_find_loop comp k fuel s (t.ptr s.sentinel) (parentOf s.sentinel p) =
        some (landing s.sentinel (search comp k p t).1 (search comp k p t).2)
  | 0, _, _, _, h => absurd h (Nat.not_lt_zero _)
  | fuel + 1, Tree.nil, p, _, _ => by
    simp [inner_find_loop, search, landing]
  | fuel + 1, Tree.node a c l x v r, p, hwf, hh => by
    have ha := hwf.heap_focus
    have hne := hwf.ptr_ne_sentinel
    simp only [Tree.height] at hh
    simp only [inner_find_loop, ptr_node, ne_eq, hne, not_false_eq_true, if_true,
      key_of_heap ha, andThen_some, left_of_heap ha, right_of_heap ha, search]
    split
    · exact inner_find_loop_spec comp k fuel l (Frame.lft a c x v r :: p) hwf (by omega)
    · split
      · exact inner_find_loop_spec comp k fuel r (Frame.rgt a c l x v :: p) hwf (by omega)
      · rfl

theorem height_le_length_addrs : ∀ t : Tree K V, t.height ≤ t.addrs.length
  | Tree.nil => Nat.le_refl _
  | Tree.node a c l k v r => by
    have h1 := height_le_length_addrs l
    have h2 := height_le_length_addrs r
    simp only [Tree.height, Tree.addrs, List.length_cons, List.length_append]
    omega

/-- Fewer nodes are in use than addresses were handed out. -/
theorem WF.length_addrs_lt {s : RBT K V} {t : Tree K V} (hwf : WF s t) :
    t.addrs.length + 1 ≤ s.next := by
  have h1 : (s.sentinel :: t.addrs).Nodup := List.nodup_cons.2 ⟨hwf.sent_notin, hwf.nodup⟩
  have h2 : (s.sentinel :: t.addrs).toFinset ⊆ Finset.range s.next := by
    intro a ha
    rw [List.mem_toFinset, List.mem_cons] at ha
    rw [Finset.mem_range]
    rcases ha with rfl | ha
    · exact hwf.sent_lt
    · exact hwf.lt_next a ha
  have h3 := Finset.card_le_card h2
  rw [List.toFinset_card_of_nodup h1, Finset.card_range] at h3
  simpa using h3

/-- `inner_find` on a well-formed state: the fuel suffices and the result is the place
where `search` stops. -/
theorem inner_find_spec (comp : K → K → Bool) (k : K) {s : RBT K V} {t : Tree K V}
    (hwf : WF s t) :
    inner_find comp s k = some (landing s.sentinel (search comp k [] t).1 (search comp k [] t).2) := by
  have h := inner_find_loop_spec comp k s.next t [] hwf (by
    have h1 := height_le_length_addrs t
    have h2 := hwf.length_addrs_lt
    omega)
  rw [← hwf.root] at h
  exact h

theorem length_le_pathAddrs : ∀ p : List (Frame K V), p.length ≤ (pathAddrs p).length
  | [] => Nat.le_refl _
  | f :: p => by
    have h := length_le_pathAddrs p
    simp only [pathAddrs, List.length_cons, List.length_append, List.cons_append]
    omega

/-- The path to a place is shorter than the number of addresses handed out. -/
theorem WF.path_length_lt {s : RBT K V} {p : List (Frame K V)} {t : Tree K V}
    (hwf : WF s (plug p t)) : p.length + 1 ≤ s.next := by
  have h1 := hwf.length_addrs_lt
  have h2 := (addrs_plug p t).length_eq
  have h3 := length_le_pathAddrs p
  simp only [List.length_append] at h2
  omega

@[simp] theorem alloc_fst (s : RBT K V) (n : Node K V) : (s.alloc n).1 = s.next := rfl

/-- Linking a new node below the parent found by the search: the first part of
`inner_insert`. -/
theorem link_spec (comp : K → K → Bool) {s : RBT K V} {p : List (Frame K V)} {n : Nat}
    {k : K} {v : V} {c : Color} {l r par : Nat}
    (hp : RepPath s.heap s.sentinel s.root p s.sentinel)
    (hn : s.heap n = some ⟨k, v, c, l, r, par⟩) (hn1 : n ∉ pathAddrs p)
    (hs : s.sentinel ∉ pathAddrs p) (hnd : (pathAddrs p).Nodup) (hdir : headDir comp k p) :
    ∃ s1, (if parentOf s.sentinel p = s.sentinel then some (s.setRoot n)
        else (s.key n).andThen fun nk =>
          (s.key (parentOf s.sentinel p)).andThen fun pk =>
            if comp nk pk then s.setLeft (parentOf s.sentinel p) n
            else s.setRight (parentOf s.sentinel p) n) = some s1 ∧
      RepPath s1.heap s.sentinel s1.root p n ∧ Mod s s1 (pathAddrs p) := by
  cases p with
  | nil =>
    refine ⟨s.setRoot n, by simp [parentOf], ?_, rfl, rfl, rfl, fun _ _ => rfl⟩
    simp [RepPath]
  | cons f p =>
    cases f with
    | lft a c x w r =>
      simp only [pathAddrs, Frame.addr, Frame.sib, List.cons_append, List.mem_cons,
        List.mem_append, not_or, List.nodup_cons, List.nodup_append] at hn1 hs hnd
      obtain ⟨ha, hr, hp2⟩ := hp
      simp only [headDir] at hdir
      refine ⟨s.wr a ⟨x, w, c, n, r.ptr s.sentinel, parentOf s.sentinel p⟩, ?_, ?_, rfl, rfl,
        rfl, ?_⟩
      · simp [parentOf, Frame.addr, Ne.symm hs.1, key_of_heap hn, key_of_heap ha, hdir,
          RBT.setLeft, ha]
      · refine ⟨by simp, Rep.congr ?_ hr, RepPath.congrPath ?_ hp2⟩
        · intro y hy
          have : y ≠ a := by rintro rfl; exact hnd.1.1 hy
          simp [this]
        · intro y hy
          have : y ≠ a := by rintro rfl; exact hnd.1.2 hy
          simp [this]
      · intro y hy
        simp only [pathAddrs, Frame.addr, Frame.sib, List.cons_append, List.mem_cons,
          List.mem_append, not_or] at hy
        simp [hy.1]
    | rgt a c l x w =>
      simp only [pathAddrs, Frame.addr, Frame.sib, List.cons_append, List.mem_cons,
        List.mem_append, not_or, List.nodup_cons, List.nodup_append] at hn1 hs hnd
      obtain ⟨ha, hr, hp2⟩ := hp
      simp only [headDir] at hdir
      refine ⟨s.wr a ⟨x, w, c, l.ptr s.sentinel, n, parentOf s.sentinel p⟩, ?_, ?_, rfl, rfl,
        rfl, ?_⟩
      · simp [parentOf, Frame.addr, Ne.symm hs.1, key_of_heap hn, key_of_heap ha, hdir,
          RBT.setRight, ha]
      · refine ⟨by simp, Rep.congr ?_ hr, RepPath.congrPath ?_ hp2⟩
        · intro y hy
          have : y ≠ a := by rintro rfl; exact hnd.1.1 hy
          simp [this]
        · intro y hy
          have : y ≠ a := by rintro rfl; exact hnd.1.2 hy
          simp [this]
      · intro y hy
        simp only [pathAddrs, Frame.addr, Frame.sib, List.cons_append, List.mem_cons,
          List.mem_append, not_or] at hy
        simp [hy.1]

/-- `inner_insert` below the parent of an empty place: a RED node with the new key and
value is linked in there at a fresh address, and `insert_fixup` is run from it. -/
theorem inner_insert_spec (comp : K → K → Bool) {s : RBT K V} {p : List (Frame K V)} (k : K)
    (v : V) (hwf : WF s (plug p Tree.nil)) (hdir : headDir comp k p) (hrb : rootBlack p) :
    ∃ s1, inner_insert comp s k v (parentOf s.sentinel p) = some s1 ∧
      WF s1 (insFix p (Tree.node s.next Color.RED Tree.nil k v Tree.nil)) ∧
      s1.sentinel = s.sentinel ∧ s1.size = s.size ∧ s1.next = s.next + 1 ∧
      (∀ a, a ∉ (plug p Tree.nil).addrs → a ≠ s.next → s1.heap a = s.heap a) := by
  obtain ⟨hpath, -, hnd, -, hsp⟩ := hwf.unplug
  simp only [Tree.addrs, List.nil_append, ptr_nil] at hnd
  have hlt : ∀ a ∈ pathAddrs p, a < s.next := fun a ha =>
    hwf.lt_next a (mem_addrs_plug.2 (Or.inr ha))
  have hnp : s.next ∉ pathAddrs p := fun h => Nat.lt_irrefl _ (hlt _ h)
  have hns : s.next ≠ s.sentinel := Nat.ne_of_gt hwf.sent_lt
  -- the state after `new Node(k, v)`
  obtain ⟨sA, hA⟩ : ∃ sA, sA = (s.alloc ⟨k, v, Color.RED, 0, 0, 0⟩).2 := ⟨_, rfl⟩
  have hAh : ∀ a, a ≠ s.next → sA.heap a = s.heap a := by
    intro a ha
    simp [hA, RBT.alloc, Function.update_apply, ha]
  have hAn : sA.heap s.next = some ⟨k, v, Color.RED, 0, 0, 0⟩ := by
    simp [hA, RBT.alloc]
  have hAs : sA.sentinel = s.sentinel := by rw [hA]; rfl
  have hAr : sA.root = s.root := by rw [hA]; rfl
  have hAz : sA.size = s.size := by rw [hA]; rfl
  have hAx : sA.next = s.next + 1 := by rw [hA]; rfl
  obtain ⟨sB, eB, hBp, mB⟩ := link_spec comp (s := sA) (p := p) (n := s.next) (k := k)
    (by rw [hAs, hAr]
        exact RepPath.congrPath (fun a ha => hAh a (ne_of_mem_of_not_mem ha hnp)) hpath)
    hAn hnp (by rw [hAs]; exact hsp) hnd hdir
  rw [hAs] at eB hBp
  have hBn : sB.heap s.next = _ := (mB.heap _ hnp).trans hAn
  obtain ⟨sC, eC, hCn, rC, mC⟩ := setLeft_spec hBn s.sentinel
  obtain ⟨sD, eD, hDn, rD, mD⟩ := setRight_spec hCn s.sentinel
  obtain ⟨sE, eE, hEn, rE, mE⟩ := setParent_spec hDn (parentOf s.sentinel p)
  have mBE := ((mB.seq mC).seq mD).seq mE
  have hEs : sE.sentinel = s.sentinel := mBE.sentinel.trans hAs
  have hEh : ∀ a, a ∉ pathAddrs p → a ≠ s.next → sE.heap a = s.heap a := by
    intro a ha1 ha2
    rw [mBE.heap a (by simp [ha1, ha2]), hAh a ha2]
  have hEwf : WF sE (plug p (Tree.node s.next Color.RED Tree.nil k v Tree.nil)) := by
    have h1 := (@rep_plug _ _ sE.heap s.sentinel sE.root p
      (Tree.node s.next Color.RED Tree.nil k v Tree.nil)).2 ⟨by
        rw [rE, rD, rC, ptr_node]
        refine RepPath.congrPath (fun a ha => ((mC.seq mD).seq mE).heap a ?_) hBp
        simpa using ne_of_mem_of_not_mem ha hnp, by
        simp only [Rep, ptr_nil, and_true]
        exact hEn⟩
    refine ⟨?_, ?_, ?_, ?_, ?_, ?_, ?_⟩
    · rw [hEs]; exact h1.1
    · rw [hEs]; exact h1.2
    · rw [nodup_addrs_plug]
      simpa [Tree.addrs] using ⟨hnp, hnd⟩
    · rw [hEs, mem_addrs_plug]
      simpa [Tree.addrs] using ⟨Ne.symm hns, hsp⟩
    · have h := hwf.sent_black
      simp only [RBT.color] at h ⊢
      rw [hEs, hEh _ hsp (Ne.symm hns)]
      exact h
    · intro a ha
      rw [mBE.next, hAx]
      rw [mem_addrs_plug] at ha
      simp only [Tree.addrs, List.append_nil, List.mem_singleton] at ha
      rcases ha with rfl | ha
      · exact Nat.lt_succ_self _
      · exact Nat.lt_succ_of_lt (hlt a ha)
    · rw [hEs, mBE.next, hAx]
      exact Nat.lt_succ_of_lt hwf.sent_lt
  obtain ⟨sF, eF, evF⟩ := insert_fixup_spec sE.next p sE s.next Color.RED Tree.nil k v Tree.nil
    hEwf hrb (by have := hEwf.path_length_lt; omega)
  refine ⟨sF, ?_, evF.wf, evF.sentinel.trans hEs, evF.size.trans (mBE.size.trans hAz),
    evF.next.trans (mBE.next.trans hAx), ?_⟩
  · simp only [inner_insert]
    rw [← hA]
    simp only [alloc_fst, hAs, eB, andThen_some, mB.sentinel, eC, mC.sentinel, eD, mD.sentinel, eE, eF,
      (mB.seq mC).sentinel, ((mB.seq mC).seq mD).sentinel]
  · intro a ha1 ha2
    rw [mem_addrs_plug] at ha1
    simp only [Tree.addrs, List.not_mem_nil, false_or] at ha1
    rw [evF.frame a (by
      rw [mem_addrs_plug]
      simp only [Tree.addrs, List.append_nil, List.mem_singleton]
      exact fun h => h.elim ha2 ha1), hEh a ha1 ha2]

/-! ### Red-black conditions on trees with a place left open -/

@[simp] theorem color_lft (a : Nat) (c : Color) (k : K) (v : V) (r : Tree K V) :
    (Frame.lft a c k v r).color = c := rfl

@[simp] theorem color_rgt (a : Nat) (c : Color) (l : Tree K V) (k : K) (v : V) :
    (Frame.rgt a c l k v).color = c := rfl

@[simp] theorem sib_lft (a : Nat) (c : Color) (k : K) (v : V) (r : Tree K V) :
    (Frame.lft a c k v r).sib = r := rfl

@[simp] theorem sib_rgt (a : Nat) (c : Color) (l : Tree K V) (k : K) (v : V) :
    (Frame.rgt a c l k v).sib = l := rfl

@[simp] theorem color_nil : (Tree.nil : Tree K V).color = Color.BLACK := rfl

@[simp] theorem color_node (a : Nat) (c : Color) (l : Tree K V) (k : K) (v : V)
    (r : Tree K V) : (Tree.node a c l k v r).color = c := rfl

@[simp] theorem setColor_nil (c : Color) : (Tree.nil : Tree K V).setColor c = Tree.nil := rfl

@[simp] theorem setColor_node (c1 : Color) (a : Nat) (c : Color) (l : Tree K V) (k : K) (v : V)
    (r : Tree K V) : (Tree.node a c l k v r).setColor c1 = Tree.node a c1 l k v r := rfl

@[simp] theorem headColor_nil : headColor ([] : List (Frame K V)) = Color.BLACK := rfl

@[simp] theorem headColor_cons (f : Frame K V) (p : List (Frame K V)) :
    headColor (f :: p) = f.color := rfl

@[simp] theorem parentOf_nil (sent : Nat) : parentOf sent ([] : List (Frame K V)) = sent := rfl

@[simp] theorem parentOf_cons (sent : Nat) (f : Frame K V) (p : List (Frame K V)) :
    parentOf sent (f :: p) = f.addr := rfl

@[simp] theorem fill_lft (a : Nat) (c : Color) (k : K) (v : V) (r t : Tree K V) :
    (Frame.lft a c k v r).fill t = Tree.node a c t k v r := rfl

@[simp] theorem fill_rgt (a : Nat) (c : Color) (l : Tree K V) (k : K) (v : V) (t : Tree K V) :
    (Frame.rgt a c l k v).fill t = Tree.node a c l k v t := rfl

@[simp] theorem plug_nil (t : Tree K V) : plug [] t = t := rfl

@[simp] theorem plug_cons (f : Frame K V) (p : List (Frame K V)) (t : Tree K V) :
    plug (f :: p) t = plug p (f.fill t) := rfl

theorem color_plug_cons (f : Frame K V) : ∀ (p : List (Frame K V)) (t t1 : Tree K V),
    (plug (f :: p) t).color = (plug (f :: p) t1).color
  | [], t, t1 => by cases f <;> rfl
  | g :: p, t, t1 => color_plug_cons g p _ _

theorem rootBlack_of_color : ∀ (p : List (Frame K V)) (t : Tree K V),
    (plug p t).color = Color.BLACK → rootBlack p
  | [], _, _ => trivial
  | [f], t, h => by cases f <;> exact h
  | f :: g :: p, t, h => rootBlack_of_color (g :: p) (f.fill t) h

theorem setColor_black_valid {t : Tree K V} (hb : t.balanced) (hn : t.noRedRed) :
    (t.setColor Color.BLACK).balanced ∧ (t.setColor Color.BLACK).noRedRed ∧
      (t.setColor Color.BLACK).color = Color.BLACK := by
  cases t with
  | nil => exact ⟨trivial, trivial, rfl⟩
  | node a c l k v r =>
    simp only [Tree.balanced, Tree.noRedRed] at hb hn
    simp only [setColor_node, Tree.balanced, Tree.noRedRed, color_node]
    refine ⟨hb, ⟨fun h => ?_, hn.2⟩, trivial⟩
    cases h

/-- A valid subtree in a valid place gives a valid tree. -/
theorem plug_valid : ∀ (p : List (Frame K V)) (t : Tree K V), ctxOK p t.bh → t.balanced →
    t.noRedRed → (headColor p = Color.RED → t.color = Color.BLACK) →
    (plug p t).balanced ∧ (plug p t).noRedRed
  | [], t, _, hb, hn, _ => ⟨hb, hn⟩
  | Frame.lft a c k v r :: p, t, hc, hb, hn, hcol => by
    simp only [ctxOK, sib_lft, color_lft] at hc
    simp only [headColor_cons, color_lft] at hcol
    obtain ⟨h1, h2, h3, h4, h5⟩ := hc
    refine plug_valid p (Tree.node a c t k v r) ?_ ⟨h1.symm, hb, h2⟩
      ⟨fun hr => ⟨hcol hr, (h4 hr).1⟩, hn, h3⟩ ?_
    · simpa [Tree.bh] using h5
    · intro hp
      cases c with
      | RED => rw [(h4 rfl).2] at hp; cases hp
      | BLACK => rfl
  | Frame.rgt a c l k v :: p, t, hc, hb, hn, hcol => by
    simp only [ctxOK, sib_rgt, color_rgt] at hc
    simp only [headColor_cons, color_rgt] at hcol
    obtain ⟨h1, h2, h3, h4, h5⟩ := hc
    refine plug_valid p (Tree.node a c l k v t) ?_ ⟨h1, h2, hb⟩
      ⟨fun hr => ⟨(h4 hr).1, hcol hr⟩, h3, hn⟩ ?_
    · simpa [Tree.bh, h1] using h5
    · intro hp
      cases c with
      | RED => rw [(h4 rfl).2] at hp; cases hp
      | BLACK => rfl

/-- Every place of a valid tree is a valid place holding a valid subtree. -/
theorem unplug_valid : ∀ (p : List (Frame K V)) (t : Tree K V), (plug p t).balanced →
    (plug p t).noRedRed →
    ctxOK p t.bh ∧ t.balanced ∧ t.noRedRed ∧ (headColor p = Color.RED → t.color = Color.BLACK)
  | [], t, hb, hn => ⟨trivial, hb, hn, fun h => by cases h⟩
  | Frame.lft a c k v r :: p, t, hb, hn => by
    obtain ⟨h1, h2, h3, h4⟩ := unplug_valid p (Tree.node a c t k v r) hb hn
    simp only [Tree.balanced, Tree.noRedRed, color_node, Tree.bh] at h1 h2 h3 h4
    simp only [ctxOK, sib_lft, color_lft]
    refine ⟨⟨h2.1.symm, h2.2.2, h3.2.2, fun hr => ⟨(h3.1 hr).2, ?_⟩, h1⟩, h2.2.1, h3.2.1,
      fun hr => (h3.1 hr).1⟩
    cases hp : headColor p with
    | BLACK => rfl
    | RED => rw [h4 hp] at hr; cases hr
  | Frame.rgt a c l k v :: p, t, hb, hn => by
    obtain ⟨h1, h2, h3, h4⟩ := unplug_valid p (Tree.node a c l k v t) hb hn
    simp only [Tree.balanced, Tree.noRedRed, color_node, Tree.bh] at h1 h2 h3 h4
    simp only [ctxOK, sib_rgt, color_rgt]
    refine ⟨⟨h2.1, h2.2.1, h3.2.1, fun hr => ⟨(h3.1 hr).1, ?_⟩, by rw [← h2.1]; exact h1⟩,
      h2.2.2, h3.2.2, fun hr => (h3.1 hr).2⟩
    cases hp : headColor p with
    | BLACK => rfl
    | RED => rw [h4 hp] at hr; cases hr

theorem color_red_node {t : Tree K V} (h : t.color = Color.RED) :
    ∃ a l k v r, t = Tree.node a Color.RED l k v r := by
  cases t with
  | nil => cases h
  | node a c l k v r => exact ⟨a, l, k, v, r, by simp only [color_node] at h; rw [h]⟩

/-- One run of the body of the loop of `insert_fixup` on a RED node under a RED parent
and a BLACK grandparent keeps the black height; it either moves the RED-RED pair two
steps up or ends with a valid BLACK subtree. -/
theorem insCase_valid {f g : Frame K V} {t : Tree K V} {h : Nat}
    (hf : f.color = Color.RED) (hg : g.color = Color.BLACK) (ht : t.color = Color.RED)
    (hth : t.bh = h) (htb : t.balanced) (htn : t.noRedRed)
    (hfh : f.sib.bh = h) (hfb : f.sib.balanced) (hfn : f.sib.noRedRed)
    (hfc : f.sib.color = Color.BLACK)
    (hgh : g.sib.bh = h) (hgb : g.sib.balanced) (hgn : g.sib.noRedRed) :
    (∀ t1, insCase f g t = Sum.inl t1 →
        t1.color = Color.RED ∧ t1.bh = h + 1 ∧ t1.balanced ∧ t1.noRedRed) ∧
      (∀ t1, insCase f g t = Sum.inr t1 →
        t1.color = Color.BLACK ∧ t1.bh = h + 1 ∧ t1.balanced ∧ t1.noRedRed) := by
  obtain ⟨n, nl, nk, nv, nr, rfl⟩ := color_red_node ht
  simp only [Tree.bh, Tree.balanced, Tree.noRedRed, true_implies, if_false,
    show ¬ Color.RED = Color.BLACK from by decide] at hth htb htn
  cases g with
  | lft ga gc gk gv u =>
    simp only [color_lft, sib_lft] at hg hgh hgb hgn
    subst hg
    by_cases hu : u.color = Color.RED
    · obtain ⟨ua, ul, uk, uv, ur, rfl⟩ := color_red_node hu
      simp only [Tree.bh, Tree.balanced, Tree.noRedRed, true_implies, if_false,
        show ¬ Color.RED = Color.BLACK from by decide] at hgh hgb hgn
      cases f with
      | lft fa fc fk fv fr =>
        simp only [color_lft, sib_lft] at hf hfh hfb hfn hfc
        simp [insCase, Frame.setColor, Tree.bh, Tree.balanced, Tree.noRedRed, *]
        try omega
      | rgt fa fc fl fk fv =>
        simp only [color_rgt, sib_rgt] at hf hfh hfb hfn hfc
        simp [insCase, Frame.setColor, Tree.bh, Tree.balanced, Tree.noRedRed, *]
        try omega
    · have hub := Color.eq_black_of_ne_red hu
      cases f with
      | lft fa fc fk fv fr =>
        simp only [color_lft, sib_lft] at hf hfh hfb hfn hfc
        simp [insCase, Frame.setColor, Tree.bh, Tree.balanced, Tree.noRedRed, *]
        try omega
      | rgt fa fc fl fk fv =>
        simp only [color_rgt, sib_rgt] at hf hfh hfb hfn hfc
        simp [insCase, Frame.setColor, Tree.bh, Tree.balanced, Tree.noRedRed, *]
        try omega
  | rgt ga gc u gk gv =>
    simp only [color_rgt, sib_rgt] at hg hgh hgb hgn
    subst hg
    by_cases hu : u.color = Color.RED
    · obtain ⟨ua, ul, uk, uv, ur, rfl⟩ := color_red_node hu
      simp only [Tree.bh, Tree.balanced, Tree.noRedRed, true_implies, if_false,
        show ¬ Color.RED = Color.BLACK from by decide] at hgh hgb hgn
      cases f with
      | lft fa fc fk fv fr =>
        simp only [color_lft, sib_lft] at hf hfh hfb hfn hfc
        simp [insCase, Frame.setColor, Tree.bh, Tree.balanced, Tree.noRedRed, *]
        try omega
      | rgt fa fc fl fk fv =>
        simp only [color_rgt, sib_rgt] at hf hfh hfb hfn hfc
        simp [insCase, Frame.setColor, Tree.bh, Tree.balanced, Tree.noRedRed, *]
        try omega
    · have hub := Color.eq_black_of_ne_red hu
      cases f with
      | lft fa fc fk fv fr =>
        simp only [color_lft, sib_lft] at hf hfh hfb hfn hfc
        simp [insCase, Frame.setColor, Tree.bh, Tree.balanced, Tree.noRedRed, *]
        try omega
      | rgt fa fc fl fk fv =>
        simp only [color_rgt, sib_rgt] at hf hfh hfb hfn hfc
        simp [insCase, Frame.setColor, Tree.bh, Tree.balanced, Tree.noRedRed, *]
        try omega

/-- `insert_fixup` restores the red-black conditions: started at a RED node with BLACK
children in a valid place, it ends with a valid tree with a BLACK root. -/
theorem insFix_valid : ∀ (p : List (Frame K V)) (t : Tree K V), ctxOK p t.bh → rootBlack p →
    t.color = Color.RED → t.balanced → t.noRedRed →
    (insFix p t).balanced ∧ (insFix p t).noRedRed ∧ (insFix p t).color = Color.BLACK
  | [], t, _, _, _, hb, hn => by
    simpa [insFix] using setColor_black_valid hb hn
  | [f], t, hc, hrb, _, hb, hn => by
    have h := plug_valid [f] t hc hb hn (by
      intro h
      simp only [headColor_cons] at h
      rw [show f.color = Color.BLACK from hrb] at h
      cases h)
    simpa [insFix] using setColor_black_valid h.1 h.2
  | f :: g :: p, t, hc, hrb, hcol, hb, hn => by
    by_cases hf : f.color = Color.RED
    · have hc0 := hc
      simp only [ctxOK, hf, true_implies, headColor_cons, if_false,
        show ¬ Color.RED = Color.BLACK from by decide] at hc
      obtain ⟨h1, h2, h3, ⟨h4, h5⟩, h6, h7, h8, -, h9⟩ := hc
      simp only [h5, if_true] at h9
      have hv := insCase_valid hf h5 hcol rfl hb hn h1 h2 h3 h4 h6 h7 h8
      cases hi : insCase f g t with
      | inl t1 =>
        obtain ⟨c1, c2, c3, c4⟩ := hv.1 t1 hi
        have ih := insFix_valid p t1 (by rw [c2]; exact h9) (rootBlack_tail hrb) c1 c3 c4
        simpa [insFix, hf, hi] using ih
      | inr t1 =>
        obtain ⟨c1, c2, c3, c4⟩ := hv.2 t1 hi
        have h := plug_valid p t1 (by rw [c2]; exact h9) c3 c4 (fun _ => c1)
        simpa [insFix, hf, hi] using setColor_black_valid h.1 h.2
    · have h := plug_valid (f :: g :: p) t hc hb hn (by
        intro h
        exact absurd h hf)
      simpa [insFix, hf] using setColor_black_valid h.1 h.2

/-! ### The in-order sequence -/

theorem toList_setColor (c : Color) (t : Tree K V) : (t.setColor c).toList = t.toList := by
  cases t <;> rfl

theorem toList_plug : ∀ (p : List (Frame K V)) (t : Tree K V),
    (plug p t).toList = pathLeft p ++ t.toList ++ pathRight p
  | [], t => by simp [pathLeft, pathRight]
  | Frame.lft a c k v r :: p, t => by
    simp [toList_plug p, pathLeft, pathRight, Tree.toList]
  | Frame.rgt a c l k v :: p, t => by
    simp [toList_plug p, pathLeft, pathRight, Tree.toList]

theorem toList_plug_congr (p : List (Frame K V)) {t t1 : Tree K V} (h : t1.toList = t.toList) :
    (plug p t1).toList = (plug p t).toList := by
  rw [toList_plug, toList_plug, h]

/-- One run of the body of the loop of `insert_fixup` keeps the in-order sequence. -/
theorem insCase_toList (f g : Frame K V) (t : Tree K V) :
    (∀ t1, insCase f g t = Sum.inl t1 → t1.toList = (g.fill (f.fill t)).toList) ∧
      (∀ t1, insCase f g t = Sum.inr t1 → t1.toList = (g.fill (f.fill t)).toList) := by
  cases g with
  | lft ga gc gk gv u =>
    by_cases hu : u.color = Color.RED
    · cases f <;>
        simp [insCase, hu, Frame.setColor, Tree.toList, toList_setColor]
    · cases f with
      | lft fa fc fk fv fr => simp [insCase, hu, Tree.toList]
      | rgt fa fc fl fk fv => cases t <;> simp [insCase, hu, Tree.toList]
  | rgt ga gc u gk gv =>
    by_cases hu : u.color = Color.RED
    · cases f <;>
        simp [insCase, hu, Frame.setColor, Tree.toList, toList_setColor]
    · cases f with
      | lft fa fc fk fv fr => cases t <;> simp [insCase, hu, Tree.toList]
      | rgt fa fc fl fk fv => simp [insCase, hu, Tree.toList]

/-- `insert_fixup` keeps the in-order sequence of keys and values. -/
theorem insFix_toList : ∀ (p : List (Frame K V)) (t : Tree K V),
    (insFix p t).toList = (plug p t).toList
  | [], t => by simp [insFix, toList_setColor]
  | [f], t => by simp [insFix, toList_setColor]
  | f :: g :: p, t => by
    by_cases hf : f.color = Color.RED
    · cases hi : insCase f g t with
      | inl t1 =>
        have h := (insCase_toList f g t).1 t1 hi
        simp only [insFix, hf, if_true, hi, plug_cons]
        rw [insFix_toList p t1]
        exact toList_plug_congr p h
      | inr t1 =>
        have h := (insCase_toList f g t).2 t1 hi
        simp only [insFix, hf, if_true, hi, plug_cons, toList_setColor]
        exact toList_plug_congr p h
    · simp [insFix, hf, toList_setColor]

/-! ### Search in ordered trees -/

theorem count_eq_length : ∀ t : Tree K V, t.count = t.toList.length
  | Tree.nil => rfl
  | Tree.node a c l k v r => by
    simp only [Tree.count, Tree.toList, List.length_append, List.length_cons,
      count_eq_length l, count_eq_length r]
    omega

theorem keys_node (a : Nat) (c : Color) (l : Tree K V) (k : K) (v : V) (r : Tree K V) :
    (Tree.node a c l k v r).keys = l.keys ++ k :: r.keys := by
  simp [Tree.keys, Tree.toList]

/-- For `std::less<int>`, BST ordering says that the in-order key sequence is strictly
increasing. -/
theorem ordered_iff_sorted : ∀ t : Tree Int V, t.ordered less ↔ t.keys.Pairwise (· < ·)
  | Tree.nil => by simp [Tree.ordered, Tree.keys, Tree.toList]
  | Tree.node a c l k v r => by
    rw [keys_node, Tree.ordered, ordered_iff_sorted l, ordered_iff_sorted r,
      List.pairwise_append, List.pairwise_cons]
    simp only [less, decide_eq_true_eq, List.mem_cons]
    constructor
    · rintro ⟨h1, h2, h3, h4⟩
      refine ⟨h3, ⟨h2, h4⟩, ?_⟩
      rintro x hx y (rfl | hy)
      · exact h1 x hx
      · exact lt_trans (h1 x hx) (h2 y hy)
    · rintro ⟨h1, ⟨h2, h3⟩, h4⟩
      exact ⟨fun x hx => h4 x hx k (Or.inl rfl), h2, h1, h3⟩

/-- The descent of `inner_find` keeps on the side chosen by the last comparison. -/
theorem headDir_search (comp : K → K → Bool) (k : K) : ∀ (t : Tree K V) (p : List (Frame K V)),
    headDir comp k p → headDir comp k (search comp k p t).1
  | Tree.nil, p, h => h
  | Tree.node a c l x v r, p, h => by
    simp only [search]
    split
    · next hc => exact headDir_search comp k l _ hc
    · next hc =>
      split
      · exact headDir_search comp k r _ (by simpa [headDir] using hc)
      · exact h

/-- The descent of `inner_find` with `std::less<int>` in an ordered tree keeps smaller
keys to the left and greater keys to the right of the place it is at. -/
theorem bounds_search (k : Int) : ∀ (t : Tree Int V) (p : List (Frame Int V)),
    t.ordered less → (∀ y ∈ pathLeft p, y.1 < k) → (∀ y ∈ pathRight p, k < y.1) →
    (∀ y ∈ pathLeft (search less k p t).1, y.1 < k) ∧
      (∀ y ∈ pathRight (search less k p t).1, k < y.1)
  | Tree.nil, p, _, h1, h2 => ⟨h1, h2⟩
  | Tree.node a c l x v r, p, ho, h1, h2 => by
    simp only [Tree.ordered, less, decide_eq_true_eq] at ho
    obtain ⟨o1, o2, o3, o4⟩ := ho
    simp only [search]
    split
    · next hc =>
      simp only [less, decide_eq_true_eq] at hc
      refine bounds_search k l _ o3 h1 ?_
      intro y hy
      simp only [pathRight, List.cons_append, List.mem_cons, List.mem_append] at hy
      rcases hy with rfl | hy | hy
      · exact hc
      · exact lt_trans hc (o2 y.1 (by simpa [Tree.keys] using ⟨y.2, hy⟩))
      · exact h2 y hy
    · next hc =>
      split
      · next hc2 =>
        simp only [less, decide_eq_true_eq] at hc2
        refine bounds_search k r _ o4 ?_ h2
        intro y hy
        simp only [pathLeft, List.mem_append, List.mem_singleton] at hy
        rcases hy with hy | hy | rfl
        · exact h1 y hy
        · exact lt_trans (o1 y.1 (by simpa [Tree.keys] using ⟨y.2, hy⟩)) hc2
        · exact hc2
      · exact ⟨h1, h2⟩

/-- With `std::less<int>` the descent of `inner_find` stops at an empty place or at a
node holding the key itself. -/
theorem search_less_stop (k : Int) : ∀ (t : Tree Int V) (p : List (Frame Int V)),
    (search less k p t).2 = Tree.nil ∨
      ∃ a c l v r, (search less k p t).2 = Tree.node a c l k v r
  | Tree.nil, p => Or.inl rfl
  | Tree.node a c l x v r, p => by
    simp only [search]
    split
    · exact search_less_stop k l _
    · next hc =>
      split
      · exact search_less_stop k r _
      · next hc2 =>
        simp only [less, decide_eq_true_eq, not_lt] at hc hc2
        have : x = k := le_antisymm hc hc2
        subst this
        exact Or.inr ⟨a, c, l, v, r, rfl⟩

theorem lookup_append_of_lt {k : Int} : ∀ (l1 l2 : List (Int × V)), (∀ y ∈ l1, y.1 ≠ k) →
    (l1 ++ l2).lookup k = l2.lookup k
  | [], _, _ => rfl
  | (a, b) :: l1, l2, h => by
    have h1 : (k == a) = false := by
      simpa using fun e : k = a => h (a, b) (List.mem_cons_self _ _) e.symm
    rw [List.cons_append, List.lookup_cons, h1]
    exact lookup_append_of_lt l1 l2 (fun y hy => h y (List.mem_cons_of_mem _ hy))

theorem lookup_eq_none_of_ne {k : Int} : ∀ (l : List (Int × V)), (∀ y ∈ l, y.1 ≠ k) →
    l.lookup k = none
  | [], _ => rfl
  | (a, b) :: l, h => by
    have h1 : (k == a) = false := by
      simpa using fun e : k = a => h (a, b) (List.mem_cons_self _ _) e.symm
    rw [List.lookup_cons, h1]
    exact lookup_eq_none_of_ne l (fun y hy => h y (List.mem_cons_of_mem _ hy))

theorem mem_keys_of_mem {t : Tree K V} {y : K × V} (h : y ∈ t.toList) : y.1 ∈ t.keys :=
  List.mem_map_of_mem _ h

/-- What the search for `k` finds in a tree with strictly increasing keys: an empty
place with all smaller keys before and all greater keys after it, or the node holding
`k`, with all pairs before it having smaller keys. -/
theorem search_sorted {t : Tree Int V} (hs : t.keys.Pairwise (· < ·)) (k : Int) :
    ∃ p t1, search less k [] t = (p, t1) ∧ plug p t1 = t ∧ headDir less k p ∧
      (∀ y ∈ pathLeft p, y.1 < k) ∧ (∀ y ∈ pathRight p, k < y.1) ∧
      (t1 = Tree.nil ∨ ∃ a c l v r, t1 = Tree.node a c l k v r ∧ (∀ y ∈ l.toList, y.1 < k) ∧
        (∀ y ∈ r.toList, k < y.1)) := by
  have hb := bounds_search k t [] ((ordered_iff_sorted t).2 hs) (by simp [pathLeft])
    (by simp [pathRight])
  have hp := plug_search less k t []
  refine ⟨_, _, rfl, hp, headDir_search less k t [] trivial, hb.1, hb.2, ?_⟩
  rcases search_less_stop k t [] with h | ⟨a, c, l, v, r, h⟩
  · exact Or.inl h
  · refine Or.inr ⟨a, c, l, v, r, h, ?_⟩
    rw [h, plug_nil] at hp
    have hs2 : (Tree.node a c l k v r).keys.Pairwise (· < ·) := by
      rw [← hp, Tree.keys, toList_plug] at hs
      exact hs.sublist (((List.sublist_append_right _ _).trans
        (List.sublist_append_left _ _)).map _)
    have ho := (ordered_iff_sorted _).2 hs2
    simp only [Tree.ordered, less, decide_eq_true_eq] at ho
    exact ⟨fun y hy => ho.1 y.1 (mem_keys_of_mem hy), fun y hy => ho.2.1 y.1 (mem_keys_of_mem hy)⟩

/-- `tree_find` looks the key up in the in-order sequence. -/
theorem tree_find_spec {s : RBT Int V} {t : Tree Int V} (h : Inv s t) (k : Int) :
    tree_find less s k = some (t.toList.lookup k) := by
  obtain ⟨p, t1, hs, hp, -, hl, hr, hstop⟩ := search_sorted h.sorted k
  have hwf : WF s (plug p t1) := by rw [hp]; exact h.wf
  have hf := inner_find_spec less k h.wf
  rw [hs] at hf
  simp only at hf
  rw [← hp, toList_plug]
  rcases hstop with rfl | ⟨a, c, l, v, r, rfl, hl2, hr2⟩
  · have hnone : (pathLeft p ++ (Tree.nil : Tree Int V).toList ++ pathRight p).lookup k = none := by
      refine lookup_eq_none_of_ne _ (fun y hy => ?_)
      simp only [Tree.toList, List.append_nil, List.mem_append] at hy
      rcases hy with hy | hy
      · exact ne_of_lt (hl y hy)
      · exact ne_of_gt (hr y hy)
    rw [hnone]
    cases p with
    | nil => simp [tree_find, hf, landing]
    | cons f p =>
      cases f with
      | lft fa fc fk fv fr =>
        have hk := key_of_heap (WF.heap_focus (p := p) (a := fa) hwf)
        have hne := WF.ptr_ne_sentinel (p := p) (a := fa) hwf
        have hlt : k < fk := hr (fk, fv) (by simp [pathRight])
        have : (fk != k) = true := by simpa using ne_of_gt hlt
        simp [tree_find, hf, landing, hne, hk, this]
      | rgt fa fc fl fk fv =>
        have hk := key_of_heap (WF.heap_focus (p := p) (a := fa) hwf)
        have hne := WF.ptr_ne_sentinel (p := p) (a := fa) hwf
        have hlt : fk < k := hl (fk, fv) (by simp [pathLeft])
        have : (fk != k) = true := by simpa using ne_of_lt hlt
        simp [tree_find, hf, landing, hne, hk, this]
  · have hsome : (pathLeft p ++ (Tree.node a c l k v r).toList ++ pathRight p).lookup k
        = some v := by
      simp only [Tree.toList, List.append_assoc]
      rw [lookup_append_of_lt _ _ (fun y hy => ne_of_lt (hl y hy)),
        lookup_append_of_lt _ _ (fun y hy => ne_of_lt (hl2 y hy))]
      simp [List.lookup_cons]
    rw [hsome]
    have hk := hwf.heap_focus
    have hne := hwf.ptr_ne_sentinel
    simp [tree_find, hf, landing, hne, key_of_heap hk, val_of_heap hk]

theorem add_one_mod (n : Nat) : (n % 2 ^ 32 + 1) % 2 ^ 32 = (n + 1) % 2 ^ 32 := by
  omega

/-- `tree_insert` of a key that is stored: nothing happens. -/
theorem tree_insert_dup {s : RBT Int V} {t : Tree Int V} (h : Inv s t) (k : Int) (v w : V)
    (hk : t.toList.lookup k = some w) : tree_insert less s k v = some (false, s) := by
  obtain ⟨p, t1, hs, hp, -, hl, hr, hstop⟩ := search_sorted h.sorted k
  have hwf : WF s (plug p t1) := by rw [hp]; exact h.wf
  have hf := inner_find_spec less k h.wf
  rw [hs] at hf
  simp only at hf
  rcases hstop with rfl | ⟨a, c, l, v1, r, rfl, -, -⟩
  · exfalso
    rw [← hp, toList_plug, lookup_eq_none_of_ne] at hk
    · cases hk
    · intro y hy
      simp only [Tree.toList, List.append_nil, List.mem_append] at hy
      rcases hy with hy | hy
      · exact ne_of_lt (hl y hy)
      · exact ne_of_gt (hr y hy)
  · have hh := hwf.heap_focus
    have hne := hwf.ptr_ne_sentinel
    simp [tree_insert, hf, landing, hne, key_of_heap hh]

/-- `tree_insert` of a key that is not stored: the pair is added at its place in the
in-order sequence, and the invariant is kept. -/
theorem tree_insert_new {s : RBT Int V} {t : Tree Int V} (h : Inv s t) (k : Int) (v : V)
    (hk : t.toList.lookup k = none) :
    ∃ s1 t1, tree_insert less s k v = some (true, s1) ∧ Inv s1 t1 ∧
      s1.size = (s.size + 1) % 2 ^ 32 ∧ s1.sentinel = s.sentinel ∧
      ∃ l1 l2, t.toList = l1 ++ l2 ∧ t1.toList = l1 ++ (k, v) :: l2 ∧
        (∀ y ∈ l1, y.1 < k) ∧ (∀ y ∈ l2, k < y.1) := by
  obtain ⟨p, t1, hs, hp, hdir, hl, hr, hstop⟩ := search_sorted h.sorted k
  have hwf : WF s (plug p t1) := by rw [hp]; exact h.wf
  have hf := inner_find_spec less k h.wf
  rw [hs] at hf
  simp only at hf
  rcases hstop with rfl | ⟨a, c, l, v1, r, rfl, hl2, -⟩
  · -- the search ended at an empty place
    have hdup : (if parentOf s.sentinel p ≠ s.sentinel then
        (s.key (parentOf s.sentinel p)).andThen fun tk => some (tk == k) else some false)
        = some false := by
      cases p with
      | nil => simp
      | cons f p =>
        cases f with
        | lft fa fc fk fv fr =>
          have hk := key_of_heap (WF.heap_focus (p := p) (a := fa) hwf)
          have hne := WF.ptr_ne_sentinel (p := p) (a := fa) hwf
          have hlt : k < fk := hr (fk, fv) (by simp [pathRight])
          have : (fk == k) = false := by simpa using ne_of_gt hlt
          simp [hne, hk, this]
        | rgt fa fc fl fk fv =>
          have hk := key_of_heap (WF.heap_focus (p := p) (a := fa) hwf)
          have hne := WF.ptr_ne_sentinel (p := p) (a := fa) hwf
          have hlt : fk < k := hl (fk, fv) (by simp [pathLeft])
          have : (fk == k) = false := by simpa using ne_of_lt hlt
          simp [hne, hk, this]
    have hbal : (plug p (Tree.nil : Tree Int V)).balanced := by rw [hp]; exact h.bal
    have hnrr : (plug p (Tree.nil : Tree Int V)).noRedRed := by rw [hp]; exact h.nrr
    have hrb : rootBlack p := rootBlack_of_color p Tree.nil (by rw [hp]; exact h.black)
    obtain ⟨hc, -, -, -⟩ := unplug_valid p Tree.nil hbal hnrr
    obtain ⟨s1, e1, hwf1, hsent1, hsize1, hnext1, -⟩ := inner_insert_spec less k v hwf hdir hrb
    have hval := insFix_valid p (Tree.node s.next Color.RED Tree.nil k v Tree.nil) hc hrb rfl
      ⟨rfl, trivial, trivial⟩ ⟨fun _ => ⟨rfl, rfl⟩, trivial, trivial⟩
    have hlist := insFix_toList p (Tree.node s.next Color.RED Tree.nil k v Tree.nil)
    rw [toList_plug] at hlist
    simp only [Tree.toList, List.nil_append, List.append_assoc, List.cons_append] at hlist
    have hold : t.toList = pathLeft p ++ pathRight p := by
      rw [← hp, toList_plug]; simp [Tree.toList]
    refine ⟨{ s1 with size := (s1.size + 1) % 2 ^ 32 }, _, ?_, ⟨?_, ?_, hval.2.2, hval.2.1, hval.1,
      ?_⟩, ?_, hsent1, pathLeft p, pathRight p, hold, hlist, hl, hr⟩
    · simp only [tree_insert, hf, landing, andThen_some, hdup, e1]
      simp
    · exact ⟨hwf1.root, hwf1.rep, hwf1.nodup, hwf1.sent_notin, hwf1.sent_black, hwf1.lt_next,
        hwf1.sent_lt⟩
    · rw [Tree.keys, hlist, List.map_append, List.map_cons, List.pairwise_append,
        List.pairwise_cons]
      have hso := h.sorted
      rw [Tree.keys, hold, List.map_append, List.pairwise_append] at hso
      refine ⟨hso.1, ⟨?_, hso.2.1⟩, ?_⟩
      · intro y hy
        obtain ⟨z, hz, rfl⟩ := List.mem_map.1 hy
        exact hr z hz
      · intro x hx y hy
        obtain ⟨z, hz, rfl⟩ := List.mem_map.1 hx
        rcases List.mem_cons.1 hy with rfl | hy
        · exact hl z hz
        · exact hso.2.2 _ hx _ hy
    · show (s1.size + 1) % 2 ^ 32 = _
      rw [hsize1, h.size, add_one_mod, count_eq_length, count_eq_length, hlist, hold]
      simp only [List.length_append, List.length_cons]
      congr 1
    · show (s1.size + 1) % 2 ^ 32 = _
      rw [hsize1]
  · -- the key is stored
    exfalso
    rw [← hp, toList_plug] at hk
    simp only [Tree.toList, List.append_assoc] at hk
    rw [lookup_append_of_lt _ _ (fun y hy => ne_of_lt (hl y hy)),
      lookup_append_of_lt _ _ (fun y hy => ne_of_lt (hl2 y hy))] at hk
    simp [List.lookup_cons] at hk

/-! ### `delete_fixup` on the store -/

/-- Reading the parent link of the cursor of `delete_fixup` after a step: for a node it
is the link in the tree, for the sentinel it is what `inner_delete` stored there, which
no step touches. -/
theorem Evolves.cursor {s s1 : RBT K V} {t : Tree K V} {f : Frame K V} {p : List (Frame K V)}
    {q : Tree K V} {a : Nat} (ev : Evolves s t s1 (plug (f :: p) q)) (hwf : WF s t)
    (ha : f.addr = a) (hcur : q = Tree.nil → s.parent s.sentinel = some a) :
    s1.parent (q.ptr s.sentinel) = some a := by
  cases q with
  | nil =>
    have h := hcur rfl
    simp only [RBT.parent] at h ⊢
    rw [ptr_nil, ev.frame _ hwf.sent_notin]
    exact h
  | node n c l k v r =>
    have h := ev.wf.parent_focus
    rw [parentOf_cons, ha] at h
    exact h

/-- Case 4 of `delete_fixup`: the far child of the sibling is a node. -/
theorem delete_fixup_case4_spec {s : RBT K V} {p : List (Frame K V)} {q : Tree K V}
    {fa wa ra : Nat} {fc wc rc : Color} {fk wk rk : K} {fv wv rv : V} {wl rl rr : Tree K V}
    (hwf : WF s (plug (Frame.lft fa fc fk fv
      (Tree.node wa wc wl wk wv (Tree.node ra rc rl rk rv rr)) :: p) q))
    (hcur : q = Tree.nil → s.parent s.sentinel = some fa) :
    ∃ s1, delete_fixup_case4 s (q.ptr s.sentinel) wa = some (s1, s1.root) ∧
      Evolves s (plug (Frame.lft fa fc fk fv
          (Tree.node wa wc wl wk wv (Tree.node ra rc rl rk rv rr)) :: p) q)
        s1 (plug p (Tree.node wa fc (Tree.node fa Color.BLACK q fk fv wl) wk wv
          (Tree.node ra Color.BLACK rl rk rv rr))) := by
  have hp0 := Evolves.cursor (a := fa) (Evolves.refl hwf) hwf rfl hcur
  have hc0 : s.color fa = some fc := color_of_heap (WF.heap_focus (p := p) (a := fa) hwf)
  obtain ⟨s1, e1, ev1⟩ := setColor_focus (p := Frame.rgt fa fc q fk fv :: p) (a := wa) hwf fc
  have hp1 := Evolves.cursor (a := fa) (f := Frame.lft fa fc fk fv _) (p := p) (q := q) ev1 hwf rfl hcur
  obtain ⟨s2, e2, ev2⟩ := setColor_focus (p := p) (a := fa) ev1.wf Color.BLACK
  have hr2 := right_of_heap (WF.heap_focus (p := Frame.rgt fa _ q fk fv :: p) (a := wa) ev2.wf)
  obtain ⟨s3, e3, ev3⟩ := setColor_focus
    (p := Frame.rgt wa fc wl wk wv :: Frame.rgt fa Color.BLACK q fk fv :: p) (a := ra) ev2.wf
    Color.BLACK
  have ev03 := (ev1.trans ev2).trans ev3
  have hp3 := Evolves.cursor (a := fa) (f := Frame.lft fa Color.BLACK fk fv _) (p := p) (q := q) ev03 hwf
    rfl hcur
  obtain ⟨s4, e4, ev4⟩ := left_rotate_spec (p := p) (x := fa) (y := wa) ev3.wf
  refine ⟨s4, ?_, ev03.trans ev4⟩
  simp only [ptr_node] at hr2
  simp only [delete_fixup_case4, hp0, andThen_some, hc0, e1, hp1, e2, hr2, e3, hp3, e4]

/-- Case 8 of `delete_fixup`: the far child of the sibling is a node. -/
theorem delete_fixup_case8_spec {s : RBT K V} {p : List (Frame K V)} {q : Tree K V}
    {fa wa la : Nat} {fc wc lc : Color} {fk wk lk : K} {fv wv lv : V} {wr ll lr : Tree K V}
    (hwf : WF s (plug (Frame.rgt fa fc
      (Tree.node wa wc (Tree.node la lc ll lk lv lr) wk wv wr) fk fv :: p) q))
    (hcur : q = Tree.nil → s.parent s.sentinel = some fa) :
    ∃ s1, delete_fixup_case8 s (q.ptr s.sentinel) wa = some (s1, s1.root) ∧
      Evolves s (plug (Frame.rgt fa fc
          (Tree.node wa wc (Tree.node la lc ll lk lv lr) wk wv wr) fk fv :: p) q)
        s1 (plug p (Tree.node wa fc (Tree.node la Color.BLACK ll lk lv lr) wk wv
          (Tree.node fa Color.BLACK wr fk fv q))) := by
  have hp0 := Evolves.cursor (a := fa) (Evolves.refl hwf) hwf rfl hcur
  have hc0 : s.color fa = some fc := color_of_heap (WF.heap_focus (p := p) (a := fa) hwf)
  obtain ⟨s1, e1, ev1⟩ := setColor_focus (p := Frame.lft fa fc fk fv q :: p) (a := wa) hwf fc
  have hp1 := Evolves.cursor (a := fa) (f := Frame.rgt fa fc _ fk fv) (p := p) (q := q) ev1 hwf
    rfl hcur
  obtain ⟨s2, e2, ev2⟩ := setColor_focus (p := p) (a := fa) ev1.wf Color.BLACK
  have hl2 := left_of_heap (WF.heap_focus (p := Frame.lft fa _ fk fv q :: p) (a := wa) ev2.wf)
  obtain ⟨s3, e3, ev3⟩ := setColor_focus
    (p := Frame.lft wa fc wk wv wr :: Frame.lft fa Color.BLACK fk fv q :: p) (a := la) ev2.wf
    Color.BLACK
  have ev03 := (ev1.trans ev2).trans ev3
  have hp3 := Evolves.cursor (a := fa) (f := Frame.rgt fa Color.BLACK _ fk fv) (p := p) (q := q)
    ev03 hwf rfl hcur
  obtain ⟨s4, e4, ev4⟩ := right_rotate_spec (p := p) (x := fa) (y := wa) ev3.wf
  refine ⟨s4, ?_, ev03.trans ev4⟩
  simp only [ptr_node] at hl2
  simp only [delete_fixup_case8, hp0, andThen_some, hc0, e1, hp1, e2, hl2, e3, hp3, e4]

/-- Cases 2 to 4 of `delete_fixup` do on the store what `delCaseL` does on trees. -/
theorem delete_fixup_left_rest_spec {s : RBT K V} {p : List (Frame K V)} {q : Tree K V}
    {fa wa : Nat} {fc wc : Color} {fk wk : K} {fv wv : V} {wl wr : Tree K V}
    (hwf : WF s (plug (Frame.lft fa fc fk fv (Tree.node wa wc wl wk wv wr) :: p) q))
    (hcur : q = Tree.nil → s.parent s.sentinel = some fa) :
    ∃ s1 n1 t1, delete_fixup_left_rest s (q.ptr s.sentinel) wa = some (s1, n1) ∧
      Evolves s (plug (Frame.lft fa fc fk fv (Tree.node wa wc wl wk wv wr) :: p) q)
        s1 (plug p t1) ∧
      ((delCaseL fa fc fk fv q (Tree.node wa wc wl wk wv wr) = Sum.inl t1 ∧ n1 = fa ∧
          ∃ r1, t1 = Tree.node fa fc q fk fv r1) ∨
        (delCaseL fa fc fk fv q (Tree.node wa wc wl wk wv wr) = Sum.inr t1 ∧ n1 = s1.root)) := by
  have hwa := WF.heap_focus (p := Frame.rgt fa fc q fk fv :: p) (a := wa) hwf
  have hl0 := left_of_heap hwa
  have hr0 := right_of_heap hwa
  have hcl := WF.color_ptr (p := Frame.lft wa wc wk wv wr :: Frame.rgt fa fc q fk fv :: p)
    (t := wl) hwf
  have hcr := WF.color_ptr (p := Frame.rgt wa wc wl wk wv :: Frame.rgt fa fc q fk fv :: p)
    (t := wr) hwf
  simp only at hl0 hr0
  by_cases hbb : wl.color = Color.BLACK ∧ wr.color = Color.BLACK
  · -- case 2
    obtain ⟨s1, e1, ev1⟩ := setColor_focus (p := Frame.rgt fa fc q fk fv :: p) (a := wa) hwf
      Color.RED
    have hp1 := Evolves.cursor (a := fa) (f := Frame.lft fa fc fk fv _) (p := p) (q := q) ev1 hwf
      rfl hcur
    refine ⟨s1, fa, _, ?_, ev1, Or.inl ⟨?_, rfl, _, rfl⟩⟩
    · simp only [delete_fixup_left_rest, hl0, andThen_some, hcl, hbb.1, if_true, hr0, hcr, hbb.2,
        decide_True, e1, hp1]
    · simp [delCaseL, hbb]
  · have hnb : (if wl.color = Color.BLACK then
          (s.right wa).andThen fun tr => (s.color tr).andThen fun trc =>
            some (decide (trc = Color.BLACK))
        else some false) = some false := by
      by_cases h1 : wl.color = Color.BLACK
      · have h2 : ¬ wr.color = Color.BLACK := fun h2 => hbb ⟨h1, h2⟩
        simp [h1, hr0, hcr, h2]
      · simp [h1]
    by_cases hwr : wr.color = Color.BLACK
    · -- case 3, then case 4
      have hwl : wl.color = Color.RED := by
        cases h : wl.color with
        | RED => rfl
        | BLACK => exact absurd ⟨h, hwr⟩ hbb
      obtain ⟨la, ll, lk, lv, lr, rfl⟩ := color_red_node hwl
      simp only [ptr_node, color_node] at hl0 hcl
      obtain ⟨s1, e1, ev1⟩ := setColor_focus
        (p := Frame.lft wa wc wk wv wr :: Frame.rgt fa fc q fk fv :: p) (a := la) hwf Color.BLACK
      obtain ⟨s2, e2, ev2⟩ := setColor_focus (p := Frame.rgt fa fc q fk fv :: p) (a := wa) ev1.wf
        Color.RED
      obtain ⟨s3, e3, ev3⟩ := right_rotate_spec (p := Frame.rgt fa fc q fk fv :: p) (x := wa)
        (y := la) ev2.wf
      have ev03 := (ev1.trans ev2).trans ev3
      have hp3 := Evolves.cursor (a := fa) (f := Frame.lft fa fc fk fv _) (p := p) (q := q) ev03
        hwf rfl hcur
      have hr3 := right_of_heap (WF.heap_focus (p := p) (a := fa) ev3.wf)
      simp only [ptr_node] at hr3
      have hcur3 : q = Tree.nil → s3.parent s3.sentinel = some fa := by
        intro hq
        subst hq
        rw [ev03.sentinel]
        exact hp3
      obtain ⟨s4, e4, ev4⟩ := @delete_fixup_case4_spec _ _ _ p q fa la _ _ _ _ _ _ _ _ _ _ _ _ _
        ev3.wf hcur3
      rw [ev03.sentinel] at e4
      refine ⟨s4, s4.root, _, ?_, ev03.trans ev4, Or.inr ⟨?_, rfl⟩⟩
      · simp only [delete_fixup_left_rest, hl0, andThen_some, hcl, hnb, hr0, hcr, hwr,
          if_true, e1, e2, e3, hp3, hr3, e4]
        simp
      · simp [delCaseL, hwr]
    · -- case 4
      have hwrr := Color.eq_black_of_ne_red.mt hwr
      simp only [not_not] at hwrr
      obtain ⟨ra, rl, rk, rv, rr, rfl⟩ := color_red_node hwrr
      obtain ⟨s4, e4, ev4⟩ := delete_fixup_case4_spec hwf hcur
      refine ⟨s4, s4.root, _, ?_, ev4, Or.inr ⟨?_, rfl⟩⟩
      · simp only [ptr_node, color_node] at hr0 hcr
        simp only [delete_fixup_left_rest, hl0, andThen_some, hcl, hnb, hr0, hcr]
        simpa using e4
      · simp [delCaseL, hwr]

/-- Cases 6 to 8 of `delete_fixup` do on the store what `delCaseR` does on trees. -/
theorem delete_fixup_right_rest_spec {s : RBT K V} {p : List (Frame K V)} {q : Tree K V}
    {fa wa : Nat} {fc wc : Color} {fk wk : K} {fv wv : V} {wl wr : Tree K V}
    (hwf : WF s (plug (Frame.rgt fa fc (Tree.node wa wc wl wk wv wr) fk fv :: p) q))
    (hcur : q = Tree.nil → s.parent s.sentinel = some fa) :
    ∃ s1 n1 t1, delete_fixup_right_rest s (q.ptr s.sentinel) wa = some (s1, n1) ∧
      Evolves s (plug (Frame.rgt fa fc (Tree.node wa wc wl wk wv wr) fk fv :: p) q)
        s1 (plug p t1) ∧
      ((delCaseR fa fc fk fv q (Tree.node wa wc wl wk wv wr) = Sum.inl t1 ∧ n1 = fa ∧
          ∃ l1, t1 = Tree.node fa fc l1 fk fv q) ∨
        (delCaseR fa fc fk fv q (Tree.node wa wc wl wk wv wr) = Sum.inr t1 ∧ n1 = s1.root)) := by
  have hwa := WF.heap_focus (p := Frame.lft fa fc fk fv q :: p) (a := wa) hwf
  have hl0 := left_of_heap hwa
  have hr0 := right_of_heap hwa
  have hcl := WF.color_ptr (p := Frame.lft wa wc wk wv wr :: Frame.lft fa fc fk fv q :: p)
    (t := wl) hwf
  have hcr := WF.color_ptr (p := Frame.rgt wa wc wl wk wv :: Frame.lft fa fc fk fv q :: p)
    (t := wr) hwf
  simp only at hl0 hr0
  by_cases hbb : wl.color = Color.BLACK ∧ wr.color = Color.BLACK
  · -- case 6
    obtain ⟨s1, e1, ev1⟩ := setColor_focus (p := Frame.lft fa fc fk fv q :: p) (a := wa) hwf
      Color.RED
    have hp1 := Evolves.cursor (a := fa) (f := Frame.rgt fa fc _ fk fv) (p := p) (q := q) ev1 hwf
      rfl hcur
    refine ⟨s1, fa, _, ?_, ev1, Or.inl ⟨?_, rfl, _, rfl⟩⟩
    · simp only [delete_fixup_right_rest, hl0, andThen_some, hcl, hbb.1, if_true, hr0, hcr,
        hbb.2, decide_True, e1, hp1]
    · simp [delCaseR, hbb]
  · have hnb : (if wl.color = Color.BLACK then
          (s.right wa).andThen fun tr => (s.color tr).andThen fun trc =>
            some (decide (trc = Color.BLACK))
        else some false) = some false := by
      by_cases h1 : wl.color = Color.BLACK
      · have h2 : ¬ wr.color = Color.BLACK := fun h2 => hbb ⟨h1, h2⟩
        simp [h1, hr0, hcr, h2]
      · simp [h1]
    by_cases hwl : wl.color = Color.BLACK
    · -- case 7, then case 8
      have hwr : wr.color = Color.RED := by
        cases h : wr.color with
        | RED => rfl
        | BLACK => exact absurd ⟨hwl, h⟩ hbb
      obtain ⟨ra, rl, rk, rv, rr, rfl⟩ := color_red_node hwr
      simp only [ptr_node, color_node] at hr0 hcr
      obtain ⟨s1, e1, ev1⟩ := setColor_focus
        (p := Frame.rgt wa wc wl wk wv :: Frame.lft fa fc fk fv q :: p) (a := ra) hwf Color.BLACK
      obtain ⟨s2, e2, ev2⟩ := setColor_focus (p := Frame.lft fa fc fk fv q :: p) (a := wa) ev1.wf
        Color.RED
      obtain ⟨s3, e3, ev3⟩ := left_rotate_spec (p := Frame.lft fa fc fk fv q :: p) (x := wa)
        (y := ra) ev2.wf
      have ev03 := (ev1.trans ev2).trans ev3
      have hp3 := Evolves.cursor (a := fa) (f := Frame.rgt fa fc _ fk fv) (p := p) (q := q) ev03
        hwf rfl hcur
      have hl3 := left_of_heap (WF.heap_focus (p := p) (a := fa) ev3.wf)
      simp only [ptr_node] at hl3
      have hcur3 : q = Tree.nil → s3.parent s3.sentinel = some fa := by
        intro hq
        subst hq
        rw [ev03.sentinel]
        exact hp3
      obtain ⟨s4, e4, ev4⟩ := @delete_fixup_case8_spec _ _ _ p q fa ra _ _ _ _ _ _ _ _ _ _ _ _ _
        ev3.wf hcur3
      rw [ev03.sentinel] at e4
      refine ⟨s4, s4.root, _, ?_, ev03.trans ev4, Or.inr ⟨?_, rfl⟩⟩
      · simp only [delete_fixup_right_rest, hl0, andThen_some, hcl, hnb]
        simp only [Bool.false_eq_true, if_false, hl0, andThen_some, hcl, hwl, if_true, hr0, e1,
          e2, e3, hp3, hl3]
        simpa using e4
      · simp [delCaseR, hwl]
    · -- case 8
      have hwlr := Color.eq_black_of_ne_red.mt hwl
      simp only [not_not] at hwlr
      obtain ⟨la, ll, lk, lv, lr, rfl⟩ := color_red_node hwlr
      obtain ⟨s4, e4, ev4⟩ := delete_fixup_case8_spec hwf hcur
      refine ⟨s4, s4.root, _, ?_, ev4, Or.inr ⟨?_, rfl⟩⟩
      · simp only [ptr_node, color_node] at hl0 hcl
        simp only [delete_fixup_right_rest, hl0, andThen_some, hcl, hnb]
        simpa using e4
      · simp [delCaseR, hwl]

theorem bh_pos_node {t : Tree K V} (h : 0 < t.bh) : ∃ a c l k v r, t = Tree.node a c l k v r := by
  cases t with
  | nil => simp [Tree.bh] at h
  | node a c l k v r => exact ⟨a, c, l, k, v, r, rfl⟩

/-- The body of the loop of `delete_fixup` for a left child does on the store what
`delCase` does on trees, when the sibling has a positive black height. -/
theorem delete_fixup_left_spec {s : RBT K V} {p : List (Frame K V)} {q w : Tree K V}
    {fa : Nat} {fc : Color} {fk : K} {fv : V}
    (hwf : WF s (plug (Frame.lft fa fc fk fv w :: p) q))
    (hcur : q = Tree.nil → s.parent s.sentinel = some fa) (hw : 0 < w.bh) :
    ∃ s1 n1, delete_fixup_left s (q.ptr s.sentinel) = some (s1, n1) ∧
      ((∃ t1, delCase (Frame.lft fa fc fk fv w) q = DelStep.up t1 ∧
          Evolves s (plug (Frame.lft fa fc fk fv w :: p) q) s1 (plug p t1) ∧
          ∃ c1 l1 k1 v1 r1, t1 = Tree.node n1 c1 l1 k1 v1 r1) ∨
        (∃ t1, delCase (Frame.lft fa fc fk fv w) q = DelStep.root t1 ∧
          Evolves s (plug (Frame.lft fa fc fk fv w :: p) q) s1 (plug p t1) ∧ n1 = s1.root) ∨
        (∃ g t1, delCase (Frame.lft fa fc fk fv w) q = DelStep.stop g t1 ∧
          Evolves s (plug (Frame.lft fa fc fk fv w :: p) q) s1 (plug (g :: p) t1) ∧
          ∃ l1 k1 v1 r1, t1 = Tree.node n1 Color.RED l1 k1 v1 r1)) := by
  obtain ⟨wa, wc, wl, wk, wv, wr, rfl⟩ := bh_pos_node hw
  have hp0 := Evolves.cursor (a := fa) (Evolves.refl hwf) hwf rfl hcur
  have hr0 := right_of_heap (WF.heap_focus (p := p) (a := fa) hwf)
  have hc0 := color_of_heap (WF.heap_focus (p := Frame.rgt fa fc q fk fv :: p) (a := wa) hwf)
  simp only [ptr_node] at hr0 hc0
  by_cases hwc : wc = Color.RED
  · -- case 1
    subst hwc
    simp only [Tree.bh, if_false, show ¬ Color.RED = Color.BLACK from by decide] at hw
    obtain ⟨la, lc, ll, lk, lv, lr, rfl⟩ := bh_pos_node hw
    obtain ⟨s1, e1, ev1⟩ := setColor_focus (p := Frame.rgt fa fc q fk fv :: p) (a := wa) hwf
      Color.BLACK
    have hp1 := Evolves.cursor (a := fa) (f := Frame.lft fa fc fk fv _) (p := p) (q := q) ev1 hwf
      rfl hcur
    obtain ⟨s2, e2, ev2⟩ := setColor_focus (p := p) (a := fa) ev1.wf Color.RED
    have ev02 := ev1.trans ev2
    have hp2 := Evolves.cursor (a := fa) (f := Frame.lft fa Color.RED fk fv _) (p := p) (q := q)
      ev02 hwf rfl hcur
    obtain ⟨s3, e3, ev3⟩ := left_rotate_spec (p := p) (x := fa) (y := wa) ev2.wf
    have ev03 := ev02.trans ev3
    have hp3 := Evolves.cursor (a := fa) (f := Frame.lft fa Color.RED fk fv _)
      (p := Frame.lft wa Color.BLACK wk wv wr :: p) (q := q) ev03 hwf rfl hcur
    have hr3 := right_of_heap (WF.heap_focus (p := Frame.lft wa Color.BLACK wk wv wr :: p)
      (a := fa) ev3.wf)
    simp only [ptr_node] at hr3
    have hcur3 : q = Tree.nil → s3.parent s3.sentinel = some fa := by
      intro hq
      subst hq
      rw [ev03.sentinel]
      exact hp3
    obtain ⟨s4, n4, t4, e4, ev4, h4⟩ := @delete_fixup_left_rest_spec _ _ _
      (Frame.lft wa Color.BLACK wk wv wr :: p) q fa la _ _ _ _ _ _ _ _ ev3.wf hcur3
    rw [ev03.sentinel] at e4
    refine ⟨s4, n4, ?_, ?_⟩
    · simp only [delete_fixup_left, hp0, andThen_some, hr0, hc0, if_true, e1, hp1, e2, hp2, e3,
        hp3, hr3]
      simpa using e4
    · rcases h4 with ⟨h5, rfl, r1, rfl⟩ | ⟨h5, rfl⟩
      · exact Or.inr (Or.inr ⟨_, _, by simp [delCase, h5], ev03.trans ev4, _, _, _, _, rfl⟩)
      · exact Or.inr (Or.inl ⟨_, by simp [delCase, h5], ev03.trans ev4, rfl⟩)
  · obtain ⟨s4, n4, t4, e4, ev4, h4⟩ := delete_fixup_left_rest_spec hwf hcur
    refine ⟨s4, n4, ?_, ?_⟩
    · simp only [delete_fixup_left, hp0, andThen_some, hr0, hc0, hwc, if_false]
      simpa using e4
    · rcases h4 with ⟨h5, rfl, r1, rfl⟩ | ⟨h5, rfl⟩
      · exact Or.inl ⟨_, by simp [delCase, hwc, h5], ev4, _, _, _, _, _, rfl⟩
      · exact Or.inr (Or.inl ⟨_, by simp [delCase, hwc, h5], ev4, rfl⟩)

/-- The body of the loop of `delete_fixup` for a right child does on the store what
`delCase` does on trees, when the sibling is balanced with a positive black height. -/
theorem delete_fixup_right_spec {s : RBT K V} {p : List (Frame K V)} {q w : Tree K V}
    {fa : Nat} {fc : Color} {fk : K} {fv : V}
    (hwf : WF s (plug (Frame.rgt fa fc w fk fv :: p) q))
    (hcur : q = Tree.nil → s.parent s.sentinel = some fa) (hw : 0 < w.bh) (hwb : w.balanced) :
    ∃ s1 n1, delete_fixup_right s (q.ptr s.sentinel) = some (s1, n1) ∧
      ((∃ t1, delCase (Frame.rgt fa fc w fk fv) q = DelStep.up t1 ∧
          Evolves s (plug (Frame.rgt fa fc w fk fv :: p) q) s1 (plug p t1) ∧
          ∃ c1 l1 k1 v1 r1, t1 = Tree.node n1 c1 l1 k1 v1 r1) ∨
        (∃ t1, delCase (Frame.rgt fa fc w fk fv) q = DelStep.root t1 ∧
          Evolves s (plug (Frame.rgt fa fc w fk fv :: p) q) s1 (plug p t1) ∧ n1 = s1.root) ∨
        (∃ g t1, delCase (Frame.rgt fa fc w fk fv) q = DelStep.stop g t1 ∧
          Evolves s (plug (Frame.rgt fa fc w fk fv :: p) q) s1 (plug (g :: p) t1) ∧
          ∃ l1 k1 v1 r1, t1 = Tree.node n1 Color.RED l1 k1 v1 r1)) := by
  obtain ⟨wa, wc, wl, wk, wv, wr, rfl⟩ := bh_pos_node hw
  have hp0 := Evolves.cursor (a := fa) (Evolves.refl hwf) hwf rfl hcur
  have hl0 := left_of_heap (WF.heap_focus (p := p) (a := fa) hwf)
  have hc0 := color_of_heap (WF.heap_focus (p := Frame.lft fa fc fk fv q :: p) (a := wa) hwf)
  simp only [ptr_node] at hl0 hc0
  by_cases hwc : wc = Color.RED
  · -- case 5
    subst hwc
    simp only [Tree.bh, if_false, show ¬ Color.RED = Color.BLACK from by decide,
      Tree.balanced] at hw hwb
    obtain ⟨ra, rc, rl, rk, rv, rr, rfl⟩ := bh_pos_node (hwb.1 ▸ hw)
    obtain ⟨s1, e1, ev1⟩ := setColor_focus (p := Frame.lft fa fc fk fv q :: p) (a := wa) hwf
      Color.BLACK
    have hp1 := Evolves.cursor (a := fa) (f := Frame.rgt fa fc _ fk fv) (p := p) (q := q) ev1 hwf
      rfl hcur
    obtain ⟨s2, e2, ev2⟩ := setColor_focus (p := p) (a := fa) ev1.wf Color.RED
    have ev02 := ev1.trans ev2
    have hp2 := Evolves.cursor (a := fa) (f := Frame.rgt fa Color.RED _ fk fv) (p := p) (q := q)
      ev02 hwf rfl hcur
    obtain ⟨s3, e3, ev3⟩ := right_rotate_spec (p := p) (x := fa) (y := wa) ev2.wf
    have ev03 := ev02.trans ev3
    have hp3 := Evolves.cursor (a := fa) (f := Frame.rgt fa Color.RED _ fk fv)
      (p := Frame.rgt wa Color.BLACK wl wk wv :: p) (q := q) ev03 hwf rfl hcur
    have hl3 := left_of_heap (WF.heap_focus (p := Frame.rgt wa Color.BLACK wl wk wv :: p)
      (a := fa) ev3.wf)
    simp only [ptr_node] at hl3
    have hcur3 : q = Tree.nil → s3.parent s3.sentinel = some fa := by
      intro hq
      subst hq
      rw [ev03.sentinel]
      exact hp3
    obtain ⟨s4, n4, t4, e4, ev4, h4⟩ := @delete_fixup_right_rest_spec _ _ _
      (Frame.rgt wa Color.BLACK wl wk wv :: p) q fa ra _ _ _ _ _ _ _ _ ev3.wf hcur3
    rw [ev03.sentinel] at e4
    refine ⟨s4, n4, ?_, ?_⟩
    · simp only [delete_fixup_right, hp0, andThen_some, hl0, hc0, if_true, e1, hp1, e2, hp2, e3,
        hp3, hl3]
      simpa using e4
    · rcases h4 with ⟨h5, rfl, r1, rfl⟩ | ⟨h5, rfl⟩
      · exact Or.inr (Or.inr ⟨_, _, by simp [delCase, h5], ev03.trans ev4, _, _, _, _, rfl⟩)
      · exact Or.inr (Or.inl ⟨_, by simp [delCase, h5], ev03.trans ev4, rfl⟩)
  · obtain ⟨s4, n4, t4, e4, ev4, h4⟩ := delete_fixup_right_rest_spec hwf hcur
    refine ⟨s4, n4, ?_, ?_⟩
    · simp only [delete_fixup_right, hp0, andThen_some, hl0, hc0, hwc, if_false]
      simpa using e4
    · rcases h4 with ⟨h5, rfl, r1, rfl⟩ | ⟨h5, rfl⟩
      · exact Or.inl ⟨_, by simp [delCase, hwc, h5], ev4, _, _, _, _, _, rfl⟩
      · exact Or.inr (Or.inl ⟨_, by simp [delCase, hwc, h5], ev4, rfl⟩)

/-! ### `delete_fixup` on trees -/

theorem color_black_or_red (c : Color) : c = Color.BLACK ∨ c = Color.RED := by
  cases c
  · exact Or.inr rfl
  · exact Or.inl rfl

/-- Cases 2 to 4 of `delete_fixup` on a subtree whose left part `q` is one BLACK node
short: case 2 leaves the subtree valid up to the colour of its root and one short, case
4 makes up for the missing node. -/
theorem delCaseL_valid {fa wa : Nat} {fc wc : Color} {fk wk : K} {fv wv : V}
    {q wl wr : Tree K V} {h : Nat}
    (hq : q.bh = h) (hqb : q.balanced) (hqn : q.noRedRed) (hwl : wl.bh = h)
    (hwr : wr.bh = h) (hlb : wl.balanced) (hrb : wr.balanced) (hln : wl.noRedRed)
    (hrn : wr.noRedRed) :
    (∀ t1, delCaseL fa fc fk fv q (Tree.node wa wc wl wk wv wr) = Sum.inl t1 →
        t1.color = fc ∧ (t1.bh = if fc = Color.BLACK then h + 1 else h) ∧ t1.balanced ∧
          (t1.setColor Color.BLACK).noRedRed) ∧
      (∀ t1, delCaseL fa fc fk fv q (Tree.node wa wc wl wk wv wr) = Sum.inr t1 →
        t1.color = fc ∧ (t1.bh = if fc = Color.BLACK then h + 2 else h + 1) ∧ t1.balanced ∧
          t1.noRedRed) := by
  by_cases hbb : wl.color = Color.BLACK ∧ wr.color = Color.BLACK
  · refine ⟨fun t1 h1 => ?_, fun t1 h1 => ?_⟩
    · simp only [delCaseL, hbb, and_self, if_true, Sum.inl.injEq] at h1
      subst h1
      simp [Tree.bh, Tree.balanced, Tree.noRedRed, *]
    · simp [delCaseL, hbb] at h1
  · by_cases hwrc : wr.color = Color.BLACK
    · have hwlc : wl.color = Color.RED := by
        rcases color_black_or_red wl.color with h1 | h1
        · exact absurd ⟨h1, hwrc⟩ hbb
        · exact h1
      obtain ⟨la, ll, lk, lv, lr, rfl⟩ := color_red_node hwlc
      simp only [Tree.bh, Tree.balanced, Tree.noRedRed, true_implies, if_false,
        show ¬ Color.RED = Color.BLACK from by decide] at hwl hlb hln
      obtain ⟨hlb1, hlb2, hlb3⟩ := hlb
      obtain ⟨⟨hln1, hln2⟩, hln3, hln4⟩ := hln
      refine ⟨fun t1 h1 => ?_, fun t1 h1 => ?_⟩
      · simp [delCaseL, hwrc] at h1
      · simp only [delCaseL, color_node, hwrc, and_true, if_true, if_false, Sum.inr.injEq,
          show ¬ Color.RED = Color.BLACK from by decide] at h1
        subst h1
        rcases color_black_or_red fc with rfl | rfl <;>
          simp [Tree.bh, Tree.balanced, Tree.noRedRed, *] <;> omega
    · have hwrc2 : wr.color = Color.RED := by
        rcases color_black_or_red wr.color with h1 | h1
        · exact absurd h1 hwrc
        · exact h1
      obtain ⟨ra, rl, rk, rv, rr, rfl⟩ := color_red_node hwrc2
      simp only [Tree.bh, Tree.balanced, Tree.noRedRed, true_implies, if_false,
        show ¬ Color.RED = Color.BLACK from by decide] at hwr hrb hrn
      obtain ⟨hrb1, hrb2, hrb3⟩ := hrb
      obtain ⟨⟨hrn1, hrn2⟩, hrn3, hrn4⟩ := hrn
      refine ⟨fun t1 h1 => ?_, fun t1 h1 => ?_⟩
      · simp [delCaseL] at h1
      · simp only [delCaseL, color_node, and_false, if_false, Sum.inr.injEq, setColor_node,
          show ¬ Color.RED = Color.BLACK from by decide] at h1
        subst h1
        rcases color_black_or_red fc with rfl | rfl <;>
          simp [Tree.bh, Tree.balanced, Tree.noRedRed, *] <;> omega

/-- Cases 6 to 8 of `delete_fixup` on a subtree whose right part `q` is one BLACK node
short: case 6 leaves the subtree valid up to the colour of its root and one short, case
8 makes up for the missing node. -/
theorem delCaseR_valid {fa wa : Nat} {fc wc : Color} {fk wk : K} {fv wv : V}
    {q wl wr : Tree K V} {h : Nat}
    (hq : q.bh = h) (hqb : q.balanced) (hqn : q.noRedRed) (hwl : wl.bh = h)
    (hwr : wr.bh = h) (hlb : wl.balanced) (hrb : wr.balanced) (hln : wl.noRedRed)
    (hrn : wr.noRedRed) :
    (∀ t1, delCaseR fa fc fk fv q (Tree.node wa wc wl wk wv wr) = Sum.inl t1 →
        t1.color = fc ∧ (t1.bh = if fc = Color.BLACK then h + 1 else h) ∧ t1.balanced ∧
          (t1.setColor Color.BLACK).noRedRed) ∧
      (∀ t1, delCaseR fa fc fk fv q (Tree.node wa wc wl wk wv wr) = Sum.inr t1 →
        t1.color = fc ∧ (t1.bh = if fc = Color.BLACK then h + 2 else h + 1) ∧ t1.balanced ∧
          t1.noRedRed) := by
  by_cases hbb : wl.color = Color.BLACK ∧ wr.color = Color.BLACK
  · refine ⟨fun t1 h1 => ?_, fun t1 h1 => ?_⟩
    · simp only [delCaseR, hbb, and_self, if_true, Sum.inl.injEq] at h1
      subst h1
      simp [Tree.bh, Tree.balanced, Tree.noRedRed, *]
    · simp [delCaseR, hbb] at h1
  · by_cases hwlc : wl.color = Color.BLACK
    · have hwrc : wr.color = Color.RED := by
        rcases color_black_or_red wr.color with h1 | h1
        · exact absurd ⟨hwlc, h1⟩ hbb
        · exact h1
      obtain ⟨ra, rl, rk, rv, rr, rfl⟩ := color_red_node hwrc
      simp only [Tree.bh, Tree.balanced, Tree.noRedRed, true_implies, if_false,
        show ¬ Color.RED = Color.BLACK from by decide] at hwr hrb hrn
      obtain ⟨hrb1, hrb2, hrb3⟩ := hrb
      obtain ⟨⟨hrn1, hrn2⟩, hrn3, hrn4⟩ := hrn
      refine ⟨fun t1 h1 => ?_, fun t1 h1 => ?_⟩
      · simp [delCaseR, hwlc] at h1
      · simp only [delCaseR, color_node, hwlc, and_false, true_and, if_true, if_false,
          Sum.inr.injEq, show ¬ Color.RED = Color.BLACK from by decide] at h1
        subst h1
        rcases color_black_or_red fc with rfl | rfl <;>
          simp [Tree.bh, Tree.balanced, Tree.noRedRed, *] <;> omega
    · have hwlc2 : wl.color = Color.RED := by
        rcases color_black_or_red wl.color with h1 | h1
        · exact absurd h1 hwlc
        · exact h1
      obtain ⟨la, ll, lk, lv, lr, rfl⟩ := color_red_node hwlc2
      simp only [Tree.bh, Tree.balanced, Tree.noRedRed, true_implies, if_false,
        show ¬ Color.RED = Color.BLACK from by decide] at hwl hlb hln
      obtain ⟨hlb1, hlb2, hlb3⟩ := hlb
      obtain ⟨⟨hln1, hln2⟩, hln3, hln4⟩ := hln
      refine ⟨fun t1 h1 => ?_, fun t1 h1 => ?_⟩
      · simp [delCaseR] at h1
      · simp only [delCaseR, color_node, false_and, if_false, Sum.inr.injEq, setColor_node,
          show ¬ Color.RED = Color.BLACK from by decide] at h1
        subst h1
        rcases color_black_or_red fc with rfl | rfl <;>
          simp [Tree.bh, Tree.balanced, Tree.noRedRed, *] <;> omega

theorem bh_setColor_black_of_red {t : Tree K V} (h : t.color = Color.RED) :
    (t.setColor Color.BLACK).bh = t.bh + 1 := by
  obtain ⟨a, l, k, v, r, rfl⟩ := color_red_node h
  simp [Tree.bh]

theorem balanced_setColor (c : Color) {t : Tree K V} (h : t.balanced) :
    (t.setColor c).balanced := by
  cases t with
  | nil => exact h
  | node a c1 l k v r => exact h

theorem color_black_node_of_bh {t : Tree K V} (hc : t.color = Color.BLACK) (h : 0 < t.bh) :
    ∃ a l k v r, t = Tree.node a Color.BLACK l k v r := by
  obtain ⟨a, c, l, k, v, r, rfl⟩ := bh_pos_node h
  simp only [color_node] at hc
  subst hc
  exact ⟨a, l, k, v, r, rfl⟩

/-- One run of the body of the loop of `delete_fixup` on trees, for a BLACK subtree `q`
that is one BLACK node short of its valid sibling: the three ways it can end. -/
theorem delCase_valid {f : Frame K V} {q : Tree K V} {h : Nat}
    (hq : q.bh = h) (hqb : q.balanced) (hqn : q.noRedRed)
    (hsh : f.sib.bh = h + 1) (hsb : f.sib.balanced) (hsn : f.sib.noRedRed)
    (hsc : f.color = Color.RED → f.sib.color = Color.BLACK) :
    (∀ t1, delCase f q = DelStep.up t1 →
        t1.color = f.color ∧ (t1.bh + 1 = if f.color = Color.BLACK then h + 2 else h + 1) ∧
          t1.balanced ∧ (t1.setColor Color.BLACK).noRedRed) ∧
      (∀ t1, delCase f q = DelStep.root t1 →
        (t1.color = Color.RED → f.color = Color.RED) ∧
          (t1.bh = if f.color = Color.BLACK then h + 2 else h + 1) ∧ t1.balanced ∧
          t1.noRedRed) ∧
      (∀ g t1, delCase f q = DelStep.stop g t1 →
        (g.fill (t1.setColor Color.BLACK)).color = Color.BLACK ∧
          ((g.fill (t1.setColor Color.BLACK)).bh =
            if f.color = Color.BLACK then h + 2 else h + 1) ∧
          (g.fill (t1.setColor Color.BLACK)).balanced ∧
          (g.fill (t1.setColor Color.BLACK)).noRedRed) := by
  cases f with
  | lft fa fc fk fv w =>
    simp only [sib_lft, color_lft] at hsh hsb hsn hsc
    obtain ⟨wa, wc, wl, wk, wv, wr, rfl⟩ := bh_pos_node (by omega : 0 < w.bh)
    rcases color_black_or_red wc with rfl | rfl
    · -- the sibling is BLACK
      simp only [Tree.bh, if_true, Tree.balanced, Tree.noRedRed, Nat.add_right_cancel_iff]
        at hsh hsb hsn
      have hv := @delCaseL_valid _ _ fa wa fc Color.BLACK fk
        wk fv wv _ _ _ _ hq hqb hqn hsh (hsb.1 ▸ hsh) hsb.2.1 hsb.2.2
        hsn.2.1 hsn.2.2
      refine ⟨fun t1 h1 => ?_, fun t1 h1 => ?_, fun g t1 h1 => ?_⟩
      · cases hd : delCaseL fa fc fk fv q (Tree.node wa Color.BLACK wl wk wv wr) with
        | inl t2 =>
          simp [delCase, hd] at h1
          subst h1
          obtain ⟨c1, c2, c3, c4⟩ := hv.1 t2 hd
          refine ⟨c1, ?_, c3, c4⟩
          rw [c2]
          rcases color_black_or_red fc with rfl | rfl <;> simp
        | inr t2 => simp [delCase, hd] at h1
      · cases hd : delCaseL fa fc fk fv q (Tree.node wa Color.BLACK wl wk wv wr) with
        | inl t2 => simp [delCase, hd] at h1
        | inr t2 =>
          simp [delCase, hd] at h1
          subst h1
          obtain ⟨c1, c2, c3, c4⟩ := hv.2 t2 hd
          exact ⟨fun hr => by rw [← c1]; exact hr, c2, c3, c4⟩
      · cases hd : delCaseL fa fc fk fv q (Tree.node wa Color.BLACK wl wk wv wr) <;>
          simp [delCase, hd] at h1
    · -- the sibling is RED: case 1 comes first
      have hfc : fc = Color.BLACK := by
        rcases color_black_or_red fc with h1 | h1
        · exact h1
        · have := hsc h1
          simp at this
      subst hfc
      simp only [Tree.bh, if_false, Tree.balanced, Tree.noRedRed, true_implies,
        show ¬ Color.RED = Color.BLACK from by decide] at hsh hsb hsn
      obtain ⟨la, ll, lk, lv, lr, rfl⟩ := color_black_node_of_bh hsn.1.1 (by omega)
      obtain ⟨hsb1, hsb2, hsb3⟩ := hsb
      obtain ⟨⟨-, hsn2⟩, hsn3, hsn4⟩ := hsn
      simp only [Tree.bh, if_true, Tree.balanced, Tree.noRedRed, Nat.add_right_cancel_iff]
        at hsh hsb2 hsn3 hsb1
      have hv := @delCaseL_valid _ _ fa la Color.RED Color.BLACK
        fk lk fv lv _ _ _ _ hq hqb hqn hsh (hsb2.1 ▸ hsh) hsb2.2.1
        hsb2.2.2 hsn3.2.1 hsn3.2.2
      refine ⟨fun t1 h1 => ?_, fun t1 h1 => ?_, fun g t1 h1 => ?_⟩
      · cases hd : delCaseL fa Color.RED fk fv q (Tree.node la Color.BLACK ll lk lv lr) <;>
          simp [delCase, hd] at h1
      · cases hd : delCaseL fa Color.RED fk fv q (Tree.node la Color.BLACK ll lk lv lr) with
        | inl t2 => simp [delCase, hd] at h1
        | inr t2 =>
          simp [delCase, hd] at h1
          subst h1
          obtain ⟨c1, c2, c3, c4⟩ := hv.2 t2 hd
          simp only [if_false, show ¬ Color.RED = Color.BLACK from by decide] at c2
          simp [Tree.bh, Tree.balanced, Tree.noRedRed, *]
          omega
      · cases hd : delCaseL fa Color.RED fk fv q (Tree.node la Color.BLACK ll lk lv lr) with
        | inr t2 => simp [delCase, hd] at h1
        | inl t2 =>
          simp [delCase, hd] at h1
          obtain ⟨rfl, rfl⟩ := h1
          obtain ⟨c1, c2, c3, c4⟩ := hv.1 t2 hd
          simp only [if_false, show ¬ Color.RED = Color.BLACK from by decide] at c2
          have hb := bh_setColor_black_of_red c1
          have hbal := balanced_setColor Color.BLACK c3
          simp [Tree.bh, Tree.balanced, Tree.noRedRed, *]
          omega
  | rgt fa fc w fk fv =>
    simp only [sib_rgt, color_rgt] at hsh hsb hsn hsc
    obtain ⟨wa, wc, wl, wk, wv, wr, rfl⟩ := bh_pos_node (by omega : 0 < w.bh)
    rcases color_black_or_red wc with rfl | rfl
    · -- the sibling is BLACK
      simp only [Tree.bh, if_true, Tree.balanced, Tree.noRedRed, Nat.add_right_cancel_iff]
        at hsh hsb hsn
      have hv := @delCaseR_valid _ _ fa wa fc Color.BLACK fk
        wk fv wv _ _ _ _ hq hqb hqn hsh (hsb.1 ▸ hsh) hsb.2.1 hsb.2.2
        hsn.2.1 hsn.2.2
      refine ⟨fun t1 h1 => ?_, fun t1 h1 => ?_, fun g t1 h1 => ?_⟩
      · cases hd : delCaseR fa fc fk fv q (Tree.node wa Color.BLACK wl wk wv wr) with
        | inl t2 =>
          simp [delCase, hd] at h1
          subst h1
          obtain ⟨c1, c2, c3, c4⟩ := hv.1 t2 hd
          refine ⟨c1, ?_, c3, c4⟩
          rw [c2]
          rcases color_black_or_red fc with rfl | rfl <;> simp
        | inr t2 => simp [delCase, hd] at h1
      · cases hd : delCaseR fa fc fk fv q (Tree.node wa Color.BLACK wl wk wv wr) with
        | inl t2 => simp [delCase, hd] at h1
        | inr t2 =>
          simp [delCase, hd] at h1
          subst h1
          obtain ⟨c1, c2, c3, c4⟩ := hv.2 t2 hd
          exact ⟨fun hr => by rw [← c1]; exact hr, c2, c3, c4⟩
      · cases hd : delCaseR fa fc fk fv q (Tree.node wa Color.BLACK wl wk wv wr) <;>
          simp [delCase, hd] at h1
    · -- the sibling is RED: case 5 comes first
      have hfc : fc = Color.BLACK := by
        rcases color_black_or_red fc with h1 | h1
        · exact h1
        · have := hsc h1
          simp at this
      subst hfc
      simp only [Tree.bh, if_false, Tree.balanced, Tree.noRedRed, true_implies,
        show ¬ Color.RED = Color.BLACK from by decide] at hsh hsb hsn
      obtain ⟨ra, rl, rk, rv, rr, rfl⟩ := color_black_node_of_bh hsn.1.2 (by omega)
      obtain ⟨hsb1, hsb2, hsb3⟩ := hsb
      obtain ⟨⟨hsn1, -⟩, hsn3, hsn4⟩ := hsn
      simp only [Tree.bh, if_true, Tree.balanced, Tree.noRedRed] at hsb3 hsn4 hsb1
      have hrl : rl.bh = h := by omega
      have hv := @delCaseR_valid _ _ fa ra Color.RED Color.BLACK
        fk rk fv rv _ _ _ _ hq hqb hqn hrl (hsb3.1 ▸ hrl) hsb3.2.1
        hsb3.2.2 hsn4.2.1 hsn4.2.2
      refine ⟨fun t1 h1 => ?_, fun t1 h1 => ?_, fun g t1 h1 => ?_⟩
      · cases hd : delCaseR fa Color.RED fk fv q (Tree.node ra Color.BLACK rl rk rv rr) <;>
          simp [delCase, hd] at h1
      · cases hd : delCaseR fa Color.RED fk fv q (Tree.node ra Color.BLACK rl rk rv rr) with
        | inl t2 => simp [delCase, hd] at h1
        | inr t2 =>
          simp [delCase, hd] at h1
          subst h1
          obtain ⟨c1, c2, c3, c4⟩ := hv.2 t2 hd
          simp only [if_false, show ¬ Color.RED = Color.BLACK from by decide] at c2
          simp [Tree.bh, Tree.balanced, Tree.noRedRed, *]
      · cases hd : delCaseR fa Color.RED fk fv q (Tree.node ra Color.BLACK rl rk rv rr) with
        | inr t2 => simp [delCase, hd] at h1
        | inl t2 =>
          simp [delCase, hd] at h1
          obtain ⟨rfl, rfl⟩ := h1
          obtain ⟨c1, c2, c3, c4⟩ := hv.1 t2 hd
          simp only [if_false, show ¬ Color.RED = Color.BLACK from by decide] at c2
          have hb := bh_setColor_black_of_red c1
          have hbal := balanced_setColor Color.BLACK c3
          simp [Tree.bh, Tree.balanced, Tree.noRedRed, *]

theorem color_plug_rootBlack (f : Frame K V) : ∀ (p : List (Frame K V)) (t : Tree K V),
    rootBlack (f :: p) → (plug (f :: p) t).color = Color.BLACK
  | [], t, h => by cases f <;> exact h
  | g :: p, t, h => color_plug_rootBlack g p _ h

theorem rootBlack_tail1 {f : Frame K V} {p : List (Frame K V)} (h : rootBlack (f :: p)) :
    rootBlack p := by
  cases p with
  | nil => trivial
  | cons g p => exact h

theorem setColor_of_color {t : Tree K V} {c : Color} (h : t.color = c) : t.setColor c = t := by
  cases t with
  | nil => rfl
  | node a c1 l k v r => simp only [color_node] at h; subst h; rfl

/-- `delete_fixup` restores the red-black conditions: started at a subtree that is valid
up to the colour of its root and one BLACK node short of what its place asks for, it
ends with a valid tree with a BLACK root. -/
theorem delFix_valid : ∀ (p : List (Frame K V)) (q : Tree K V), ctxOK p (q.bh + 1) →
    rootBlack p → q.balanced → (q.setColor Color.BLACK).noRedRed →
    (delFix p q).balanced ∧ (delFix p q).noRedRed ∧ (delFix p q).color = Color.BLACK
  | [], q, _, _, hb, hn => by
    refine ⟨balanced_setColor _ hb, hn, ?_⟩
    cases q <;> rfl
  | f :: p, q, hc, hrb, hb, hn => by
    rcases color_black_or_red q.color with hq | hq
    · -- the loop runs
      have hqn : q.noRedRed := by rw [← setColor_of_color hq]; exact hn
      simp only [ctxOK] at hc
      obtain ⟨h1, h2, h3, h4, h5⟩ := hc
      have hv := delCase_valid (f := f) rfl hb hqn h1 h2 h3 (fun hr => (h4 hr).1)
      have hne : ¬ q.color = Color.RED := by rw [hq]; decide
      cases hd : delCase f q with
      | up t1 =>
        obtain ⟨c1, c2, c3, c4⟩ := hv.1 t1 hd
        have ih := delFix_valid p t1 (by rw [c2]; exact h5) (rootBlack_tail1 hrb) c3 c4
        simpa [delFix, hne, hd] using ih
      | root t1 =>
        obtain ⟨c1, c2, c3, c4⟩ := hv.2.1 t1 hd
        have h := plug_valid p t1 (by rw [c2]; exact h5) c3 c4 (by
          intro hp
          rcases color_black_or_red t1.color with ht | ht
          · exact ht
          · rw [(h4 (c1 ht)).2] at hp
            cases hp)
        simpa [delFix, hne, hd] using setColor_black_valid h.1 h.2
      | stop g t1 =>
        obtain ⟨c1, c2, c3, c4⟩ := hv.2.2 g t1 hd
        have h := plug_valid p (g.fill (t1.setColor Color.BLACK)) (by rw [c2]; exact h5) c3 c4
          (fun _ => c1)
        have hcol : (plug p (g.fill (t1.setColor Color.BLACK))).color = Color.BLACK := by
          cases p with
          | nil => exact c1
          | cons g1 p1 => exact color_plug_rootBlack g1 p1 _ hrb
        simpa [delFix, hne, hd] using ⟨h.1, h.2, hcol⟩
    · -- `node` is RED: it is coloured BLACK
      have h := plug_valid (f :: p) (q.setColor Color.BLACK)
        (by rw [bh_setColor_black_of_red hq]; exact hc) (balanced_setColor _ hb) hn
        (fun _ => by cases q <;> rfl)
      have hcol := color_plug_rootBlack f p (q.setColor Color.BLACK) hrb
      simpa [delFix, hq] using ⟨h.1, h.2, hcol⟩

theorem delCaseL_toList (fa : Nat) (fc : Color) (fk : K) (fv : V) (q w : Tree K V) :
    (∀ t1, delCaseL fa fc fk fv q w = Sum.inl t1 →
        t1.toList = (Tree.node fa fc q fk fv w).toList) ∧
      (∀ t1, delCaseL fa fc fk fv q w = Sum.inr t1 →
        t1.toList = (Tree.node fa fc q fk fv w).toList) := by
  cases w with
  | nil => simp [delCaseL]
  | node wa wc wl wk wv wr =>
    by_cases hbb : wl.color = Color.BLACK ∧ wr.color = Color.BLACK
    · simp [delCaseL, hbb, Tree.toList]
    · by_cases hwr : wr.color = Color.BLACK
      · have hwl : ¬ wl.color = Color.BLACK := fun h => hbb ⟨h, hwr⟩
        cases wl with
        | nil => exact absurd rfl hwl
        | node la lc ll lk lv lr =>
          simp only [color_node] at hwl
          simp [delCaseL, hwr, hwl, Tree.toList]
      · simp [delCaseL, hwr, Tree.toList, toList_setColor]

theorem delCaseR_toList (fa : Nat) (fc : Color) (fk : K) (fv : V) (q w : Tree K V) :
    (∀ t1, delCaseR fa fc fk fv q w = Sum.inl t1 →
        t1.toList = (Tree.node fa fc w fk fv q).toList) ∧
      (∀ t1, delCaseR fa fc fk fv q w = Sum.inr t1 →
        t1.toList = (Tree.node fa fc w fk fv q).toList) := by
  cases w with
  | nil => simp [delCaseR]
  | node wa wc wl wk wv wr =>
    by_cases hbb : wl.color = Color.BLACK ∧ wr.color = Color.BLACK
    · simp [delCaseR, hbb, Tree.toList]
    · by_cases hwl : wl.color = Color.BLACK
      · have hwr : ¬ wr.color = Color.BLACK := fun h => hbb ⟨hwl, h⟩
        cases wr with
        | nil => exact absurd rfl hwr
        | node ra rc rl rk rv rr =>
          simp only [color_node] at hwr
          simp [delCaseR, hwl, hwr, Tree.toList]
      · simp [delCaseR, hwl, Tree.toList, toList_setColor]

/-- One run of the body of the loop of `delete_fixup` keeps the in-order sequence. -/
theorem delCase_toList (f : Frame K V) (q : Tree K V) :
    (∀ t1, delCase f q = DelStep.up t1 → t1.toList = (f.fill q).toList) ∧
      (∀ t1, delCase f q = DelStep.root t1 → t1.toList = (f.fill q).toList) ∧
      (∀ g t1, delCase f q = DelStep.stop g t1 →
        (g.fill (t1.setColor Color.BLACK)).toList = (f.fill q).toList) := by
  cases f with
  | lft fa fc fk fv w =>
    by_cases hw : w.color = Color.RED
    · obtain ⟨wa, wl, wk, wv, wr, rfl⟩ := color_red_node hw
      have h := delCaseL_toList fa Color.RED fk fv q wl
      cases hd : delCaseL fa Color.RED fk fv q wl with
      | inl t2 =>
        have := h.1 t2 hd
        simp [delCase, hd, Tree.toList, toList_setColor, this]
      | inr t2 =>
        have := h.2 t2 hd
        simp [delCase, hd, Tree.toList, this]
    · have h := delCaseL_toList fa fc fk fv q w
      cases hd : delCaseL fa fc fk fv q w with
      | inl t2 =>
        have := h.1 t2 hd
        simp [delCase, hd, hw, this]
      | inr t2 =>
        have := h.2 t2 hd
        simp [delCase, hd, hw, this]
  | rgt fa fc w fk fv =>
    by_cases hw : w.color = Color.RED
    · obtain ⟨wa, wl, wk, wv, wr, rfl⟩ := color_red_node hw
      have h := delCaseR_toList fa Color.RED fk fv q wr
      cases hd : delCaseR fa Color.RED fk fv q wr with
      | inl t2 =>
        have := h.1 t2 hd
        simp [delCase, hd, Tree.toList, toList_setColor, this]
      | inr t2 =>
        have := h.2 t2 hd
        simp [delCase, hd, Tree.toList, this]
    · have h := delCaseR_toList fa fc fk fv q w
      cases hd : delCaseR fa fc fk fv q w with
      | inl t2 =>
        have := h.1 t2 hd
        simp [delCase, hd, hw, this]
      | inr t2 =>
        have := h.2 t2 hd
        simp [delCase, hd, hw, this]

/-- `delete_fixup` keeps the in-order sequence of keys and values. -/
theorem delFix_toList : ∀ (p : List (Frame K V)) (q : Tree K V),
    (delFix p q).toList = (plug p q).toList
  | [], q => by simp [delFix, toList_setColor]
  | f :: p, q => by
    by_cases hq : q.color = Color.RED
    · simp only [delFix, hq, if_true]
      exact toList_plug_congr (f :: p) (toList_setColor _ _)
    · have h := delCase_toList f q
      cases hd : delCase f q with
      | up t1 =>
        simp only [delFix, hq, if_false, hd, plug_cons]
        rw [delFix_toList p t1]
        exact toList_plug_congr p (h.1 t1 hd)
      | root t1 =>
        simp only [delFix, hq, if_false, hd, plug_cons, toList_setColor]
        exact toList_plug_congr p (h.2.1 t1 hd)
      | stop g t1 =>
        simp only [delFix, hq, if_false, hd, plug_cons]
        exact toList_plug_congr p (h.2.2 g t1 hd)

/-! ### The loop of `delete_fixup` -/

theorem ptr_plug_mem (sent : Nat) : ∀ (p : List (Frame K V)) (f : Frame K V) (t : Tree K V),
    (plug (f :: p) t).ptr sent ∈ pathAddrs (f :: p)
  | [], f, t => by
    rw [plug_cons, plug_nil, fill_ptr]
    simp [pathAddrs]
  | g :: p, f, t => by
    have h := ptr_plug_mem sent p g (f.fill t)
    rw [plug_cons]
    simp only [pathAddrs, List.cons_append, List.mem_cons, List.mem_append] at h ⊢
    tauto

/-- Below a parent the cursor of `delete_fixup` is not the root. -/
theorem WF.ptr_ne_root {s : RBT K V} {f : Frame K V} {p : List (Frame K V)} {q : Tree K V}
    (hwf : WF s (plug (f :: p) q)) : q.ptr s.sentinel ≠ s.root := by
  have hroot : s.root ∈ pathAddrs (f :: p) := by
    rw [hwf.root]; exact ptr_plug_mem _ p f q
  obtain ⟨-, -, hnd, hst, hsp⟩ := hwf.unplug
  rcases ptr_eq_or_mem s.sentinel q with h | h
  · rw [h]; exact fun e => hsp (e ▸ hroot)
  · intro e
    exact (List.nodup_append.1 hnd).2.2 h (e ▸ hroot)

/-- Leaving the loop of `delete_fixup` at a RED node or at the root. -/
theorem delete_fixup_exit {s : RBT K V} {p : List (Frame K V)} {t : Tree K V}
    (hwf : WF s (plug p t)) (h : t.color = Color.RED ∨ t.ptr s.sentinel = s.root) (fuel : Nat) :
    ∃ s1, delete_fixup (fuel + 1) s (t.ptr s.sentinel) = some s1 ∧
      Evolves s (plug p t) s1 (plug p (t.setColor Color.BLACK)) := by
  obtain ⟨s1, e1, ev1⟩ := setBlack_ptr hwf
  refine ⟨s1, ?_, ev1⟩
  have hc := hwf.color_ptr
  by_cases hr : t.ptr s.sentinel = s.root
  · simp only [delete_fixup, hr, ne_eq, not_true, if_false, andThen_some]
    rw [hr] at e1
    simpa using e1
  · have hred : t.color = Color.RED := h.resolve_right hr
    simp only [delete_fixup, ne_eq, hr, not_false_eq_true, if_true, hc, andThen_some, hred]
    simpa using e1

/-- `delete_fixup` started at the root of a subtree at the end of a path does on the
store what `delFix` does on trees, given fuel for the length of the path. -/
theorem delete_fixup_spec : ∀ (fuel : Nat) (p : List (Frame K V)) (s : RBT K V) (q : Tree K V),
    WF s (plug p q) → (q = Tree.nil → s.parent s.sentinel = some (parentOf s.sentinel p)) →
    ctxOK p (q.bh + 1) → q.balanced → (q.setColor Color.BLACK).noRedRed → p.length < fuel →
    ∃ s1, delete_fixup fuel s (q.ptr s.sentinel) = some s1 ∧
      Evolves s (plug p q) s1 (delFix p q)
  | 0, _, _, _, _, _, _, _, _, hlen => absurd hlen (Nat.not_lt_zero _)
  | fuel + 1, [], s, q, hwf, _, _, _, _, _ => by
    simpa [delFix] using delete_fixup_exit (p := []) hwf (Or.inr hwf.root.symm) fuel
  | fuel + 1, f :: p, s, q, hwf, hcur, hctx, hqb, hqn, hlen => by
    by_cases hq : q.color = Color.RED
    · simpa [delFix, hq] using delete_fixup_exit hwf (Or.inl hq) fuel
    · have hqc : q.color = Color.BLACK := Color.eq_black_of_ne_red hq
      have hqn1 : q.noRedRed := by rw [← setColor_of_color hqc]; exact hqn
      simp only [ctxOK] at hctx
      obtain ⟨h1, h2, h3, h4, h5⟩ := hctx
      have hv := delCase_valid (f := f) rfl hqb hqn1 h1 h2 h3 (fun hr => (h4 hr).1)
      have hne := hwf.ptr_ne_root
      have hc := hwf.color_ptr
      have hfuel : ∃ fuel1, fuel = fuel1 + 1 := by
        cases fuel with
        | zero => simp at hlen
        | succ m => exact ⟨m, rfl⟩
      have hpos : 0 < f.sib.bh := by omega
      have key : ∃ s1 n1, delete_fixup (fuel + 1) s (q.ptr s.sentinel) = delete_fixup fuel s1 n1 ∧
          ((∃ t1, delCase f q = DelStep.up t1 ∧ Evolves s (plug (f :: p) q) s1 (plug p t1) ∧
              ∃ c1 l1 k1 v1 r1, t1 = Tree.node n1 c1 l1 k1 v1 r1) ∨
            (∃ t1, delCase f q = DelStep.root t1 ∧ Evolves s (plug (f :: p) q) s1 (plug p t1) ∧
              n1 = s1.root) ∨
            (∃ g t1, delCase f q = DelStep.stop g t1 ∧
              Evolves s (plug (f :: p) q) s1 (plug (g :: p) t1) ∧
              ∃ l1 k1 v1 r1, t1 = Tree.node n1 Color.RED l1 k1 v1 r1)) := by
        cases f with
        | lft fa fc fk fv w =>
          simp only [parentOf_cons, addr_lft] at hcur
          have hp0 := Evolves.cursor (a := fa) (Evolves.refl hwf) hwf rfl hcur
          have hl0 := left_of_heap (WF.heap_focus (p := p) (a := fa) hwf)
          obtain ⟨s1, n1, e, hcase⟩ := delete_fixup_left_spec hwf hcur hpos
          refine ⟨s1, n1, ?_, hcase⟩
          simp only [delete_fixup, ne_eq, hne, not_false_eq_true, if_true, hc, andThen_some, hqc,
            decide_True, hp0, hl0, e]
        | rgt fa fc w fk fv =>
          simp only [parentOf_cons, addr_rgt] at hcur
          have hp0 := Evolves.cursor (a := fa) (Evolves.refl hwf) hwf rfl hcur
          have hl0 := left_of_heap (WF.heap_focus (p := p) (a := fa) hwf)
          obtain ⟨wa, wc, wl, wk, wv, wr, rfl⟩ := bh_pos_node hpos
          have hnw : q.ptr s.sentinel ≠ wa := by
            have h := WF.ne_sib_ptr (p := p) (f := Frame.lft fa fc fk fv q) (a := wa) hwf
            exact fun e => h e.symm
          obtain ⟨s1, n1, e, hcase⟩ := delete_fixup_right_spec hwf hcur hpos h2
          refine ⟨s1, n1, ?_, hcase⟩
          simp only [ptr_node] at hl0
          simp only [delete_fixup, ne_eq, hne, not_false_eq_true, if_true, hc, andThen_some, hqc,
            decide_True, hp0, hl0, hnw, if_false, e]
      obtain ⟨s1, n1, e, hcase⟩ := key
      rw [e]
      rcases hcase with ⟨t1, hd, ev, c1, l1, k1, v1, r1, rfl⟩ | ⟨t1, hd, ev, rfl⟩ |
        ⟨g, t1, hd, ev, l1, k1, v1, r1, rfl⟩
      · obtain ⟨d1, d2, d3, d4⟩ := hv.1 _ hd
        obtain ⟨s2, e2, ev2⟩ := delete_fixup_spec fuel p s1 _ ev.wf (fun h => by cases h)
          (by rw [d2]; exact h5) d3 d4 (by simp only [List.length_cons] at hlen; omega)
        rw [ptr_node] at e2
        refine ⟨s2, e2, ev.trans ?_⟩
        simpa [delFix, hq, hd] using ev2
      · obtain ⟨fuel1, rfl⟩ := hfuel
        obtain ⟨s2, e2, ev2⟩ := delete_fixup_exit (p := []) ev.wf (Or.inr ev.wf.root.symm) fuel1
        rw [← ev.wf.root] at e2
        refine ⟨s2, e2, ev.trans ?_⟩
        simpa [delFix, hq, hd] using ev2
      · obtain ⟨fuel1, rfl⟩ := hfuel
        obtain ⟨s2, e2, ev2⟩ := delete_fixup_exit (p := g :: p) ev.wf (Or.inl rfl) fuel1
        rw [ptr_node] at e2
        refine ⟨s2, e2, ev.trans ?_⟩
        simpa [delFix, hq, hd] using ev2

/-! ### `inner_delete` on trees -/

theorem plug_append : ∀ (p1 p2 : List (Frame K V)) (t : Tree K V),
    plug (p1 ++ p2) t = plug p2 (plug p1 t)
  | [], _, _ => rfl
  | f :: p1, p2, t => plug_append p1 p2 (f.fill t)

theorem leftmost_node_node (p : List (Frame K V)) (a la : Nat) (c lc : Color) (k lk : K)
    (v lv : V) (ll lr r : Tree K V) :
    leftmost p (Tree.node a c (Tree.node la lc ll lk lv lr) k v r) =
      leftmost (Frame.lft a c k v r :: p) (Tree.node la lc ll lk lv lr) := rfl

theorem leftmost_append : ∀ (t : Tree K V) (p : List (Frame K V)),
    leftmost p t = ((leftmost [] t).1 ++ p, (leftmost [] t).2)
  | Tree.nil, p => rfl
  | Tree.node a c Tree.nil k v r, p => rfl
  | Tree.node a c (Tree.node la lc ll lk lv lr) k v r, p => by
    have h1 := leftmost_append (Tree.node la lc ll lk lv lr) (Frame.lft a c k v r :: p)
    have h2 := leftmost_append (Tree.node la lc ll lk lv lr) [Frame.lft a c k v r]
    rw [leftmost_node_node, leftmost_node_node, h1, h2]
    simp

/-- The leftmost node of a subtree: it has no left child, the path to it goes through
left links only, and nothing comes before it in the in-order sequence. -/
theorem leftmost_spec : ∀ (t : Tree K V), t ≠ Tree.nil →
    ∃ pm ma mc mk mv mr, leftmost [] t = (pm, Tree.node ma mc Tree.nil mk mv mr) ∧
      plug pm (Tree.node ma mc Tree.nil mk mv mr) = t ∧ pathLeft pm = []
  | Tree.nil, h => absurd rfl h
  | Tree.node a c Tree.nil k v r, _ => ⟨[], a, c, k, v, r, rfl, rfl, rfl⟩
  | Tree.node a c (Tree.node la lc ll lk lv lr) k v r, _ => by
    obtain ⟨pm, ma, mc, mk, mv, mr, h1, h2, h3⟩ :=
      leftmost_spec (Tree.node la lc ll lk lv lr) (by simp)
    refine ⟨pm ++ [Frame.lft a c k v r], ma, mc, mk, mv, mr, ?_, ?_, ?_⟩
    · rw [leftmost_node_node, leftmost_append, h1]
    · rw [plug_append, h2]; rfl
    · clear h1 h2
      induction pm with
      | nil => rfl
      | cons f pm ih =>
        cases f with
        | lft fa fc fk fv fr => simpa [pathLeft] using ih h3
        | rgt fa fc fl fk fv => simp [pathLeft] at h3

/-- The red-black conditions do not look at keys and values. -/
theorem valid_setKV (p : List (Frame K V)) (a : Nat) (c : Color) (l r : Tree K V) (k k1 : K)
    (v v1 : V) (hb : (plug p (Tree.node a c l k v r)).balanced)
    (hn : (plug p (Tree.node a c l k v r)).noRedRed) :
    (plug p (Tree.node a c l k1 v1 r)).balanced ∧ (plug p (Tree.node a c l k1 v1 r)).noRedRed := by
  obtain ⟨h1, h2, h3, h4⟩ := unplug_valid p _ hb hn
  exact plug_valid p _ h1 h2 h3 h4

theorem color_plug_setKV (p : List (Frame K V)) (a : Nat) (c : Color) (l r : Tree K V)
    (k k1 : K) (v v1 : V) :
    (plug p (Tree.node a c l k1 v1 r)).color = (plug p (Tree.node a c l k v r)).color := by
  cases p with
  | nil => rfl
  | cons f p => exact color_plug_cons f p _ _

/-- Splicing out a node with at most one child, then `delete_fixup` when the node was
BLACK, gives a valid tree with a BLACK root. -/
theorem splice_valid (p : List (Frame K V)) (a : Nat) (c : Color) (l r q : Tree K V) (k : K)
    (v : V) (hq : (l = Tree.nil ∧ q = r) ∨ (r = Tree.nil ∧ q = l))
    (hb : (plug p (Tree.node a c l k v r)).balanced)
    (hn : (plug p (Tree.node a c l k v r)).noRedRed)
    (hc : (plug p (Tree.node a c l k v r)).color = Color.BLACK) :
    (c = Color.BLACK → (delFix p q).balanced ∧ (delFix p q).noRedRed ∧
        (delFix p q).color = Color.BLACK) ∧
      (c ≠ Color.BLACK → (plug p q).balanced ∧ (plug p q).noRedRed ∧
        (plug p q).color = Color.BLACK) := by
  obtain ⟨h1, h2, h3, h4⟩ := unplug_valid p _ hb hn
  simp only [Tree.balanced, Tree.noRedRed, color_node] at h2 h3 h4
  have hqb : q.bh = l.bh ∧ q.balanced ∧ q.noRedRed := by
    rcases hq with ⟨-, rfl⟩ | ⟨-, rfl⟩
    · exact ⟨h2.1.symm, h2.2.2, h3.2.2⟩
    · exact ⟨rfl, h2.2.1, h3.2.1⟩
  have hqc : c = Color.RED → q.color = Color.BLACK := by
    intro hr
    rcases hq with ⟨-, rfl⟩ | ⟨-, rfl⟩
    · exact (h3.1 hr).2
    · exact (h3.1 hr).1
  constructor
  · intro hcb
    subst hcb
    refine delFix_valid p q ?_ (rootBlack_of_color p _ hc) hqb.2.1
      (setColor_black_valid hqb.2.1 hqb.2.2).2.1
    rw [hqb.1]
    simpa [Tree.bh] using h1
  · intro hcb
    have hcr : c = Color.RED := by
      rcases color_black_or_red c with h | h
      · exact absurd h hcb
      · exact h
    subst hcr
    have hv := plug_valid p q (by rw [hqb.1]; simpa [Tree.bh] using h1) hqb.2.1 hqb.2.2
      (fun _ => hqc rfl)
    refine ⟨hv.1, hv.2, ?_⟩
    cases p with
    | nil => simp only [plug_nil, color_node] at hc; cases hc
    | cons f p => rw [← hc]; exact color_plug_cons f p _ _

/-- `inner_delete` keeps the red-black conditions and the BLACK root. -/
theorem delAt_valid (p : List (Frame K V)) (a : Nat) (c : Color) (l r : Tree K V) (k : K)
    (v : V) (hb : (plug p (Tree.node a c l k v r)).balanced)
    (hn : (plug p (Tree.node a c l k v r)).noRedRed)
    (hc : (plug p (Tree.node a c l k v r)).color = Color.BLACK) :
    (delAt p (Tree.node a c l k v r)).balanced ∧ (delAt p (Tree.node a c l k v r)).noRedRed ∧
      (delAt p (Tree.node a c l k v r)).color = Color.BLACK := by
  cases l with
  | nil =>
    have h := splice_valid p a c Tree.nil r r k v (Or.inl ⟨rfl, rfl⟩) hb hn hc
    by_cases hcb : c = Color.BLACK
    · simpa [delAt, hcb] using h.1 hcb
    · simpa [delAt, hcb] using h.2 hcb
  | node la lc ll lk lv lr =>
    cases r with
    | nil =>
      have h := splice_valid p a c (Tree.node la lc ll lk lv lr) Tree.nil _ k v
        (Or.inr ⟨rfl, rfl⟩) hb hn hc
      by_cases hcb : c = Color.BLACK
      · simpa [delAt, hcb] using h.1 hcb
      · simpa [delAt, hcb] using h.2 hcb
    | node ra rc rl rk rv rr =>
      obtain ⟨pm, ma, mc, mk, mv, mr, h1, h2, h3⟩ :=
        leftmost_spec (Tree.node ra rc rl rk rv rr) (by simp)
      have hv := valid_setKV p a c (Tree.node la lc ll lk lv lr) (Tree.node ra rc rl rk rv rr)
        k mk v mv hb hn
      have hcol := color_plug_setKV p a c (Tree.node la lc ll lk lv lr)
        (Tree.node ra rc rl rk rv rr) k mk v mv
      rw [hc, ← h2] at hcol
      rw [← h2] at hv
      have e : plug p (Tree.node a c (Tree.node la lc ll lk lv lr) mk mv
          (plug pm (Tree.node ma mc Tree.nil mk mv mr))) =
          plug (pm ++ Frame.rgt a c (Tree.node la lc ll lk lv lr) mk mv :: p)
            (Tree.node ma mc Tree.nil mk mv mr) := by
        rw [plug_append]; rfl
      rw [e] at hv hcol
      have h := splice_valid _ ma mc Tree.nil mr mr mk mv (Or.inl ⟨rfl, rfl⟩) hv.1 hv.2 hcol
      by_cases hcb : mc = Color.BLACK
      · simpa [delAt, h1, hcb] using h.1 hcb
      · simpa [delAt, h1, hcb] using h.2 hcb

/-- `inner_delete` takes the pair of the node out of the in-order sequence and keeps the
other pairs in their order. -/
theorem delAt_toList (p : List (Frame K V)) (a : Nat) (c : Color) (l r : Tree K V) (k : K)
    (v : V) :
    (delAt p (Tree.node a c l k v r)).toList = pathLeft p ++ (l.toList ++ r.toList) ++
      pathRight p := by
  cases l with
  | nil =>
    by_cases hcb : c = Color.BLACK
    · simp [delAt, hcb, delFix_toList, toList_plug, Tree.toList]
    · simp [delAt, hcb, toList_plug, Tree.toList]
  | node la lc ll lk lv lr =>
    cases r with
    | nil =>
      by_cases hcb : c = Color.BLACK
      · simp [delAt, hcb, delFix_toList, toList_plug, Tree.toList]
      · simp [delAt, hcb, toList_plug, Tree.toList]
    | node ra rc rl rk rv rr =>
      obtain ⟨pm, ma, mc, mk, mv, mr, h1, h2, h3⟩ :=
        leftmost_spec (Tree.node ra rc rl rk rv rr) (by simp)
      have hr : (Tree.node ra rc rl rk rv rr).toList = (mk, mv) :: (mr.toList ++ pathRight pm) := by
        rw [← h2, toList_plug, h3]
        simp [Tree.toList]
      have e : (plug (pm ++ Frame.rgt a c (Tree.node la lc ll lk lv lr) mk mv :: p) mr).toList =
          pathLeft p ++ ((Tree.node la lc ll lk lv lr).toList ++
            (mk, mv) :: (mr.toList ++ pathRight pm)) ++ pathRight p := by
        rw [plug_append, plug_cons, toList_plug p, fill_rgt]
        simp [Tree.toList, toList_plug, h3]
      rw [hr]
      by_cases hcb : mc = Color.BLACK
      · simp only [delAt, h1, hcb, if_true, delFix_toList]
        exact e
      · simp only [delAt, h1, hcb, if_false]
        exact e

/-! ### `inner_delete` on the store -/

/-- Putting a well-formed state together from a path and a subtree in the store. -/
theorem WF.of_parts {s : RBT K V} {p : List (Frame K V)} {t : Tree K V}
    (hpath : RepPath s.heap s.sentinel s.root p (t.ptr s.sentinel))
    (hsub : Rep s.heap s.sentinel (parentOf s.sentinel p) t)
    (hnd : (t.addrs ++ pathAddrs p).Nodup) (hst : s.sentinel ∉ t.addrs)
    (hsp : s.sentinel ∉ pathAddrs p) (hsb : s.color s.sentinel = some Color.BLACK)
    (hlt : ∀ a, a ∈ t.addrs ∨ a ∈ pathAddrs p → a < s.next) (hsl : s.sentinel < s.next) :
    WF s (plug p t) := by
  have h1 := (@rep_plug _ _ s.heap s.sentinel s.root p
    t).2 ⟨hpath, hsub⟩
  refine ⟨h1.1, h1.2, nodup_addrs_plug.2 hnd, ?_, hsb, fun a ha => hlt a (mem_addrs_plug.1 ha),
    hsl⟩
  intro h
  rcases mem_addrs_plug.1 h with h | h
  · exact hst h
  · exact hsp h

/-- The assignment `q->_parent = x` of `inner_delete`, through the link to a subtree: for
the sentinel the parent link of the sentinel node is written. -/
theorem setParent_ptr {s : RBT K V} {q : Tree K V} {par : Nat} (x : Nat)
    (hrep : Rep s.heap s.sentinel par q) (hs : s.sentinel ∉ q.addrs) (hnd : q.addrs.Nodup)
    (hsent : s.color s.sentinel = some Color.BLACK) :
    ∃ s1, s.setParent (q.ptr s.sentinel) x = some s1 ∧ Rep s1.heap s.sentinel x q ∧
      s1.root = s.root ∧ Mod s s1 [q.ptr s.sentinel] ∧
      s1.color s.sentinel = some Color.BLACK ∧
      (q = Tree.nil → s1.parent s.sentinel = some x) := by
  cases q with
  | nil =>
    simp only [RBT.color] at hsent
    cases hn : s.heap s.sentinel with
    | none => simp [hn] at hsent
    | some n =>
      obtain ⟨k, v, c, l, r, pa⟩ := n
      obtain ⟨s1, e1, h1, r1, m1⟩ := setParent_spec hn x
      refine ⟨s1, e1, trivial, r1, m1, ?_, fun _ => parent_of_heap h1⟩
      rw [hn] at hsent
      simpa [RBT.color, h1] using hsent
  | node a c l k v r =>
    simp only [Tree.addrs, List.mem_cons, List.mem_append, not_or, List.nodup_cons,
      List.nodup_append] at hs hnd
    obtain ⟨ha, hl, hr⟩ := hrep
    obtain ⟨s1, e1, h1, r1, m1⟩ := setParent_spec ha x
    refine ⟨s1, e1, ⟨h1, Rep.congr ?_ hl, Rep.congr ?_ hr⟩, r1, m1, ?_, fun h => by cases h⟩
    · intro y hy
      exact m1.heap y (by simpa using ne_of_mem_of_not_mem hy hnd.1.1)
    · intro y hy
      exact m1.heap y (by simpa using ne_of_mem_of_not_mem hy hnd.1.2)
    · simp only [RBT.color] at hsent ⊢
      rw [m1.heap _ (by simpa using hs.1)]
      exact hsent

/-- Assignment to `_k` of the node at the end of a path. -/
theorem setKey_focus {s : RBT K V} {p : List (Frame K V)} {a : Nat} {c : Color}
    {l r : Tree K V} {k : K} {v : V} (hwf : WF s (plug p (Tree.node a c l k v r)))
    (k1 : K) :
    ∃ s1, s.setKey a k1 = some s1 ∧
      Evolves s (plug p (Tree.node a c l k v r)) s1 (plug p (Tree.node a c l k1 v r)) := by
  obtain ⟨hpath, hsub, hnd, hst, hsp⟩ := hwf.unplug
  simp only [Rep, ptr_node] at hsub hpath
  obtain ⟨ha, hl, hr⟩ := hsub
  simp only [Tree.addrs, List.cons_append, List.nodup_cons, List.mem_append, not_or] at hnd
  obtain ⟨⟨⟨hal, har⟩, hap⟩, -⟩ := hnd
  obtain ⟨s1, e1, h1a, r1, m1⟩ := setKey_spec ha k1
  refine ⟨s1, e1, WF.replace hwf m1.sentinel m1.size m1.next ?_ ?_ (List.Perm.refl _) ?_⟩
  · rw [r1, ptr_node]
    exact RepPath.congrPath (fun z hz => m1.heap z (by simpa using ne_of_mem_of_not_mem hz hap)) hpath
  · exact ⟨h1a, Rep.congr (fun z hz => m1.heap z (by simpa using ne_of_mem_of_not_mem hz hal)) hl,
      Rep.congr (fun z hz => m1.heap z (by simpa using ne_of_mem_of_not_mem hz har)) hr⟩
  · intro z hz _
    simp only [Tree.addrs, List.mem_cons, not_or] at hz
    exact m1.heap z (by simpa using hz.1)

/-- Assignment to `_v` of the node at the end of a path. -/
theorem setVal_focus {s : RBT K V} {p : List (Frame K V)} {a : Nat} {c : Color}
    {l r : Tree K V} {k : K} {v : V} (hwf : WF s (plug p (Tree.node a c l k v r)))
    (v1 : V) :
    ∃ s1, s.setVal a v1 = some s1 ∧
      Evolves s (plug p (Tree.node a c l k v r)) s1 (plug p (Tree.node a c l k v1 r)) := by
  obtain ⟨hpath, hsub, hnd, hst, hsp⟩ := hwf.unplug
  simp only [Rep, ptr_node] at hsub hpath
  obtain ⟨ha, hl, hr⟩ := hsub
  simp only [Tree.addrs, List.cons_append, List.nodup_cons, List.mem_append, not_or] at hnd
  obtain ⟨⟨⟨hal, har⟩, hap⟩, -⟩ := hnd
  obtain ⟨s1, e1, h1a, r1, m1⟩ := setVal_spec ha v1
  refine ⟨s1, e1, WF.replace hwf m1.sentinel m1.size m1.next ?_ ?_ (List.Perm.refl _) ?_⟩
  · rw [r1, ptr_node]
    exact RepPath.congrPath (fun z hz => m1.heap z (by simpa using ne_of_mem_of_not_mem hz hap)) hpath
  · exact ⟨h1a, Rep.congr (fun z hz => m1.heap z (by simpa using ne_of_mem_of_not_mem hz hal)) hl,
      Rep.congr (fun z hz => m1.heap z (by simpa using ne_of_mem_of_not_mem hz har)) hr⟩
  · intro z hz _
    simp only [Tree.addrs, List.mem_cons, not_or] at hz
    exact m1.heap z (by simpa using hz.1)

/-- The statement `delete p` for a node outside the tree. -/
theorem free_spec {s : RBT K V} {t : Tree K V} {a : Nat} {n : Node K V} (hwf : WF s t)
    (ha : s.heap a = some n) (hat : a ∉ t.addrs) (has : a ≠ s.sentinel) :
    ∃ s1, s.free a = some s1 ∧ WF s1 t ∧ s1.sentinel = s.sentinel ∧ s1.size = s.size ∧
      s1.next = s.next ∧ s1.root = s.root ∧ s1.heap a = none ∧
      ∀ x, x ≠ a → s1.heap x = s.heap x := by
  have hh : ∀ x, x ≠ a → (Function.update s.heap a none) x = s.heap x := fun x hx => by
    simp [Function.update_apply, hx]
  refine ⟨{ s with heap := Function.update s.heap a none }, by simp [RBT.free, ha], ?_, rfl, rfl,
    rfl, rfl, by simp, hh⟩
  refine ⟨hwf.root, Rep.congr (fun x hx => hh x (ne_of_mem_of_not_mem hx hat)) hwf.rep, hwf.nodup,
    hwf.sent_notin, ?_, hwf.lt_next, hwf.sent_lt⟩
  have := hwf.sent_black
  simp only [RBT.color] at this ⊢
  rw [hh _ (Ne.symm has)]
  exact this

/-- The first loop of `successor` goes down to the leftmost node. -/
theorem successor_down_spec {s : RBT K V} : ∀ (fuel : Nat) (t : Tree K V)
    (p : List (Frame K V)), WF s (plug p t) → t ≠ Tree.nil → t.height ≤ fuel →
    successor_down fuel s (t.ptr s.sentinel) = some ((leftmost p t).2.ptr s.sentinel)
  | _, Tree.nil, _, _, h, _ => absurd rfl h
  | 0, Tree.node a c l k v r, _, _, _, hf => by simp [Tree.height] at hf
  | fuel + 1, Tree.node a c Tree.nil k v r, p, hwf, _, _ => by
    have hl := left_of_heap hwf.heap_focus
    simp [successor_down, hl, leftmost]
  | fuel + 1, Tree.node a c (Tree.node la lc ll lk lv lr) k v r, p, hwf, _, hf => by
    have hl := left_of_heap hwf.heap_focus
    have hne := WF.ptr_ne_sentinel (p := Frame.lft a c k v r :: p) (a := la) hwf
    have ih := successor_down_spec fuel (Tree.node la lc ll lk lv lr) (Frame.lft a c k v r :: p)
      hwf (by simp) (by simp only [Tree.height] at hf ⊢; omega)
    rw [leftmost_node_node]
    simp only [ptr_node] at hl ih ⊢
    simp only [successor_down, hl, andThen_some, ne_eq, hne, not_false_eq_true, if_true, ih]

/-- The splice of `inner_delete`: a node with at most one child is taken out of the tree
and its child `q` put in its place.  The node itself stays in the store. -/
theorem splice_spec {s : RBT K V} {p : List (Frame K V)} {a : Nat} {c : Color}
    {l r q : Tree K V} {k : K} {v : V} (hwf : WF s (plug p (Tree.node a c l k v r)))
    (hq : (l = Tree.nil ∧ q = r) ∨ (r = Tree.nil ∧ q = l)) :
    ∃ s1 s2, s.setParent (q.ptr s.sentinel) (parentOf s.sentinel p) = some s1 ∧
      s1.sentinel = s.sentinel ∧ s1.parent a = some (parentOf s.sentinel p) ∧
      (if parentOf s.sentinel p = s.sentinel then some (s1.setRoot (q.ptr s.sentinel))
        else (s1.left (parentOf s.sentinel p)).andThen fun npl =>
          if a = npl then s1.setLeft (parentOf s.sentinel p) (q.ptr s.sentinel)
          else s1.setRight (parentOf s.sentinel p) (q.ptr s.sentinel)) = some s2 ∧
      WF s2 (plug p q) ∧ s2.sentinel = s.sentinel ∧ s2.size = s.size ∧ s2.next = s.next ∧
      s2.heap a = s.heap a ∧
      (∀ x, x ∉ (plug p (Tree.node a c l k v r)).addrs → x ≠ s.sentinel →
        s2.heap x = s.heap x) ∧
      (q = Tree.nil → s2.parent s.sentinel = some (parentOf s.sentinel p)) := by
  obtain ⟨hpath, hsub, hnd, hst, hsp⟩ := hwf.unplug
  simp only [ptr_node] at hpath
  obtain ⟨ha, hl, hr⟩ := hsub
  have hqrep : Rep s.heap s.sentinel a q := by
    rcases hq with ⟨-, rfl⟩ | ⟨-, rfl⟩
    · exact hr
    · exact hl
  have hqsub : ∀ x, x ∈ q.addrs → x ∈ l.addrs ++ r.addrs := by
    intro x hx
    rcases hq with ⟨-, rfl⟩ | ⟨-, rfl⟩
    · exact List.mem_append_right _ hx
    · exact List.mem_append_left _ hx
  have hqnd : (q.addrs ++ pathAddrs p).Nodup := by
    rcases hq with ⟨rfl, rfl⟩ | ⟨rfl, rfl⟩
    · simp only [Tree.addrs, List.nil_append, List.cons_append, List.nodup_cons] at hnd
      exact hnd.2
    · simp only [Tree.addrs, List.append_nil, List.cons_append, List.nodup_cons] at hnd
      exact hnd.2
  simp only [Tree.addrs, List.cons_append, List.nodup_cons, List.mem_append, List.mem_cons,
    not_or] at hnd hst
  obtain ⟨⟨⟨hal, har⟩, hap⟩, hnd2⟩ := hnd
  have hqst : s.sentinel ∉ q.addrs := fun h => by
    rcases List.mem_append.1 (hqsub _ h) with h | h
    · exact hst.2.1 h
    · exact hst.2.2 h
  have haq : a ∉ q.addrs := fun h => by
    rcases List.mem_append.1 (hqsub _ h) with h | h
    · exact hal h
    · exact har h
  have hqp : q.ptr s.sentinel ∉ pathAddrs p := by
    rcases ptr_eq_or_mem s.sentinel q with h | h
    · rw [h]; exact hsp
    · exact fun h2 => (List.nodup_append.1 hqnd).2.2 h h2
  have hqa : a ≠ q.ptr s.sentinel := by
    rcases ptr_eq_or_mem s.sentinel q with h | h
    · rw [h]; exact fun e => hst.1 e.symm
    · exact fun e => haq (e ▸ h)
  obtain ⟨s1, e1, rep1, r1, m1, sb1, cur1⟩ := setParent_ptr (parentOf s.sentinel p) hqrep hqst
    (List.nodup_append.1 hqnd).1 hwf.sent_black
  have h1a : s1.heap a = s.heap a := m1.heap a (by simpa using hqa)
  have hpath1 : RepPath s1.heap s1.sentinel s1.root p a := by
    rw [m1.sentinel, r1]
    exact RepPath.congrPath (fun z hz => m1.heap z (by
      simpa using ne_of_mem_of_not_mem hz hqp)) hpath
  obtain ⟨s2, e2, hpath2, m2⟩ := @relink_spec _ _ s1 p a (q.ptr s.sentinel)
    hpath1 hap (by rw [m1.sentinel]; exact fun e => hst.1 e.symm)
    (by rw [m1.sentinel]; exact hsp) (List.nodup_append.1 hqnd).2.1
  rw [m1.sentinel] at e2 hpath2
  have hs2 : s2.sentinel = s.sentinel := m2.sentinel.trans m1.sentinel
  have hwf2 : WF s2 (plug p q) := by
    refine WF.of_parts ?_ ?_ hqnd ?_ ?_ ?_ ?_ ?_
    · rw [hs2]; exact hpath2
    · rw [hs2]
      exact Rep.congr (fun z hz => m2.heap z (fun h2 => (List.nodup_append.1 hqnd).2.2 hz h2)) rep1
    · rw [hs2]; exact hqst
    · rw [hs2]; exact hsp
    · simp only [RBT.color] at sb1 ⊢
      rw [hs2, m2.heap _ hsp]
      exact sb1
    · intro x hx
      rw [m2.next, m1.next]
      refine hwf.lt_next x (mem_addrs_plug.2 ?_)
      rcases hx with hx | hx
      · exact Or.inl (by simpa [Tree.addrs] using Or.inr (List.mem_append.1 (hqsub x hx)))
      · exact Or.inr hx
    · rw [hs2, m2.next, m1.next]; exact hwf.sent_lt
  refine ⟨s1, s2, e1, m1.sentinel, ?_, e2, hwf2, hs2, m2.size.trans m1.size,
    m2.next.trans m1.next, (m2.heap a hap).trans h1a, ?_, ?_⟩
  · simp only [RBT.parent, h1a, ha, Option.map_some']
  · intro x hx hxs
    rw [mem_addrs_plug] at hx
    simp only [not_or] at hx
    rw [m2.heap x hx.2]
    refine m1.heap x ?_
    rcases ptr_eq_or_mem s.sentinel q with h | h
    · rw [h]; simpa using hxs
    · have : x ≠ q.ptr s.sentinel := fun e => hx.1 (by
        have := hqsub _ (e ▸ h)
        simpa [Tree.addrs] using Or.inr (List.mem_append.1 this))
      simpa using this
  · intro hqn
    have := cur1 hqn
    simp only [RBT.parent] at this ⊢
    rw [m2.heap _ hsp]
    exact this

/-- The red-black conditions around the child that takes the place of a spliced BLACK
node. -/
theorem splice_ctx (p : List (Frame K V)) (a : Nat) (l r q : Tree K V) (k : K)
    (v : V) (hq : (l = Tree.nil ∧ q = r) ∨ (r = Tree.nil ∧ q = l))
    (hb : (plug p (Tree.node a Color.BLACK l k v r)).balanced)
    (hn : (plug p (Tree.node a Color.BLACK l k v r)).noRedRed) :
    ctxOK p (q.bh + 1) ∧ q.balanced ∧ (q.setColor Color.BLACK).noRedRed := by
  obtain ⟨h1, h2, h3, h4⟩ := unplug_valid p _ hb hn
  simp only [Tree.balanced, Tree.noRedRed, color_node] at h2 h3 h4
  have hqb : q.bh = l.bh ∧ q.balanced ∧ q.noRedRed := by
    rcases hq with ⟨-, rfl⟩ | ⟨-, rfl⟩
    · exact ⟨h2.1.symm, h2.2.2, h3.2.2⟩
    · exact ⟨rfl, h2.2.1, h3.2.1⟩
  refine ⟨?_, hqb.2.1, (setColor_black_valid hqb.2.1 hqb.2.2).2.1⟩
  rw [hqb.1]
  simpa [Tree.bh] using h1

/-- The end of `inner_delete`: `delete_fixup` from the child `q` when the spliced node was
BLACK, then the spliced node is freed. -/
theorem inner_delete_finish {s : RBT K V} {p : List (Frame K V)} {q : Tree K V} {m : Nat}
    {n : Node K V} (hwf : WF s (plug p q)) (hm : s.heap m = some n)
    (hmt : m ∉ (plug p q).addrs) (hms : m ≠ s.sentinel)
    (hcur : q = Tree.nil → s.parent s.sentinel = some (parentOf s.sentinel p))
    (hv : n.c = Color.BLACK → ctxOK p (q.bh + 1) ∧ q.balanced ∧
      (q.setColor Color.BLACK).noRedRed) :
    ∃ s1, ((s.color m).andThen fun pc =>
        (if pc = Color.BLACK then delete_fixup s.next s (q.ptr s.sentinel)
          else some s).andThen fun s => s.free m) = some s1 ∧
      WF s1 (if n.c = Color.BLACK then delFix p q else plug p q) ∧
      s1.sentinel = s.sentinel ∧ s1.size = s.size ∧ s1.next = s.next ∧
      (∀ x, x ∉ (plug p q).addrs → x ≠ m → s1.heap x = s.heap x) := by
  have hc := color_of_heap hm
  by_cases hb : n.c = Color.BLACK
  · obtain ⟨h1, h2, h3⟩ := hv hb
    obtain ⟨s1, e1, ev1⟩ := delete_fixup_spec s.next p s q hwf hcur h1 h2 h3
      (by have := hwf.path_length_lt; omega)
    have hm1 : s1.heap m = some n := (ev1.frame m hmt).trans hm
    obtain ⟨s2, e2, wf2, a2, b2, c2, -, -, f2⟩ := free_spec ev1.wf hm1
      (fun h => hmt (ev1.perm.mem_iff.1 h)) (by rw [ev1.sentinel]; exact hms)
    refine ⟨s2, ?_, by simpa [hb] using wf2, a2.trans ev1.sentinel, b2.trans ev1.size,
      c2.trans ev1.next, fun x hx hxm => (f2 x hxm).trans (ev1.frame x hx)⟩
    simp only [hc, andThen_some, hb, if_true, e1, e2]
  · obtain ⟨s2, e2, wf2, a2, b2, c2, -, -, f2⟩ := free_spec hwf hm hmt hms
    refine ⟨s2, ?_, by simpa [hb] using wf2, a2, b2, c2, fun x _ hxm => f2 x hxm⟩
    simp only [hc, andThen_some, hb, if_false, e2]

/-- `inner_delete` of a node with at most one child. -/
theorem inner_delete_one {s : RBT K V} {p : List (Frame K V)} {a : Nat} {c : Color}
    {l r q : Tree K V} {k : K} {v : V} (hwf : WF s (plug p (Tree.node a c l k v r)))
    (hq : (l = Tree.nil ∧ q = r) ∨ (r = Tree.nil ∧ q = l))
    (hb : (plug p (Tree.node a c l k v r)).balanced)
    (hn : (plug p (Tree.node a c l k v r)).noRedRed) :
    ∃ s1, inner_delete s a = some s1 ∧
      WF s1 (if c = Color.BLACK then delFix p q else plug p q) ∧
      s1.sentinel = s.sentinel ∧ s1.size = s.size ∧ s1.next = s.next ∧
      (∀ x, x ∉ (plug p (Tree.node a c l k v r)).addrs → x ≠ s.sentinel →
        s1.heap x = s.heap x) := by
  have hh := hwf.heap_focus
  have hl := left_of_heap hh
  have hr := right_of_heap hh
  have hp := parent_of_heap hh
  simp only at hl hr hp
  have hone : (if l.ptr s.sentinel = s.sentinel then some true
      else (s.right a).andThen fun nr => some (decide (nr = s.sentinel))) = some true := by
    rcases hq with ⟨rfl, -⟩ | ⟨rfl, -⟩
    · simp
    · by_cases h : l.ptr s.sentinel = s.sentinel <;> simp [h, hr]
  have hqq : (if l.ptr s.sentinel ≠ s.sentinel then some (l.ptr s.sentinel) else s.right a)
      = some (q.ptr s.sentinel) := by
    rcases hq with ⟨rfl, rfl⟩ | ⟨rfl, rfl⟩
    · simp [hr]
    · by_cases h : q.ptr s.sentinel = s.sentinel
      · simp [h, hr]
      · simp [h]
  obtain ⟨s1, s2, e1, hs1, hp1, e2, wf2, hs2, hz2, hn2, ha2, fr2, cur2⟩ := splice_spec hwf hq
  obtain ⟨-, -, hnd, hst, hsp⟩ := hwf.unplug
  have hmt : a ∉ (plug p q).addrs := by
    rw [mem_addrs_plug]
    simp only [Tree.addrs, List.cons_append, List.nodup_cons, List.mem_append, not_or] at hnd
    rcases hq with ⟨-, rfl⟩ | ⟨-, rfl⟩
    · exact fun h => h.elim hnd.1.1.2 hnd.1.2
    · exact fun h => h.elim hnd.1.1.1 hnd.1.2
  have has : a ≠ s.sentinel := hwf.ptr_ne_sentinel
  obtain ⟨s3, e3, wf3, hs3, hz3, hn3, fr3⟩ := inner_delete_finish (s := s2) (m := a) wf2
    (ha2.trans hh) hmt (by rw [hs2]; exact has) (by rw [hs2]; exact cur2) (by
      intro hc
      simp only at hc
      subst hc
      exact splice_ctx p a l r q k v hq hb hn)
  rw [hs2] at e3
  refine ⟨s3, ?_, wf3, hs3.trans hs2, hz3.trans hz2, hn3.trans hn2, ?_⟩
  · simp only [inner_delete, hl, andThen_some, hone, if_true, hqq, hp, e1, hp1, hs1, e2]
    simpa using e3
  · intro x hx hxs
    have hxa : x ≠ a := fun e => hx (e ▸ mem_addrs_plug.2 (Or.inl (by simp [Tree.addrs])))
    rw [fr3 x ?_ hxa, fr2 x hx hxs]
    intro h
    apply hx
    rw [mem_addrs_plug] at h ⊢
    rcases h with h | h
    · left
      rcases hq with ⟨-, rfl⟩ | ⟨-, rfl⟩ <;> simp [Tree.addrs, h]
    · exact Or.inr h

theorem parentOf_append_cons (sent : Nat) (pm p : List (Frame K V)) (f g : Frame K V)
    (h : f.addr = g.addr) : parentOf sent (pm ++ f :: p) = parentOf sent (pm ++ g :: p) := by
  cases pm with
  | nil => simpa using h
  | cons x pm => rfl

/-- `inner_delete` of a node with two children: the successor `m`, the leftmost node of
the right subtree, is spliced out and its key and value go into the node. -/
theorem inner_delete_two {s : RBT K V} {p pm : List (Frame K V)} {a ma : Nat} {c mc : Color}
    {l r mr : Tree K V} {k mk : K} {v mv : V}
    (hwf : WF s (plug p (Tree.node a c l k v r))) (hl : l ≠ Tree.nil) (hr : r ≠ Tree.nil)
    (hm : leftmost [] r = (pm, Tree.node ma mc Tree.nil mk mv mr))
    (hplug : plug pm (Tree.node ma mc Tree.nil mk mv mr) = r)
    (hb : (plug p (Tree.node a c l k v r)).balanced)
    (hn : (plug p (Tree.node a c l k v r)).noRedRed) :
    ∃ s1, inner_delete s a = some s1 ∧
      WF s1 (if mc = Color.BLACK then delFix (pm ++ Frame.rgt a c l mk mv :: p) mr
        else plug (pm ++ Frame.rgt a c l mk mv :: p) mr) ∧
      s1.sentinel = s.sentinel ∧ s1.size = s.size ∧ s1.next = s.next ∧
      (∀ x, x ∉ (plug p (Tree.node a c l k v r)).addrs → x ≠ s.sentinel →
        s1.heap x = s.heap x) := by
  have hh := hwf.heap_focus
  have hl0 := left_of_heap hh
  have hr0 := right_of_heap hh
  simp only at hl0 hr0
  have hlne : l.ptr s.sentinel ≠ s.sentinel := by
    cases l with
    | nil => exact absurd rfl hl
    | node la lc ll lk lv lr => exact WF.ptr_ne_sentinel (p := Frame.lft a c k v r :: p) hwf
  have hrne : r.ptr s.sentinel ≠ s.sentinel := by
    cases r with
    | nil => exact absurd rfl hr
    | node ra rc rl rk rv rr => exact WF.ptr_ne_sentinel (p := Frame.rgt a c l k v :: p) hwf
  -- the successor
  have htree : plug (pm ++ Frame.rgt a c l k v :: p) (Tree.node ma mc Tree.nil mk mv mr) =
      plug p (Tree.node a c l k v r) := by
    rw [plug_append, hplug]; rfl
  have hsucc : successor_down s.next s (r.ptr s.sentinel) = some ma := by
    have h := successor_down_spec s.next r (Frame.rgt a c l k v :: p) hwf hr (by
      have h1 := height_le_length_addrs r
      have h2 := hwf.length_addrs_lt
      have h3 := (addrs_plug (Frame.rgt a c l k v :: p) r).length_eq
      rw [plug_cons, fill_rgt] at h3
      simp only [List.length_append] at h3
      omega)
    rw [leftmost_append, hm] at h
    exact h
  have hwfm : WF s (plug (pm ++ Frame.rgt a c l k v :: p) (Tree.node ma mc Tree.nil mk mv mr)) := by
    rw [htree]; exact hwf
  have hhm := hwfm.heap_focus
  have hlm := left_of_heap hhm
  have hrm := right_of_heap hhm
  have hpm := parent_of_heap hhm
  simp only [ptr_nil] at hlm hrm hpm
  obtain ⟨s1, s2, e1, hs1, hp1, e2, wf2, hs2, hz2, hn2, ha2, fr2, cur2⟩ :=
    splice_spec (q := mr) hwfm (Or.inl ⟨rfl, rfl⟩)
  obtain ⟨-, -, hnd, hst, hsp⟩ := hwfm.unplug
  have hmt : ma ∉ (plug (pm ++ Frame.rgt a c l k v :: p) mr).addrs := by
    rw [mem_addrs_plug]
    simp only [Tree.addrs, List.cons_append, List.nodup_cons, List.mem_append, not_or,
      List.nil_append] at hnd
    exact fun h => h.elim hnd.1.1 hnd.1.2
  have hma : ma ≠ a := by
    simp only [Tree.addrs, List.cons_append, List.nodup_cons, List.mem_append, not_or,
      List.nil_append] at hnd
    intro e
    apply hnd.1.2
    rw [e]
    clear * -
    induction pm with
    | nil => simp [pathAddrs]
    | cons f pm ih => simp [pathAddrs, ih]
  have hms : ma ≠ s.sentinel := hwfm.ptr_ne_sentinel
  -- the copy of key and value
  have h2m : s2.heap ma = some ⟨mk, mv, mc, s.sentinel, mr.ptr s.sentinel,
      parentOf s.sentinel (pm ++ Frame.rgt a c l k v :: p)⟩ := ha2.trans hhm
  have e20 : plug (pm ++ Frame.rgt a c l k v :: p) mr =
      plug p (Tree.node a c l k v (plug pm mr)) := by
    rw [plug_append]; rfl
  have wf2a : WF s2 (plug p (Tree.node a c l k v (plug pm mr))) := by
    rw [← e20]; exact wf2
  obtain ⟨s3, e3, ev3⟩ := setKey_focus wf2a mk
  have h3m : s3.heap ma = s2.heap ma := ev3.frame ma (by rw [← e20]; exact hmt)
  obtain ⟨s4, e4, ev4⟩ := setVal_focus ev3.wf mv
  have ev24 := ev3.trans ev4
  have h4m : s4.heap ma = s2.heap ma := ev24.frame ma (by rw [← e20]; exact hmt)
  have e40 : plug (pm ++ Frame.rgt a c l mk mv :: p) mr =
      plug p (Tree.node a c l mk mv (plug pm mr)) := by
    rw [plug_append]; rfl
  have wf4 : WF s4 (plug (pm ++ Frame.rgt a c l mk mv :: p) mr) := by
    rw [e40]; exact ev4.wf
  have hs4 : s4.sentinel = s.sentinel := ev24.sentinel.trans hs2
  have hmt4 : ma ∉ (plug (pm ++ Frame.rgt a c l mk mv :: p) mr).addrs := by
    rw [e40]
    intro h
    apply hmt
    rw [e20]
    exact ev24.perm.mem_iff.1 h
  have hv : mc = Color.BLACK → ctxOK (pm ++ Frame.rgt a c l mk mv :: p) (mr.bh + 1) ∧
      mr.balanced ∧ (mr.setColor Color.BLACK).noRedRed := by
    intro hc
    subst hc
    have hv1 := valid_setKV p a c l r k mk v mv hb hn
    rw [← hplug] at hv1
    have e : plug p (Tree.node a c l mk mv (plug pm (Tree.node ma Color.BLACK Tree.nil mk mv mr)))
        = plug (pm ++ Frame.rgt a c l mk mv :: p) (Tree.node ma Color.BLACK Tree.nil mk mv mr) := by
      rw [plug_append]; rfl
    rw [e] at hv1
    exact splice_ctx _ ma Tree.nil mr mr mk mv (Or.inl ⟨rfl, rfl⟩) hv1.1 hv1.2
  have hcur4 : mr = Tree.nil → s4.parent s4.sentinel =
      some (parentOf s4.sentinel (pm ++ Frame.rgt a c l mk mv :: p)) := by
    intro hq
    have h := cur2 hq
    rw [hs4, parentOf_append_cons s.sentinel pm p (Frame.rgt a c l mk mv)
      (Frame.rgt a c l k v) rfl]
    simp only [RBT.parent] at h ⊢
    rw [ev24.frame _ (by rw [← e20, ← hs2]; exact wf2.sent_notin)]
    exact h
  obtain ⟨s5, e5, wf5, hs5, hz5, hn5, fr5⟩ := inner_delete_finish (s := s4) (m := ma) wf4
    (h4m.trans h2m) hmt4 (by rw [hs4]; exact hms) hcur4 hv
  rw [hs4] at e5
  refine ⟨s5, ?_, wf5, hs5.trans hs4, (hz5.trans ev24.size).trans hz2,
    (hn5.trans ev24.next).trans hn2, ?_⟩
  · have hone : (if l.ptr s.sentinel = s.sentinel then some true
        else (s.right a).andThen fun nr => some (decide (nr = s.sentinel))) = some false := by
      simp [hlne, hr0, hrne]
    have hsuc : successor s a = some ma := by
      simp only [successor, hr0, andThen_some, ne_eq, hrne, not_false_eq_true, if_true, hsucc]
    have hk2 : s2.key ma = some mk := key_of_heap h2m
    have hv3 : s3.val ma = some mv := val_of_heap (h3m.trans h2m)
    simp only [inner_delete, hl0, andThen_some, hone, hsuc, hlm, hrm, hpm, e1, hp1, hs1, e2]
    simp only [Bool.false_eq_true, if_false, andThen_some, ne_eq, not_true_eq_false, hlm, hrm, hpm,
      e1, hp1, hs1, e2, hma, not_false_eq_true, if_true, hk2, e3, hv3, e4]
    simpa using e5
  · intro x hx hxs
    have hxm : x ≠ ma := fun e => hx (by
      rw [← htree, mem_addrs_plug]
      exact Or.inl (by simp [Tree.addrs, e]))
    have hx2 : x ∉ (plug (pm ++ Frame.rgt a c l k v :: p) mr).addrs := by
      intro h
      apply hx
      rw [← htree]
      rw [mem_addrs_plug] at h ⊢
      rcases h with h | h
      · exact Or.inl (by simp [Tree.addrs, h])
      · exact Or.inr h
    rw [fr5 x ?_ hxm, ev24.frame x (by rw [← e20]; exact hx2), fr2 x (by rw [htree]; exact hx) hxs]
    rw [e40]
    intro h
    apply hx2
    rw [e20]
    exact ev24.perm.mem_iff.1 h

/-- `inner_delete` called with the node at the end of a path in a valid tree does on the
store what `delAt` does on trees. -/
theorem inner_delete_spec {s : RBT K V} {p : List (Frame K V)} {a : Nat} {c : Color}
    {l r : Tree K V} {k : K} {v : V} (hwf : WF s (plug p (Tree.node a c l k v r)))
    (hb : (plug p (Tree.node a c l k v r)).balanced)
    (hn : (plug p (Tree.node a c l k v r)).noRedRed) :
    ∃ s1, inner_delete s a = some s1 ∧ WF s1 (delAt p (Tree.node a c l k v r)) ∧
      s1.sentinel = s.sentinel ∧ s1.size = s.size ∧ s1.next = s.next ∧
      (∀ x, x ∉ (plug p (Tree.node a c l k v r)).addrs → x ≠ s.sentinel →
        s1.heap x = s.heap x) := by
  cases l with
  | nil =>
    obtain ⟨s1, e, wf, h⟩ := inner_delete_one (q := r) hwf (Or.inl ⟨rfl, rfl⟩) hb hn
    exact ⟨s1, e, by simpa [delAt] using wf, h⟩
  | node la lc ll lk lv lr =>
    cases r with
    | nil =>
      obtain ⟨s1, e, wf, h⟩ := inner_delete_one (q := Tree.node la lc ll lk lv lr) hwf
        (Or.inr ⟨rfl, rfl⟩) hb hn
      exact ⟨s1, e, by simpa [delAt] using wf, h⟩
    | node ra rc rl rk rv rr =>
      obtain ⟨pm, ma, mc, mk, mv, mr, h1, h2, -⟩ :=
        leftmost_spec (Tree.node ra rc rl rk rv rr) (by simp)
      obtain ⟨s1, e, wf, h⟩ := inner_delete_two hwf (by simp) (by simp) h1 h2 hb hn
      refine ⟨s1, e, ?_, h⟩
      simp only [delAt, h1]
      exact wf

/-- Well-formedness does not look at `_size`. -/
theorem WF.setSize {s : RBT K V} {t : Tree K V} (hwf : WF s t) (n : Nat) :
    WF { s with size := n } t :=
  ⟨hwf.root, hwf.rep, hwf.nodup, hwf.sent_notin, hwf.sent_black, hwf.lt_next, hwf.sent_lt⟩

theorem sub_one_mod (n : Nat) : (n % 2 ^ 32 + 2 ^ 32 - 1) % 2 ^ 32 = (n + 2 ^ 32 - 1) % 2 ^ 32 := by
  omega

/-- `tree_delete` of a key that is not stored: nothing happens. -/
theorem tree_delete_absent {s : RBT Int V} {t : Tree Int V} (h : Inv s t) (k : Int)
    (hk : t.toList.lookup k = none) : tree_delete less s k = some (false, s) := by
  obtain ⟨p, t1, hs, hp, -, hl, hr, hstop⟩ := search_sorted h.sorted k
  have hwf : WF s (plug p t1) := by rw [hp]; exact h.wf
  have hf := inner_find_spec less k h.wf
  rw [hs] at hf
  simp only at hf
  rcases hstop with rfl | ⟨a, c, l, v1, r, rfl, hl2, -⟩
  · cases p with
    | nil => simp [tree_delete, hf, landing]
    | cons f p =>
      cases f with
      | lft fa fc fk fv fr =>
        have hk := key_of_heap (WF.heap_focus (p := p) (a := fa) hwf)
        have hne := WF.ptr_ne_sentinel (p := p) (a := fa) hwf
        have hlt : k < fk := hr (fk, fv) (by simp [pathRight])
        have : (fk != k) = true := by simpa using ne_of_gt hlt
        simp [tree_delete, hf, landing, hne, hk, this]
      | rgt fa fc fl fk fv =>
        have hk := key_of_heap (WF.heap_focus (p := p) (a := fa) hwf)
        have hne := WF.ptr_ne_sentinel (p := p) (a := fa) hwf
        have hlt : fk < k := hl (fk, fv) (by simp [pathLeft])
        have : (fk != k) = true := by simpa using ne_of_lt hlt
        simp [tree_delete, hf, landing, hne, hk, this]
  · exfalso
    rw [← hp, toList_plug] at hk
    simp only [Tree.toList, List.append_assoc] at hk
    rw [lookup_append_of_lt _ _ (fun y hy => ne_of_lt (hl y hy)),
      lookup_append_of_lt _ _ (fun y hy => ne_of_lt (hl2 y hy))] at hk
    simp [List.lookup_cons] at hk

/-- `tree_delete` of a key that is stored: its pair is taken out of the in-order sequence,
and the invariant is kept. -/
theorem tree_delete_stored {s : RBT Int V} {t : Tree Int V} (h : Inv s t) (k : Int) (w : V)
    (hk : t.toList.lookup k = some w) :
    ∃ s1 t1, tree_delete less s k = some (true, s1) ∧ Inv s1 t1 ∧
      s1.size = (s.size + 2 ^ 32 - 1) % 2 ^ 32 ∧ s1.sentinel = s.sentinel ∧
      s1.next = s.next ∧
      ∃ l1 l2, t.toList = l1 ++ (k, w) :: l2 ∧ t1.toList = l1 ++ l2 ∧
        (∀ y ∈ l1, y.1 < k) ∧ (∀ y ∈ l2, k < y.1) := by
  obtain ⟨p, t1, hs, hp, -, hl, hr, hstop⟩ := search_sorted h.sorted k
  have hwf : WF s (plug p t1) := by rw [hp]; exact h.wf
  have hf := inner_find_spec less k h.wf
  rw [hs] at hf
  simp only at hf
  rcases hstop with rfl | ⟨a, c, l, v, r, rfl, hl2, hr2⟩
  · exfalso
    rw [← hp, toList_plug, lookup_eq_none_of_ne] at hk
    · cases hk
    · intro y hy
      simp only [Tree.toList, List.append_nil, List.mem_append] at hy
      rcases hy with hy | hy
      · exact ne_of_lt (hl y hy)
      · exact ne_of_gt (hr y hy)
  · have hvw : v = w := by
      rw [← hp, toList_plug] at hk
      simp only [Tree.toList, List.append_assoc] at hk
      rw [lookup_append_of_lt _ _ (fun y hy => ne_of_lt (hl y hy)),
        lookup_append_of_lt _ _ (fun y hy => ne_of_lt (hl2 y hy))] at hk
      simpa [List.lookup_cons] using hk
    subst hvw
    have hh := hwf.heap_focus
    have hne := hwf.ptr_ne_sentinel
    have hbal : (plug p (Tree.node a c l k v r)).balanced := by rw [hp]; exact h.bal
    have hnrr : (plug p (Tree.node a c l k v r)).noRedRed := by rw [hp]; exact h.nrr
    have hcol : (plug p (Tree.node a c l k v r)).color = Color.BLACK := by rw [hp]; exact h.black
    obtain ⟨s1, e1, hwf1, hsent1, hsize1, hnext1, -⟩ := inner_delete_spec hwf hbal hnrr
    have hval := delAt_valid p a c l r k v hbal hnrr hcol
    have hlist := delAt_toList p a c l r k v
    have hold : t.toList = (pathLeft p ++ l.toList) ++ (k, v) :: (r.toList ++ pathRight p) := by
      rw [← hp, toList_plug]; simp [Tree.toList]
    have hnew : (delAt p (Tree.node a c l k v r)).toList =
        (pathLeft p ++ l.toList) ++ (r.toList ++ pathRight p) := by
      rw [hlist]; simp
    refine ⟨{ s1 with size := (s1.size + 2 ^ 32 - 1) % 2 ^ 32 }, _, ?_, ⟨?_, ?_, hval.2.2,
      hval.2.1, hval.1, ?_⟩, ?_, hsent1, hnext1, pathLeft p ++ l.toList, r.toList ++ pathRight p,
      hold, hnew, ?_, ?_⟩
    · simp [tree_delete, hf, landing, hne, key_of_heap hh, e1]
    · exact hwf1.setSize _
    · have hso := h.sorted
      rw [Tree.keys, hold] at hso
      rw [Tree.keys, hnew]
      refine hso.sublist (List.Sublist.map _ ?_)
      exact List.Sublist.append (List.Sublist.refl _) (List.sublist_cons_self _ _)
    · show (s1.size + 2 ^ 32 - 1) % 2 ^ 32 = _
      rw [hsize1, h.size, sub_one_mod, count_eq_length, count_eq_length, hnew, hold]
      simp only [List.length_append, List.length_cons]
      omega
    · show (s1.size + 2 ^ 32 - 1) % 2 ^ 32 = _
      rw [hsize1]
    · intro y hy
      rcases List.mem_append.1 hy with hy | hy
      · exact hl y hy
      · exact hl2 y hy
    · intro y hy
      rcases List.mem_append.1 hy with hy | hy
      · exact hr2 y hy
      · exact hr y hy

/-! ### `tree_clear` and reading the tree from the store -/

/-- `inner_destroy` frees every node of the subtree it is called with and touches nothing
else. -/
theorem inner_destroy_spec : ∀ (fuel : Nat) (t : Tree K V) (s : RBT K V) (par : Nat),
    t ≠ Tree.nil → Rep s.heap s.sentinel par t → t.addrs.Nodup → s.sentinel ∉ t.addrs →
    t.height ≤ fuel →
    ∃ s1, inner_destroy fuel s (t.ptr s.sentinel) = some s1 ∧ s1.sentinel = s.sentinel ∧
      s1.root = s.root ∧ s1.size = s.size ∧ s1.next = s.next ∧
      (∀ x, x ∉ t.addrs → s1.heap x = s.heap x) ∧ (∀ x, x ∈ t.addrs → s1.heap x = none)
  | _, Tree.nil, _, _, h, _, _, _, _ => absurd rfl h
  | 0, Tree.node a c l k v r, _, _, _, _, _, _, hf => by simp [Tree.height] at hf
  | fuel + 1, Tree.node a c l k v r, s, par, _, hrep, hnd, hst, hf => by
    obtain ⟨ha, hl, hr⟩ := hrep
    simp only [Tree.addrs, List.mem_cons, List.mem_append, not_or, List.nodup_cons,
      List.nodup_append] at hst hnd
    simp only [Tree.height] at hf
    have child : ∀ (u : Tree K V) (s0 : RBT K V), s0.sentinel = s.sentinel →
        Rep s0.heap s0.sentinel a u → u.addrs.Nodup → s0.sentinel ∉ u.addrs → u.height ≤ fuel →
        ∃ s1, (if u.ptr s0.sentinel ≠ s0.sentinel then inner_destroy fuel s0 (u.ptr s0.sentinel)
            else some s0) = some s1 ∧ s1.sentinel = s0.sentinel ∧
          s1.root = s0.root ∧ s1.size = s0.size ∧ s1.next = s0.next ∧
          (∀ x, x ∉ u.addrs → s1.heap x = s0.heap x) ∧ (∀ x, x ∈ u.addrs → s1.heap x = none) := by
      intro u s0 _ hu hund hus huf
      cases u with
      | nil => exact ⟨s0, by simp, rfl, rfl, rfl, rfl, fun _ _ => rfl, fun x hx => by cases hx⟩
      | node ua uc ul uk uv ur =>
        have hne : ua ≠ s0.sentinel := by
          simp only [Tree.addrs, List.mem_cons, not_or] at hus
          exact fun e => hus.1 e.symm
        obtain ⟨s1, e, h⟩ := inner_destroy_spec fuel (Tree.node ua uc ul uk uv ur) s0 a (by simp)
          hu hund hus huf
        exact ⟨s1, by simpa [hne] using e, h⟩
    obtain ⟨s1, e1, a1, b1, c1, d1, f1, g1⟩ := child l s rfl hl hnd.2.1 hst.2.1 (by omega)
    have ha1 : s1.heap a = s.heap a := f1 a hnd.1.1
    have hr1 : Rep s1.heap s1.sentinel a r := by
      rw [a1]
      exact Rep.congr (fun x hx => f1 x (fun h => hnd.2.2.2 h hx)) hr
    obtain ⟨s2, e2, a2, b2, c2, d2, f2, g2⟩ := child r s1 a1 hr1 hnd.2.2.1
      (by rw [a1]; exact hst.2.2) (by omega)
    have ha2 : s2.heap a = s.heap a := (f2 a hnd.1.2).trans ha1
    rw [a1] at e2
    refine ⟨{ s2 with heap := Function.update s2.heap a none }, ?_, a2.trans a1, b2.trans b1,
      c2.trans c1, d2.trans d1, ?_, ?_⟩
    · simp only [ptr_node, inner_destroy, left_of_heap ha, andThen_some, e1,
        right_of_heap (ha1.trans ha), a1, e2]
      simp [RBT.free, ha2, ha]
    · intro x hx
      simp only [Tree.addrs, List.mem_cons, List.mem_append, not_or] at hx
      show Function.update s2.heap a none x = _
      simp only [Function.update_apply, hx.1, if_false]
      rw [f2 x hx.2.2, f1 x hx.2.1]
    · intro x hx
      simp only [Tree.addrs, List.mem_cons, List.mem_append] at hx
      show Function.update s2.heap a none x = _
      by_cases hxa : x = a
      · simp [Function.update_apply, hxa]
      · simp only [Function.update_apply, hxa, if_false]
        rcases hx with hx | hx | hx
        · exact absurd hx hxa
        · rw [f2 x (fun h => hnd.2.2.2 hx h)]
          exact g1 x hx
        · exact g2 x hx

/-- `tree_clear` frees every node and leaves the empty tree. -/
theorem tree_clear_spec {s : RBT K V} {t : Tree K V} (hwf : WF s t) :
    ∃ s1, tree_clear s = some s1 ∧ WF s1 Tree.nil ∧ s1.size = 0 ∧ s1.root = s.sentinel ∧
      s1.sentinel = s.sentinel ∧ s1.next = s.next ∧
      (∀ x, x ∉ t.addrs → s1.heap x = s.heap x) ∧ (∀ x, x ∈ t.addrs → s1.heap x = none) := by
  have key : ∃ s1, (if s.root ≠ s.sentinel then inner_destroy s.next s s.root else some s)
      = some s1 ∧ s1.sentinel = s.sentinel ∧ s1.next = s.next ∧
      (∀ x, x ∉ t.addrs → s1.heap x = s.heap x) ∧ (∀ x, x ∈ t.addrs → s1.heap x = none) := by
    cases t with
    | nil =>
      exact ⟨s, by simp [hwf.root], rfl, rfl, fun _ _ => rfl, fun x hx => by cases hx⟩
    | node a c l k v r =>
      have hne : a ≠ s.sentinel := WF.ptr_ne_sentinel (p := []) hwf
      obtain ⟨s1, e, a1, -, -, d1, f1, g1⟩ := inner_destroy_spec s.next (Tree.node a c l k v r) s
        s.sentinel (by simp) hwf.rep hwf.nodup hwf.sent_notin (by
          have h1 := height_le_length_addrs (Tree.node a c l k v r)
          have h2 := hwf.length_addrs_lt
          omega)
      rw [← hwf.root] at e
      refine ⟨s1, ?_, a1, d1, f1, g1⟩
      rw [hwf.root] at e ⊢
      simpa [hne] using e
  obtain ⟨s1, e, a1, d1, f1, g1⟩ := key
  refine ⟨{ s1 with root := s1.sentinel, size := 0 }, by simp [tree_clear, e], ?_, rfl, a1, a1, d1,
    f1, g1⟩
  refine ⟨rfl, trivial, List.nodup_nil, by simp [Tree.addrs], ?_, fun x hx => (by cases hx), ?_⟩
  · have h := hwf.sent_black
    simp only [RBT.color] at h ⊢
    show Option.map Node.c (s1.heap s1.sentinel) = _
    rw [a1, f1 _ hwf.sent_notin]
    exact h
  · show s1.sentinel < s1.next
    rw [a1, d1]; exact hwf.sent_lt

/-- Reading a subtree out of the store gives the tree that the store holds. -/
theorem toTree_spec {s : RBT K V} : ∀ (t : Tree K V) (fuel par : Nat),
    Rep s.heap s.sentinel par t → s.sentinel ∉ t.addrs → t.height < fuel →
    toTree fuel s (t.ptr s.sentinel) = some t
  | _, 0, _, _, _, hf => absurd hf (Nat.not_lt_zero _)
  | Tree.nil, fuel + 1, _, _, _, _ => by simp [toTree]
  | Tree.node a c l k v r, fuel + 1, par, hrep, hst, hf => by
    obtain ⟨ha, hl, hr⟩ := hrep
    simp only [Tree.addrs, List.mem_cons, List.mem_append, not_or] at hst
    simp only [Tree.height] at hf
    have h1 := toTree_spec l fuel a hl hst.2.1 (by omega)
    have h2 := toTree_spec r fuel a hr hst.2.2 (by omega)
    have hne : a ≠ s.sentinel := fun e => hst.1 e.symm
    simp [toTree, hne, ha, h1, h2]

/-- The tree read from the root of a well-formed state is the tree it holds. -/
theorem WF.tree_eq {s : RBT K V} {t : Tree K V} (hwf : WF s t) : s.tree = some t := by
  have h := toTree_spec t s.next s.sentinel hwf.rep hwf.sent_notin (by
    have h1 := height_le_length_addrs t
    have h2 := hwf.length_addrs_lt
    omega)
  rw [← hwf.root] at h
  exact h

/-! ### The invariant of the public interface -/

/-- The freshly constructed tree is the empty tree. -/
theorem Inv.new [Inhabited V] : Inv (RBT.new : RBT Int V) Tree.nil := by
  refine ⟨⟨rfl, trivial, List.nodup_nil, by simp [Tree.addrs], ?_, fun x hx => (by cases hx), ?_⟩,
    ?_, rfl, trivial, trivial, rfl⟩
  · simp [RBT.color, RBT.new]
  · show 1 < 2
    decide
  · simp [Tree.keys, Tree.toList]

/-- `tree_clear` establishes the invariant for the empty tree. -/
theorem tree_clear_inv {s : RBT Int V} {t : Tree Int V} (h : Inv s t) :
    ∃ s1, tree_clear s = some s1 ∧ Inv s1 Tree.nil := by
  obtain ⟨s1, e, wf, hz, -⟩ := tree_clear_spec h.wf
  refine ⟨s1, e, wf, ?_, rfl, trivial, trivial, ?_⟩
  · simp [Tree.keys, Tree.toList]
  · rw [hz]; rfl

/-- Every public operation that changes the tree returns and keeps the invariant. -/
theorem step_inv {s : RBT Int V} {t : Tree Int V} (h : Inv s t) (op : Op Int V) :
    ∃ s1 t1, step less s op = some s1 ∧ Inv s1 t1 := by
  cases op with
  | insert k v =>
    cases hk : t.toList.lookup k with
    | none =>
      obtain ⟨s1, t1, e, hi, -⟩ := tree_insert_new h k v hk
      exact ⟨s1, t1, by simp [step, e], hi⟩
    | some w =>
      exact ⟨s, t, by simp [step, tree_insert_dup h k v w hk], h⟩
  | delete k =>
    cases hk : t.toList.lookup k with
    | none =>
      exact ⟨s, t, by simp [step, tree_delete_absent h k hk], h⟩
    | some w =>
      obtain ⟨s1, t1, e, hi, -⟩ := tree_delete_stored h k w hk
      exact ⟨s1, t1, by simp [step, e], hi⟩
  | clear =>
    obtain ⟨s1, e, hi⟩ := tree_clear_inv h
    exact ⟨s1, Tree.nil, by simp [step, e], hi⟩

theorem foldl_step_inv : ∀ (ops : List (Op Int V)) (s : RBT Int V) (t : Tree Int V), Inv s t →
    ∃ s1 t1, ops.foldl (fun os op => os.andThen fun s => step less s op) (some s) = some s1 ∧
      Inv s1 t1
  | [], s, t, h => ⟨s, t, rfl, h⟩
  | op :: ops, s, t, h => by
    obtain ⟨s1, t1, e, h1⟩ := step_inv h op
    obtain ⟨s2, t2, e2, h2⟩ := foldl_step_inv ops s1 t1 h1
    exact ⟨s2, t2, by simpa [List.foldl_cons, e] using e2, h2⟩

/-- Every sequence of calls on a freshly constructed tree runs to the end, and the state
it ends in satisfies the invariant. -/
theorem run_inv [Inhabited V] (ops : List (Op Int V)) :
    ∃ s t, run less ops = some s ∧ Inv s t :=
  foldl_step_inv ops RBT.new Tree.nil Inv.new

/-- Running a sequence of calls and then one more. -/
theorem run_append [Inhabited V] (ops : List (Op Int V)) (op : Op Int V) :
    run less (ops ++ [op]) = (run less ops).andThen fun s => step less s op := by
  simp [run, List.foldl_append]

/-! ### The conditions on trees, as the claims word them -/

theorem balanced_pathBlacks : ∀ t : Tree K V, t.balanced → ∀ n ∈ t.pathBlacks, n = t.bh
  | Tree.nil, _, n, hn => by simpa [Tree.pathBlacks, Tree.bh] using hn
  | Tree.node a c l k v r, hb, n, hn => by
    obtain ⟨h1, h2, h3⟩ := hb
    simp only [Tree.pathBlacks, List.mem_map, List.mem_append] at hn
    obtain ⟨m, hm, rfl⟩ := hn
    have hm2 : m = l.bh := by
      rcases hm with hm | hm
      · exact balanced_pathBlacks l h2 m hm
      · rw [h1]; exact balanced_pathBlacks r h3 m hm
    subst hm2
    simp only [Tree.bh]

theorem balanced_subtrees : ∀ t : Tree K V, t.balanced → ∀ u ∈ t.subtrees, u.balanced
  | Tree.nil, _, u, hu => by
    simp only [Tree.subtrees, List.mem_singleton] at hu
    subst hu; trivial
  | Tree.node a c l k v r, hb, u, hu => by
    simp only [Tree.subtrees, List.mem_cons, List.mem_append] at hu
    rcases hu with rfl | hu | hu
    · exact hb
    · exact balanced_subtrees l hb.2.1 u hu
    · exact balanced_subtrees r hb.2.2 u hu

theorem noRedRed_subtrees : ∀ t : Tree K V, t.noRedRed → ∀ u ∈ t.subtrees, u.noRedRed
  | Tree.nil, _, u, hu => by
    simp only [Tree.subtrees, List.mem_singleton] at hu
    subst hu; trivial
  | Tree.node a c l k v r, hb, u, hu => by
    simp only [Tree.subtrees, List.mem_cons, List.mem_append] at hu
    rcases hu with rfl | hu | hu
    · exact hb
    · exact noRedRed_subtrees l hb.2.1 u hu
    · exact noRedRed_subtrees r hb.2.2 u hu

/-! ### Looking keys up in the in-order sequence -/

theorem lookup_insert_self {k : Int} {v : V} (l1 l2 : List (Int × V))
    (h : ∀ y ∈ l1, y.1 < k) : (l1 ++ (k, v) :: l2).lookup k = some v := by
  rw [lookup_append_of_lt _ _ (fun y hy => ne_of_lt (h y hy))]
  simp [List.lookup_cons]

theorem lookup_insert_ne {j k : Int} (v : V) (hjk : j ≠ k) : ∀ (l1 l2 : List (Int × V)),
    (l1 ++ (k, v) :: l2).lookup j = (l1 ++ l2).lookup j
  | [], l2 => by
    have h : (j == k) = false := by simpa using hjk
    simp [List.lookup_cons, h]
  | (a, b) :: l1, l2 => by
    have ih := lookup_insert_ne v hjk l1 l2
    simp only [List.cons_append, List.lookup_cons, ih]

theorem lookup_remove_self {k : Int} (l1 l2 : List (Int × V)) (h1 : ∀ y ∈ l1, y.1 < k)
    (h2 : ∀ y ∈ l2, k < y.1) : (l1 ++ l2).lookup k = none := by
  refine lookup_eq_none_of_ne _ (fun y hy => ?_)
  rcases List.mem_append.1 hy with hy | hy
  · exact ne_of_lt (h1 y hy)
  · exact ne_of_gt (h2 y hy)

/-- The state reached by a sequence of calls is the one the invariant speaks of. -/
theorem run_inv_of [Inhabited V] {ops : List (Op Int V)} {s : RBT Int V}
    (hs : run less ops = some s) : ∃ t, Inv s t := by
  obtain ⟨s1, t, e, h⟩ := run_inv ops
  rw [hs] at e
  cases e
  exact ⟨t, h⟩

/-! ### Many insertions -/

theorem insertsUpTo_succ (n : Nat) :
    insertsUpTo (n + 1) = insertsUpTo n ++ [Op.insert ((n : Int) - 2 ^ 31) 0] := by
  simp [insertsUpTo, List.range_succ]

/-- After the first `n` values of `int` were inserted in increasing order the tree holds
exactly these keys. -/
theorem insertsUpTo_spec : ∀ n : Nat, ∃ s t, run less (insertsUpTo n) = some s ∧ Inv s t ∧
    t.toList = (List.range n).map fun i : Nat => ((i : Int) - 2 ^ 31, (0 : Int))
  | 0 => ⟨RBT.new, Tree.nil, rfl, Inv.new, rfl⟩
  | n + 1 => by
    obtain ⟨s, t, hs, hi, hl⟩ := insertsUpTo_spec n
    have hlt : ∀ y ∈ t.toList, y.1 < (n : Int) - 2 ^ 31 := by
      intro y hy
      rw [hl] at hy
      obtain ⟨i, hi, rfl⟩ := List.mem_map.1 hy
      have := List.mem_range.1 hi
      simp only
      omega
    have hk : t.toList.lookup ((n : Int) - 2 ^ 31) = none :=
      lookup_eq_none_of_ne _ (fun y hy => ne_of_lt (hlt y hy))
    obtain ⟨s1, t1, e, hi1, -, -, l1, l2, h1, h2, h3, h4⟩ := tree_insert_new hi _ 0 hk
    have hl2 : l2 = [] := by
      cases l2 with
      | nil => rfl
      | cons y l2 =>
        have hy1 := h4 y (List.mem_cons_self _ _)
        have hy2 := hlt y (by rw [h1]; simp)
        exact absurd hy1 (not_lt.2 (le_of_lt hy2))
    subst hl2
    rw [List.append_nil] at h1
    refine ⟨s1, t1, ?_, hi1, ?_⟩
    · rw [insertsUpTo_succ, run_append, hs]
      simp only [andThen_some, step, e]
    · rw [h2, ← h1, hl, List.range_succ, List.map_append]
      rfl

/-- The state after the first `n` insertions and the next insertion from it. -/
theorem insertsUpTo_next (n : Nat) : ∃ s s1, run less (insertsUpTo n) = some s ∧
    tree_find less s ((n : Int) - 2 ^ 31) = some none ∧
    tree_insert less s ((n : Int) - 2 ^ 31) 0 = some (true, s1) ∧
    tree_size s = n % 2 ^ 32 ∧ tree_size s1 = (n + 1) % 2 ^ 32 := by
  obtain ⟨s, t, hs, hi, hl⟩ := insertsUpTo_spec n
  have hlt : ∀ y ∈ t.toList, y.1 < (n : Int) - 2 ^ 31 := by
    intro y hy
    rw [hl] at hy
    obtain ⟨i, hi, rfl⟩ := List.mem_map.1 hy
    have := List.mem_range.1 hi
    simp only
    omega
  have hk : t.toList.lookup ((n : Int) - 2 ^ 31) = none :=
    lookup_eq_none_of_ne _ (fun y hy => ne_of_lt (hlt y hy))
  obtain ⟨s1, t1, e, hi1, hz, -⟩ := tree_insert_new hi _ 0 hk
  have hc : t.count = n := by rw [count_eq_length, hl]; simp
  refine ⟨s, s1, hs, ?_, e, ?_, ?_⟩
  · rw [tree_find_spec hi, hk]
  · show s.size = _
    rw [hi.size, hc]
  · show s1.size = _
    rw [hz, hi.size, hc, add_one_mod]

/-- The state after the first `n` insertions: the number of nodes and the counter. -/
theorem insertsUpTo_count (n : Nat) : ∃ s t, run less (insertsUpTo n) = some s ∧
    s.tree = some t ∧ t.count = n ∧ tree_size s = n % 2 ^ 32 := by
  obtain ⟨s, t, hs, hi, hl⟩ := insertsUpTo_spec n
  have hc : t.count = n := by rw [count_eq_length, hl]; simp
  refine ⟨s, t, hs, hi.wf.tree_eq, hc, ?_⟩
  show s.size = _
  rw [hi.size, hc]

/-- The state after the first `m + 1` insertions and the deletion of the last key from
it. -/
theorem insertsUpTo_delete (n m : Nat) (h : n = m + 1) : ∃ s s1,
    run less (insertsUpTo n) = some s ∧
    tree_find less s ((m : Int) - 2 ^ 31) = some (some 0) ∧
    tree_delete less s ((m : Int) - 2 ^ 31) = some (true, s1) ∧
    tree_size s = n % 2 ^ 32 ∧ tree_size s1 = (n % 2 ^ 32 + 2 ^ 32 - 1) % 2 ^ 32 := by
  subst h
  obtain ⟨s, t, hs, hi, hl⟩ := insertsUpTo_spec (m + 1)
  have hc : t.count = m + 1 := by rw [count_eq_length, hl]; simp
  have hk : t.toList.lookup ((m : Int) - 2 ^ 31) = some 0 := by
    rw [hl, List.range_succ, List.map_append]
    refine lookup_insert_self _ [] (fun y hy => ?_)
    obtain ⟨i, hi, rfl⟩ := List.mem_map.1 hy
    have := List.mem_range.1 hi
    simp only
    omega
  obtain ⟨s1, t1, e, -, hz, -⟩ := tree_delete_stored hi _ 0 hk
  have hsz : s.size = (m + 1) % 2 ^ 32 := by rw [hi.size, hc]
  refine ⟨s, s1, hs, ?_, e, hsz, ?_⟩
  · rw [tree_find_spec hi, hk]
  · show s1.size = _
    rw [hz, hsz]

/-! ### The claims -/

/-- C1: BST ordering is an invariant.  Every finite sequence of `tree_insert`,
`tree_delete` and `tree_clear` calls on a freshly constructed `RedBlackTree<int,int>` runs
to its end, and in the tree then read from `_root` every node's key is greater than every
key in its left subtree and less than every key in its right subtree; the in-order
sequence of the keys is strictly increasing. -/
theorem C1_bst_ordering (ops : List (Op Int Int)) :
    ∃ s t, run less ops = some s ∧ s.tree = some t ∧ t.ordered less ∧
      t.keys.Pairwise (· < ·) := by
  obtain ⟨s, t, hs, hi⟩ := run_inv ops
  exact ⟨s, t, hs, hi.wf.tree_eq, (ordered_iff_sorted t).2 hi.sorted, hi.sorted⟩

/-- C2: the black-height invariant is preserved.  After every finite sequence of
`tree_insert`, `tree_delete` and `tree_clear` calls on a freshly constructed tree, for
every node of the tree (and every sentinel leaf), all paths from it down to a sentinel leaf
contain the same number of BLACK nodes. -/
theorem C2_black_height (ops : List (Op Int Int)) :
    ∃ s t, run less ops = some s ∧ s.tree = some t ∧
      ∀ u ∈ t.subtrees, ∀ m ∈ u.pathBlacks, ∀ n ∈ u.pathBlacks, m = n := by
  obtain ⟨s, t, hs, hi⟩ := run_inv ops
  refine ⟨s, t, hs, hi.wf.tree_eq, fun u hu m hm n hn => ?_⟩
  have hb := balanced_subtrees t hi.bal u hu
  rw [balanced_pathBlacks u hb m hm, balanced_pathBlacks u hb n hn]

/-- C3: no red-red violation.  After every finite sequence of `tree_insert`,
`tree_delete` and `tree_clear` calls on a freshly constructed tree, no RED node of the
tree has a RED left or right child: at every RED node both children are BLACK nodes or
the sentinel. -/
theorem C3_no_red_red (ops : List (Op Int Int)) :
    ∃ s t, run less ops = some s ∧ s.tree = some t ∧ t.noRedRed ∧
      ∀ a l k v r, Tree.node a Color.RED l k v r ∈ t.subtrees →
        l.color ≠ Color.RED ∧ r.color ≠ Color.RED := by
  obtain ⟨s, t, hs, hi⟩ := run_inv ops
  refine ⟨s, t, hs, hi.wf.tree_eq, hi.nrr, fun a l k v r hu => ?_⟩
  have h := (noRedRed_subtrees t hi.nrr _ hu).1 rfl
  rw [h.1, h.2]
  exact ⟨by decide, by decide⟩

/-- C4: root colour.  After every finite sequence of `tree_insert`, `tree_delete` and
`tree_clear` calls on a freshly constructed tree, either the tree is empty and `_root` is
the sentinel, or the tree is not empty and the node at `_root` is BLACK. -/
theorem C4_root_colour (ops : List (Op Int Int)) :
    ∃ s t, run less ops = some s ∧ s.tree = some t ∧
      ((t = Tree.nil ∧ s.root = s.sentinel) ∨
        (t ≠ Tree.nil ∧ s.root ≠ s.sentinel ∧ s.color s.root = some Color.BLACK)) := by
  obtain ⟨s, t, hs, hi⟩ := run_inv ops
  refine ⟨s, t, hs, hi.wf.tree_eq, ?_⟩
  have hc := WF.color_ptr (p := []) (t := t) hi.wf
  rw [← hi.wf.root, hi.black] at hc
  cases t with
  | nil => exact Or.inl ⟨rfl, hi.wf.root⟩
  | node a c l k v r =>
    refine Or.inr ⟨by simp, ?_, hc⟩
    rw [hi.wf.root]
    exact WF.ptr_ne_sentinel (p := []) hi.wf

/-- C5, as stated, fails: after `tree_insert` was called with each of the 2^32 values of
`int`, the tree has 2^32 nodes and `tree_size()` returns 0. -/
theorem C5_size_wraps : ∃ s t, run less (insertsUpTo (2 ^ 32)) = some s ∧
    s.tree = some t ∧ t.count = 2 ^ 32 ∧ tree_size s = 0 := by
  obtain ⟨s, t, hs, ht, hc, hz⟩ := insertsUpTo_count (2 ^ 32)
  exact ⟨s, t, hs, ht, hc, by rw [hz, Nat.mod_self]⟩

/-- C5, amended: size consistency modulo 2^32.  After every finite sequence of
`tree_insert`, `tree_delete` and `tree_clear` calls on a freshly constructed tree,
`tree_size()` equals the number of non-sentinel nodes reachable from the root modulo 2^32,
the counter being a `uint32_t`: the two are equal when fewer than 2^32 nodes are
reachable. -/
theorem C5_size_consistency (ops : List (Op Int Int)) :
    ∃ s t, run less ops = some s ∧ s.tree = some t ∧ tree_size s = t.count % 2 ^ 32 ∧
      (t.count < 2 ^ 32 → tree_size s = t.count) := by
  obtain ⟨s, t, hs, hi⟩ := run_inv ops
  exact ⟨s, t, hs, hi.wf.tree_eq, hi.size, fun h => hi.size.trans (Nat.mod_eq_of_lt h)⟩

/-- C6: round trip.  For every state `s` reached by a sequence of calls, every key `k`
not stored in it and every value `v`, `tree_insert(k, v)` returns true, and `tree_find(k)`
on the resulting state returns true with the value `v`. -/
theorem C6_insert_find_round_trip (ops : List (Op Int Int)) (s : RBT Int Int) (k v : Int)
    (hs : run less ops = some s) (hk : tree_find less s k = some none) :
    ∃ s1, tree_insert less s k v = some (true, s1) ∧ tree_find less s1 k = some (some v) := by
  obtain ⟨t, hi⟩ := run_inv_of hs
  rw [tree_find_spec hi] at hk
  have hk1 : t.toList.lookup k = none := by
    cases h : t.toList.lookup k with
    | none => rfl
    | some w => rw [h] at hk; cases hk
  obtain ⟨s1, t1, e, hi1, -, -, l1, l2, -, h2, h3, -⟩ := tree_insert_new hi k v hk1
  refine ⟨s1, e, ?_⟩
  rw [tree_find_spec hi1, h2, lookup_insert_self l1 l2 h3]

/-- C6 at the state of the scenario with the key 40, which is not stored. -/
theorem C6_insert_find_round_trip_witness :
    ∃ s1, tree_insert less demoState 40 4 = some (true, s1) ∧
      tree_find less s1 40 = some (some 4) :=
  C6_insert_find_round_trip demoOps demoState 40 4 rfl rfl

/-- C7: duplicate rejection without mutation.  For every state `s` reached by a sequence
of calls that stores the key `k` with the value `v1`, and every value `v2`,
`tree_insert(k, v2)` returns false and the state after the call is the state before it, all
nodes, links, colours and the size unchanged, so that `tree_find(k)` still yields `v1`. -/
theorem C7_duplicate_rejected (ops : List (Op Int Int)) (s : RBT Int Int) (k v1 v2 : Int)
    (hs : run less ops = some s) (hk : tree_find less s k = some (some v1)) :
    ∃ s1, tree_insert less s k v2 = some (false, s1) ∧ s1 = s ∧
      tree_find less s1 k = some (some v1) := by
  obtain ⟨t, hi⟩ := run_inv_of hs
  have hk0 := hk
  rw [tree_find_spec hi] at hk0
  have hk1 : t.toList.lookup k = some v1 := Option.some.inj hk0
  exact ⟨s, tree_insert_dup hi k v2 v1 hk1, rfl, hk⟩

/-- C7 at the state of the scenario with the key 20, which is stored with the value 2. -/
theorem C7_duplicate_rejected_witness :
    ∃ s1, tree_insert less demoState 20 5 = some (false, s1) ∧ s1 = demoState ∧
      tree_find less s1 20 = some (some 2) :=
  C7_duplicate_rejected demoOps demoState 20 2 5 rfl rfl

/-- C8, as stated, fails: after `tree_insert` was called with each value of `int` but the
greatest, `tree_size()` returns 2^32 - 1; the greatest value, 2^31 - 1, is not stored, and
`tree_insert` of it returns true and leaves `tree_size()` at 0, not at one more than
before. -/
theorem C8_size_wraps : ∃ s s1, run less (insertsUpTo (2 ^ 32 - 1)) = some s ∧
    tree_find less s (2 ^ 31 - 1) = some none ∧
    tree_insert less s (2 ^ 31 - 1) 0 = some (true, s1) ∧
    tree_size s = 2 ^ 32 - 1 ∧ tree_size s1 = 0 := by
  obtain ⟨s, s1, hs, hf, hi, hz, hz1⟩ := insertsUpTo_next (2 ^ 32 - 1)
  have hk : ((2 ^ 32 - 1 : Nat) : Int) - 2 ^ 31 = 2 ^ 31 - 1 := by norm_num
  rw [hk] at hf hi
  exact ⟨s, s1, hs, hf, hi, by rw [hz]; norm_num, by rw [hz1]; norm_num⟩

/-- C8, amended: insert of an absent key succeeds.  For every state `s` reached by a
sequence of calls and every key `k` not stored in it, `tree_insert(k, v)` returns true and
`tree_size()` afterwards is one more than before modulo 2^32, the counter being a
`uint32_t`: exactly one more when it was less than 2^32 - 1.  Conversely `tree_insert`
returns true only when `k` was not stored. -/
theorem C8_insert_absent (ops : List (Op Int Int)) (s : RBT Int Int) (k v : Int)
    (hs : run less ops = some s) :
    (tree_find less s k = some none →
      ∃ s1, tree_insert less s k v = some (true, s1) ∧
        tree_size s1 = (tree_size s + 1) % 2 ^ 32 ∧
        (tree_size s < 2 ^ 32 - 1 → tree_size s1 = tree_size s + 1)) ∧
      (∀ s1, tree_insert less s k v = some (true, s1) → tree_find less s k = some none) := by
  obtain ⟨t, hi⟩ := run_inv_of hs
  rw [tree_find_spec hi]
  cases hk : t.toList.lookup k with
  | none =>
    obtain ⟨s1, t1, e, -, hz, -⟩ := tree_insert_new hi k v hk
    refine ⟨fun _ => ⟨s1, e, hz, fun hlt => ?_⟩, fun _ _ => rfl⟩
    show s1.size = s.size + 1
    have hlt1 : s.size < 2 ^ 32 - 1 := hlt
    rw [hz]
    omega
  | some w =>
    refine ⟨fun h => (by cases h), fun s1 e => ?_⟩
    rw [tree_insert_dup hi k v w hk] at e
    cases e

/-- C8 at the state of the scenario with the key 40, which is not stored: the size goes
from 3 to 4. -/
theorem C8_insert_absent_witness :
    ∃ s1, tree_insert less demoState 40 4 = some (true, s1) ∧
      tree_size s1 = (tree_size demoState + 1) % 2 ^ 32 ∧
      (tree_size demoState < 2 ^ 32 - 1 → tree_size s1 = tree_size demoState + 1) :=
  (C8_insert_absent demoOps demoState 40 4 rfl).1 rfl

/-- C9: insert leaves other keys alone.  For every state `s` reached by a sequence of
calls, every key `k` and every key `j` different from `k`, `tree_insert(k, v)` returns, and
`tree_find(j)` on the state after it gives what it gives on `s`: found or not, and the
value found. -/
theorem C9_insert_frame (ops : List (Op Int Int)) (s : RBT Int Int) (k v j : Int)
    (hs : run less ops = some s) (hj : j ≠ k) :
    ∃ b s1, tree_insert less s k v = some (b, s1) ∧
      tree_find less s1 j = tree_find less s j := by
  obtain ⟨t, hi⟩ := run_inv_of hs
  cases hk : t.toList.lookup k with
  | none =>
    obtain ⟨s1, t1, e, hi1, -, -, l1, l2, h1, h2, -⟩ := tree_insert_new hi k v hk
    refine ⟨true, s1, e, ?_⟩
    rw [tree_find_spec hi1, tree_find_spec hi, h1, h2, lookup_insert_ne v hj]
  | some w => exact ⟨false, s, tree_insert_dup hi k v w hk, rfl⟩

/-- C9 at the state of the scenario: inserting the key 40 changes neither that 20 is
found with the value 2 nor that 50 is not found. -/
theorem C9_insert_frame_witness :
    (∃ b s1, tree_insert less demoState 40 4 = some (b, s1) ∧
      tree_find less s1 20 = tree_find less demoState 20) ∧
    tree_find less demoState 20 = some (some 2) :=
  ⟨C9_insert_frame demoOps demoState 40 4 20 rfl (by decide), rfl⟩

/-- C10, as stated, fails: after `tree_insert` was called with each of the 2^32 values of
`int`, `tree_size()` returns 0; the key 2^31 - 1 is stored, `tree_delete` of it returns
true, and `tree_size()` then returns 2^32 - 1, not one less than before. -/
theorem C10_size_wraps : ∃ s s1, run less (insertsUpTo (2 ^ 32)) = some s ∧
    tree_find less s (2 ^ 31 - 1) = some (some 0) ∧
    tree_delete less s (2 ^ 31 - 1) = some (true, s1) ∧
    tree_size s = 0 ∧ tree_size s1 = 2 ^ 32 - 1 := by
  obtain ⟨s, s1, hs, hf, hd, hz, hz1⟩ := insertsUpTo_delete (2 ^ 32) (2 ^ 32 - 1) (by norm_num)
  have hk : ((2 ^ 32 - 1 : Nat) : Int) - 2 ^ 31 = 2 ^ 31 - 1 := by norm_num
  rw [hk] at hf hd
  exact ⟨s, s1, hs, hf, hd, by rw [hz]; norm_num, by rw [hz1]; norm_num⟩

/-- C10, amended: delete removes the key.  For every state `s` reached by a sequence of
calls that stores the key `k`, `tree_delete(k)` returns true, `tree_find(k)` on the state
after it returns false, and `tree_size()` is one less than before modulo 2^32, the counter
being a `uint32_t`: exactly one less when it was not 0. -/
theorem C10_delete_removes (ops : List (Op Int Int)) (s : RBT Int Int) (k w : Int)
    (hs : run less ops = some s) (hk : tree_find less s k = some (some w)) :
    ∃ s1, tree_delete less s k = some (true, s1) ∧ tree_find less s1 k = some none ∧
      tree_size s1 = (tree_size s + 2 ^ 32 - 1) % 2 ^ 32 ∧
      (0 < tree_size s → tree_size s1 + 1 = tree_size s) := by
  obtain ⟨t, hi⟩ := run_inv_of hs
  rw [tree_find_spec hi] at hk
  have hk1 : t.toList.lookup k = some w := Option.some.inj hk
  obtain ⟨s1, t1, e, hi1, hz, -, -, l1, l2, -, h2, h3, h4⟩ := tree_delete_stored hi k w hk1
  refine ⟨s1, e, ?_, hz, fun hpos => ?_⟩
  · rw [tree_find_spec hi1, h2, lookup_remove_self l1 l2 h3 h4]
  · show s1.size + 1 = s.size
    have hpos1 : 0 < s.size := hpos
    have hlt : s.size < 2 ^ 32 := by
      rw [hi.size]; exact Nat.mod_lt _ (by norm_num)
    rw [hz]
    omega

/-- C10 at the state of the scenario with the key 20, which is stored with the value 2:
the size goes from 3 to 2. -/
theorem C10_delete_removes_witness :
    ∃ s1, tree_delete less demoState 20 = some (true, s1) ∧
      tree_find less s1 20 = some none ∧
      tree_size s1 = (tree_size demoState + 2 ^ 32 - 1) % 2 ^ 32 ∧
      (0 < tree_size demoState → tree_size s1 + 1 = tree_size demoState) :=
  C10_delete_removes demoOps demoState 20 2 rfl rfl

/-- C11: delete leaves other keys alone.  For every state `s` reached by a sequence of
calls, every stored key `k` and every stored key `j` different from `k`, `tree_delete(k)`
returns true and `tree_find(j)` on the state after it still returns true with the value
that was stored for `j` before; this covers the delete that splices out the successor
and copies its key and value into the node of `k`. -/
theorem C11_delete_frame (ops : List (Op Int Int)) (s : RBT Int Int) (k w j x : Int)
    (hs : run less ops = some s) (hk : tree_find less s k = some (some w))
    (hj : tree_find less s j = some (some x)) (hjk : j ≠ k) :
    ∃ s1, tree_delete less s k = some (true, s1) ∧ tree_find less s1 j = some (some x) := by
  obtain ⟨t, hi⟩ := run_inv_of hs
  rw [tree_find_spec hi] at hk hj
  have hk1 : t.toList.lookup k = some w := Option.some.inj hk
  obtain ⟨s1, t1, e, hi1, -, -, -, l1, l2, h1, h2, -⟩ := tree_delete_stored hi k w hk1
  refine ⟨s1, e, ?_⟩
  rw [tree_find_spec hi1, h2, ← lookup_insert_ne w hjk l1 l2, ← h1]
  exact hj

/-- C11 at the state of the scenario: the key 20 lies at the root with two children, so
its delete splices out the node of 30 and copies 30 and its value 3 into the root; 30 is
still found with the value 3. -/
theorem C11_delete_frame_witness :
    ∃ s1, tree_delete less demoState 20 = some (true, s1) ∧
      tree_find less s1 30 = some (some 3) :=
  C11_delete_frame demoOps demoState 20 2 30 3 rfl rfl rfl (by decide)

/-- C12: delete of an absent key fails without mutation.  For every state `s` reached by
a sequence of calls and every key `k` not stored in it, `tree_delete(k)` returns false and
the state after the call is the state before it, `tree_size()` included. -/
theorem C12_delete_absent (ops : List (Op Int Int)) (s : RBT Int Int) (k : Int)
    (hs : run less ops = some s) (hk : tree_find less s k = some none) :
    ∃ s1, tree_delete less s k = some (false, s1) ∧ s1 = s ∧ tree_size s1 = tree_size s := by
  obtain ⟨t, hi⟩ := run_inv_of hs
  rw [tree_find_spec hi] at hk
  have hk1 : t.toList.lookup k = none := by
    cases h : t.toList.lookup k with
    | none => rfl
    | some w => rw [h] at hk; cases hk
  exact ⟨s, tree_delete_absent hi k hk1, rfl, rfl⟩

/-- C12 at the state of the scenario with the key 40, which is not stored. -/
theorem C12_delete_absent_witness :
    ∃ s1, tree_delete less demoState 40 = some (false, s1) ∧ s1 = demoState ∧
      tree_size s1 = tree_size demoState :=
  C12_delete_absent demoOps demoState 40 rfl rfl

/-! ### The balance diagnostic -/

theorem intAdd_eq {a b : Int} (h1 : 0 ≤ a) (h2 : 0 ≤ b) (h : a + b < 2 ^ 31) :
    intAdd a b = some (a + b) := by
  have h0 : -(2 ^ 31 : Int) ≤ a + b := by
    have : (0 : Int) ≤ a + b := Int.add_nonneg h1 h2
    have : -(2 ^ 31 : Int) ≤ 0 := by norm_num
    linarith
  unfold intAdd
  exact if_pos ⟨h0, h⟩

/-- On a balanced subtree `inner_check_balance` returns the black height, as long as it
is a value of `int` and the fuel covers the depth. -/
theorem inner_check_balance_spec {s : RBT K V} : ∀ (t : Tree K V) (fuel par : Nat),
    Rep s.heap s.sentinel par t → s.sentinel ∉ t.addrs → t.balanced →
    (t.bh : Int) < 2 ^ 31 → t.height < fuel →
    inner_check_balance fuel s (t.ptr s.sentinel) = some (t.bh : Int)
  | _, 0, _, _, _, _, _, hf => absurd hf (Nat.not_lt_zero _)
  | Tree.nil, fuel + 1, _, _, _, _, _, _ => by simp [inner_check_balance, Tree.bh]
  | Tree.node a c l k v r, fuel + 1, par, hrep, hst, hb, hbd, hf => by
    obtain ⟨ha, hl, hr⟩ := hrep
    simp only [Tree.addrs, List.mem_cons, List.mem_append, not_or] at hst
    simp only [Tree.height] at hf
    obtain ⟨hlr, hlb, hrb⟩ := hb
    have hne : a ≠ s.sentinel := fun e => hst.1 e.symm
    have hbd2 : (l.bh : Int) + (if c = Color.BLACK then 1 else 0) < 2 ^ 31 := by
      simp only [Tree.bh] at hbd
      split at hbd <;> simp_all
    have hd0 : (0 : Int) ≤ (if c = Color.BLACK then 1 else 0) := by split <;> decide
    have hlbd : (l.bh : Int) < 2 ^ 31 := by linarith
    have hrbd : (r.bh : Int) < 2 ^ 31 := by rw [← hlr]; exact hlbd
    have child : ∀ (u : Tree K V), Rep s.heap s.sentinel a u → s.sentinel ∉ u.addrs →
        u.balanced → (u.bh : Int) < 2 ^ 31 → u.height < fuel →
        (if u.ptr s.sentinel ≠ s.sentinel then inner_check_balance fuel s (u.ptr s.sentinel)
          else some 0) = some (u.bh : Int) ∧
          (u.ptr s.sentinel ≠ s.sentinel ↔ u ≠ Tree.nil) := by
      intro u hu hus hub hubd huf
      cases u with
      | nil => simp [Tree.bh]
      | node ua uc ul uk uv ur =>
        have hune : ua ≠ s.sentinel := by
          simp only [Tree.addrs, List.mem_cons, not_or] at hus
          exact fun e => hus.1 e.symm
        have ih := inner_check_balance_spec (Tree.node ua uc ul uk uv ur) fuel a hu hus hub
          hubd huf
        simp only [ptr_node] at ih ⊢
        simp [hune, ih]
    obtain ⟨e1, n1⟩ := child l hl hst.2.1 hlb hlbd (by omega)
    obtain ⟨e2, n2⟩ := child r hr hst.2.2 hrb hrbd (by omega)
    have hl0 : ¬ ((l.bh : Int) < 0) := not_lt.2 (Int.natCast_nonneg _)
    have hr0 : ¬ ((r.bh : Int) < 0) := not_lt.2 (Int.natCast_nonneg _)
    have hres : (Tree.node a c l k v r).bh = l.bh + (if c = Color.BLACK then 1 else 0) := by
      simp only [Tree.bh]; split <;> rfl
    have hcast : (((Tree.node a c l k v r).bh : Nat) : Int) =
        (l.bh : Int) + (if c = Color.BLACK then 1 else 0) := by
      rw [hres]; push_cast; split <;> rfl
    have hadd := intAdd_eq (Int.natCast_nonneg l.bh) hd0 hbd2
    have hlr2 : (r.bh : Int) = (l.bh : Int) := by rw [hlr]
    simp only [ptr_node, inner_check_balance, hne, if_false, left_of_heap ha, andThen_some, e1,
      hl0, and_false, right_of_heap ha, e2, hr0, color_of_heap ha, hcast, hlr2, ne_eq,
      not_true_eq_false, hadd]
    by_cases h1 : l.ptr s.sentinel = s.sentinel
    · have hln : l = Tree.nil := by
        by_contra hx; exact (n1.2 hx) h1
      subst hln
      by_cases h2 : r.ptr s.sentinel = s.sentinel
      · simp [h1, h2, Tree.bh]
      · simp [h1, h2]
    · by_cases h2 : r.ptr s.sentinel = s.sentinel
      · simp [h1, h2]
      · simp [h1, h2]

/-- A balanced tree of black height `h` has at least `2^h - 1` nodes. -/
theorem two_pow_bh_le : ∀ t : Tree K V, t.balanced → 2 ^ t.bh ≤ t.count + 1
  | Tree.nil, _ => by simp [Tree.bh, Tree.count]
  | Tree.node a c l k v r, hb => by
    obtain ⟨h1, h2, h3⟩ := hb
    have ihl := two_pow_bh_le l h2
    have ihr := two_pow_bh_le r h3
    rw [← h1] at ihr
    simp only [Tree.bh, Tree.count]
    split
    · rw [pow_succ]; omega
    · omega

/-- `check_balanced` returns true on every state that holds a balanced tree whose black
height is a value of `int`. -/
theorem check_balanced_spec {s : RBT K V} {t : Tree K V} (hwf : WF s t) (hb : t.balanced)
    (hbd : (t.bh : Int) < 2 ^ 31) : check_balanced s = some true := by
  have h := inner_check_balance_spec t s.next s.sentinel hwf.rep hwf.sent_notin hb hbd (by
    have h1 := height_le_length_addrs t
    have h2 := hwf.length_addrs_lt
    omega)
  rw [← hwf.root] at h
  have h0 : ¬ ((t.bh : Int) < 0) := not_lt.2 (Int.natCast_nonneg _)
  simp [check_balanced, h, h0]

/-- Every public operation keeps a property of the stored keys that the inserted key
has. -/
theorem step_inv_keys (P : Int → Prop) {s : RBT Int V} {t : Tree Int V} (h : Inv s t)
    (hP : ∀ y ∈ t.toList, P y.1) (op : Op Int V) (hop : ∀ k v, op = Op.insert k v → P k) :
    ∃ s1 t1, step less s op = some s1 ∧ Inv s1 t1 ∧ ∀ y ∈ t1.toList, P y.1 := by
  cases op with
  | insert k v =>
    cases hk : t.toList.lookup k with
    | none =>
      obtain ⟨s1, t1, e, hi, -, -, l1, l2, h1, h2, -⟩ := tree_insert_new h k v hk
      refine ⟨s1, t1, by simp [step, e], hi, fun y hy => ?_⟩
      rw [h2] at hy
      rw [h1] at hP
      rcases List.mem_append.1 hy with hy | hy
      · exact hP y (List.mem_append_left _ hy)
      · rcases List.mem_cons.1 hy with rfl | hy
        · exact hop k v rfl
        · exact hP y (List.mem_append_right _ hy)
    | some w =>
      exact ⟨s, t, by simp [step, tree_insert_dup h k v w hk], h, hP⟩
  | delete k =>
    cases hk : t.toList.lookup k with
    | none =>
      exact ⟨s, t, by simp [step, tree_delete_absent h k hk], h, hP⟩
    | some w =>
      obtain ⟨s1, t1, e, hi, -, -, -, l1, l2, h1, h2, -⟩ := tree_delete_stored h k w hk
      refine ⟨s1, t1, by simp [step, e], hi, fun y hy => ?_⟩
      rw [h2] at hy
      rw [h1] at hP
      rcases List.mem_append.1 hy with hy | hy
      · exact hP y (List.mem_append_left _ hy)
      · exact hP y (List.mem_append_right _ (List.mem_cons_of_mem _ hy))
  | clear =>
    obtain ⟨s1, e, hi⟩ := tree_clear_inv h
    exact ⟨s1, Tree.nil, by simp [step, e], hi, fun y hy => (by cases hy)⟩

theorem foldl_step_inv_keys (P : Int → Prop) : ∀ (ops : List (Op Int V)) (s : RBT Int V)
    (t : Tree Int V), Inv s t → (∀ y ∈ t.toList, P y.1) →
    (∀ k v, Op.insert k v ∈ ops → P k) →
    ∃ s1 t1, ops.foldl (fun os op => os.andThen fun s => step less s op) (some s) = some s1 ∧
      Inv s1 t1 ∧ ∀ y ∈ t1.toList, P y.1
  | [], s, t, h, hP, _ => ⟨s, t, rfl, h, hP⟩
  | op :: ops, s, t, h, hP, hops => by
    obtain ⟨s1, t1, e, h1, hP1⟩ := step_inv_keys P h hP op
      (fun k v e => hops k v (e ▸ List.mem_cons_self _ _))
    obtain ⟨s2, t2, e2, h2⟩ := foldl_step_inv_keys P ops s1 t1 h1 hP1
      (fun k v hm => hops k v (List.mem_cons_of_mem _ hm))
    exact ⟨s2, t2, by simpa [List.foldl_cons, e] using e2, h2⟩

/-- The keys stored after a sequence of calls have every property that all inserted keys
have. -/
theorem run_inv_keys [Inhabited V] (P : Int → Prop) (ops : List (Op Int V))
    (hops : ∀ k v, Op.insert k v ∈ ops → P k) :
    ∃ s t, run less ops = some s ∧ Inv s t ∧ ∀ y ∈ t.toList, P y.1 :=
  foldl_step_inv_keys P ops RBT.new Tree.nil Inv.new (fun y hy => (by cases hy)) hops

/-- A strictly increasing list of integers from an interval is no longer than the
interval. -/
theorem sorted_length_le : ∀ (l : List Int) (lo hi : Int), l.Pairwise (· < ·) →
    (∀ x ∈ l, lo ≤ x ∧ x < hi) → lo ≤ hi → (l.length : Int) ≤ hi - lo
  | [], lo, hi, _, _, h => by simpa using h
  | x :: l, lo, hi, hp, hr, _ => by
    rw [List.pairwise_cons] at hp
    have hx := hr x (List.mem_cons_self _ _)
    have ih := sorted_length_le l (x + 1) hi hp.2 (fun y hy =>
      ⟨by have := hp.1 y hy; omega, (hr y (List.mem_cons_of_mem _ hy)).2⟩) (by omega)
    simp only [List.length_cons, Nat.cast_add, Nat.cast_one]
    omega

/-- The black height of a tree built by calls with `int` keys is at most 32. -/
theorem bh_le_of_int_keys {s : RBT Int V} {t : Tree Int V} (h : Inv s t)
    (hr : ∀ y ∈ t.toList, -(2 ^ 31) ≤ y.1 ∧ y.1 < 2 ^ 31) : t.bh ≤ 32 := by
  have h1 := sorted_length_le t.keys (-(2 ^ 31)) (2 ^ 31) h.sorted (fun x hx => by
    obtain ⟨y, hy, rfl⟩ := List.mem_map.1 hx
    exact hr y hy) (by norm_num)
  have h2 : t.count ≤ 2 ^ 32 := by
    rw [count_eq_length]
    have : t.keys.length = t.toList.length := by simp [Tree.keys]
    rw [this] at h1
    have h3 : ((t.toList.length : Nat) : Int) ≤ ((2 ^ 32 : Nat) : Int) := by
      refine le_trans h1 ?_
      norm_num
    exact_mod_cast h3
  have h3 := two_pow_bh_le t h.bal
  by_contra hc
  have h4 : 2 ^ 33 ≤ 2 ^ t.bh := Nat.pow_le_pow_right (by decide) (by omega)
  have h5 : (2 : Nat) ^ 33 = 2 * 2 ^ 32 := by norm_num
  omega

/-- `tree_clear` on a state whose root is the sentinel and whose size is 0 changes
nothing. -/
theorem tree_clear_empty (s : RBT K V) (hr : s.root = s.sentinel) (hz : s.size = 0) :
    tree_clear s = some s := by
  obtain ⟨heap, sentinel, root, size, next⟩ := s
  simp only at hr hz
  subst hr hz
  simp [tree_clear]

/-- C13: clear resets.  For every state `s` reached by a sequence of calls, `tree_clear()`
returns, and in the state after it the root is the sentinel, `tree_size()` is 0,
`tree_find` fails for every key and `check_balanced()` is true; `tree_clear()` on that
state, as on every reached state whose root is the sentinel, changes nothing; and
`tree_insert` of every key returns true on it. -/
theorem C13_clear_resets (ops : List (Op Int Int)) (s : RBT Int Int)
    (hs : run less ops = some s) :
    ∃ s1, tree_clear s = some s1 ∧ s1.root = s1.sentinel ∧ tree_size s1 = 0 ∧
      (∀ k, tree_find less s1 k = some none) ∧ check_balanced s1 = some true ∧
      tree_clear s1 = some s1 ∧ (s.root = s.sentinel → tree_clear s = some s) ∧
      (∀ k v, ∃ s2, tree_insert less s1 k v = some (true, s2)) := by
  obtain ⟨t, hi⟩ := run_inv_of hs
  obtain ⟨s1, e, wf1, hz, hr, hsent, -⟩ := tree_clear_spec hi.wf
  have hi1 : Inv s1 (Tree.nil : Tree Int Int) :=
    ⟨wf1, by simp [Tree.keys, Tree.toList], rfl, trivial, trivial, by rw [hz]; rfl⟩
  have hr1 : s1.root = s1.sentinel := by rw [hr, hsent]
  refine ⟨s1, e, hr1, hz, fun k => ?_, ?_, tree_clear_empty s1 hr1 hz, fun h0 => ?_,
    fun k v => ?_⟩
  · rw [tree_find_spec hi1]; rfl
  · exact check_balanced_spec wf1 trivial (by simp [Tree.bh])
  · have ht : t = Tree.nil := by
      have h1 := hi.wf.root
      rw [h0] at h1
      cases t with
      | nil => rfl
      | node a c l k v r => exact absurd h1.symm (WF.ptr_ne_sentinel (p := []) hi.wf)
    subst ht
    exact tree_clear_empty s h0 (by rw [hi.size]; rfl)
  · obtain ⟨s2, t2, e2, -⟩ := tree_insert_new hi1 k v rfl
    exact ⟨s2, e2⟩

/-- C13 at the state of the scenario. -/
theorem C13_clear_resets_witness :
    ∃ s1, tree_clear demoState = some s1 ∧ s1.root = s1.sentinel ∧ tree_size s1 = 0 ∧
      (∀ k, tree_find less s1 k = some none) ∧ check_balanced s1 = some true ∧
      tree_clear s1 = some s1 ∧ (demoState.root = demoState.sentinel →
        tree_clear demoState = some demoState) ∧
      (∀ k v, ∃ s2, tree_insert less s1 k v = some (true, s2)) :=
  C13_clear_resets demoOps demoState rfl

/-- C14: the balance diagnostic never fails on a reachable tree.  After every finite
sequence of `tree_insert`, `tree_delete` and `tree_clear` calls with `int` keys on a
freshly constructed tree, the empty sequence included, `check_balanced()` returns true. -/
theorem C14_check_balanced (ops : List (Op Int Int))
    (hr : ∀ op ∈ ops, op.keyIsInt = true) :
    ∃ s, run less ops = some s ∧ check_balanced s = some true := by
  obtain ⟨s, t, hs, hi, hP⟩ := run_inv_keys (fun k => -(2 ^ 31) ≤ k ∧ k < 2 ^ 31) ops
    (fun k v hm => by simpa [Op.keyIsInt] using hr _ hm)
  have hb := bh_le_of_int_keys hi hP
  refine ⟨s, hs, check_balanced_spec hi.wf hi.bal ?_⟩
  have : ((t.bh : Nat) : Int) ≤ 32 := by exact_mod_cast hb
  refine lt_of_le_of_lt this ?_
  norm_num

/-- C14 for the calls of the scenario. -/
theorem C14_check_balanced_witness :
    ∃ s, run less demoOps = some s ∧ check_balanced s = some true :=
  C14_check_balanced demoOps (by decide)

/-- C15 fails on the store `lopsided`: it holds a tree of two BLACK nodes, the root with
a left child and no right child; the paths from the root to its sentinel leaves have 2, 2
and 1 BLACK nodes, and `check_balanced()` returns true. -/
theorem C15_check_misses_sentinel_sibling :
    WF lopsided (Tree.node 2 Color.BLACK (Tree.node 3 Color.BLACK Tree.nil 1 0 Tree.nil) 2 0
      Tree.nil) ∧
    lopsided.tree = some (Tree.node 2 Color.BLACK
      (Tree.node 3 Color.BLACK Tree.nil 1 0 Tree.nil) 2 0 Tree.nil) ∧
    (Tree.node 2 Color.BLACK (Tree.node 3 Color.BLACK Tree.nil 1 0 Tree.nil) (2 : Int) (0 : Int)
      Tree.nil).pathBlacks = [2, 2, 1] ∧
    check_balanced lopsided = some true := by
  refine ⟨⟨rfl, ⟨rfl, ⟨rfl, trivial, trivial⟩, trivial⟩, by decide, by decide, rfl, ?_, by decide⟩,
    rfl, rfl, rfl⟩
  intro a ha
  simp only [Tree.addrs, List.mem_cons, List.mem_append, List.not_mem_nil, or_false,
    List.nil_append] at ha
  rcases ha with rfl | rfl <;> decide

/-- C18: the scenario.  On a freshly constructed `RedBlackTree<int,int>`, `tree_insert`
of the keys 10, 20 and 30 in this order, with any values, returns true three times; the
tree then read from `_root` has the BLACK node of 20 at the root, whose left child is the
RED node of 10 and whose right child is the RED node of 30, both with the sentinel as
both children; and `tree_size()` is 3. -/
theorem C18_scenario (v1 v2 v3 : Int) :
    ∃ s1 s2 s3, tree_insert less RBT.new 10 v1 = some (true, s1) ∧
      tree_insert less s1 20 v2 = some (true, s2) ∧
      tree_insert less s2 30 v3 = some (true, s3) ∧
      s3.tree = some (Tree.node 3 Color.BLACK (Tree.node 2 Color.RED Tree.nil 10 v1 Tree.nil)
        20 v2 (Tree.node 4 Color.RED Tree.nil 30 v3 Tree.nil)) ∧
      s3.root = 3 ∧ s3.color 3 = some Color.BLACK ∧ s3.key 3 = some 20 ∧
      s3.left 3 = some 2 ∧ s3.right 3 = some 4 ∧
      s3.key 2 = some 10 ∧ s3.color 2 = some Color.RED ∧
      s3.left 2 = some s3.sentinel ∧ s3.right 2 = some s3.sentinel ∧
      s3.key 4 = some 30 ∧ s3.color 4 = some Color.RED ∧
      s3.left 4 = some s3.sentinel ∧ s3.right 4 = some s3.sentinel ∧
      tree_size s3 = 3 :=
  ⟨_, _, _, rfl, rfl, rfl, rfl, rfl, rfl, rfl, rfl, rfl, rfl, rfl, rfl, rfl, rfl, rfl, rfl, rfl,
    rfl⟩

/-! ### Rotations as the claims word them -/

/-- The records of the nodes of a tree are determined by the tree. -/
theorem Rep.heap_eq {h h1 : Nat → Option (Node K V)} {sent : Nat} :
    ∀ {t : Tree K V} {par : Nat}, Rep h sent par t → Rep h1 sent par t →
      ∀ a ∈ t.addrs, h1 a = h a
  | Tree.nil, _, _, _, a, ha => by cases ha
  | Tree.node x c l k v r, par, hr, hr1, a, ha => by
    simp only [Tree.addrs, List.mem_cons, List.mem_append] at ha
    rcases ha with rfl | ha | ha
    · rw [hr.1, hr1.1]
    · exact Rep.heap_eq hr.2.1 hr1.2.1 a ha
    · exact Rep.heap_eq hr.2.2 hr1.2.2 a ha

/-- A step that ends with the tree it started from ends in the state it started from. -/
theorem Evolves.state_eq {s s1 : RBT K V} {t : Tree K V} (ev : Evolves s t s1 t)
    (hwf : WF s t) : s1 = s := by
  have hheap : s1.heap = s.heap := by
    funext a
    by_cases ha : a ∈ t.addrs
    · have h1 := ev.wf.rep
      rw [ev.sentinel] at h1
      exact Rep.heap_eq hwf.rep h1 a ha
    · exact ev.frame a ha
  have hroot : s1.root = s.root := by
    rw [ev.wf.root, hwf.root, ev.sentinel]
  have h2 := ev.sentinel
  have h3 := ev.size
  have h4 := ev.next
  obtain ⟨heap, sentinel, root, size, next⟩ := s
  obtain ⟨heap1, sentinel1, root1, size1, next1⟩ := s1
  simp only at hheap hroot h2 h3 h4
  subst hheap hroot h2 h3 h4
  rfl

theorem nodes_plug_congr : ∀ (p : List (Frame K V)) {t t1 : Tree K V},
    t1.nodes = t.nodes → (plug p t1).nodes = (plug p t).nodes
  | [], _, _, h => h
  | Frame.lft a c k v r :: p, t, t1, h =>
    nodes_plug_congr p (by simp only [fill_lft, Tree.nodes, h])
  | Frame.rgt a c l k v :: p, t, t1, h =>
    nodes_plug_congr p (by simp only [fill_rgt, Tree.nodes, h])

/-- Every node of a tree lies in the store with its key, value and colour. -/
theorem Rep.payload {h : Nat → Option (Node K V)} {sent : Nat} :
    ∀ {t : Tree K V} {par : Nat}, Rep h sent par t →
      ∀ n ∈ t.nodes, (h n.1).map Node.payload = some n.2
  | Tree.nil, _, _, n, hn => by cases hn
  | Tree.node x c l k v r, par, hr, n, hn => by
    simp only [Tree.nodes, List.mem_cons, List.mem_append] at hn
    rcases hn with hn | rfl | hn
    · exact Rep.payload hr.2.1 n hn
    · simp [hr.1, Node.payload]
    · exact Rep.payload hr.2.2 n hn

theorem mem_addrs_nodes : ∀ (t : Tree K V) (a : Nat), a ∈ t.addrs → ∃ n ∈ t.nodes, n.1 = a
  | Tree.nil, a, ha => by cases ha
  | Tree.node x c l k v r, a, ha => by
    simp only [Tree.addrs, List.mem_cons, List.mem_append] at ha
    simp only [Tree.nodes, List.mem_cons, List.mem_append]
    rcases ha with rfl | ha | ha
    · exact ⟨_, Or.inr (Or.inl rfl), rfl⟩
    · obtain ⟨n, hn, e⟩ := mem_addrs_nodes l a ha
      exact ⟨n, Or.inl hn, e⟩
    · obtain ⟨n, hn, e⟩ := mem_addrs_nodes r a ha
      exact ⟨n, Or.inr (Or.inr hn), e⟩

/-- A step that keeps the in-order sequence of the nodes keeps the key, value and colour
at every address, and which addresses hold a node. -/
theorem Evolves.payload_eq {s s1 : RBT K V} {t t1 : Tree K V} (ev : Evolves s t s1 t1)
    (hwf : WF s t) (hn : t1.nodes = t.nodes) (a : Nat) :
    (s1.heap a).map Node.payload = (s.heap a).map Node.payload := by
  by_cases ha : a ∈ t.addrs
  · obtain ⟨n, hm, rfl⟩ := mem_addrs_nodes t a ha
    rw [Rep.payload hwf.rep n hm, Rep.payload ev.wf.rep n (by rw [hn]; exact hm)]
  · rw [ev.frame a ha]

/-- C19: rotations are structural inverses.  In every well-formed state, for every node
`x` of the tree whose right child `y` is not the sentinel, `left_rotate(x)` followed by
`right_rotate(y)` ends in the state it started from: every left, right and parent link
and the root pointer have their original values.  Symmetrically, for every node `u` whose
left child `w` is not the sentinel, `right_rotate(u)` followed by `left_rotate(w)` ends in
the state it started from. -/
theorem C19_rotations_inverse {s r : RBT K V} {p q : List (Frame K V)} {x y u w : Nat}
    {cx cy cu cw : Color} {a b g d e f : Tree K V} {kx ky ku kw : K} {vx vy vu vw : V}
    (hl : WF s (plug p (Tree.node x cx a kx vx (Tree.node y cy b ky vy g))))
    (hr : WF r (plug q (Tree.node u cu (Tree.node w cw d kw vw e) ku vu f))) :
    (∃ s1, left_rotate s x = some s1 ∧ right_rotate s1 y = some s) ∧
      (∃ r1, right_rotate r u = some r1 ∧ left_rotate r1 w = some r) := by
  constructor
  · obtain ⟨s1, e1, ev1⟩ := left_rotate_spec hl
    obtain ⟨s2, e2, ev2⟩ := right_rotate_spec ev1.wf
    have h := (ev1.trans ev2).state_eq hl
    subst h
    exact ⟨s1, e1, e2⟩
  · obtain ⟨r1, e1, ev1⟩ := right_rotate_spec hr
    obtain ⟨r2, e2, ev2⟩ := left_rotate_spec ev1.wf
    have h := (ev1.trans ev2).state_eq hr
    subst h
    exact ⟨r1, e1, e2⟩

theorem demoState_tree : demoState.tree = some (Tree.node 3 Color.BLACK
    (Tree.node 2 Color.RED Tree.nil 10 1 Tree.nil) 20 2
    (Tree.node 4 Color.RED Tree.nil 30 3 Tree.nil)) := rfl

theorem demoState_run : run less demoOps = some demoState := rfl

/-- The state of the scenario is well formed and holds the tree of the scenario. -/
theorem demoState_wf : WF demoState (Tree.node 3 Color.BLACK
    (Tree.node 2 Color.RED Tree.nil 10 1 Tree.nil) 20 2
    (Tree.node 4 Color.RED Tree.nil 30 3 Tree.nil)) := by
  obtain ⟨t, hi⟩ := run_inv_of demoState_run
  have h : some t = some _ := hi.wf.tree_eq.symm.trans demoState_tree
  have h2 : t = _ := Option.some.inj h
  rw [← h2]
  exact hi.wf

/-- C19 at the state of the scenario: the root, at address 3, has the right child at
address 4 and the left child at address 2. -/
theorem C19_rotations_inverse_witness :
    (∃ s1, left_rotate demoState 3 = some s1 ∧ right_rotate s1 4 = some demoState) ∧
      (∃ r1, right_rotate demoState 3 = some r1 ∧ left_rotate r1 2 = some demoState) :=
  C19_rotations_inverse (p := []) (q := []) demoState_wf demoState_wf

/-- C20: rotations preserve order and colours.  In every well-formed state, for every
node `x` whose right child is not the sentinel, `left_rotate(x)` leaves the in-order
sequence of the (key, value, colour) triples of the whole tree as it was, and at every
address the key, the value and the colour as they were, as well as `_sentinel` and
`_size`: only `_left`, `_right` and `_parent` links and `_root` change.  The same holds
for `right_rotate(u)` at every node `u` whose left child is not the sentinel. -/
theorem C20_rotations_preserve {s r : RBT K V} {p q : List (Frame K V)} {x y u w : Nat}
    {cx cy cu cw : Color} {a b g d e f : Tree K V} {kx ky ku kw : K} {vx vy vu vw : V}
    (hl : WF s (plug p (Tree.node x cx a kx vx (Tree.node y cy b ky vy g))))
    (hr : WF r (plug q (Tree.node u cu (Tree.node w cw d kw vw e) ku vu f))) :
    (∃ s1 t1, left_rotate s x = some s1 ∧ s1.tree = some t1 ∧
        t1.triples = (plug p (Tree.node x cx a kx vx (Tree.node y cy b ky vy g))).triples ∧
        (∀ z, (s1.heap z).map Node.payload = (s.heap z).map Node.payload) ∧
        s1.sentinel = s.sentinel ∧ s1.size = s.size) ∧
      (∃ r1 t1, right_rotate r u = some r1 ∧ r1.tree = some t1 ∧
        t1.triples = (plug q (Tree.node u cu (Tree.node w cw d kw vw e) ku vu f)).triples ∧
        (∀ z, (r1.heap z).map Node.payload = (r.heap z).map Node.payload) ∧
        r1.sentinel = r.sentinel ∧ r1.size = r.size) := by
  constructor
  · obtain ⟨s1, e1, ev1⟩ := left_rotate_spec hl
    have hn := @nodes_plug_congr _ _ p (Tree.node x cx a kx vx (Tree.node y cy b ky vy g))
      (Tree.node y cy (Tree.node x cx a kx vx b) ky vy g) (by simp [Tree.nodes])
    exact ⟨s1, _, e1, ev1.wf.tree_eq, by simp only [Tree.triples, hn],
      ev1.payload_eq hl hn, ev1.sentinel, ev1.size⟩
  · obtain ⟨r1, e1, ev1⟩ := right_rotate_spec hr
    have hn := @nodes_plug_congr _ _ q (Tree.node u cu (Tree.node w cw d kw vw e) ku vu f)
      (Tree.node w cw d kw vw (Tree.node u cu e ku vu f)) (by simp [Tree.nodes])
    exact ⟨r1, _, e1, ev1.wf.tree_eq, by simp only [Tree.triples, hn],
      ev1.payload_eq hr hn, ev1.sentinel, ev1.size⟩

/-- C20 at the state of the scenario: the root, at address 3, has the right child at
address 4 and the left child at address 2. -/
theorem C20_rotations_preserve_witness :
    (∃ s1 t1, left_rotate demoState 3 = some s1 ∧ s1.tree = some t1 ∧
        t1.triples = [(10, 1, Color.RED), (20, 2, Color.BLACK), (30, 3, Color.RED)] ∧
        (∀ z, (s1.heap z).map Node.payload = (demoState.heap z).map Node.payload) ∧
        s1.sentinel = demoState.sentinel ∧ s1.size = demoState.size) ∧
      (∃ r1 t1, right_rotate demoState 3 = some r1 ∧ r1.tree = some t1 ∧
        t1.triples = [(10, 1, Color.RED), (20, 2, Color.BLACK), (30, 3, Color.RED)] ∧
        (∀ z, (r1.heap z).map Node.payload = (demoState.heap z).map Node.payload) ∧
        r1.sentinel = demoState.sentinel ∧ r1.size = demoState.size) :=
  C20_rotations_preserve (p := []) (q := []) demoState_wf demoState_wf

/-! ### Strict weak orderings -/

theorem StrictWeak.asymm {comp : K → K → Bool} (h : StrictWeak comp) {a b : K}
    (hab : comp a b = true) : comp b a = false := by
  cases hba : comp b a with
  | false => rfl
  | true =>
    have := h.trans a b a hab hba
    rw [h.irrefl] at this
    cases this

theorem keyEquiv.symm {comp : K → K → Bool} {a b : K} (h : keyEquiv comp a b) :
    keyEquiv comp b a := ⟨h.2, h.1⟩

/-- A key less than a key equivalent to `k` is less than `k`. -/
theorem StrictWeak.lt_of_lt_of_equiv {comp : K → K → Bool} (h : StrictWeak comp) {y x k : K}
    (hyx : comp y x = true) (he : keyEquiv comp x k) : comp y k = true := by
  cases hyk : comp y k with
  | true => rfl
  | false =>
    exfalso
    cases hky : comp k y with
    | true =>
      have := h.trans k y x hky hyx
      rw [he.2] at this
      cases this
    | false =>
      have h1 := h.equiv_trans y k x ⟨hyk, hky⟩ he.symm
      rw [h1.1] at hyx
      cases hyx

/-- A key greater than a key equivalent to `k` is greater than `k`. -/
theorem StrictWeak.lt_of_equiv_of_lt {comp : K → K → Bool} (h : StrictWeak comp) {y x k : K}
    (he : keyEquiv comp k x) (hxy : comp x y = true) : comp k y = true := by
  cases hky : comp k y with
  | true => rfl
  | false =>
    exfalso
    cases hyk : comp y k with
    | true =>
      have := h.trans x y k hxy hyk
      rw [he.2] at this
      cases this
    | false =>
      have h1 := h.equiv_trans x k y he.symm ⟨hky, hyk⟩
      rw [h1.1] at hxy
      cases hxy

theorem beq_false_of_lt [BEq K] {comp : K → K → Bool} (heq : EqIsEquiv comp) {a b : K}
    (hab : comp a b = true) : (a == b) = false ∧ (b == a) = false := by
  constructor
  · cases h : a == b with
    | false => rfl
    | true =>
      have := ((heq a b).1 h).1
      rw [hab] at this
      cases this
  · cases h : b == a with
    | false => rfl
    | true =>
      have := ((heq b a).1 h).2
      rw [hab] at this
      cases this

/-- BST ordering under a transitive comparator says that the in-order key sequence is
strictly increasing. -/
theorem ordered_iff_sorted_comp {comp : K → K → Bool} (hsw : StrictWeak comp) :
    ∀ t : Tree K V, t.ordered comp ↔ t.keys.Pairwise (fun a b => comp a b = true)
  | Tree.nil => by simp [Tree.ordered, Tree.keys, Tree.toList]
  | Tree.node a c l k v r => by
    rw [keys_node, Tree.ordered, ordered_iff_sorted_comp hsw l, ordered_iff_sorted_comp hsw r,
      List.pairwise_append, List.pairwise_cons]
    simp only [List.mem_cons]
    constructor
    · rintro ⟨h1, h2, h3, h4⟩
      refine ⟨h3, ⟨h2, h4⟩, ?_⟩
      rintro x hx y (rfl | hy)
      · exact h1 x hx
      · exact hsw.trans _ _ _ (h1 x hx) (h2 y hy)
    · rintro ⟨h1, ⟨h2, h3⟩, h4⟩
      exact ⟨fun x hx => h4 x hx k (Or.inl rfl), h2, h1, h3⟩

/-- The descent of `inner_find` in an ordered tree keeps smaller keys to the left and
greater keys to the right of the place it is at. -/
theorem bounds_search_comp {comp : K → K → Bool} (hsw : StrictWeak comp) (k : K) :
    ∀ (t : Tree K V) (p : List (Frame K V)),
    t.ordered comp → (∀ y ∈ pathLeft p, comp y.1 k = true) →
    (∀ y ∈ pathRight p, comp k y.1 = true) →
    (∀ y ∈ pathLeft (search comp k p t).1, comp y.1 k = true) ∧
      (∀ y ∈ pathRight (search comp k p t).1, comp k y.1 = true)
  | Tree.nil, p, _, h1, h2 => ⟨h1, h2⟩
  | Tree.node a c l x v r, p, ho, h1, h2 => by
    simp only [Tree.ordered] at ho
    obtain ⟨o1, o2, o3, o4⟩ := ho
    simp only [search]
    split
    · next hc =>
      refine bounds_search_comp hsw k l _ o3 h1 ?_
      intro y hy
      simp only [pathRight, List.cons_append, List.mem_cons, List.mem_append] at hy
      rcases hy with rfl | hy | hy
      · exact hc
      · exact hsw.trans _ _ _ hc (o2 y.1 (by simpa [Tree.keys] using ⟨y.2, hy⟩))
      · exact h2 y hy
    · next hc =>
      split
      · next hc2 =>
        refine bounds_search_comp hsw k r _ o4 ?_ h2
        intro y hy
        simp only [pathLeft, List.mem_append, List.mem_singleton] at hy
        rcases hy with hy | hy | rfl
        · exact h1 y hy
        · exact hsw.trans _ _ _ (o1 y.1 (by simpa [Tree.keys] using ⟨y.2, hy⟩)) hc2
        · exact hc2
      · exact ⟨h1, h2⟩

/-- The descent of `inner_find` stops at an empty place or at a node whose key is
equivalent to the key searched for. -/
theorem search_stop_comp (comp : K → K → Bool) (k : K) :
    ∀ (t : Tree K V) (p : List (Frame K V)),
    (search comp k p t).2 = Tree.nil ∨
      ∃ a c l x v r, (search comp k p t).2 = Tree.node a c l x v r ∧ keyEquiv comp x k
  | Tree.nil, p => Or.inl rfl
  | Tree.node a c l x v r, p => by
    simp only [search]
    split
    · exact search_stop_comp comp k l _
    · next hc =>
      split
      · exact search_stop_comp comp k r _
      · next hc2 =>
        refine Or.inr ⟨a, c, l, x, v, r, rfl, ?_, ?_⟩
        · simpa using hc2
        · simpa using hc

theorem lookup_append_of_beq [BEq K] {k : K} : ∀ (l1 l2 : List (K × V)),
    (∀ y ∈ l1, (k == y.1) = false) → (l1 ++ l2).lookup k = l2.lookup k
  | [], _, _ => rfl
  | (a, b) :: l1, l2, h => by
    have h1 : (k == a) = false := h (a, b) (List.mem_cons_self _ _)
    rw [List.cons_append, List.lookup_cons, h1]
    exact lookup_append_of_beq l1 l2 (fun y hy => h y (List.mem_cons_of_mem _ hy))

theorem lookup_eq_none_of_beq [BEq K] {k : K} : ∀ (l : List (K × V)),
    (∀ y ∈ l, (k == y.1) = false) → l.lookup k = none
  | [], _ => rfl
  | (a, b) :: l, h => by
    have h1 : (k == a) = false := h (a, b) (List.mem_cons_self _ _)
    rw [List.lookup_cons, h1]
    exact lookup_eq_none_of_beq l (fun y hy => h y (List.mem_cons_of_mem _ hy))

/-- What the search for `k` finds in a tree with strictly increasing keys: an empty
place with all smaller keys before and all greater keys after it, or a node holding a key
equivalent to `k`, with all smaller keys before and all greater keys after it. -/
theorem search_sorted_comp {comp : K → K → Bool} (hsw : StrictWeak comp) {t : Tree K V}
    (hs : t.keys.Pairwise (fun a b => comp a b = true)) (k : K) :
    ∃ p t1, search comp k [] t = (p, t1) ∧ plug p t1 = t ∧ headDir comp k p ∧
      (∀ y ∈ pathLeft p, comp y.1 k = true) ∧ (∀ y ∈ pathRight p, comp k y.1 = true) ∧
      (t1 = Tree.nil ∨ ∃ a c l x v r, t1 = Tree.node a c l x v r ∧ keyEquiv comp x k ∧
        (∀ y ∈ l.toList, comp y.1 k = true) ∧ (∀ y ∈ r.toList, comp k y.1 = true)) := by
  have hb := bounds_search_comp hsw k t [] ((ordered_iff_sorted_comp hsw t).2 hs)
    (by simp [pathLeft]) (by simp [pathRight])
  have hp := plug_search comp k t []
  refine ⟨_, _, rfl, hp, headDir_search comp k t [] trivial, hb.1, hb.2, ?_⟩
  rcases search_stop_comp comp k t [] with h | ⟨a, c, l, x, v, r, h, he⟩
  · exact Or.inl h
  · refine Or.inr ⟨a, c, l, x, v, r, h, he, ?_⟩
    rw [h, plug_nil] at hp
    have hs2 : (Tree.node a c l x v r).keys.Pairwise (fun a b => comp a b = true) := by
      rw [← hp, Tree.keys, toList_plug] at hs
      exact hs.sublist (((List.sublist_append_right _ _).trans
        (List.sublist_append_left _ _)).map _)
    have ho := (ordered_iff_sorted_comp hsw _).2 hs2
    simp only [Tree.ordered] at ho
    exact ⟨fun y hy => hsw.lt_of_lt_of_equiv (ho.1 y.1 (mem_keys_of_mem hy)) he,
      fun y hy => hsw.lt_of_equiv_of_lt he.symm (ho.2.1 y.1 (mem_keys_of_mem hy))⟩

/-! ### The public interface under a comparator whose equivalence is `operator==` -/

/-- `tree_find` looks the key up in the in-order sequence. -/
theorem tree_find_comp [BEq K] {comp : K → K → Bool} (hsw : StrictWeak comp)
    (heq : EqIsEquiv comp) {s : RBT K V} {t : Tree K V} (h : InvC comp s t) (k : K) :
    tree_find comp s k = some (t.toList.lookup k) := by
  obtain ⟨p, t1, hs, hp, -, hl, hr, hstop⟩ := search_sorted_comp hsw h.sorted k
  have hwf : WF s (plug p t1) := by rw [hp]; exact h.wf
  have hf := inner_find_spec comp k h.wf
  rw [hs] at hf
  simp only at hf
  rw [← hp, toList_plug]
  rcases hstop with rfl | ⟨a, c, l, x, v, r, rfl, he, hl2, hr2⟩
  · have hnone : (pathLeft p ++ (Tree.nil : Tree K V).toList ++ pathRight p).lookup k = none := by
      refine lookup_eq_none_of_beq _ (fun y hy => ?_)
      simp only [Tree.toList, List.append_nil, List.mem_append] at hy
      rcases hy with hy | hy
      · exact (beq_false_of_lt heq (hl y hy)).2
      · exact (beq_false_of_lt heq (hr y hy)).1
    rw [hnone]
    cases p with
    | nil => simp [tree_find, hf, landing]
    | cons f p =>
      cases f with
      | lft fa fc fk fv fr =>
        have hk := key_of_heap (WF.heap_focus (p := p) (a := fa) hwf)
        have hne := WF.ptr_ne_sentinel (p := p) (a := fa) hwf
        have hlt : comp k fk = true := hr (fk, fv) (by simp [pathRight])
        have : (fk != k) = true := by simp [bne, (beq_false_of_lt heq hlt).2]
        simp [tree_find, hf, landing, hne, hk, this]
      | rgt fa fc fl fk fv =>
        have hk := key_of_heap (WF.heap_focus (p := p) (a := fa) hwf)
        have hne := WF.ptr_ne_sentinel (p := p) (a := fa) hwf
        have hlt : comp fk k = true := hl (fk, fv) (by simp [pathLeft])
        have : (fk != k) = true := by simp [bne, (beq_false_of_lt heq hlt).1]
        simp [tree_find, hf, landing, hne, hk, this]
  · have hkx : (k == x) = true := (heq k x).2 he.symm
    have hxk : (x == k) = true := (heq x k).2 he
    have hsome : (pathLeft p ++ (Tree.node a c l x v r).toList ++ pathRight p).lookup k
        = some v := by
      simp only [Tree.toList, List.append_assoc]
      rw [lookup_append_of_beq _ _ (fun y hy => (beq_false_of_lt heq (hl y hy)).2),
        lookup_append_of_beq _ _ (fun y hy => (beq_false_of_lt heq (hl2 y hy)).2)]
      simp [List.lookup_cons, hkx]
    rw [hsome]
    have hk := hwf.heap_focus
    have hne := hwf.ptr_ne_sentinel
    simp [tree_find, hf, landing, hne, key_of_heap hk, val_of_heap hk, bne, hxk]

/-- `tree_insert` of a key that is stored: nothing happens. -/
theorem tree_insert_dup_comp [BEq K] {comp : K → K → Bool} (hsw : StrictWeak comp)
    (heq : EqIsEquiv comp) {s : RBT K V} {t : Tree K V} (h : InvC comp s t) (k : K) (v w : V)
    (hk : t.toList.lookup k = some w) : tree_insert comp s k v = some (false, s) := by
  obtain ⟨p, t1, hs, hp, -, hl, hr, hstop⟩ := search_sorted_comp hsw h.sorted k
  have hwf : WF s (plug p t1) := by rw [hp]; exact h.wf
  have hf := inner_find_spec comp k h.wf
  rw [hs] at hf
  simp only at hf
  rcases hstop with rfl | ⟨a, c, l, x, v1, r, rfl, he, -, -⟩
  · exfalso
    rw [← hp, toList_plug, lookup_eq_none_of_beq] at hk
    · cases hk
    · intro y hy
      simp only [Tree.toList, List.append_nil, List.mem_append] at hy
      rcases hy with hy | hy
      · exact (beq_false_of_lt heq (hl y hy)).2
      · exact (beq_false_of_lt heq (hr y hy)).1
  · have hh := hwf.heap_focus
    have hne := hwf.ptr_ne_sentinel
    have hxk : (x == k) = true := (heq x k).2 he
    simp [tree_insert, hf, landing, hne, key_of_heap hh, hxk]

/-- `tree_insert` of a key that is not stored: the pair is added at its place in the
in-order sequence, and the invariant is kept. -/
theorem tree_insert_new_comp [BEq K] {comp : K → K → Bool} (hsw : StrictWeak comp)
    (heq : EqIsEquiv comp) {s : RBT K V} {t : Tree K V} (h : InvC comp s t) (k : K) (v : V)
    (hk : t.toList.lookup k = none) :
    ∃ s1 t1, tree_insert comp s k v = some (true, s1) ∧ InvC comp s1 t1 ∧
      s1.size = (s.size + 1) % 2 ^ 32 ∧ s1.sentinel = s.sentinel ∧
      ∃ l1 l2, t.toList = l1 ++ l2 ∧ t1.toList = l1 ++ (k, v) :: l2 ∧
        (∀ y ∈ l1, comp y.1 k = true) ∧ (∀ y ∈ l2, comp k y.1 = true) := by
  obtain ⟨p, t1, hs, hp, hdir, hl, hr, hstop⟩ := search_sorted_comp hsw h.sorted k
  have hwf : WF s (plug p t1) := by rw [hp]; exact h.wf
  have hf := inner_find_spec comp k h.wf
  rw [hs] at hf
  simp only at hf
  rcases hstop with rfl | ⟨a, c, l, x, v1, r, rfl, he, hl2, -⟩
  · -- the search ended at an empty place
    have hdup : (if parentOf s.sentinel p ≠ s.sentinel then
        (s.key (parentOf s.sentinel p)).andThen fun tk => some (tk == k) else some false)
        = some false := by
      cases p with
      | nil => simp
      | cons f p =>
        cases f with
        | lft fa fc fk fv fr =>
          have hk := key_of_heap (WF.heap_focus (p := p) (a := fa) hwf)
          have hne := WF.ptr_ne_sentinel (p := p) (a := fa) hwf
          have hlt : comp k fk = true := hr (fk, fv) (by simp [pathRight])
          simp [hne, hk, (beq_false_of_lt heq hlt).2]
        | rgt fa fc fl fk fv =>
          have hk := key_of_heap (WF.heap_focus (p := p) (a := fa) hwf)
          have hne := WF.ptr_ne_sentinel (p := p) (a := fa) hwf
          have hlt : comp fk k = true := hl (fk, fv) (by simp [pathLeft])
          simp [hne, hk, (beq_false_of_lt heq hlt).1]
    have hbal : (plug p (Tree.nil : Tree K V)).balanced := by rw [hp]; exact h.bal
    have hnrr : (plug p (Tree.nil : Tree K V)).noRedRed := by rw [hp]; exact h.nrr
    have hrb : rootBlack p := rootBlack_of_color p Tree.nil (by rw [hp]; exact h.black)
    obtain ⟨hc, -, -, -⟩ := unplug_valid p Tree.nil hbal hnrr
    obtain ⟨s1, e1, hwf1, hsent1, hsize1, hnext1, -⟩ := inner_insert_spec comp k v hwf hdir hrb
    have hval := insFix_valid p (Tree.node s.next Color.RED Tree.nil k v Tree.nil) hc hrb rfl
      ⟨rfl, trivial, trivial⟩ ⟨fun _ => ⟨rfl, rfl⟩, trivial, trivial⟩
    have hlist := insFix_toList p (Tree.node s.next Color.RED Tree.nil k v Tree.nil)
    rw [toList_plug] at hlist
    simp only [Tree.toList, List.nil_append, List.append_assoc, List.cons_append] at hlist
    have hold : t.toList = pathLeft p ++ pathRight p := by
      rw [← hp, toList_plug]; simp [Tree.toList]
    refine ⟨{ s1 with size := (s1.size + 1) % 2 ^ 32 }, _, ?_, ⟨hwf1.setSize _, ?_, hval.2.2,
      hval.2.1, hval.1, ?_⟩, ?_, hsent1, pathLeft p, pathRight p, hold, hlist, hl, hr⟩
    · simp only [tree_insert, hf, landing, andThen_some, hdup, e1]
      simp
    · rw [Tree.keys, hlist, List.map_append, List.map_cons, List.pairwise_append,
        List.pairwise_cons]
      have hso := h.sorted
      rw [Tree.keys, hold, List.map_append, List.pairwise_append] at hso
      refine ⟨hso.1, ⟨?_, hso.2.1⟩, ?_⟩
      · intro y hy
        obtain ⟨z, hz, rfl⟩ := List.mem_map.1 hy
        exact hr z hz
      · intro x hx y hy
        obtain ⟨z, hz, rfl⟩ := List.mem_map.1 hx
        rcases List.mem_cons.1 hy with rfl | hy
        · exact hl z hz
        · exact hso.2.2 _ hx _ hy
    · show (s1.size + 1) % 2 ^ 32 = _
      rw [hsize1, h.size, add_one_mod, count_eq_length, count_eq_length, hlist, hold]
      simp only [List.length_append, List.length_cons]
      congr 1
    · show (s1.size + 1) % 2 ^ 32 = _
      rw [hsize1]
  · -- the key is stored
    exfalso
    rw [← hp, toList_plug] at hk
    simp only [Tree.toList, List.append_assoc] at hk
    rw [lookup_append_of_beq _ _ (fun y hy => (beq_false_of_lt heq (hl y hy)).2),
      lookup_append_of_beq _ _ (fun y hy => (beq_false_of_lt heq (hl2 y hy)).2)] at hk
    have hkx : (k == x) = true := (heq k x).2 he.symm
    simp [List.lookup_cons, hkx] at hk

/-- `tree_delete` of a key that is not stored: nothing happens. -/
theorem tree_delete_absent_comp [BEq K] {comp : K → K → Bool} (hsw : StrictWeak comp)
    (heq : EqIsEquiv comp) {s : RBT K V} {t : Tree K V} (h : InvC comp s t) (k : K)
    (hk : t.toList.lookup k = none) : tree_delete comp s k = some (false, s) := by
  obtain ⟨p, t1, hs, hp, -, hl, hr, hstop⟩ := search_sorted_comp hsw h.sorted k
  have hwf : WF s (plug p t1) := by rw [hp]; exact h.wf
  have hf := inner_find_spec comp k h.wf
  rw [hs] at hf
  simp only at hf
  rcases hstop with rfl | ⟨a, c, l, x, v1, r, rfl, he, hl2, -⟩
  · cases p with
    | nil => simp [tree_delete, hf, landing]
    | cons f p =>
      cases f with
      | lft fa fc fk fv fr =>
        have hk := key_of_heap (WF.heap_focus (p := p) (a := fa) hwf)
        have hne := WF.ptr_ne_sentinel (p := p) (a := fa) hwf
        have hlt : comp k fk = true := hr (fk, fv) (by simp [pathRight])
        have : (fk != k) = true := by simp [bne, (beq_false_of_lt heq hlt).2]
        simp [tree_delete, hf, landing, hne, hk, this]
      | rgt fa fc fl fk fv =>
        have hk := key_of_heap (WF.heap_focus (p := p) (a := fa) hwf)
        have hne := WF.ptr_ne_sentinel (p := p) (a := fa) hwf
        have hlt : comp fk k = true := hl (fk, fv) (by simp [pathLeft])
        have : (fk != k) = true := by simp [bne, (beq_false_of_lt heq hlt).1]
        simp [tree_delete, hf, landing, hne, hk, this]
  · exfalso
    rw [← hp, toList_plug] at hk
    simp only [Tree.toList, List.append_assoc] at hk
    rw [lookup_append_of_beq _ _ (fun y hy => (beq_false_of_lt heq (hl y hy)).2),
      lookup_append_of_beq _ _ (fun y hy => (beq_false_of_lt heq (hl2 y hy)).2)] at hk
    have hkx : (k == x) = true := (heq k x).2 he.symm
    simp [List.lookup_cons, hkx] at hk

/-- `tree_delete` of a key that is stored: the pair of the stored key equivalent to it is
taken out of the in-order sequence, and the invariant is kept. -/
theorem tree_delete_stored_comp [BEq K] {comp : K → K → Bool} (hsw : StrictWeak comp)
    (heq : EqIsEquiv comp) {s : RBT K V} {t : Tree K V} (h : InvC comp s t) (k : K) (w : V)
    (hk : t.toList.lookup k = some w) :
    ∃ s1 t1, tree_delete comp s k = some (true, s1) ∧ InvC comp s1 t1 ∧
      s1.size = (s.size + 2 ^ 32 - 1) % 2 ^ 32 ∧ s1.sentinel = s.sentinel ∧
      s1.next = s.next ∧
      ∃ l1 l2 x, keyEquiv comp x k ∧ t.toList = l1 ++ (x, w) :: l2 ∧ t1.toList = l1 ++ l2 ∧
        (∀ y ∈ l1, comp y.1 k = true) ∧ (∀ y ∈ l2, comp k y.1 = true) := by
  obtain ⟨p, t1, hs, hp, -, hl, hr, hstop⟩ := search_sorted_comp hsw h.sorted k
  have hwf : WF s (plug p t1) := by rw [hp]; exact h.wf
  have hf := inner_find_spec comp k h.wf
  rw [hs] at hf
  simp only at hf
  rcases hstop with rfl | ⟨a, c, l, x, v, r, rfl, he, hl2, hr2⟩
  · exfalso
    rw [← hp, toList_plug, lookup_eq_none_of_beq] at hk
    · cases hk
    · intro y hy
      simp only [Tree.toList, List.append_nil, List.mem_append] at hy
      rcases hy with hy | hy
      · exact (beq_false_of_lt heq (hl y hy)).2
      · exact (beq_false_of_lt heq (hr y hy)).1
  · have hkx : (k == x) = true := (heq k x).2 he.symm
    have hxk : (x == k) = true := (heq x k).2 he
    have hvw : v = w := by
      rw [← hp, toList_plug] at hk
      simp only [Tree.toList, List.append_assoc] at hk
      rw [lookup_append_of_beq _ _ (fun y hy => (beq_false_of_lt heq (hl y hy)).2),
        lookup_append_of_beq _ _ (fun y hy => (beq_false_of_lt heq (hl2 y hy)).2)] at hk
      simpa [List.lookup_cons, hkx] using hk
    subst hvw
    have hh := hwf.heap_focus
    have hne := hwf.ptr_ne_sentinel
    have hbal : (plug p (Tree.node a c l x v r)).balanced := by rw [hp]; exact h.bal
    have hnrr : (plug p (Tree.node a c l x v r)).noRedRed := by rw [hp]; exact h.nrr
    have hcol : (plug p (Tree.node a c l x v r)).color = Color.BLACK := by rw [hp]; exact h.black
    obtain ⟨s1, e1, hwf1, hsent1, hsize1, hnext1, -⟩ := inner_delete_spec hwf hbal hnrr
    have hval := delAt_valid p a c l r x v hbal hnrr hcol
    have hlist := delAt_toList p a c l r x v
    have hold : t.toList = (pathLeft p ++ l.toList) ++ (x, v) :: (r.toList ++ pathRight p) := by
      rw [← hp, toList_plug]; simp [Tree.toList]
    have hnew : (delAt p (Tree.node a c l x v r)).toList =
        (pathLeft p ++ l.toList) ++ (r.toList ++ pathRight p) := by
      rw [hlist]; simp
    refine ⟨{ s1 with size := (s1.size + 2 ^ 32 - 1) % 2 ^ 32 }, _, ?_, ⟨hwf1.setSize _, ?_,
      hval.2.2, hval.2.1, hval.1, ?_⟩, ?_, hsent1, hnext1, pathLeft p ++ l.toList,
      r.toList ++ pathRight p, x, he, hold, hnew, ?_, ?_⟩
    · simp [tree_delete, hf, landing, hne, key_of_heap hh, e1, bne, hxk]
    · have hso := h.sorted
      rw [Tree.keys, hold] at hso
      rw [Tree.keys, hnew]
      refine hso.sublist (List.Sublist.map _ ?_)
      exact List.Sublist.append (List.Sublist.refl _) (List.sublist_cons_self _ _)
    · show (s1.size + 2 ^ 32 - 1) % 2 ^ 32 = _
      rw [hsize1, h.size, sub_one_mod, count_eq_length, count_eq_length, hnew, hold]
      simp only [List.length_append, List.length_cons]
      omega
    · show (s1.size + 2 ^ 32 - 1) % 2 ^ 32 = _
      rw [hsize1]
    · intro y hy
      rcases List.mem_append.1 hy with hy | hy
      · exact hl y hy
      · exact hl2 y hy
    · intro y hy
      rcases List.mem_append.1 hy with hy | hy
      · exact hr2 y hy
      · exact hr y hy

/-- The freshly constructed tree is the empty tree. -/
theorem InvC.fresh [Inhabited K] [Inhabited V] (comp : K → K → Bool) :
    InvC comp (RBT.new : RBT K V) Tree.nil := by
  refine ⟨⟨rfl, trivial, List.nodup_nil, by simp [Tree.addrs], ?_, fun x hx => (by cases hx), ?_⟩,
    ?_, rfl, trivial, trivial, rfl⟩
  · simp [RBT.color, RBT.new]
  · show 1 < 2
    decide
  · simp [Tree.keys, Tree.toList]

/-- Every public operation that changes the tree returns and keeps the invariant. -/
theorem step_inv_comp [BEq K] {comp : K → K → Bool} (hsw : StrictWeak comp)
    (heq : EqIsEquiv comp) {s : RBT K V} {t : Tree K V} (h : InvC comp s t) (op : Op K V) :
    ∃ s1 t1, step comp s op = some s1 ∧ InvC comp s1 t1 := by
  cases op with
  | insert k v =>
    cases hk : t.toList.lookup k with
    | none =>
      obtain ⟨s1, t1, e, hi, -⟩ := tree_insert_new_comp hsw heq h k v hk
      exact ⟨s1, t1, by simp [step, e], hi⟩
    | some w =>
      exact ⟨s, t, by simp [step, tree_insert_dup_comp hsw heq h k v w hk], h⟩
  | delete k =>
    cases hk : t.toList.lookup k with
    | none =>
      exact ⟨s, t, by simp [step, tree_delete_absent_comp hsw heq h k hk], h⟩
    | some w =>
      obtain ⟨s1, t1, e, hi, -⟩ := tree_delete_stored_comp hsw heq h k w hk
      exact ⟨s1, t1, by simp [step, e], hi⟩
  | clear =>
    obtain ⟨s1, e, wf, hz, -⟩ := tree_clear_spec h.wf
    refine ⟨s1, Tree.nil, by simp [step, e], wf, ?_, rfl, trivial, trivial, ?_⟩
    · simp [Tree.keys, Tree.toList]
    · rw [hz]; rfl

theorem foldl_step_inv_comp [BEq K] {comp : K → K → Bool} (hsw : StrictWeak comp)
    (heq : EqIsEquiv comp) : ∀ (ops : List (Op K V)) (s : RBT K V) (t : Tree K V),
    InvC comp s t →
    ∃ s1 t1, ops.foldl (fun os op => os.andThen fun s => step comp s op) (some s) = some s1 ∧
      InvC comp s1 t1
  | [], s, t, h => ⟨s, t, rfl, h⟩
  | op :: ops, s, t, h => by
    obtain ⟨s1, t1, e, h1⟩ := step_inv_comp hsw heq h op
    obtain ⟨s2, t2, e2, h2⟩ := foldl_step_inv_comp hsw heq ops s1 t1 h1
    exact ⟨s2, t2, by simpa [List.foldl_cons, e] using e2, h2⟩

/-- Under a strict weak ordering whose equivalence is `operator==`, every sequence of
calls on a freshly constructed tree runs to the end, and the state it ends in satisfies
the invariant. -/
theorem run_inv_comp [BEq K] [Inhabited K] [Inhabited V] {comp : K → K → Bool}
    (hsw : StrictWeak comp) (heq : EqIsEquiv comp) (ops : List (Op K V)) :
    ∃ s t, run comp ops = some s ∧ InvC comp s t :=
  foldl_step_inv_comp hsw heq ops RBT.new Tree.nil (InvC.fresh comp)

/-- In a strictly increasing sequence, the lookup of `k` finds the value of the key
equivalent to `k`. -/
theorem lookup_of_mem_sorted [BEq K] {comp : K → K → Bool} (hsw : StrictWeak comp)
    (heq : EqIsEquiv comp) {k x : K} {w : V} (he : keyEquiv comp x k) :
    ∀ (l : List (K × V)), (l.map Prod.fst).Pairwise (fun a b => comp a b = true) →
      (x, w) ∈ l → l.lookup k = some w
  | [], _, hm => by cases hm
  | (a, b) :: l, hp, hm => by
    rw [List.map_cons, List.pairwise_cons] at hp
    rcases List.mem_cons.1 hm with e | hm
    · cases e
      have hkx : (k == x) = true := (heq k x).2 he.symm
      simp [List.lookup_cons, hkx]
    · have hax : comp a x = true := hp.1 x (List.mem_map_of_mem Prod.fst hm)
      have hak := hsw.lt_of_lt_of_equiv hax he
      rw [List.lookup_cons, (beq_false_of_lt heq hak).2]
      exact lookup_of_mem_sorted hsw heq he l hp.2 hm

theorem lookup_none_of_no_equiv [BEq K] {comp : K → K → Bool} (heq : EqIsEquiv comp) {k : K} :
    ∀ (l : List (K × V)), (∀ y ∈ l, ¬ keyEquiv comp y.1 k) → l.lookup k = none
  | l, h => by
    refine lookup_eq_none_of_beq l (fun y hy => ?_)
    cases hb : k == y.1 with
    | false => rfl
    | true => exact absurd ((heq k y.1).1 hb).symm (h y hy)

/-! ### The comparators of the claims -/

/-- `std::less<int>` is a strict weak ordering. -/
theorem less_strictWeak : StrictWeak less := by
  refine ⟨fun a => by simp [less], fun a b c h1 h2 => ?_, fun a b c h1 h2 => ?_⟩
  · simp only [less, decide_eq_true_eq] at h1 h2 ⊢
    exact lt_trans h1 h2
  · simp only [keyEquiv, less, decide_eq_false_iff_not, not_lt] at h1 h2 ⊢
    exact ⟨le_trans h2.1 h1.1, le_trans h1.2 h2.2⟩

/-- On `int`, `operator==` is the equivalence of `std::less<int>`. -/
theorem less_eqIsEquiv : EqIsEquiv less := by
  intro a b
  simp only [keyEquiv, less, decide_eq_false_iff_not, not_lt, beq_iff_eq]
  constructor
  · rintro rfl
    exact ⟨le_refl _, le_refl _⟩
  · rintro ⟨h1, h2⟩
    exact le_antisymm h2 h1

/-- The comparator `halfLess` is a strict weak ordering. -/
theorem halfLess_strictWeak : StrictWeak halfLess := by
  refine ⟨fun a => by simp [halfLess], fun a b c h1 h2 => ?_, fun a b c h1 h2 => ?_⟩
  · simp only [halfLess, decide_eq_true_eq] at h1 h2 ⊢
    exact lt_trans h1 h2
  · simp only [keyEquiv, halfLess, decide_eq_false_iff_not, not_lt] at h1 h2 ⊢
    exact ⟨le_trans h2.1 h1.1, le_trans h1.2 h2.2⟩

/-- C16, as stated, fails: `halfLess` is a strict weak ordering under which 0 and 1 are
equivalent; the tree built by `tree_insert(0, 5)` holds the key 0, and `tree_insert(1, 7)`
on it returns true. -/
theorem C16_equivalent_key_inserted :
    StrictWeak halfLess ∧ ∃ s s1, run halfLess [Op.insert 0 5] = some s ∧
      s.tree = some (Tree.node 2 Color.BLACK Tree.nil 0 5 Tree.nil) ∧
      keyEquiv halfLess 0 1 ∧ tree_insert halfLess s 1 7 = some (true, s1) :=
  ⟨halfLess_strictWeak, _, _, rfl, rfl, ⟨rfl, rfl⟩, rfl⟩

/-- C16, amended: insert rejects by comparator equivalence when that equivalence is
`operator==`.  For every key type, every comparator that is a strict weak ordering whose
equivalence is the `operator==` of the keys, and every state `s` reached by a sequence of
calls, if the tree holds a key `x` equivalent to `k` under the comparator, then
`tree_insert(k, v)` returns false and the state after the call is the state before it,
the tree and its size unchanged. -/
theorem C16_insert_rejects_equivalent [BEq K] [Inhabited K] [Inhabited V]
    (comp : K → K → Bool) (hsw : StrictWeak comp) (heq : EqIsEquiv comp)
    (ops : List (Op K V)) (s : RBT K V) (t : Tree K V) (k x : K) (v w : V)
    (hs : run comp ops = some s) (ht : s.tree = some t) (hx : (x, w) ∈ t.toList)
    (he : keyEquiv comp x k) : tree_insert comp s k v = some (false, s) := by
  obtain ⟨s1, t1, e, hi⟩ := run_inv_comp hsw heq ops
  rw [hs] at e
  cases e
  have h1 := hi.wf.tree_eq
  rw [ht] at h1
  cases h1
  exact tree_insert_dup_comp hsw heq hi k v w
    (lookup_of_mem_sorted hsw heq he _ hi.sorted hx)

/-- C16 at the state of the scenario with `std::less<int>`: the key 20 is stored. -/
theorem C16_insert_rejects_equivalent_witness :
    tree_insert less demoState 20 5 = some (false, demoState) :=
  C16_insert_rejects_equivalent less less_strictWeak less_eqIsEquiv demoOps demoState _ 20 20 5 2
    demoState_run demoState_tree (by simp [Tree.toList]) ⟨rfl, rfl⟩

/-- C17, as stated, fails: `halfLess` is a strict weak ordering under which 0 and 1 are
equivalent; the tree built by `tree_insert(0, 5)` holds the key 0, and `tree_find(1)` on
it returns false. -/
theorem C17_equivalent_key_not_found :
    StrictWeak halfLess ∧ ∃ s, run halfLess [Op.insert 0 5] = some s ∧
      s.tree = some (Tree.node 2 Color.BLACK Tree.nil 0 5 Tree.nil) ∧
      keyEquiv halfLess 0 1 ∧ tree_find halfLess s 1 = some none :=
  ⟨halfLess_strictWeak, _, rfl, rfl, ⟨rfl, rfl⟩, rfl⟩

/-- C17, amended: find succeeds by comparator equivalence when that equivalence is
`operator==`.  For every key type, every comparator that is a strict weak ordering whose
equivalence is the `operator==` of the keys, and every state `s` reached by a sequence of
calls: if the tree holds a key `x` equivalent to `k` under the comparator, `tree_find(k)`
returns true with the value stored with `x`; and if the tree holds no key equivalent to
`k`, `tree_find(k)` returns false. -/
theorem C17_find_by_equivalence [BEq K] [Inhabited K] [Inhabited V]
    (comp : K → K → Bool) (hsw : StrictWeak comp) (heq : EqIsEquiv comp)
    (ops : List (Op K V)) (s : RBT K V) (t : Tree K V) (k : K)
    (hs : run comp ops = some s) (ht : s.tree = some t) :
    (∀ x w, (x, w) ∈ t.toList → keyEquiv comp x k → tree_find comp s k = some (some w)) ∧
      ((∀ y ∈ t.toList, ¬ keyEquiv comp y.1 k) → tree_find comp s k = some none) := by
  obtain ⟨s1, t1, e, hi⟩ := run_inv_comp hsw heq ops
  rw [hs] at e
  cases e
  have h1 := hi.wf.tree_eq
  rw [ht] at h1
  cases h1
  rw [tree_find_comp hsw heq hi]
  exact ⟨fun x w hx he => congrArg some (lookup_of_mem_sorted hsw heq he _ hi.sorted hx),
    fun hno => congrArg some (lookup_none_of_no_equiv heq _ hno)⟩

/-- C17 at the state of the scenario with `std::less<int>`: the key 20 is stored with
the value 2. -/
theorem C17_find_by_equivalence_witness :
    tree_find less demoState 20 = some (some 2) :=
  (C17_find_by_equivalence less less_strictWeak less_eqIsEquiv demoOps demoState _ 20
    demoState_run demoState_tree).1 20 2 (by simp [Tree.toList]) ⟨rfl, rfl⟩

/-! ### The sentinel and the links of reachable trees -/

/-- The links of the nodes of a tree in the store: the children lie in the tree and
point back at their parent, and every node but the topmost is a child of its parent. -/
theorem Rep.links {h : Nat → Option (Node K V)} {sent : Nat} :
    ∀ {t : Tree K V} {par : Nat}, Rep h sent par t → ∀ a ∈ t.addrs, ∃ n, h a = some n ∧
      (n.left ≠ sent → n.left ∈ t.addrs ∧ (h n.left).map Node.parent = some a) ∧
      (n.right ≠ sent → n.right ∈ t.addrs ∧ (h n.right).map Node.parent = some a) ∧
      ((a = t.ptr sent ∧ n.parent = par) ∨
        (n.parent ∈ t.addrs ∧ ((h n.parent).map Node.left = some a ∨
          (h n.parent).map Node.right = some a)))
  | Tree.nil, _, _, a, ha => by simp [Tree.addrs] at ha
  | Tree.node a0 c l k v r, par, hr, a, ha => by
    obtain ⟨h0, hl, hrr⟩ := hr
    have top : ∀ (x : Tree K V), Rep h sent a0 x → x.ptr sent ≠ sent →
        x.ptr sent ∈ x.addrs ∧ (h (x.ptr sent)).map Node.parent = some a0 := by
      intro x hx hne
      cases x with
      | nil => exact absurd rfl hne
      | node xa xc xl xk xv xr =>
        refine ⟨by simp [Tree.ptr, Tree.addrs], ?_⟩
        simp [Tree.ptr, hx.1]
    simp only [Tree.addrs, List.mem_cons, List.mem_append] at ha
    rcases ha with rfl | ha | ha
    · refine ⟨_, h0, ?_, ?_, Or.inl ⟨rfl, rfl⟩⟩
      · intro hne
        obtain ⟨m, e⟩ := top l hl hne
        exact ⟨by simp [Tree.addrs, m], e⟩
      · intro hne
        obtain ⟨m, e⟩ := top r hrr hne
        exact ⟨by simp [Tree.addrs, m], e⟩
    · obtain ⟨n, hn, c1, c2, c3⟩ := Rep.links hl a ha
      refine ⟨n, hn, fun hne => ⟨by simp [Tree.addrs, (c1 hne).1], (c1 hne).2⟩,
        fun hne => ⟨by simp [Tree.addrs, (c2 hne).1], (c2 hne).2⟩, Or.inr ?_⟩
      rcases c3 with ⟨e, ep⟩ | ⟨m, e⟩
      · rw [ep]
        exact ⟨by simp [Tree.addrs], Or.inl (by simp [h0, e])⟩
      · exact ⟨by simp [Tree.addrs, m], e⟩
    · obtain ⟨n, hn, c1, c2, c3⟩ := Rep.links hrr a ha
      refine ⟨n, hn, fun hne => ⟨by simp [Tree.addrs, (c1 hne).1], (c1 hne).2⟩,
        fun hne => ⟨by simp [Tree.addrs, (c2 hne).1], (c2 hne).2⟩, Or.inr ?_⟩
      rcases c3 with ⟨e, ep⟩ | ⟨m, e⟩
      · rw [ep]
        exact ⟨by simp [Tree.addrs], Or.inr (by simp [h0, e])⟩
      · exact ⟨by simp [Tree.addrs, m], e⟩

/-- Following child links from the top of a tree in the store leads to nodes of the tree
only, or to the sentinel. -/
theorem follow_mem {s : RBT K V} : ∀ (d : List Bool) {t : Tree K V} {par n : Nat},
    Rep s.heap s.sentinel par t → follow s (t.ptr s.sentinel) d = some n → n ≠ s.sentinel →
      n ∈ t.addrs
  | [], t, par, n, _, h, hne => by
    simp only [follow, Option.some.injEq] at h
    cases t with
    | nil => exact absurd h.symm hne
    | node a c l k v r => simp [Tree.ptr] at h; simp [Tree.addrs, h]
  | b :: d, Tree.nil, par, n, _, h, _ => by simp [follow, Tree.ptr] at h
  | b :: d, Tree.node a c l k v r, par, n, hr, h, hne => by
    obtain ⟨h0, hl, hrr⟩ := hr
    simp only [follow, Tree.ptr] at h
    split at h
    · cases h
    · cases b
      · simp only [Bool.false_eq_true, if_false, left_of_heap h0, andThen_some] at h
        have := follow_mem d hl h hne
        simp [Tree.addrs, this]
      · simp only [if_true, right_of_heap h0, andThen_some] at h
        have := follow_mem d hrr h hne
        simp [Tree.addrs, this]

/-- No node of a tree in the store is reached along two paths from the top. -/
theorem follow_unique {s : RBT K V} : ∀ (d1 d2 : List Bool) {t : Tree K V} {par n : Nat},
    Rep s.heap s.sentinel par t → t.addrs.Nodup →
    follow s (t.ptr s.sentinel) d1 = some n → follow s (t.ptr s.sentinel) d2 = some n →
    n ≠ s.sentinel → d1 = d2 := by
  intro d1
  induction d1 with
  | nil =>
    intro d2 t par n hr hnd h1 h2 hne
    cases d2 with
    | nil => rfl
    | cons b d =>
      exfalso
      simp only [follow, Option.some.injEq] at h1
      cases t with
      | nil => exact hne h1.symm
      | node a c l k v r =>
        obtain ⟨h0, hl, hrr⟩ := hr
        simp only [Tree.ptr] at h1
        simp only [follow, Tree.ptr] at h2
        simp only [Tree.addrs, List.nodup_cons, List.mem_append, not_or] at hnd
        split at h2
        · cases h2
        · cases b
          · simp only [Bool.false_eq_true, if_false, left_of_heap h0, andThen_some] at h2
            exact hnd.1.1 (h1 ▸ follow_mem d hl h2 hne)
          · simp only [if_true, right_of_heap h0, andThen_some] at h2
            exact hnd.1.2 (h1 ▸ follow_mem d hrr h2 hne)
  | cons b1 d1 ih =>
    intro d2 t par n hr hnd h1 h2 hne
    cases t with
    | nil => simp [follow, Tree.ptr] at h1
    | node a c l k v r =>
      obtain ⟨h0, hl, hrr⟩ := hr
      simp only [follow, Tree.ptr] at h1
      simp only [Tree.addrs, List.nodup_cons, List.mem_append, not_or] at hnd
      have hdis := List.nodup_append.1 hnd.2
      split at h1
      · cases h1
      · next hsa =>
        cases d2 with
        | nil =>
          exfalso
          simp only [follow, Tree.ptr, Option.some.injEq] at h2
          cases b1
          · simp only [Bool.false_eq_true, if_false, left_of_heap h0, andThen_some] at h1
            exact hnd.1.1 (h2 ▸ follow_mem d1 hl h1 hne)
          · simp only [if_true, right_of_heap h0, andThen_some] at h1
            exact hnd.1.2 (h2 ▸ follow_mem d1 hrr h1 hne)
        | cons b2 d2 =>
          simp only [follow, Tree.ptr, if_neg hsa] at h2
          cases b1 <;> cases b2
          · simp only [Bool.false_eq_true, if_false, left_of_heap h0, andThen_some] at h1 h2
            rw [ih d2 hl hdis.1 h1 h2 hne]
          · exfalso
            simp only [Bool.false_eq_true, if_false, if_true, left_of_heap h0,
              right_of_heap h0, andThen_some] at h1 h2
            exact hdis.2.2 (follow_mem d1 hl h1 hne) (follow_mem d2 hrr h2 hne)
          · exfalso
            simp only [Bool.false_eq_true, if_false, if_true, left_of_heap h0,
              right_of_heap h0, andThen_some] at h1 h2
            exact hdis.2.2 (follow_mem d2 hl h2 hne) (follow_mem d1 hrr h1 hne)
          · simp only [if_true, right_of_heap h0, andThen_some] at h1 h2
            rw [ih d2 hrr hdis.2.1 h1 h2 hne]

/-- Every node of a tree in the store is reached along a path from the top. -/
theorem follow_exists {s : RBT K V} : ∀ {t : Tree K V} {par : Nat},
    Rep s.heap s.sentinel par t → s.sentinel ∉ t.addrs → ∀ a ∈ t.addrs,
      ∃ d, follow s (t.ptr s.sentinel) d = some a
  | Tree.nil, _, _, _, a, ha => by simp [Tree.addrs] at ha
  | Tree.node a0 c l k v r, par, hr, hs, a, ha => by
    obtain ⟨h0, hl, hrr⟩ := hr
    simp only [Tree.addrs, List.mem_cons, List.mem_append, not_or] at ha hs
    rcases ha with rfl | ha | ha
    · exact ⟨[], rfl⟩
    · obtain ⟨d, hd⟩ := follow_exists hl hs.2.1 a ha
      refine ⟨false :: d, ?_⟩
      simp only [follow, Tree.ptr, if_neg (Ne.symm hs.1), Bool.false_eq_true, if_false,
        left_of_heap h0, andThen_some]
      exact hd
    · obtain ⟨d, hd⟩ := follow_exists hrr hs.2.2 a ha
      refine ⟨true :: d, ?_⟩
      simp only [follow, Tree.ptr, if_neg (Ne.symm hs.1), if_true, right_of_heap h0,
        andThen_some]
      exact hd

/-- C26: after every sequence of tree_insert, tree_delete and tree_clear calls on the
empty tree, if the tree is not empty (the root pointer is not the sentinel) then the
parent link of the root node is the sentinel. -/
theorem C26_root_parent (ops : List (Op Int Int)) :
    ∃ s, run less ops = some s ∧
      (s.root ≠ s.sentinel → s.parent s.root = some s.sentinel) := by
  obtain ⟨s, t, hs, hi⟩ := run_inv ops
  refine ⟨s, hs, fun hne => ?_⟩
  have hroot := hi.wf.root
  cases t with
  | nil => exact absurd hroot hne
  | node a c l k v r =>
    have h := hi.wf.parent_focus (p := [])
    rw [hroot]
    exact h

/-- C27: after every sequence of tree_insert, tree_delete and tree_clear calls on the
empty tree, every node n other than the sentinel that is reached from the root along
child links has its links in place: a child that is not the sentinel has n as parent
link, and n is the root or the left or right child of its parent node; and no such node
is reached along two different paths from the root, so the graph is a tree. -/
theorem C27_links_agree (ops : List (Op Int Int)) :
    ∃ s, run less ops = some s ∧
      (∀ d n, follow s s.root d = some n → n ≠ s.sentinel →
        ∃ l r p, s.left n = some l ∧ s.right n = some r ∧ s.parent n = some p ∧
          (l ≠ s.sentinel → s.parent l = some n) ∧
          (r ≠ s.sentinel → s.parent r = some n) ∧
          ((n = s.root ∧ p = s.sentinel) ∨
            (p ≠ s.sentinel ∧ (s.left p = some n ∨ s.right p = some n)))) ∧
      (∀ d1 d2 n, follow s s.root d1 = some n → follow s s.root d2 = some n →
        n ≠ s.sentinel → d1 = d2) := by
  obtain ⟨s, t, hs, hi⟩ := run_inv ops
  have hwf := hi.wf
  refine ⟨s, hs, ?_, ?_⟩
  · intro d n hd hne
    rw [hwf.root] at hd
    have hmem := follow_mem d hwf.rep hd hne
    obtain ⟨m, hm, c1, c2, c3⟩ := Rep.links hwf.rep n hmem
    refine ⟨m.left, m.right, m.parent, left_of_heap hm, right_of_heap hm, parent_of_heap hm,
      fun h => (c1 h).2, fun h => (c2 h).2, ?_⟩
    rcases c3 with ⟨e, ep⟩ | ⟨hp, e⟩
    · exact Or.inl ⟨e.trans hwf.root.symm, ep⟩
    · exact Or.inr ⟨ne_of_mem_of_not_mem hp hwf.sent_notin, e⟩
  · intro d1 d2 n h1 h2 hne
    rw [hwf.root] at h1 h2
    exact follow_unique d1 d2 hwf.rep hwf.nodup h1 h2 hne

/-! ### The search contract -/

/-- Putting a node with the key `k` into an empty place of an ordered tree, with the
smaller keys before the place and the greater keys after it, gives an ordered tree. -/
theorem ordered_plug_new {p : List (Frame Int V)}
    (ho : (plug p (Tree.nil : Tree Int V)).ordered less) {k : Int}
    (hl : ∀ y ∈ pathLeft p, y.1 < k) (hr : ∀ y ∈ pathRight p, k < y.1) (n : Nat) (c : Color)
    (v : V) : (plug p (Tree.node n c Tree.nil k v Tree.nil)).ordered less := by
  rw [ordered_iff_sorted] at ho ⊢
  rw [Tree.keys, toList_plug] at ho ⊢
  simp only [Tree.toList, List.append_nil, List.nil_append, List.map_append, List.map_cons,
    List.map_nil, List.append_assoc, List.singleton_append] at ho ⊢
  rw [List.pairwise_append] at ho ⊢
  rw [List.pairwise_cons]
  refine ⟨ho.1, ⟨?_, ho.2.1⟩, ?_⟩
  · intro y hy
    obtain ⟨z, hz, rfl⟩ := List.mem_map.1 hy
    exact hr z hz
  · intro x hx y hy
    obtain ⟨z, hz, rfl⟩ := List.mem_map.1 hx
    rcases List.mem_cons.1 hy with rfl | hy
    · exact hl z hz
    · exact ho.2.2 _ hx _ hy

/-- C21: the search contract of inner_find, for `RedBlackTree<int, int>`.  In every well
formed state whose tree is ordered, `inner_find(k)` returns an address: the sentinel
when the tree is empty; the node that holds `k` when `k` is stored; and otherwise, in a
tree that is not empty, a node of the tree whose child link on the side chosen by
comparing `k` with its key (left when `k` is less, right when not) is the sentinel, and
putting a new node with key `k` in that place gives an ordered tree.  `inner_find` reads
the state and returns an address only, no new state. -/
theorem C21_search_contract {s : RBT Int Int} {t : Tree Int Int} (hwf : WF s t)
    (ho : t.ordered less) (k : Int) :
    ∃ a, inner_find less s k = some a ∧
      (s.root = s.sentinel → a = s.sentinel) ∧
      (∀ w, (k, w) ∈ t.toList →
        a ≠ s.sentinel ∧ a ∈ t.addrs ∧ s.key a = some k ∧ s.val a = some w) ∧
      (k ∉ t.keys → s.root ≠ s.sentinel →
        ∃ p pk, plug p Tree.nil = t ∧ a = parentOf s.sentinel p ∧ a ≠ s.sentinel ∧
          a ∈ t.addrs ∧ s.key a = some pk ∧
          (less k pk = true → s.left a = some s.sentinel) ∧
          (less k pk = false → s.right a = some s.sentinel) ∧
          headDir less k p ∧
          ∀ n c v, (plug p (Tree.node n c Tree.nil k v Tree.nil)).ordered less) := by
  have hso := (ordered_iff_sorted t).1 ho
  obtain ⟨p, t1, hs, hp, hdir, hl, hr, hstop⟩ := search_sorted hso k
  have hwf1 : WF s (plug p t1) := by rw [hp]; exact hwf
  have hf := inner_find_spec less k hwf
  rw [hs] at hf
  simp only at hf
  refine ⟨_, hf, ?_, ?_, ?_⟩
  · intro hroot
    have ht : t = Tree.nil := by
      cases t with
      | nil => rfl
      | node a c l x v r =>
        exact absurd (hwf.root.symm.trans hroot) (WF.ptr_ne_sentinel (p := []) hwf)
    subst ht
    cases p with
    | nil => cases t1 with
      | nil => rfl
      | node a c l x v r => cases hp
    | cons f p =>
      exfalso
      have := congrArg Tree.addrs hp
      have hmem : f.addr ∈ (plug (f :: p) t1).addrs :=
        mem_addrs_plug.2 (Or.inr (by simp [pathAddrs]))
      rw [this] at hmem
      simp [Tree.addrs] at hmem
  · intro w hw
    rw [← hp, toList_plug] at hw
    simp only [List.mem_append] at hw
    rcases hw with (hw | hw) | hw
    · exact absurd (hl _ hw) (lt_irrefl _)
    · rcases hstop with rfl | ⟨a, c, l, v, r, rfl, hl2, hr2⟩
      · simp [Tree.toList] at hw
      · simp only [Tree.toList, List.mem_append, List.mem_cons] at hw
        rcases hw with hw | hw | hw
        · exact absurd (hl2 _ hw) (lt_irrefl _)
        · cases hw
          have hh := hwf1.heap_focus
          refine ⟨hwf1.ptr_ne_sentinel, ?_, key_of_heap hh, val_of_heap hh⟩
          rw [← hp]
          exact mem_addrs_plug.2 (Or.inl (by simp [Tree.addrs, landing]))
        · exact absurd (hr2 _ hw) (lt_irrefl _)
    · exact absurd (hr _ hw) (lt_irrefl _)
  · intro hk hroot
    rcases hstop with rfl | ⟨a, c, l, v, r, rfl, -, -⟩
    · have hord : ∀ n c v, (plug p (Tree.node n c Tree.nil k v Tree.nil)).ordered less :=
        fun n c v => ordered_plug_new (by rw [hp]; exact ho) hl hr n c v
      cases p with
      | nil =>
        exfalso
        simp only [plug_nil] at hp
        subst hp
        exact hroot hwf.root
      | cons f p =>
        have hmem : f.addr ∈ t.addrs := by
          rw [← hp]
          exact mem_addrs_plug.2 (Or.inr (by simp [pathAddrs]))
        cases f with
        | lft fa fc fk fv fr =>
          have hh := WF.heap_focus (p := p) (a := fa) hwf1
          have hne := WF.ptr_ne_sentinel (p := p) (a := fa) hwf1
          have hlt : less k fk = true := hdir
          refine ⟨_, fk, hp, rfl, hne, hmem, key_of_heap hh, fun _ => ?_, fun h => ?_, hdir,
            hord⟩
          · simpa using left_of_heap hh
          · rw [hlt] at h; cases h
        | rgt fa fc fl fk fv =>
          have hh := WF.heap_focus (p := p) (a := fa) hwf1
          have hne := WF.ptr_ne_sentinel (p := p) (a := fa) hwf1
          have hlt : less k fk = false := hdir
          refine ⟨_, fk, hp, rfl, hne, hmem, key_of_heap hh, fun h => ?_, fun _ => ?_, hdir,
            hord⟩
          · rw [hlt] at h; cases h
          · simpa using right_of_heap hh
    · exfalso
      apply hk
      rw [← hp, Tree.keys, toList_plug]
      simp [Tree.toList]

/-- The tree of the scenario is ordered. -/
theorem demoTree_ordered : demoTree.ordered less := by
  simp [demoTree, Tree.ordered, Tree.keys, Tree.toList, less]

/-- C21 at the state of the scenario with the key 25, which is not stored: the search
ends at a node of the tree, the node of 30, whose left link is the sentinel. -/
theorem C21_search_contract_witness :
    ∃ a, inner_find less demoState 25 = some a ∧
      (demoState.root = demoState.sentinel → a = demoState.sentinel) ∧
      (∀ w, ((25 : Int), w) ∈ demoTree.toList →
        a ≠ demoState.sentinel ∧ a ∈ demoTree.addrs ∧
        demoState.key a = some 25 ∧ demoState.val a = some w) ∧
      ((25 : Int) ∉ demoTree.keys → demoState.root ≠ demoState.sentinel →
        ∃ p pk, plug p Tree.nil = demoTree ∧ a = parentOf demoState.sentinel p ∧
          a ≠ demoState.sentinel ∧ a ∈ demoTree.addrs ∧ demoState.key a = some pk ∧
          (less 25 pk = true → demoState.left a = some demoState.sentinel) ∧
          (less 25 pk = false → demoState.right a = some demoState.sentinel) ∧
          headDir less 25 p ∧
          ∀ n c v, (plug p (Tree.node n c Tree.nil 25 v Tree.nil)).ordered less) :=
  C21_search_contract (t := demoTree) demoState_wf demoTree_ordered 25

/-! ### The successor of a node -/

theorem nodes_plug : ∀ (p : List (Frame K V)) (t : Tree K V),
    (plug p t).nodes = pathBefore p ++ t.nodes ++ pathAfter p
  | [], t => by simp [pathBefore, pathAfter]
  | Frame.lft a c k v r :: p, t => by
    simp [nodes_plug p, pathBefore, pathAfter, Tree.nodes]
  | Frame.rgt a c l k v :: p, t => by
    simp [nodes_plug p, pathBefore, pathAfter, Tree.nodes]

theorem toList_eq_map_nodes : ∀ t : Tree K V,
    t.toList = t.nodes.map fun n => (n.2.1, n.2.2.1)
  | Tree.nil => rfl
  | Tree.node a c l k v r => by
    simp [Tree.toList, Tree.nodes, toList_eq_map_nodes l, toList_eq_map_nodes r]

theorem keys_eq_map_nodes (t : Tree K V) : t.keys = t.nodes.map fun n => n.2.1 := by
  rw [Tree.keys, toList_eq_map_nodes, List.map_map]
  rfl

theorem mem_nodes_addrs : ∀ (t : Tree K V) (n : Nat × K × V × Color), n ∈ t.nodes →
    n.1 ∈ t.addrs
  | Tree.nil, n, hn => by cases hn
  | Tree.node x c l k v r, n, hn => by
    simp only [Tree.nodes, List.mem_cons, List.mem_append] at hn
    simp only [Tree.addrs, List.mem_cons, List.mem_append]
    rcases hn with hn | rfl | hn
    · exact Or.inr (Or.inl (mem_nodes_addrs l n hn))
    · exact Or.inl rfl
    · exact Or.inr (Or.inr (mem_nodes_addrs r n hn))

/-- Every node of a tree is the root of the subtree at the end of a path. -/
theorem exists_plug_of_mem : ∀ (t : Tree K V) (a : Nat), a ∈ t.addrs →
    ∃ p c l k v r, plug p (Tree.node a c l k v r) = t
  | Tree.nil, a, ha => by cases ha
  | Tree.node x c l k v r, a, ha => by
    simp only [Tree.addrs, List.mem_cons, List.mem_append] at ha
    rcases ha with rfl | ha | ha
    · exact ⟨[], c, l, k, v, r, rfl⟩
    · obtain ⟨p, c1, l1, k1, v1, r1, h⟩ := exists_plug_of_mem l a ha
      refine ⟨p ++ [Frame.lft x c k v r], c1, l1, k1, v1, r1, ?_⟩
      rw [plug_append, h]
      rfl
    · obtain ⟨p, c1, l1, k1, v1, r1, h⟩ := exists_plug_of_mem r a ha
      refine ⟨p ++ [Frame.rgt x c l k v], c1, l1, k1, v1, r1, ?_⟩
      rw [plug_append, h]
      rfl

/-- The first node after the open place of a path in the in-order sequence is the node
the climb ends at. -/
theorem pathAfter_climb (sent : Nat) : ∀ p : List (Frame K V),
    (pathAfter p = [] ∧ climb sent p = sent) ∨
      ∃ k v c rest, pathAfter p = (climb sent p, k, v, c) :: rest
  | [] => Or.inl ⟨rfl, rfl⟩
  | Frame.lft _ c k v _ :: _ => Or.inr ⟨k, v, c, _, rfl⟩
  | Frame.rgt _ _ _ _ _ :: p => pathAfter_climb sent p

/-- The leftmost node of a tree is the first of its nodes in the in-order sequence. -/
theorem leftmost_nodes : ∀ (t : Tree K V) (p : List (Frame K V)), t ≠ Tree.nil →
    ∃ ma mc mk mv mr rest, (leftmost p t).2 = Tree.node ma mc Tree.nil mk mv mr ∧
      t.nodes = (ma, mk, mv, mc) :: rest
  | Tree.nil, _, h => absurd rfl h
  | Tree.node a c Tree.nil k v r, p, _ => ⟨a, c, k, v, r, _, rfl, rfl⟩
  | Tree.node a c (Tree.node la lc ll lk lv lr) k v r, p, _ => by
    obtain ⟨ma, mc, mk, mv, mr, rest, h1, h2⟩ :=
      leftmost_nodes (Tree.node la lc ll lk lv lr) (Frame.lft a c k v r :: p) (by simp)
    refine ⟨ma, mc, mk, mv, mr, rest ++ (a, k, v, c) :: r.nodes, ?_, ?_⟩
    · rw [leftmost_node_node]; exact h1
    · rw [Tree.nodes, h2]; rfl

/-- The leftmost node of a tree in the store is reached from its root along left links
and has no left child. -/
theorem leftmost_follow {s : RBT K V} : ∀ (t : Tree K V) (p : List (Frame K V)),
    WF s (plug p t) → t ≠ Tree.nil →
    ∃ j, follow s (t.ptr s.sentinel) (List.replicate j false) =
        some ((leftmost p t).2.ptr s.sentinel) ∧
      s.left ((leftmost p t).2.ptr s.sentinel) = some s.sentinel
  | Tree.nil, _, _, h => absurd rfl h
  | Tree.node a c Tree.nil k v r, p, hwf, _ => by
    refine ⟨0, rfl, ?_⟩
    simpa [leftmost] using left_of_heap hwf.heap_focus
  | Tree.node a c (Tree.node la lc ll lk lv lr) k v r, p, hwf, _ => by
    obtain ⟨j, h1, h2⟩ := leftmost_follow (Tree.node la lc ll lk lv lr)
      (Frame.lft a c k v r :: p) hwf (by simp)
    have hl := left_of_heap hwf.heap_focus
    have hne := hwf.ptr_ne_sentinel
    rw [leftmost_node_node]
    refine ⟨j + 1, ?_, h2⟩
    simp only [List.replicate_succ, follow, ptr_node, hne, if_false, Bool.false_eq_true, hl,
      andThen_some] at h1 ⊢
    exact h1

/-- The second loop of `successor` does on the store what `climb` does on paths. -/
theorem successor_up_spec {s : RBT K V} : ∀ (fuel : Nat) (p : List (Frame K V)) (a : Nat)
    (c : Color) (l : Tree K V) (k : K) (v : V) (r : Tree K V),
    WF s (plug p (Tree.node a c l k v r)) → p.length < fuel →
    successor_up fuel s a (parentOf s.sentinel p) = some (climb s.sentinel p)
  | 0, _, _, _, _, _, _, _, _, h => absurd h (Nat.not_lt_zero _)
  | fuel + 1, [], a, c, l, k, v, r, _, _ => by
    simp [successor_up, climb]
  | fuel + 1, Frame.lft fa fc fk fv fr :: p, a, c, l, k, v, r, hwf, _ => by
    have hfa := WF.ptr_ne_sentinel (p := p) (a := fa) hwf
    have hr := right_of_heap (WF.heap_focus (p := p) (a := fa) hwf)
    have hne : a ≠ fr.ptr s.sentinel := hwf.ne_sib_ptr
    simp only [successor_up, parentOf, Frame.addr, ne_eq, hfa, not_false_eq_true, if_true, hr,
      andThen_some, hne, if_false, climb]
  | fuel + 1, Frame.rgt fa fc fl fk fv :: p, a, c, l, k, v, r, hwf, hlen => by
    have hfa := WF.ptr_ne_sentinel (p := p) (a := fa) hwf
    have hh := WF.heap_focus (p := p) (a := fa) hwf
    have hr := right_of_heap hh
    have hp := parent_of_heap hh
    have ih := successor_up_spec fuel p fa fc fl fk fv (Tree.node a c l k v r) hwf
      (by simpa using hlen)
    simp only [ptr_node] at hr
    simp only [successor_up, parentOf, Frame.addr, ne_eq, hfa, not_false_eq_true, if_true, hr,
      andThen_some, hp, climb]
    exact ih

/-- The method `successor` returns the node that comes next in the in-order sequence,
the sentinel for the last node; for a node with a right child that is the leftmost node
of the right subtree. -/
theorem successor_spec {s : RBT K V} {p : List (Frame K V)} {a : Nat} {c : Color}
    {l r : Tree K V} {k : K} {v : V} (hwf : WF s (plug p (Tree.node a c l k v r))) :
    ∃ b, successor s a = some b ∧
      ((r.nodes ++ pathAfter p = [] ∧ b = s.sentinel) ∨
        ∃ kb vb cb rest, r.nodes ++ pathAfter p = (b, kb, vb, cb) :: rest) ∧
      (r ≠ Tree.nil → b = (leftmost [] r).2.ptr s.sentinel ∧
        ∃ j, follow s (r.ptr s.sentinel) (List.replicate j false) = some b ∧
          s.left b = some s.sentinel) := by
  have hh := hwf.heap_focus
  have hr0 := right_of_heap hh
  have hp0 := parent_of_heap hh
  simp only at hr0 hp0
  cases r with
  | nil =>
    have hup := successor_up_spec s.next p a c l k v Tree.nil hwf
      (by have := hwf.path_length_lt; omega)
    refine ⟨climb s.sentinel p, ?_, ?_, fun h => absurd rfl h⟩
    · simp only [successor, hr0, ptr_nil, andThen_some, ne_eq, not_true_eq_false, if_false,
        hp0, hup]
    · simpa [Tree.nodes] using pathAfter_climb s.sentinel p
  | node ra rc rl rk rv rr =>
    have hrne := WF.ptr_ne_sentinel (p := Frame.rgt a c l k v :: p) hwf
    have hdown := successor_down_spec s.next (Tree.node ra rc rl rk rv rr)
      (Frame.rgt a c l k v :: p) hwf (by simp) (by
        have h1 := height_le_length_addrs (Tree.node ra rc rl rk rv rr)
        have h2 := hwf.length_addrs_lt
        have h3 := (addrs_plug (Frame.rgt a c l k v :: p) (Tree.node ra rc rl rk rv rr)).length_eq
        rw [plug_cons, fill_rgt] at h3
        simp only [List.length_append] at h3
        omega)
    obtain ⟨ma, mc, mk, mv, mr, rest, hm, hn⟩ :=
      leftmost_nodes (Tree.node ra rc rl rk rv rr) [] (by simp)
    obtain ⟨j, hj1, hj2⟩ := leftmost_follow (Tree.node ra rc rl rk rv rr)
      (Frame.rgt a c l k v :: p) hwf (by simp)
    rw [leftmost_append] at hdown hj1 hj2
    simp only [ptr_node] at hdown hj1 hj2
    refine ⟨(leftmost [] (Tree.node ra rc rl rk rv rr)).2.ptr s.sentinel, ?_, Or.inr ?_,
      fun _ => ⟨rfl, j, hj1, hj2⟩⟩
    · simp only [successor, hr0, ptr_node, andThen_some, ne_eq, hrne, not_false_eq_true,
        if_true, hdown]
    · rw [hm, hn]
      exact ⟨mk, mv, mc, _, rfl⟩

/-- C22: successor correctness, for `RedBlackTree<int, int>`.  In every well formed state
whose tree is ordered and for every node `n` of the tree, `successor(n)` returns an
address `b`: the sentinel only when no key of the tree is greater than the key of `n`;
otherwise a node of the tree whose key `kb` is greater than the key of `n` and is the
smallest such key of the tree.  When the right child of `n` is not the sentinel, `b` is
the leftmost node of the right subtree: it is reached from the right child along left
links only and its left link is the sentinel. -/
theorem C22_successor {s : RBT Int Int} {t : Tree Int Int} (hwf : WF s t)
    (ho : t.ordered less) (n : Nat) (hn : n ∈ t.addrs) :
    ∃ k b, s.key n = some k ∧ successor s n = some b ∧
      (b = s.sentinel → ∀ y ∈ t.keys, y ≤ k) ∧
      (b ≠ s.sentinel → b ∈ t.addrs ∧ ∃ kb, s.key b = some kb ∧ kb ∈ t.keys ∧ k < kb ∧
        ∀ y ∈ t.keys, k < y → kb ≤ y) ∧
      (∀ ra, s.right n = some ra → ra ≠ s.sentinel →
        b ≠ s.sentinel ∧ s.left b = some s.sentinel ∧
          ∃ j, follow s ra (List.replicate j false) = some b) := by
  obtain ⟨p, c, l, k, v, r, hp⟩ := exists_plug_of_mem t n hn
  subst hp
  have hso := (ordered_iff_sorted _).1 ho
  rw [keys_eq_map_nodes, nodes_plug] at hso
  simp only [Tree.nodes, List.append_assoc, List.cons_append] at hso
  obtain ⟨b, hb, hnext, hright⟩ := successor_spec hwf
  have hh := hwf.heap_focus
  have hkeys : (plug p (Tree.node n c l k v r)).keys =
      (pathBefore p ++ l.nodes).map (fun n => n.2.1) ++
        k :: (r.nodes ++ pathAfter p).map (fun n => n.2.1) := by
    rw [keys_eq_map_nodes, nodes_plug]
    simp [Tree.nodes]
  have hso2 := (ordered_iff_sorted _).1 ho
  rw [hkeys, List.pairwise_append, List.pairwise_cons] at hso2
  obtain ⟨-, ⟨hgt, hrest⟩, hlt⟩ := hso2
  have hafter : ∀ x, x ∈ r.nodes ++ pathAfter p →
      x ∈ (plug p (Tree.node n c l k v r)).nodes := by
    intro x hx
    rw [nodes_plug]
    simp only [Tree.nodes, List.mem_append, List.mem_cons] at hx ⊢
    tauto
  refine ⟨k, b, key_of_heap hh, hb, ?_, ?_, ?_⟩
  · intro hbs
    rcases hnext with ⟨he, -⟩ | ⟨kb, vb, cb, rest, he⟩
    · intro y hy
      rw [hkeys, he] at hy
      simp only [List.map_nil, List.mem_append, List.mem_cons, List.not_mem_nil, or_false] at hy
      rcases hy with hy | rfl
      · exact le_of_lt (hlt y hy k (List.mem_cons_self _ _))
      · exact le_refl _
    · exfalso
      have hmem : (b, kb, vb, cb) ∈ (plug p (Tree.node n c l k v r)).nodes :=
        hafter _ (by rw [he]; simp)
      exact hwf.sent_notin (hbs ▸ mem_nodes_addrs _ _ hmem)
  · intro hbs
    rcases hnext with ⟨-, he⟩ | ⟨kb, vb, cb, rest, he⟩
    · exact absurd he hbs
    · have hmem : (b, kb, vb, cb) ∈ (plug p (Tree.node n c l k v r)).nodes :=
   hafter _ (by rw [he]; simp)
      have hpay := Rep.payload hwf.rep _ hmem
      have hkb : s.key b = some kb := by
        simp only [RBT.key]
        cases hx : s.heap b with
        | none => simp [hx] at hpay
        | some x =>
          simp only [hx, Option.map_some', Option.some.injEq, Node.payload, Prod.mk.injEq]
            at hpay
          simp [hpay.1]
      rw [he] at hgt hrest
      simp only [List.map_cons, List.mem_cons, forall_eq_or_imp, List.pairwise_cons] at hgt hrest
      refine ⟨mem_nodes_addrs _ _ hmem, kb, hkb, ?_, hgt.1, ?_⟩
      · rw [hkeys, he]
        simp
      · intro y hy hky
        rw [hkeys, he] at hy
        simp only [List.map_cons, List.mem_append, List.mem_cons] at hy
        rcases hy with hy | rfl | rfl | hy
        · exact absurd (hlt y hy k (List.mem_cons_self _ _)) (not_lt_of_gt hky)
        · exact absurd hky (lt_irrefl _)
        · exact le_refl _
        · exact le_of_lt (hrest.1 y hy)
  · intro ra hra hne
    have hr0 := right_of_heap hh
    simp only at hr0
    have e : ra = r.ptr s.sentinel := Option.some.inj (hra.symm.trans hr0)
    have hrn : r ≠ Tree.nil := by
      rintro rfl
      exact hne e
    obtain ⟨e1, j, hj1, hj2⟩ := hright hrn
    refine ⟨?_, hj2, j, e ▸ hj1⟩
    rcases hnext with ⟨he, -⟩ | ⟨kb, vb, cb, rest, he⟩
    · cases r with
      | nil => exact absurd rfl hrn
      | node ra rc rl rk rv rr => simp [Tree.nodes] at he
    · have hmem : (b, kb, vb, cb) ∈ (plug p (Tree.node n c l k v r)).nodes :=
   hafter _ (by rw [he]; simp)
      exact ne_of_mem_of_not_mem (mem_nodes_addrs _ _ hmem) hwf.sent_notin

/-- C22 at the state of the scenario for the node of 20, at address 3: its successor is
the node of 30, the leftmost node of its right subtree. -/
theorem C22_successor_witness :
    ∃ k b, demoState.key 3 = some k ∧ successor demoState 3 = some b ∧
      (b = demoState.sentinel → ∀ y ∈ demoTree.keys, y ≤ k) ∧
      (b ≠ demoState.sentinel → b ∈ demoTree.addrs ∧ ∃ kb, demoState.key b = some kb ∧
        kb ∈ demoTree.keys ∧ k < kb ∧ ∀ y ∈ demoTree.keys, k < y → kb ≤ y) ∧
      (∀ ra, demoState.right 3 = some ra → ra ≠ demoState.sentinel →
        b ≠ demoState.sentinel ∧ demoState.left b = some demoState.sentinel ∧
          ∃ j, follow demoState ra (List.replicate j false) = some b) :=
  C22_successor (t := demoTree) demoState_wf demoTree_ordered 3 (by decide)

/-! ### Counting the rotations and the runs of the loop of `insert_fixup` -/

theorem andThen_assoc {α β γ : Type} (x : Option α) (f : α → Option β) (g : β → Option γ) :
    (x.andThen f).andThen g = x.andThen fun a => (f a).andThen g := by
  cases x <;> rfl

/-- `inner_insert` is its first part followed by `insert_fixup` from the new node. -/
theorem inner_insert_eq (comp : K → K → Bool) (s : RBT K V) (k : K) (v : V) (parent : Nat) :
    inner_insert comp s k v parent =
      (inner_insert_link comp s k v parent).andThen fun r => insert_fixup r.1.next r.1 r.2 := by
  simp only [inner_insert, inner_insert_link, andThen_assoc, andThen_some]

/-- After `a->_c = x` the colour read at `a` is `x`. -/
theorem setColor_color_self {s s1 : RBT K V} {a : Nat} {x : Color}
    (h : s.setColor a x = some s1) : s1.color a = some x := by
  simp only [RBT.setColor, Option.map_eq_some'] at h
  obtain ⟨n, hn, rfl⟩ := h
  simp [RBT.color, RBT.wr]

/-- The assignment `a->_left = x` changes no colour. -/
theorem setLeft_color {s s1 : RBT K V} {a x : Nat} (h : s.setLeft a x = some s1) (y : Nat) :
    s1.color y = s.color y := by
  simp only [RBT.setLeft, Option.map_eq_some'] at h
  obtain ⟨n, hn, rfl⟩ := h
  by_cases hy : y = a
  · subst hy
    simp [RBT.color, RBT.wr, hn]
  · simp [RBT.color, RBT.wr, Function.update_noteq hy]

/-- The assignment `a->_right = x` changes no colour. -/
theorem setRight_color {s s1 : RBT K V} {a x : Nat} (h : s.setRight a x = some s1) (y : Nat) :
    s1.color y = s.color y := by
  simp only [RBT.setRight, Option.map_eq_some'] at h
  obtain ⟨n, hn, rfl⟩ := h
  by_cases hy : y = a
  · subst hy
    simp [RBT.color, RBT.wr, hn]
  · simp [RBT.color, RBT.wr, Function.update_noteq hy]

/-- The assignment `a->_parent = x` changes no colour. -/
theorem setParent_color {s s1 : RBT K V} {a x : Nat} (h : s.setParent a x = some s1) (y : Nat) :
    s1.color y = s.color y := by
  simp only [RBT.setParent, Option.map_eq_some'] at h
  obtain ⟨n, hn, rfl⟩ := h
  by_cases hy : y = a
  · subst hy
    simp [RBT.color, RBT.wr, hn]
  · simp [RBT.color, RBT.wr, Function.update_noteq hy]

/-- The method `left_rotate` changes no colour. -/
theorem left_rotate_color {s s1 : RBT K V} {a : Nat} (h : left_rotate s a = some s1) (y : Nat) :
    s1.color y = s.color y := by
  simp only [left_rotate] at h
  obtain ⟨temp, -, h⟩ := andThen_eq_some.1 h
  obtain ⟨tl, -, h⟩ := andThen_eq_some.1 h
  obtain ⟨s2, h2, h⟩ := andThen_eq_some.1 h
  obtain ⟨tl2, -, h⟩ := andThen_eq_some.1 h
  obtain ⟨s3, h3, h⟩ := andThen_eq_some.1 h
  obtain ⟨np, -, h⟩ := andThen_eq_some.1 h
  obtain ⟨s4, h4, h⟩ := andThen_eq_some.1 h
  obtain ⟨np2, -, h⟩ := andThen_eq_some.1 h
  obtain ⟨s5, h5, h⟩ := andThen_eq_some.1 h
  obtain ⟨s6, h6, h⟩ := andThen_eq_some.1 h
  have c2 := setRight_color h2 y
  have c3 : s3.color y = s2.color y := by
    split at h3
    · exact setParent_color h3 y
    · cases h3; rfl
  have c4 := setParent_color h4 y
  have c5 : s5.color y = s4.color y := by
    split at h5
    · cases h5; rfl
    · obtain ⟨npl, -, h5⟩ := andThen_eq_some.1 h5
      split at h5
      · exact setLeft_color h5 y
      · exact setRight_color h5 y
  have c6 := setLeft_color h6 y
  have c7 := setParent_color h y
  rw [c7, c6, c5, c4, c3, c2]

/-- The method `right_rotate` changes no colour. -/
theorem right_rotate_color {s s1 : RBT K V} {a : Nat} (h : right_rotate s a = some s1) (y : Nat) :
    s1.color y = s.color y := by
  simp only [right_rotate] at h
  obtain ⟨temp, -, h⟩ := andThen_eq_some.1 h
  obtain ⟨tl, -, h⟩ := andThen_eq_some.1 h
  obtain ⟨s2, h2, h⟩ := andThen_eq_some.1 h
  obtain ⟨tl2, -, h⟩ := andThen_eq_some.1 h
  obtain ⟨s3, h3, h⟩ := andThen_eq_some.1 h
  obtain ⟨np, -, h⟩ := andThen_eq_some.1 h
  obtain ⟨s4, h4, h⟩ := andThen_eq_some.1 h
  obtain ⟨np2, -, h⟩ := andThen_eq_some.1 h
  obtain ⟨s5, h5, h⟩ := andThen_eq_some.1 h
  obtain ⟨s6, h6, h⟩ := andThen_eq_some.1 h
  have c2 := setLeft_color h2 y
  have c3 : s3.color y = s2.color y := by
    split at h3
    · exact setParent_color h3 y
    · cases h3; rfl
  have c4 := setParent_color h4 y
  have c5 : s5.color y = s4.color y := by
    split at h5
    · cases h5; rfl
    · obtain ⟨npl, -, h5⟩ := andThen_eq_some.1 h5
      split at h5
      · exact setLeft_color h5 y
      · exact setRight_color h5 y
  have c6 := setRight_color h6 y
  have c7 := setParent_color h y
  rw [c7, c6, c5, c4, c3, c2]

/-- Cases 1 and 4 of `insert_fixup` with their record: three colour writes, of which the
last stores RED at an address that is RED in the state returned. -/
theorem insert_fixup_recolor_traced_of {s s1 : RBT K V} {n t n1 : Nat}
    (h : insert_fixup_recolor s n t = some (s1, n1)) :
    ∃ a b, insert_fixup_recolor_traced s n t =
        some (s1, n1, [(a, Color.BLACK), (t, Color.BLACK), (b, Color.RED)]) ∧
      s1.color b = some Color.RED := by
  simp only [insert_fixup_recolor] at h
  obtain ⟨p, hp, h⟩ := andThen_eq_some.1 h
  obtain ⟨s2, hs2, h⟩ := andThen_eq_some.1 h
  obtain ⟨s3, hs3, h⟩ := andThen_eq_some.1 h
  obtain ⟨p1, hp1, h⟩ := andThen_eq_some.1 h
  obtain ⟨pp, hpp, h⟩ := andThen_eq_some.1 h
  obtain ⟨s4, hs4, h⟩ := andThen_eq_some.1 h
  obtain ⟨p2, hp2, h⟩ := andThen_eq_some.1 h
  obtain ⟨pp2, hpp2, h⟩ := andThen_eq_some.1 h
  cases h
  refine ⟨p, pp, ?_, setColor_color_self hs4⟩
  simp only [insert_fixup_recolor_traced, hp, hs2, hs3, hp1, hpp, hs4, hp2, hpp2, andThen_some]

/-- A run of the body of the loop for a left child, with its record: the colour of the
uncle, no rotation when it is RED and one or two when it is not. -/
theorem insert_fixup_left_traced_of {s s1 : RBT K V} {n n1 : Nat}
    (h : insert_fixup_left s n = some (s1, n1)) :
    ∃ uc r ws, insert_fixup_left_traced s n = some (s1, n1, uc, r, ws) ∧
      (∃ p pp temp, s.parent n = some p ∧ s.parent p = some pp ∧ s.right pp = some temp ∧
        s.color temp = some uc) ∧
      ((uc = Color.RED ∧ r = 0) ∨ (uc = Color.BLACK ∧ 1 ≤ r ∧ r ≤ 2)) ∧
      ∀ x, (x, Color.RED) ∈ ws → s1.color x = some Color.RED := by
  simp only [insert_fixup_left] at h
  obtain ⟨p, hp, h⟩ := andThen_eq_some.1 h
  obtain ⟨pp, hpp, h⟩ := andThen_eq_some.1 h
  obtain ⟨temp, ht, h⟩ := andThen_eq_some.1 h
  obtain ⟨tc, htc, h⟩ := andThen_eq_some.1 h
  suffices hx : ∃ uc r ws, insert_fixup_left_traced s n = some (s1, n1, uc, r, ws) ∧
      uc = tc ∧ ((uc = Color.RED ∧ r = 0) ∨ (uc = Color.BLACK ∧ 1 ≤ r ∧ r ≤ 2)) ∧
      ∀ x, (x, Color.RED) ∈ ws → s1.color x = some Color.RED by
    obtain ⟨uc, r, ws, e, rfl, h3, h4⟩ := hx
    exact ⟨uc, r, ws, e, ⟨p, pp, temp, hp, hpp, ht, htc⟩, h3, h4⟩
  simp only [insert_fixup_left_traced, hp, hpp, ht, htc, andThen_some]
  by_cases hc : tc = Color.RED
  · rw [if_pos hc] at h ⊢
    obtain ⟨a, b, e, hb⟩ := insert_fixup_recolor_traced_of h
    refine ⟨Color.RED, 0, [(a, Color.BLACK), (temp, Color.BLACK), (b, Color.RED)],
      by simp [e, hc], hc.symm, Or.inl ⟨rfl, rfl⟩, ?_⟩
    intro x hx
    simp only [List.mem_cons, Prod.mk.injEq, List.mem_singleton, List.mem_nil_iff] at hx
    rcases hx with ⟨-, h1⟩ | ⟨-, h1⟩ | ⟨rfl, -⟩ | h1
    · cases h1
    · cases h1
    · exact hb
    · exact absurd h1 id
  · rw [if_neg hc] at h ⊢
    simp only [hp, andThen_some] at h
    obtain ⟨pr, hpr, h⟩ := andThen_eq_some.1 h
    simp only [hpr, andThen_some]
    by_cases hn : n = pr
    · rw [if_pos hn] at h ⊢
      obtain ⟨x, hx, h⟩ := andThen_eq_some.1 h
      obtain ⟨y, hy, e⟩ := andThen_eq_some.1 hx
      cases e
      simp only [hy, andThen_some] at h ⊢
      obtain ⟨p2, hp2, h⟩ := andThen_eq_some.1 h
      obtain ⟨s2, hs2, h⟩ := andThen_eq_some.1 h
      obtain ⟨p3, hp3, h⟩ := andThen_eq_some.1 h
      obtain ⟨p4, hp4, h⟩ := andThen_eq_some.1 h
      obtain ⟨s3, hs3, h⟩ := andThen_eq_some.1 h
      obtain ⟨p5, hp5, h⟩ := andThen_eq_some.1 h
      obtain ⟨p6, hp6, h⟩ := andThen_eq_some.1 h
      obtain ⟨s4, hs4, h⟩ := andThen_eq_some.1 h
      cases h
      refine ⟨tc, 2, [(p2, Color.BLACK), (p4, Color.RED)], ?_, rfl,
        Or.inr ⟨Color.eq_black_of_ne_red hc, by omega, by omega⟩, ?_⟩
      · simp only [hp2, hs2, hp3, hp4, hs3, hp5, hp6, hs4, andThen_some]
      · intro x hx
        simp only [List.mem_cons, Prod.mk.injEq, List.mem_singleton, List.mem_nil_iff] at hx
        rcases hx with ⟨-, h1⟩ | ⟨rfl, -⟩ | h1
        · cases h1
        · exact (right_rotate_color hs4 _).trans (setColor_color_self hs3)
        · exact absurd h1 id
    · rw [if_neg hn] at h ⊢
      simp only [andThen_some] at h ⊢
      obtain ⟨p2, hp2, h⟩ := andThen_eq_some.1 h
      obtain ⟨s2, hs2, h⟩ := andThen_eq_some.1 h
      obtain ⟨p3, hp3, h⟩ := andThen_eq_some.1 h
      obtain ⟨p4, hp4, h⟩ := andThen_eq_some.1 h
      obtain ⟨s3, hs3, h⟩ := andThen_eq_some.1 h
      obtain ⟨p5, hp5, h⟩ := andThen_eq_some.1 h
      obtain ⟨p6, hp6, h⟩ := andThen_eq_some.1 h
      obtain ⟨s4, hs4, h⟩ := andThen_eq_some.1 h
      cases h
      refine ⟨tc, 1, [(p2, Color.BLACK), (p4, Color.RED)], ?_, rfl,
        Or.inr ⟨Color.eq_black_of_ne_red hc, by omega, by omega⟩, ?_⟩
      · simp only [hp2, hs2, hp3, hp4, hs3, hp5, hp6, hs4, andThen_some]
      · intro x hx
        simp only [List.mem_cons, Prod.mk.injEq, List.mem_singleton, List.mem_nil_iff] at hx
        rcases hx with ⟨-, h1⟩ | ⟨rfl, -⟩ | h1
        · cases h1
        · exact (right_rotate_color hs4 _).trans (setColor_color_self hs3)
        · exact absurd h1 id

/-- A run of the body of the loop for a right child, with its record: the colour of the
uncle, no rotation when it is RED and one or two when it is not. -/
theorem insert_fixup_right_traced_of {s s1 : RBT K V} {n n1 : Nat}
    (h : insert_fixup_right s n = some (s1, n1)) :
    ∃ uc r ws, insert_fixup_right_traced s n = some (s1, n1, uc, r, ws) ∧
      (∃ p pp temp, s.parent n = some p ∧ s.parent p = some pp ∧ s.left pp = some temp ∧
        s.color temp = some uc) ∧
      ((uc = Color.RED ∧ r = 0) ∨ (uc = Color.BLACK ∧ 1 ≤ r ∧ r ≤ 2)) ∧
      ∀ x, (x, Color.RED) ∈ ws → s1.color x = some Color.RED := by
  simp only [insert_fixup_right] at h
  obtain ⟨p, hp, h⟩ := andThen_eq_some.1 h
  obtain ⟨pp, hpp, h⟩ := andThen_eq_some.1 h
  obtain ⟨temp, ht, h⟩ := andThen_eq_some.1 h
  obtain ⟨tc, htc, h⟩ := andThen_eq_some.1 h
  suffices hx : ∃ uc r ws, insert_fixup_right_traced s n = some (s1, n1, uc, r, ws) ∧
      uc = tc ∧ ((uc = Color.RED ∧ r = 0) ∨ (uc = Color.BLACK ∧ 1 ≤ r ∧ r ≤ 2)) ∧
      ∀ x, (x, Color.RED) ∈ ws → s1.color x = some Color.RED by
    obtain ⟨uc, r, ws, e, rfl, h3, h4⟩ := hx
    exact ⟨uc, r, ws, e, ⟨p, pp, temp, hp, hpp, ht, htc⟩, h3, h4⟩
  simp only [insert_fixup_right_traced, hp, hpp, ht, htc, andThen_some]
  by_cases hc : tc = Color.RED
  · rw [if_pos hc] at h ⊢
    obtain ⟨a, b, e, hb⟩ := insert_fixup_recolor_traced_of h
    refine ⟨Color.RED, 0, [(a, Color.BLACK), (temp, Color.BLACK), (b, Color.RED)],
      by simp [e, hc], hc.symm, Or.inl ⟨rfl, rfl⟩, ?_⟩
    intro x hx
    simp only [List.mem_cons, Prod.mk.injEq, List.mem_singleton, List.mem_nil_iff] at hx
    rcases hx with ⟨-, h1⟩ | ⟨-, h1⟩ | ⟨rfl, -⟩ | h1
    · cases h1
    · cases h1
    · exact hb
    · exact absurd h1 id
  · rw [if_neg hc] at h ⊢
    simp only [hp, andThen_some] at h
    obtain ⟨pr, hpr, h⟩ := andThen_eq_some.1 h
    simp only [hpr, andThen_some]
    by_cases hn : n = pr
    · rw [if_pos hn] at h ⊢
      obtain ⟨x, hx, h⟩ := andThen_eq_some.1 h
      obtain ⟨y, hy, e⟩ := andThen_eq_some.1 hx
      cases e
      simp only [hy, andThen_some] at h ⊢
      obtain ⟨p2, hp2, h⟩ := andThen_eq_some.1 h
      obtain ⟨s2, hs2, h⟩ := andThen_eq_some.1 h
      obtain ⟨p3, hp3, h⟩ := andThen_eq_some.1 h
      obtain ⟨p4, hp4, h⟩ := andThen_eq_some.1 h
      obtain ⟨s3, hs3, h⟩ := andThen_eq_some.1 h
      obtain ⟨p5, hp5, h⟩ := andThen_eq_some.1 h
      obtain ⟨p6, hp6, h⟩ := andThen_eq_some.1 h
      obtain ⟨s4, hs4, h⟩ := andThen_eq_some.1 h
      cases h
      refine ⟨tc, 2, [(p2, Color.BLACK), (p4, Color.RED)], ?_, rfl,
        Or.inr ⟨Color.eq_black_of_ne_red hc, by omega, by omega⟩, ?_⟩
      · simp only [hp2, hs2, hp3, hp4, hs3, hp5, hp6, hs4, andThen_some]
      · intro x hx
        simp only [List.mem_cons, Prod.mk.injEq, List.mem_singleton, List.mem_nil_iff] at hx
        rcases hx with ⟨-, h1⟩ | ⟨rfl, -⟩ | h1
        · cases h1
        · exact (left_rotate_color hs4 _).trans (setColor_color_self hs3)
        · exact absurd h1 id
    · rw [if_neg hn] at h ⊢
      simp only [andThen_some] at h ⊢
      obtain ⟨p2, hp2, h⟩ := andThen_eq_some.1 h
      obtain ⟨s2, hs2, h⟩ := andThen_eq_some.1 h
      obtain ⟨p3, hp3, h⟩ := andThen_eq_some.1 h
      obtain ⟨p4, hp4, h⟩ := andThen_eq_some.1 h
      obtain ⟨s3, hs3, h⟩ := andThen_eq_some.1 h
      obtain ⟨p5, hp5, h⟩ := andThen_eq_some.1 h
      obtain ⟨p6, hp6, h⟩ := andThen_eq_some.1 h
      obtain ⟨s4, hs4, h⟩ := andThen_eq_some.1 h
      cases h
      refine ⟨tc, 1, [(p2, Color.BLACK), (p4, Color.RED)], ?_, rfl,
        Or.inr ⟨Color.eq_black_of_ne_red hc, by omega, by omega⟩, ?_⟩
      · simp only [hp2, hs2, hp3, hp4, hs3, hp5, hp6, hs4, andThen_some]
      · intro x hx
        simp only [List.mem_cons, Prod.mk.injEq, List.mem_singleton, List.mem_nil_iff] at hx
        rcases hx with ⟨-, h1⟩ | ⟨rfl, -⟩ | h1
        · cases h1
        · exact (left_rotate_color hs4 _).trans (setColor_color_self hs3)
        · exact absurd h1 id

/-- The loop of `insert_fixup` is left at once when the parent of `node` is BLACK: no run
of the body is recorded. -/
theorem insert_fixup_traced_exit {s s1 : RBT K V} {c pa : Nat} (fuel : Nat)
    (hpar : s.parent c = some pa) (hcol : s.color pa = some Color.BLACK)
    (h : insert_fixup (fuel + 1) s c = some s1) :
    insert_fixup_traced (fuel + 1) s c = some (s1, [], [(s.root, Color.BLACK)]) := by
  simp only [insert_fixup, hpar, andThen_some, hcol] at h
  simp only [insert_fixup_traced, hpar, andThen_some, hcol]
  have h2 : s.setColor s.root Color.BLACK = some s1 := by simpa using h
  simp [h2]

/-- The record of `insert_fixup` started at a node at the end of a path: the result is
that of `insert_fixup`; the runs of the body are some with a RED uncle and no rotation,
then at most one with a BLACK uncle and one or two rotations; and there is at most one
run for every two steps of the path. -/
theorem insert_fixup_traced_spec : ∀ (fuel : Nat) (p : List (Frame K V)) (s : RBT K V)
    (n : Nat) (nc : Color) (nl : Tree K V) (nk : K) (nv : V) (nr : Tree K V),
    WF s (plug p (Tree.node n nc nl nk nv nr)) → rootBlack p → p.length < fuel →
    ∃ s1 tr ws, insert_fixup_traced fuel s n = some (s1, tr, ws) ∧
      insert_fixup fuel s n = some s1 ∧ 2 * tr.length ≤ p.length ∧
      (s.sentinel, Color.RED) ∉ ws ∧
      ∃ m, (tr = List.replicate m (Color.RED, 0) ∨
        ∃ r, tr = List.replicate m (Color.RED, 0) ++ [(Color.BLACK, r)] ∧ 1 ≤ r ∧ r ≤ 2)
  | 0, _, _, _, _, _, _, _, _, _, _, hlen => absurd hlen (Nat.not_lt_zero _)
  | fuel + 1, [], s, n, nc, nl, nk, nv, nr, hwf, _, _ => by
    have hp := hwf.parent_focus (p := [])
    have hc := hwf.sent_black
    obtain ⟨s1, e1, -⟩ := insert_fixup_exit hwf hp hc fuel
    exact ⟨s1, [], _, insert_fixup_traced_exit fuel hp hc e1, e1, by simp, by simp, 0, Or.inl rfl⟩
  | fuel + 1, [f], s, n, nc, nl, nk, nv, nr, hwf, hrb, _ => by
    have hp := hwf.parent_focus
    have hc : s.color f.addr = some Color.BLACK := by
      have h := WF.color_ptr (p := []) (t := f.fill _) hwf
      cases f <;> simpa [Frame.fill, Tree.color, rootBlack, Frame.color, Frame.addr] using
        (show _ = some Color.BLACK from hrb ▸ h)
    obtain ⟨s1, e1, -⟩ := insert_fixup_exit hwf hp hc fuel
    exact ⟨s1, [], _, insert_fixup_traced_exit fuel hp hc e1, e1, by simp, by simp, 0, Or.inl rfl⟩
  | fuel + 1, f :: g :: p, s, n, nc, nl, nk, nv, nr, hwf, hrb, hlen => by
    have hp := hwf.parent_focus
    simp only [parentOf] at hp
    have hc : s.color f.addr = some f.color := by
      have h := WF.color_ptr (p := g :: p) (t := f.fill _) hwf
      cases f <;> simpa [Frame.fill, Tree.color, Frame.color, Frame.addr] using h
    by_cases hf : f.color = Color.RED
    · have hpf : s.parent f.addr = some g.addr := by
        cases f <;> exact WF.parent_focus (p := g :: p) hwf
      have hfuel : ∃ fuel1, fuel = fuel1 + 1 := by
        cases fuel with
        | zero => simp at hlen
        | succ m => exact ⟨m, rfl⟩
      have huc : s.color (g.sib.ptr s.sentinel) = some g.sib.color := by
        cases g with
        | lft ga gc gk gv u =>
          exact WF.color_ptr (p := Frame.rgt ga gc _ gk gv :: p) (t := u) hwf
        | rgt ga gc u gk gv =>
          exact WF.color_ptr (p := Frame.lft ga gc gk gv _ :: p) (t := u) hwf
      have key : ∃ s1 n1 t1 r ws, insert_fixup (fuel + 1) s n = insert_fixup fuel s1 n1 ∧
          insert_fixup_traced (fuel + 1) s n =
            (insert_fixup_traced fuel s1 n1).andThen (fun x =>
              some (x.1, (g.sib.color, r) :: x.2.1, ws ++ x.2.2)) ∧
          (s.sentinel, Color.RED) ∉ ws ∧
          ((g.sib.color = Color.RED ∧ r = 0) ∨ (g.sib.color = Color.BLACK ∧ 1 ≤ r ∧ r ≤ 2)) ∧
          Evolves s (plug (f :: g :: p) (Tree.node n nc nl nk nv nr)) s1 (plug p t1) ∧
          ((insCase f g (Tree.node n nc nl nk nv nr) = Sum.inl t1 ∧
              ∃ l1 k1 v1 r1, t1 = Tree.node n1 Color.RED l1 k1 v1 r1) ∨
            (insCase f g (Tree.node n nc nl nk nv nr) = Sum.inr t1 ∧
              ∃ pa, s1.parent n1 = some pa ∧ s1.color pa = some Color.BLACK)) := by
        cases g with
        | lft ga gc gk gv u =>
          have hgl : s.left ga = some f.addr := by
            cases f <;> exact left_of_heap (WF.heap_focus (p := p) (a := ga) hwf)
          have hgr : s.right ga = some (u.ptr s.sentinel) := by
            cases f <;> exact right_of_heap (WF.heap_focus (p := p) (a := ga) hwf)
          obtain ⟨s1, n1, t1, e, ev, hcase⟩ := insert_fixup_left_spec hwf
          obtain ⟨uc, r, ws, et, ⟨x1, x2, x3, h1, h2, h3, h4⟩, hr, hws⟩ :=
            insert_fixup_left_traced_of e
          have hnot : (s.sentinel, Color.RED) ∉ ws := by
            intro hmem
            have h5 := hws _ hmem
            rw [← ev.sentinel, ev.wf.sent_black] at h5
            cases h5
          simp only [addr_lft, addr_rgt] at hpf
          have huc2 : uc = u.color := by
            rw [hp] at h1; cases h1
            rw [hpf] at h2; cases h2
            rw [hgr] at h3; cases h3
            simp only [sib_lft] at huc
            rw [huc] at h4
            exact (Option.some.inj h4).symm
          subst huc2
          refine ⟨s1, n1, t1, r, ws, ?_, ?_, hnot, hr, ev, hcase⟩
          · simp only [insert_fixup, hp, andThen_some, hc, hf, if_true, hpf, hgl, e]
          · simp only [insert_fixup_traced, hp, andThen_some, hc, hf, if_true, hpf, hgl, et,
              sib_lft]
        | rgt ga gc u gk gv =>
          have hgl : s.left ga = some (u.ptr s.sentinel) := by
            cases f <;> exact left_of_heap (WF.heap_focus (p := p) (a := ga) hwf)
          have hne : f.addr ≠ u.ptr s.sentinel := by
            cases f <;> exact WF.ne_sib_ptr (p := p) (f := Frame.rgt ga gc u gk gv) hwf
          obtain ⟨s1, n1, t1, e, ev, hcase⟩ := insert_fixup_right_spec hwf
          obtain ⟨uc, r, ws, et, ⟨x1, x2, x3, h1, h2, h3, h4⟩, hr, hws⟩ :=
            insert_fixup_right_traced_of e
          have hnot : (s.sentinel, Color.RED) ∉ ws := by
            intro hmem
            have h5 := hws _ hmem
            rw [← ev.sentinel, ev.wf.sent_black] at h5
            cases h5
          simp only [addr_lft, addr_rgt] at hpf
          have huc2 : uc = u.color := by
            rw [hp] at h1; cases h1
            rw [hpf] at h2; cases h2
            rw [hgl] at h3; cases h3
            simp only [sib_rgt] at huc
            rw [huc] at h4
            exact (Option.some.inj h4).symm
          subst huc2
          refine ⟨s1, n1, t1, r, ws, ?_, ?_, hnot, hr, ev, hcase⟩
          · simp only [insert_fixup, hp, andThen_some, hc, hf, if_true, hpf, hgl, hne, if_false, e]
          · simp only [insert_fixup_traced, hp, andThen_some, hc, hf, if_true, hpf, hgl, hne,
              if_false, et, sib_rgt]
      obtain ⟨s1, n1, t1, r, ws, e, et, hnot, hr, ev, hcase⟩ := key
      rw [e, et]
      have hins_red : ∀ t1, insCase f g (Tree.node n nc nl nk nv nr) = Sum.inl t1 →
          g.sib.color = Color.RED := by
        intro t1 h
        cases g with
        | lft ga gc gk gv u =>
          by_contra hne
          simp only [sib_lft] at hne
          cases f <;> simp [insCase, hne] at h
        | rgt ga gc u gk gv =>
          by_contra hne
          simp only [sib_rgt] at hne
          cases f <;> simp [insCase, hne] at h
      have hins_black : ∀ t1, insCase f g (Tree.node n nc nl nk nv nr) = Sum.inr t1 →
          g.sib.color = Color.BLACK := by
        intro t1 h
        cases g with
        | lft ga gc gk gv u =>
          by_contra hne
          have hred : u.color = Color.RED := by
            cases hu : u.color with
            | RED => rfl
            | BLACK => exact absurd hu hne
          simp [insCase, hred] at h
        | rgt ga gc u gk gv =>
          by_contra hne
          have hred : u.color = Color.RED := by
            cases hu : u.color with
            | RED => rfl
            | BLACK => exact absurd hu hne
          simp [insCase, hred] at h
      rcases hcase with ⟨hins, l1, k1, v1, r1, rfl⟩ | ⟨hins, pa, hpa, hcol⟩
      · obtain ⟨s2, tr, ws2, e2t, e2, hlen2, hnot2, m, htr⟩ := insert_fixup_traced_spec fuel p s1 n1
          Color.RED l1 k1 v1 r1 ev.wf (rootBlack_tail hrb)
          (by simp only [List.length_cons] at hlen; omega)
        have hred := hins_red _ hins
        have hr0 : r = 0 := by
          rcases hr with ⟨-, h⟩ | ⟨h, -⟩
          · exact h
          · rw [hred] at h; cases h
        subst hr0
        refine ⟨s2, (Color.RED, 0) :: tr, ws ++ ws2, ?_, e2, ?_, ?_, m + 1, ?_⟩
        · rw [e2t, hred]; rfl
        · simp only [List.length_cons]; omega
        · rw [ev.sentinel] at hnot2
          simp only [List.mem_append, not_or]
          exact ⟨hnot, hnot2⟩
        · rcases htr with rfl | ⟨r, rfl, hr1, hr2⟩
          · exact Or.inl rfl
          · exact Or.inr ⟨r, rfl, hr1, hr2⟩
      · obtain ⟨fuel1, rfl⟩ := hfuel
        obtain ⟨s2, e2, -⟩ := insert_fixup_exit ev.wf hpa hcol fuel1
        have e2t := insert_fixup_traced_exit fuel1 hpa hcol e2
        have hblack := hins_black _ hins
        have hr12 : 1 ≤ r ∧ r ≤ 2 := by
          rcases hr with ⟨h, -⟩ | ⟨-, h⟩
          · rw [hblack] at h; cases h
          · exact h
        refine ⟨s2, [(Color.BLACK, r)], ws ++ [(s1.root, Color.BLACK)], ?_, e2, ?_, ?_, 0,
          Or.inr ⟨r, rfl, hr12⟩⟩
        · rw [e2t, hblack]; rfl
        · simp only [List.length_cons, List.length_nil]; omega
        · simp only [List.mem_append, not_or]
          exact ⟨hnot, by simp⟩
    · have hc2 : s.color f.addr = some Color.BLACK := by
        rw [hc, Color.eq_black_of_ne_red hf]
      obtain ⟨s1, e1, -⟩ := insert_fixup_exit hwf hp hc2 fuel
      exact ⟨s1, [], _, insert_fixup_traced_exit fuel hp hc2 e1, e1, by simp, by simp, 0,
        Or.inl rfl⟩


/-- The depth of the root of the subtree at the end of a path is the length of the path;
for an empty subtree below a node the parent link of the sentinel is followed. -/
theorem depth_spec {s : RBT K V} : ∀ (p : List (Frame K V)) (t : Tree K V) (fuel : Nat),
    WF s (plug p t) →
    (t = Tree.nil → p ≠ [] → s.parent s.sentinel = some (parentOf s.sentinel p)) →
    p.length < fuel → depth fuel s (t.ptr s.sentinel) = some p.length
  | _, _, 0, _, _, h => absurd h (Nat.not_lt_zero _)
  | [], t, fuel + 1, hwf, _, _ => by
    have hr : t.ptr s.sentinel = s.root := hwf.root.symm
    simp [depth, hr]
  | f :: p, t, fuel + 1, hwf, hcur, hlen => by
    have hne := hwf.ptr_ne_root
    have hpar : s.parent (t.ptr s.sentinel) = some f.addr := by
      cases t with
      | nil => exact hcur rfl (by simp)
      | node a c l k v r => exact hwf.parent_focus
    have ih := depth_spec p (f.fill t) fuel hwf (by cases f <;> simp [Frame.fill])
      (by simpa using hlen)
    have hfa : (f.fill t).ptr s.sentinel = f.addr := by cases f <;> rfl
    rw [hfa] at ih
    simp only [depth, hne, if_false, hpar, andThen_some, ih, List.length_cons]

/-- The first part of `inner_insert` below the parent of an empty place: a RED node with
the new key and value is linked in there at a fresh address. -/
theorem inner_insert_link_spec (comp : K → K → Bool) {s : RBT K V} {p : List (Frame K V)}
    (k : K) (v : V) (hwf : WF s (plug p Tree.nil)) (hdir : headDir comp k p) :
    ∃ s1, inner_insert_link comp s k v (parentOf s.sentinel p) = some (s1, s.next) ∧
      WF s1 (plug p (Tree.node s.next Color.RED Tree.nil k v Tree.nil)) ∧
      s1.sentinel = s.sentinel ∧ s1.size = s.size ∧ s1.next = s.next + 1 ∧
      (∀ a, a ∉ (plug p Tree.nil).addrs → a ≠ s.next → s1.heap a = s.heap a) := by
  obtain ⟨hpath, -, hnd, -, hsp⟩ := hwf.unplug
  simp only [Tree.addrs, List.nil_append, ptr_nil] at hnd
  have hlt : ∀ a ∈ pathAddrs p, a < s.next := fun a ha =>
    hwf.lt_next a (mem_addrs_plug.2 (Or.inr ha))
  have hnp : s.next ∉ pathAddrs p := fun h => Nat.lt_irrefl _ (hlt _ h)
  have hns : s.next ≠ s.sentinel := Nat.ne_of_gt hwf.sent_lt
  obtain ⟨sA, hA⟩ : ∃ sA, sA = (s.alloc ⟨k, v, Color.RED, 0, 0, 0⟩).2 := ⟨_, rfl⟩
  have hAh : ∀ a, a ≠ s.next → sA.heap a = s.heap a := by
    intro a ha
    simp [hA, RBT.alloc, Function.update_apply, ha]
  have hAn : sA.heap s.next = some ⟨k, v, Color.RED, 0, 0, 0⟩ := by
    simp [hA, RBT.alloc]
  have hAs : sA.sentinel = s.sentinel := by rw [hA]; rfl
  have hAr : sA.root = s.root := by rw [hA]; rfl
  have hAz : sA.size = s.size := by rw [hA]; rfl
  have hAx : sA.next = s.next + 1 := by rw [hA]; rfl
  obtain ⟨sB, eB, hBp, mB⟩ := link_spec comp (s := sA) (p := p) (n := s.next) (k := k)
    (by rw [hAs, hAr]
        exact RepPath.congrPath (fun a ha => hAh a (ne_of_mem_of_not_mem ha hnp)) hpath)
    hAn hnp (by rw [hAs]; exact hsp) hnd hdir
  rw [hAs] at eB hBp
  have hBn : sB.heap s.next = _ := (mB.heap _ hnp).trans hAn
  obtain ⟨sC, eC, hCn, rC, mC⟩ := setLeft_spec hBn s.sentinel
  obtain ⟨sD, eD, hDn, rD, mD⟩ := setRight_spec hCn s.sentinel
  obtain ⟨sE, eE, hEn, rE, mE⟩ := setParent_spec hDn (parentOf s.sentinel p)
  have mBE := ((mB.seq mC).seq mD).seq mE
  have hEs : sE.sentinel = s.sentinel := mBE.sentinel.trans hAs
  have hEh : ∀ a, a ∉ pathAddrs p → a ≠ s.next → sE.heap a = s.heap a := by
    intro a ha1 ha2
    rw [mBE.heap a (by simp [ha1, ha2]), hAh a ha2]
  have hEwf : WF sE (plug p (Tree.node s.next Color.RED Tree.nil k v Tree.nil)) := by
    have h1 := (@rep_plug _ _ sE.heap s.sentinel sE.root p
      (Tree.node s.next Color.RED Tree.nil k v Tree.nil)).2 ⟨by
        rw [rE, rD, rC, ptr_node]
        refine RepPath.congrPath (fun a ha => ((mC.seq mD).seq mE).heap a ?_) hBp
        simpa using ne_of_mem_of_not_mem ha hnp, by
        simp only [Rep, ptr_nil, and_true]
        exact hEn⟩
    refine ⟨?_, ?_, ?_, ?_, ?_, ?_, ?_⟩
    · rw [hEs]; exact h1.1
    · rw [hEs]; exact h1.2
    · rw [nodup_addrs_plug]
      simpa [Tree.addrs] using ⟨hnp, hnd⟩
    · rw [hEs, mem_addrs_plug]
      simpa [Tree.addrs] using ⟨Ne.symm hns, hsp⟩
    · have h := hwf.sent_black
      simp only [RBT.color] at h ⊢
      rw [hEs, hEh _ hsp (Ne.symm hns)]
      exact h
    · intro a ha
      rw [mBE.next, hAx]
      rw [mem_addrs_plug] at ha
      simp only [Tree.addrs, List.append_nil, List.mem_singleton] at ha
      rcases ha with rfl | ha
      · exact Nat.lt_succ_self _
      · exact Nat.lt_succ_of_lt (hlt a ha)
    · rw [hEs, mBE.next, hAx]
      exact Nat.lt_succ_of_lt hwf.sent_lt
  refine ⟨sE, ?_, hEwf, hEs, mBE.size.trans hAz, mBE.next.trans hAx, ?_⟩
  · simp only [inner_insert_link]
    rw [← hA]
    simp only [alloc_fst, hAs, eB, andThen_some, mB.sentinel, eC, mC.sentinel, eD, mD.sentinel,
      eE, (mB.seq mC).sentinel, ((mB.seq mC).seq mD).sentinel]
  · intro a ha1 ha2
    rw [mem_addrs_plug] at ha1
    simp only [Tree.addrs, List.not_mem_nil, false_or] at ha1
    exact hEh a ha1 ha2

/-! ### The record of `delete_fixup` -/

/-- `inner_delete` is its first part followed by the call of `delete_fixup`, when the
spliced node was BLACK, and by the `delete` of the spliced node. -/
theorem inner_delete_eq (s : RBT K V) (node : Nat) :
    inner_delete s node = (inner_delete_splice s node).andThen fun x =>
      (x.1.color x.2.1).andThen fun pc =>
      (if pc = Color.BLACK then delete_fixup x.1.next x.1 x.2.2 else some x.1).andThen fun s1 =>
      s1.free x.2.1 := by
  simp only [inner_delete, inner_delete_splice, andThen_assoc, andThen_some]


/-- The entry for a rotation after which the cursor is the left child of the node `fa` at
the end of a path: it is as wanted. -/
theorem Rotated.ok_lft {s s1 : RBT K V} {t : Tree K V} {P : List (Frame K V)} {q r : Tree K V}
    {fa : Nat} {c : Color} {k : K} {v : V}
    (ev : Evolves s t s1 (plug (Frame.lft fa c k v r :: P) q)) (hwf : WF s t)
    (hcur : q = Tree.nil → s.parent s.sentinel = some fa) :
    Rotated.ok s.sentinel (s.heap s.sentinel) ⟨q.ptr s.sentinel, true, s1⟩ := by
  have hne : fa ≠ s1.sentinel := WF.ptr_ne_sentinel (p := P) (a := fa) ev.wf
  have hl := left_of_heap (WF.heap_focus (p := P) (a := fa) ev.wf)
  rw [ev.sentinel] at hne hl
  exact ⟨ev.frame _ hwf.sent_notin, fa,
    Evolves.cursor (f := Frame.lft fa c k v r) (p := P) ev hwf rfl hcur, hne, hl⟩

/-- The entry for a rotation after which the cursor is the right child of the node `fa`
at the end of a path: it is as wanted. -/
theorem Rotated.ok_rgt {s s1 : RBT K V} {t : Tree K V} {P : List (Frame K V)} {q l : Tree K V}
    {fa : Nat} {c : Color} {k : K} {v : V}
    (ev : Evolves s t s1 (plug (Frame.rgt fa c l k v :: P) q)) (hwf : WF s t)
    (hcur : q = Tree.nil → s.parent s.sentinel = some fa) :
    Rotated.ok s.sentinel (s.heap s.sentinel) ⟨q.ptr s.sentinel, false, s1⟩ := by
  have hne : fa ≠ s1.sentinel := WF.ptr_ne_sentinel (p := P) (a := fa) ev.wf
  have hl := right_of_heap (WF.heap_focus (p := P) (a := fa) ev.wf)
  rw [ev.sentinel] at hne hl
  exact ⟨ev.frame _ hwf.sent_notin, fa,
    Evolves.cursor (f := Frame.rgt fa c l k v) (p := P) ev hwf rfl hcur, hne, hl⟩

/-- An entry that is as wanted for a run from a later state is as wanted for the run from
an earlier state, the steps in between leaving the sentinel alone. -/
theorem Rotated.ok_of_evolves {s s1 : RBT K V} {t t1 : Tree K V} (ev : Evolves s t s1 t1)
    (hwf : WF s t) {r : Rotated K V} (h : r.ok s1.sentinel (s1.heap s1.sentinel)) :
    r.ok s.sentinel (s.heap s.sentinel) := by
  rw [ev.sentinel, ev.frame _ hwf.sent_notin] at h
  exact h

/-- A colour write that is not of RED at the sentinel adds no such write to a list of
colour writes. -/
theorem not_mem_writes_cons {sent a : Nat} {c : Color} {ws : List (Nat × Color)}
    (h : a ≠ sent ∨ c = Color.BLACK) (hws : (sent, Color.RED) ∉ ws) :
    (sent, Color.RED) ∉ (a, c) :: ws := by
  intro hm
  rcases List.mem_cons.1 hm with h1 | h1
  · simp only [Prod.mk.injEq] at h1
    rcases h with h | h
    · exact h h1.1.symm
    · rw [h] at h1
      exact absurd h1.2 (by decide)
  · exact hws h1

/-- Case 4 of `delete_fixup` with its record: three colour writes, the first at the
sibling `temp`, the other two of BLACK, and one rotation, the last step. -/
theorem delete_fixup_case4_traced_of {s s1 : RBT K V} {n t n1 : Nat}
    (h : delete_fixup_case4 s n t = some (s1, n1)) :
    ∃ c a b, delete_fixup_case4_traced s n t =
      some (s1, n1, [(t, c), (a, Color.BLACK), (b, Color.BLACK)], [⟨n, true, s1⟩]) := by
  simp only [delete_fixup_case4] at h
  obtain ⟨p, hp, h⟩ := andThen_eq_some.1 h
  obtain ⟨pc, hpc, h⟩ := andThen_eq_some.1 h
  obtain ⟨s2, hs2, h⟩ := andThen_eq_some.1 h
  obtain ⟨p1, hp1, h⟩ := andThen_eq_some.1 h
  obtain ⟨s3, hs3, h⟩ := andThen_eq_some.1 h
  obtain ⟨tr, htr, h⟩ := andThen_eq_some.1 h
  obtain ⟨s4, hs4, h⟩ := andThen_eq_some.1 h
  obtain ⟨p2, hp2, h⟩ := andThen_eq_some.1 h
  obtain ⟨s5, hs5, h⟩ := andThen_eq_some.1 h
  cases h
  refine ⟨pc, p1, tr, ?_⟩
  simp only [delete_fixup_case4_traced, hp, hpc, hs2, hp1, hs3, htr, hs4, hp2, hs5,
    andThen_some]

/-- Case 8 of `delete_fixup` with its record: three colour writes, the first at the
sibling `temp`, the other two of BLACK, and one rotation, the last step. -/
theorem delete_fixup_case8_traced_of {s s1 : RBT K V} {n t n1 : Nat}
    (h : delete_fixup_case8 s n t = some (s1, n1)) :
    ∃ c a b, delete_fixup_case8_traced s n t =
      some (s1, n1, [(t, c), (a, Color.BLACK), (b, Color.BLACK)], [⟨n, false, s1⟩]) := by
  simp only [delete_fixup_case8] at h
  obtain ⟨p, hp, h⟩ := andThen_eq_some.1 h
  obtain ⟨pc, hpc, h⟩ := andThen_eq_some.1 h
  obtain ⟨s2, hs2, h⟩ := andThen_eq_some.1 h
  obtain ⟨p1, hp1, h⟩ := andThen_eq_some.1 h
  obtain ⟨s3, hs3, h⟩ := andThen_eq_some.1 h
  obtain ⟨tl, htl, h⟩ := andThen_eq_some.1 h
  obtain ⟨s4, hs4, h⟩ := andThen_eq_some.1 h
  obtain ⟨p2, hp2, h⟩ := andThen_eq_some.1 h
  obtain ⟨s5, hs5, h⟩ := andThen_eq_some.1 h
  cases h
  refine ⟨pc, p1, tl, ?_⟩
  simp only [delete_fixup_case8_traced, hp, hpc, hs2, hp1, hs3, htl, hs4, hp2, hs5,
    andThen_some]

/-- Cases 2 to 4 of `delete_fixup` with their record: the sibling that case 3 assigns to
`temp` is a node of the tree, the test `temp == _sentinel` before case 4 fails, and no
colour write stores RED at the sentinel. -/
theorem delete_fixup_left_rest_traced_spec {s : RBT K V} {p : List (Frame K V)} {q : Tree K V}
    {fa wa : Nat} {fc wc : Color} {fk wk : K} {fv wv : V} {wl wr : Tree K V}
    (hwf : WF s (plug (Frame.lft fa fc fk fv (Tree.node wa wc wl wk wv wr) :: p) q))
    (hcur : q = Tree.nil → s.parent s.sentinel = some fa) :
    ∃ s1 n1 t1 ts ws rs, delete_fixup_left_rest_traced s (q.ptr s.sentinel) wa =
        some (s1, n1, ts, false, ws, rs) ∧
      delete_fixup_left_rest s (q.ptr s.sentinel) wa = some (s1, n1) ∧
      (∀ x ∈ ts, x ∈ (plug (Frame.lft fa fc fk fv (Tree.node wa wc wl wk wv wr) :: p) q).addrs) ∧
      (s.sentinel, Color.RED) ∉ ws ∧ (∀ r ∈ rs, r.ok s.sentinel (s.heap s.sentinel)) ∧
      Evolves s (plug (Frame.lft fa fc fk fv (Tree.node wa wc wl wk wv wr) :: p) q)
        s1 (plug p t1) ∧
      ((delCaseL fa fc fk fv q (Tree.node wa wc wl wk wv wr) = Sum.inl t1 ∧ n1 = fa ∧
          ∃ r1, t1 = Tree.node fa fc q fk fv r1) ∨
        (delCaseL fa fc fk fv q (Tree.node wa wc wl wk wv wr) = Sum.inr t1 ∧ n1 = s1.root)) := by
  have hwa := WF.heap_focus (p := Frame.rgt fa fc q fk fv :: p) (a := wa) hwf
  have hwane : wa ≠ s.sentinel := WF.ptr_ne_sentinel (p := Frame.rgt fa fc q fk fv :: p) hwf
  have hl0 := left_of_heap hwa
  have hr0 := right_of_heap hwa
  have hcl := WF.color_ptr (p := Frame.lft wa wc wk wv wr :: Frame.rgt fa fc q fk fv :: p)
    (t := wl) hwf
  have hcr := WF.color_ptr (p := Frame.rgt wa wc wl wk wv :: Frame.rgt fa fc q fk fv :: p)
    (t := wr) hwf
  simp only at hl0 hr0
  by_cases hbb : wl.color = Color.BLACK ∧ wr.color = Color.BLACK
  · -- case 2
    obtain ⟨s1, e1, ev1⟩ := setColor_focus (p := Frame.rgt fa fc q fk fv :: p) (a := wa) hwf
      Color.RED
    have hp1 := Evolves.cursor (a := fa) (f := Frame.lft fa fc fk fv _) (p := p) (q := q) ev1 hwf
      rfl hcur
    refine ⟨s1, fa, _, [], [(wa, Color.RED)], [], ?_, ?_, by simp,
      not_mem_writes_cons (Or.inl hwane) (List.not_mem_nil _), by simp, ev1,
      Or.inl ⟨?_, rfl, _, rfl⟩⟩
    · simp only [delete_fixup_left_rest_traced, hl0, andThen_some, hcl, hbb.1, if_true, hr0,
        hcr, hbb.2, decide_True, e1, hp1]
    · simp only [delete_fixup_left_rest, hl0, andThen_some, hcl, hbb.1, if_true, hr0, hcr, hbb.2,
        decide_True, e1, hp1]
    · simp [delCaseL, hbb]
  · have hnb : (if wl.color = Color.BLACK then
          (s.right wa).andThen fun tr => (s.color tr).andThen fun trc =>
            some (decide (trc = Color.BLACK))
        else some false) = some false := by
      by_cases h1 : wl.color = Color.BLACK
      · have h2 : ¬ wr.color = Color.BLACK := fun h2 => hbb ⟨h1, h2⟩
        simp [h1, hr0, hcr, h2]
      · simp [h1]
    by_cases hwr : wr.color = Color.BLACK
    · -- case 3, then case 4
      have hwl : wl.color = Color.RED := by
        cases h : wl.color with
        | RED => rfl
        | BLACK => exact absurd ⟨h, hwr⟩ hbb
      obtain ⟨la, ll, lk, lv, lr, rfl⟩ := color_red_node hwl
      simp only [ptr_node, color_node] at hl0 hcl
      have hlane : la ≠ s.sentinel := WF.ptr_ne_sentinel
        (p := Frame.lft wa wc wk wv wr :: Frame.rgt fa fc q fk fv :: p) hwf
      obtain ⟨s1, e1, ev1⟩ := setColor_focus
        (p := Frame.lft wa wc wk wv wr :: Frame.rgt fa fc q fk fv :: p) (a := la) hwf Color.BLACK
      obtain ⟨s2, e2, ev2⟩ := setColor_focus (p := Frame.rgt fa fc q fk fv :: p) (a := wa) ev1.wf
        Color.RED
      obtain ⟨s3, e3, ev3⟩ := right_rotate_spec (p := Frame.rgt fa fc q fk fv :: p) (x := wa)
        (y := la) ev2.wf
      have ev03 := (ev1.trans ev2).trans ev3
      have hp3 := Evolves.cursor (a := fa) (f := Frame.lft fa fc fk fv _) (p := p) (q := q) ev03
        hwf rfl hcur
      have hr3 := right_of_heap (WF.heap_focus (p := p) (a := fa) ev3.wf)
      simp only [ptr_node] at hr3
      have hcur3 : q = Tree.nil → s3.parent s3.sentinel = some fa := by
        intro hq
        subst hq
        rw [ev03.sentinel]
        exact hp3
      obtain ⟨s4, e4, ev4⟩ := @delete_fixup_case4_spec _ _ _ p q fa la _ _ _ _ _ _ _ _ _ _ _ _ _
        ev3.wf hcur3
      rw [ev03.sentinel] at e4
      have hlane3 : la ≠ s3.sentinel := by rw [ev03.sentinel]; exact hlane
      obtain ⟨c4, a4, b4, e4t⟩ := delete_fixup_case4_traced_of e4
      have hk3 : Rotated.ok s.sentinel (s.heap s.sentinel) ⟨q.ptr s.sentinel, true, s3⟩ :=
        Rotated.ok_lft (P := p) ev03 hwf hcur
      have hk4 : Rotated.ok s.sentinel (s.heap s.sentinel) ⟨q.ptr s.sentinel, true, s4⟩ :=
        Rotated.ok_lft (P := Frame.lft la fc lk lv _ :: p) (ev03.trans ev4) hwf hcur
      refine ⟨s4, s4.root, _, [la], [(la, Color.BLACK), (wa, Color.RED), (la, c4),
        (a4, Color.BLACK), (b4, Color.BLACK)],
        [⟨q.ptr s.sentinel, true, s3⟩, ⟨q.ptr s.sentinel, true, s4⟩], ?_, ?_, ?_, ?_, ?_,
        ev03.trans ev4, Or.inr ⟨?_, rfl⟩⟩
      · simp only [delete_fixup_left_rest_traced, hl0, andThen_some, hcl, hnb, hr0, hcr, hwr,
          if_true, e1, e2, e3, hp3, hr3]
        simp [e4t, hlane3]
      · simp only [delete_fixup_left_rest, hl0, andThen_some, hcl, hnb, hr0, hcr, hwr,
          if_true, e1, e2, e3, hp3, hr3, e4]
        simp
      · intro x hx
        simp only [List.mem_singleton] at hx
        subst hx
        exact mem_addrs_plug.2 (Or.inr (by simp [pathAddrs, Tree.addrs]))
      · exact not_mem_writes_cons (Or.inr rfl) (not_mem_writes_cons (Or.inl hwane)
          (not_mem_writes_cons (Or.inl hlane) (not_mem_writes_cons (Or.inr rfl)
            (not_mem_writes_cons (Or.inr rfl) (List.not_mem_nil _)))))
      · intro r hr
        simp only [List.mem_cons, List.mem_singleton, List.mem_nil_iff, or_false] at hr
        rcases hr with rfl | rfl
        · exact hk3
        · exact hk4
      · simp [delCaseL, hwr]
    · -- case 4
      have hwrr := Color.eq_black_of_ne_red.mt hwr
      simp only [not_not] at hwrr
      obtain ⟨ra, rl, rk, rv, rr, rfl⟩ := color_red_node hwrr
      obtain ⟨s4, e4, ev4⟩ := delete_fixup_case4_spec hwf hcur
      obtain ⟨c4, a4, b4, e4t⟩ := delete_fixup_case4_traced_of e4
      have hk4 : Rotated.ok s.sentinel (s.heap s.sentinel) ⟨q.ptr s.sentinel, true, s4⟩ :=
        Rotated.ok_lft (P := Frame.lft wa fc wk wv _ :: p) ev4 hwf hcur
      refine ⟨s4, s4.root, _, [], [(wa, c4), (a4, Color.BLACK), (b4, Color.BLACK)],
        [⟨q.ptr s.sentinel, true, s4⟩], ?_, ?_,
        by simp, not_mem_writes_cons (Or.inl hwane) (not_mem_writes_cons (Or.inr rfl)
          (not_mem_writes_cons (Or.inr rfl) (List.not_mem_nil _))),
        fun r hr => by rw [List.mem_singleton.1 hr]; exact hk4, ev4, Or.inr ⟨?_, rfl⟩⟩
      · simp only [ptr_node, color_node] at hr0 hcr
        simp only [delete_fixup_left_rest_traced, hl0, andThen_some, hcl, hnb, hr0, hcr]
        simp [e4t, hwane]
      · simp only [ptr_node, color_node] at hr0 hcr
        simp only [delete_fixup_left_rest, hl0, andThen_some, hcl, hnb, hr0, hcr]
        simpa using e4
      · simp [delCaseL, hwr]

/-- Cases 6 to 8 of `delete_fixup` with their record: the sibling that case 7 assigns to
`temp` is a node of the tree, and no colour write stores RED at the sentinel. -/
theorem delete_fixup_right_rest_traced_spec {s : RBT K V} {p : List (Frame K V)}
    {q : Tree K V} {fa wa : Nat} {fc wc : Color} {fk wk : K} {fv wv : V} {wl wr : Tree K V}
    (hwf : WF s (plug (Frame.rgt fa fc (Tree.node wa wc wl wk wv wr) fk fv :: p) q))
    (hcur : q = Tree.nil → s.parent s.sentinel = some fa) :
    ∃ s1 n1 t1 ts ws rs, delete_fixup_right_rest_traced s (q.ptr s.sentinel) wa =
        some (s1, n1, ts, ws, rs) ∧
      delete_fixup_right_rest s (q.ptr s.sentinel) wa = some (s1, n1) ∧
      (∀ x ∈ ts, x ∈ (plug (Frame.rgt fa fc (Tree.node wa wc wl wk wv wr) fk fv :: p) q).addrs) ∧
      (s.sentinel, Color.RED) ∉ ws ∧ (∀ r ∈ rs, r.ok s.sentinel (s.heap s.sentinel)) ∧
      Evolves s (plug (Frame.rgt fa fc (Tree.node wa wc wl wk wv wr) fk fv :: p) q)
        s1 (plug p t1) ∧
      ((delCaseR fa fc fk fv q (Tree.node wa wc wl wk wv wr) = Sum.inl t1 ∧ n1 = fa ∧
          ∃ l1, t1 = Tree.node fa fc l1 fk fv q) ∨
        (delCaseR fa fc fk fv q (Tree.node wa wc wl wk wv wr) = Sum.inr t1 ∧ n1 = s1.root)) := by
  have hwa := WF.heap_focus (p := Frame.lft fa fc fk fv q :: p) (a := wa) hwf
  have hwane : wa ≠ s.sentinel := WF.ptr_ne_sentinel (p := Frame.lft fa fc fk fv q :: p) hwf
  have hl0 := left_of_heap hwa
  have hr0 := right_of_heap hwa
  have hcl := WF.color_ptr (p := Frame.lft wa wc wk wv wr :: Frame.lft fa fc fk fv q :: p)
    (t := wl) hwf
  have hcr := WF.color_ptr (p := Frame.rgt wa wc wl wk wv :: Frame.lft fa fc fk fv q :: p)
    (t := wr) hwf
  simp only at hl0 hr0
  by_cases hbb : wl.color = Color.BLACK ∧ wr.color = Color.BLACK
  · -- case 6
    obtain ⟨s1, e1, ev1⟩ := setColor_focus (p := Frame.lft fa fc fk fv q :: p) (a := wa) hwf
      Color.RED
    have hp1 := Evolves.cursor (a := fa) (f := Frame.rgt fa fc _ fk fv) (p := p) (q := q) ev1 hwf
      rfl hcur
    refine ⟨s1, fa, _, [], [(wa, Color.RED)], [], ?_, ?_, by simp,
      not_mem_writes_cons (Or.inl hwane) (List.not_mem_nil _), by simp, ev1,
      Or.inl ⟨?_, rfl, _, rfl⟩⟩
    · simp only [delete_fixup_right_rest_traced, hl0, andThen_some, hcl, hbb.1, if_true, hr0,
        hcr, hbb.2, decide_True, e1, hp1]
    · simp only [delete_fixup_right_rest, hl0, andThen_some, hcl, hbb.1, if_true, hr0, hcr,
        hbb.2, decide_True, e1, hp1]
    · simp [delCaseR, hbb]
  · have hnb : (if wl.color = Color.BLACK then
          (s.right wa).andThen fun tr => (s.color tr).andThen fun trc =>
            some (decide (trc = Color.BLACK))
        else some false) = some false := by
      by_cases h1 : wl.color = Color.BLACK
      · have h2 : ¬ wr.color = Color.BLACK := fun h2 => hbb ⟨h1, h2⟩
        simp [h1, hr0, hcr, h2]
      · simp [h1]
    by_cases hwl : wl.color = Color.BLACK
    · -- case 7, then case 8
      have hwr : wr.color = Color.RED := by
        cases h : wr.color with
        | RED => rfl
        | BLACK => exact absurd ⟨hwl, h⟩ hbb
      obtain ⟨ra, rl, rk, rv, rr, rfl⟩ := color_red_node hwr
      simp only [ptr_node, color_node] at hr0 hcr
      obtain ⟨s1, e1, ev1⟩ := setColor_focus
        (p := Frame.rgt wa wc wl wk wv :: Frame.lft fa fc fk fv q :: p) (a := ra) hwf Color.BLACK
      obtain ⟨s2, e2, ev2⟩ := setColor_focus (p := Frame.lft fa fc fk fv q :: p) (a := wa) ev1.wf
        Color.RED
      obtain ⟨s3, e3, ev3⟩ := left_rotate_spec (p := Frame.lft fa fc fk fv q :: p) (x := wa)
        (y := ra) ev2.wf
      have ev03 := (ev1.trans ev2).trans ev3
      have hp3 := Evolves.cursor (a := fa) (f := Frame.rgt fa fc _ fk fv) (p := p) (q := q) ev03
        hwf rfl hcur
      have hl3 := left_of_heap (WF.heap_focus (p := p) (a := fa) ev3.wf)
      simp only [ptr_node] at hl3
      have hcur3 : q = Tree.nil → s3.parent s3.sentinel = some fa := by
        intro hq
        subst hq
        rw [ev03.sentinel]
        exact hp3
      obtain ⟨s4, e4, ev4⟩ := @delete_fixup_case8_spec _ _ _ p q fa ra _ _ _ _ _ _ _ _ _ _ _ _ _
        ev3.wf hcur3
      rw [ev03.sentinel] at e4
      have hrane : ra ≠ s.sentinel := WF.ptr_ne_sentinel
        (p := Frame.rgt wa wc wl wk wv :: Frame.lft fa fc fk fv q :: p) hwf
      obtain ⟨c4, a4, b4, e4t⟩ := delete_fixup_case8_traced_of e4
      have hk3 : Rotated.ok s.sentinel (s.heap s.sentinel) ⟨q.ptr s.sentinel, false, s3⟩ :=
        Rotated.ok_rgt (P := p) ev03 hwf hcur
      have hk4 : Rotated.ok s.sentinel (s.heap s.sentinel) ⟨q.ptr s.sentinel, false, s4⟩ :=
        Rotated.ok_rgt (P := Frame.rgt ra fc _ rk rv :: p) (ev03.trans ev4) hwf hcur
      refine ⟨s4, s4.root, _, [ra], [(ra, Color.BLACK), (wa, Color.RED), (ra, c4),
        (a4, Color.BLACK), (b4, Color.BLACK)],
        [⟨q.ptr s.sentinel, false, s3⟩, ⟨q.ptr s.sentinel, false, s4⟩], ?_, ?_, ?_, ?_, ?_,
        ev03.trans ev4, Or.inr ⟨?_, rfl⟩⟩
      · simp only [delete_fixup_right_rest_traced, hl0, andThen_some, hcl, hnb]
        simp only [Bool.false_eq_true, if_false, hl0, andThen_some, hcl, hwl, if_true, hr0, e1,
          e2, e3, hp3, hl3]
        simp [e4t]
      · simp only [delete_fixup_right_rest, hl0, andThen_some, hcl, hnb]
        simp only [Bool.false_eq_true, if_false, hl0, andThen_some, hcl, hwl, if_true, hr0, e1,
          e2, e3, hp3, hl3]
        simpa using e4
      · intro x hx
        simp only [List.mem_singleton] at hx
        subst hx
        exact mem_addrs_plug.2 (Or.inr (by simp [pathAddrs, Tree.addrs]))
      · exact not_mem_writes_cons (Or.inr rfl) (not_mem_writes_cons (Or.inl hwane)
          (not_mem_writes_cons (Or.inl hrane) (not_mem_writes_cons (Or.inr rfl)
            (not_mem_writes_cons (Or.inr rfl) (List.not_mem_nil _)))))
      · intro r hr
        simp only [List.mem_cons, List.mem_singleton, List.mem_nil_iff, or_false] at hr
        rcases hr with rfl | rfl
        · exact hk3
        · exact hk4
      · simp [delCaseR, hwl]
    · -- case 8
      have hwlr := Color.eq_black_of_ne_red.mt hwl
      simp only [not_not] at hwlr
      obtain ⟨la, ll, lk, lv, lr, rfl⟩ := color_red_node hwlr
      obtain ⟨s4, e4, ev4⟩ := delete_fixup_case8_spec hwf hcur
      obtain ⟨c4, a4, b4, e4t⟩ := delete_fixup_case8_traced_of e4
      have hk4 : Rotated.ok s.sentinel (s.heap s.sentinel) ⟨q.ptr s.sentinel, false, s4⟩ :=
        Rotated.ok_rgt (P := Frame.rgt wa fc _ wk wv :: p) ev4 hwf hcur
      refine ⟨s4, s4.root, _, [], [(wa, c4), (a4, Color.BLACK), (b4, Color.BLACK)],
        [⟨q.ptr s.sentinel, false, s4⟩], ?_, ?_,
        by simp, not_mem_writes_cons (Or.inl hwane) (not_mem_writes_cons (Or.inr rfl)
          (not_mem_writes_cons (Or.inr rfl) (List.not_mem_nil _))),
        fun r hr => by rw [List.mem_singleton.1 hr]; exact hk4, ev4, Or.inr ⟨?_, rfl⟩⟩
      · simp only [ptr_node, color_node] at hl0 hcl
        simp only [delete_fixup_right_rest_traced, hl0, andThen_some, hcl, hnb]
        simp [e4t, hwl]
      · simp only [ptr_node, color_node] at hl0 hcl
        simp only [delete_fixup_right_rest, hl0, andThen_some, hcl, hnb]
        simpa using e4
      · simp [delCaseR, hwl]

/-- The body of the loop of `delete_fixup` for a left child with its record: every
value of the sibling `temp` is a node of the tree, `printf("here")` is not run, and no
colour write stores RED at the sentinel. -/
theorem delete_fixup_left_traced_spec {s : RBT K V} {p : List (Frame K V)} {q w : Tree K V}
    {fa : Nat} {fc : Color} {fk : K} {fv : V}
    (hwf : WF s (plug (Frame.lft fa fc fk fv w :: p) q))
    (hcur : q = Tree.nil → s.parent s.sentinel = some fa) (hw : 0 < w.bh) :
    ∃ s1 n1 ts ws rs, delete_fixup_left_traced s (q.ptr s.sentinel) =
        some (s1, n1, ts, false, ws, rs) ∧
      delete_fixup_left s (q.ptr s.sentinel) = some (s1, n1) ∧
      (∀ x ∈ ts, x ∈ (plug (Frame.lft fa fc fk fv w :: p) q).addrs) ∧
      (s.sentinel, Color.RED) ∉ ws ∧ (∀ r ∈ rs, r.ok s.sentinel (s.heap s.sentinel)) ∧
      ((∃ t1, delCase (Frame.lft fa fc fk fv w) q = DelStep.up t1 ∧
          Evolves s (plug (Frame.lft fa fc fk fv w :: p) q) s1 (plug p t1) ∧
          ∃ c1 l1 k1 v1 r1, t1 = Tree.node n1 c1 l1 k1 v1 r1) ∨
        (∃ t1, delCase (Frame.lft fa fc fk fv w) q = DelStep.root t1 ∧
          Evolves s (plug (Frame.lft fa fc fk fv w :: p) q) s1 (plug p t1) ∧ n1 = s1.root) ∨
        (∃ g t1, delCase (Frame.lft fa fc fk fv w) q = DelStep.stop g t1 ∧
          Evolves s (plug (Frame.lft fa fc fk fv w :: p) q) s1 (plug (g :: p) t1) ∧
          ∃ l1 k1 v1 r1, t1 = Tree.node n1 Color.RED l1 k1 v1 r1)) := by
  obtain ⟨wa, wc, wl, wk, wv, wr, rfl⟩ := bh_pos_node hw
  have hp0 := Evolves.cursor (a := fa) (Evolves.refl hwf) hwf rfl hcur
  have hr0 := right_of_heap (WF.heap_focus (p := p) (a := fa) hwf)
  have hc0 := color_of_heap (WF.heap_focus (p := Frame.rgt fa fc q fk fv :: p) (a := wa) hwf)
  simp only [ptr_node] at hr0 hc0
  have hwamem : wa ∈ (plug (Frame.lft fa fc fk fv (Tree.node wa wc wl wk wv wr) :: p) q).addrs :=
    mem_addrs_plug.2 (Or.inr (by simp [pathAddrs, Tree.addrs]))
  have hfane : fa ≠ s.sentinel := WF.ptr_ne_sentinel (p := p) (a := fa) hwf
  by_cases hwc : wc = Color.RED
  · -- case 1
    subst hwc
    simp only [Tree.bh, if_false, show ¬ Color.RED = Color.BLACK from by decide] at hw
    obtain ⟨la, lc, ll, lk, lv, lr, rfl⟩ := bh_pos_node hw
    obtain ⟨s1, e1, ev1⟩ := setColor_focus (p := Frame.rgt fa fc q fk fv :: p) (a := wa) hwf
      Color.BLACK
    have hp1 := Evolves.cursor (a := fa) (f := Frame.lft fa fc fk fv _) (p := p) (q := q) ev1 hwf
      rfl hcur
    obtain ⟨s2, e2, ev2⟩ := setColor_focus (p := p) (a := fa) ev1.wf Color.RED
    have ev02 := ev1.trans ev2
    have hp2 := Evolves.cursor (a := fa) (f := Frame.lft fa Color.RED fk fv _) (p := p) (q := q)
      ev02 hwf rfl hcur
    obtain ⟨s3, e3, ev3⟩ := left_rotate_spec (p := p) (x := fa) (y := wa) ev2.wf
    have ev03 := ev02.trans ev3
    have hp3 := Evolves.cursor (a := fa) (f := Frame.lft fa Color.RED fk fv _)
      (p := Frame.lft wa Color.BLACK wk wv wr :: p) (q := q) ev03 hwf rfl hcur
    have hr3 := right_of_heap (WF.heap_focus (p := Frame.lft wa Color.BLACK wk wv wr :: p)
      (a := fa) ev3.wf)
    simp only [ptr_node] at hr3
    have hcur3 : q = Tree.nil → s3.parent s3.sentinel = some fa := by
      intro hq
      subst hq
      rw [ev03.sentinel]
      exact hp3
    obtain ⟨s4, n4, t4, ts, ws4, rs4, e4t, e4, hts, hws4, hrs4, ev4, h4⟩ :=
      @delete_fixup_left_rest_traced_spec _ _ _
      (Frame.lft wa Color.BLACK wk wv wr :: p) q fa la _ _ _ _ _ _ _ _ ev3.wf hcur3
    rw [ev03.sentinel] at e4 e4t hws4
    have hlamem : la ∈ (plug (Frame.lft fa fc fk fv
        (Tree.node wa Color.RED (Tree.node la lc ll lk lv lr) wk wv wr) :: p) q).addrs :=
      mem_addrs_plug.2 (Or.inr (by simp [pathAddrs, Tree.addrs]))
    have hk3 : Rotated.ok s.sentinel (s.heap s.sentinel) ⟨q.ptr s.sentinel, true, s3⟩ :=
      Rotated.ok_lft (P := Frame.lft wa Color.BLACK wk wv wr :: p) ev03 hwf hcur
    refine ⟨s4, n4, wa :: la :: ts, (wa, Color.BLACK) :: (fa, Color.RED) :: ws4,
      ⟨q.ptr s.sentinel, true, s3⟩ :: rs4, ?_, ?_, ?_,
      not_mem_writes_cons (Or.inr rfl) (not_mem_writes_cons (Or.inl hfane) hws4), ?_, ?_⟩
    · simp only [delete_fixup_left_traced, hp0, andThen_some, hr0, hc0, if_true, e1, hp1, e2,
        hp2, e3, hp3, hr3]
      simp [e4t]
    · simp only [delete_fixup_left, hp0, andThen_some, hr0, hc0, if_true, e1, hp1, e2, hp2, e3,
        hp3, hr3]
      simpa using e4
    · intro x hx
      simp only [List.mem_cons] at hx
      rcases hx with rfl | rfl | hx
      · exact hwamem
      · exact hlamem
      · exact ev03.perm.mem_iff.1 (hts x hx)
    · intro r hr
      rcases List.mem_cons.1 hr with rfl | hr
      · exact hk3
      · exact Rotated.ok_of_evolves ev03 hwf (hrs4 r hr)
    · rcases h4 with ⟨h5, rfl, r1, rfl⟩ | ⟨h5, rfl⟩
      · exact Or.inr (Or.inr ⟨_, _, by simp [delCase, h5], ev03.trans ev4, _, _, _, _, rfl⟩)
      · exact Or.inr (Or.inl ⟨_, by simp [delCase, h5], ev03.trans ev4, rfl⟩)
  · obtain ⟨s4, n4, t4, ts, ws4, rs4, e4t, e4, hts, hws4, hrs4, ev4, h4⟩ :=
      delete_fixup_left_rest_traced_spec hwf hcur
    refine ⟨s4, n4, wa :: ts, ws4, rs4, ?_, ?_, ?_, hws4, hrs4, ?_⟩
    · simp only [delete_fixup_left_traced, hp0, andThen_some, hr0, hc0, hwc, if_false]
      simp [e4t]
    · simp only [delete_fixup_left, hp0, andThen_some, hr0, hc0, hwc, if_false]
      simpa using e4
    · intro x hx
      simp only [List.mem_cons] at hx
      rcases hx with rfl | hx
      · exact hwamem
      · exact hts x hx
    · rcases h4 with ⟨h5, rfl, r1, rfl⟩ | ⟨h5, rfl⟩
      · exact Or.inl ⟨_, by simp [delCase, hwc, h5], ev4, _, _, _, _, _, rfl⟩
      · exact Or.inr (Or.inl ⟨_, by simp [delCase, hwc, h5], ev4, rfl⟩)

/-- The body of the loop of `delete_fixup` for a right child with its record: every
value of the sibling `temp` is a node of the tree, and no colour write stores RED at the
sentinel. -/
theorem delete_fixup_right_traced_spec {s : RBT K V} {p : List (Frame K V)} {q w : Tree K V}
    {fa : Nat} {fc : Color} {fk : K} {fv : V}
    (hwf : WF s (plug (Frame.rgt fa fc w fk fv :: p) q))
    (hcur : q = Tree.nil → s.parent s.sentinel = some fa) (hw : 0 < w.bh) (hwb : w.balanced) :
    ∃ s1 n1 ts ws rs, delete_fixup_right_traced s (q.ptr s.sentinel) =
        some (s1, n1, ts, ws, rs) ∧
      delete_fixup_right s (q.ptr s.sentinel) = some (s1, n1) ∧
      (∀ x ∈ ts, x ∈ (plug (Frame.rgt fa fc w fk fv :: p) q).addrs) ∧
      (s.sentinel, Color.RED) ∉ ws ∧ (∀ r ∈ rs, r.ok s.sentinel (s.heap s.sentinel)) ∧
      ((∃ t1, delCase (Frame.rgt fa fc w fk fv) q = DelStep.up t1 ∧
          Evolves s (plug (Frame.rgt fa fc w fk fv :: p) q) s1 (plug p t1) ∧
          ∃ c1 l1 k1 v1 r1, t1 = Tree.node n1 c1 l1 k1 v1 r1) ∨
        (∃ t1, delCase (Frame.rgt fa fc w fk fv) q = DelStep.root t1 ∧
          Evolves s (plug (Frame.rgt fa fc w fk fv :: p) q) s1 (plug p t1) ∧ n1 = s1.root) ∨
        (∃ g t1, delCase (Frame.rgt fa fc w fk fv) q = DelStep.stop g t1 ∧
          Evolves s (plug (Frame.rgt fa fc w fk fv :: p) q) s1 (plug (g :: p) t1) ∧
          ∃ l1 k1 v1 r1, t1 = Tree.node n1 Color.RED l1 k1 v1 r1)) := by
  obtain ⟨wa, wc, wl, wk, wv, wr, rfl⟩ := bh_pos_node hw
  have hp0 := Evolves.cursor (a := fa) (Evolves.refl hwf) hwf rfl hcur
  have hl0 := left_of_heap (WF.heap_focus (p := p) (a := fa) hwf)
  have hc0 := color_of_heap (WF.heap_focus (p := Frame.lft fa fc fk fv q :: p) (a := wa) hwf)
  simp only [ptr_node] at hl0 hc0
  have hwamem : wa ∈ (plug (Frame.rgt fa fc (Tree.node wa wc wl wk wv wr) fk fv :: p) q).addrs :=
    mem_addrs_plug.2 (Or.inr (by simp [pathAddrs, Tree.addrs]))
  have hfane : fa ≠ s.sentinel := WF.ptr_ne_sentinel (p := p) (a := fa) hwf
  by_cases hwc : wc = Color.RED
  · -- case 5
    subst hwc
    simp only [Tree.bh, if_false, show ¬ Color.RED = Color.BLACK from by decide,
      Tree.balanced] at hw hwb
    obtain ⟨ra, rc, rl, rk, rv, rr, rfl⟩ := bh_pos_node (hwb.1 ▸ hw)
    obtain ⟨s1, e1, ev1⟩ := setColor_focus (p := Frame.lft fa fc fk fv q :: p) (a := wa) hwf
      Color.BLACK
    have hp1 := Evolves.cursor (a := fa) (f := Frame.rgt fa fc _ fk fv) (p := p) (q := q) ev1 hwf
      rfl hcur
    obtain ⟨s2, e2, ev2⟩ := setColor_focus (p := p) (a := fa) ev1.wf Color.RED
    have ev02 := ev1.trans ev2
    have hp2 := Evolves.cursor (a := fa) (f := Frame.rgt fa Color.RED _ fk fv) (p := p) (q := q)
      ev02 hwf rfl hcur
    obtain ⟨s3, e3, ev3⟩ := right_rotate_spec (p := p) (x := fa) (y := wa) ev2.wf
    have ev03 := ev02.trans ev3
    have hp3 := Evolves.cursor (a := fa) (f := Frame.rgt fa Color.RED _ fk fv)
      (p := Frame.rgt wa Color.BLACK wl wk wv :: p) (q := q) ev03 hwf rfl hcur
    have hl3 := left_of_heap (WF.heap_focus (p := Frame.rgt wa Color.BLACK wl wk wv :: p)
      (a := fa) ev3.wf)
    simp only [ptr_node] at hl3
    have hcur3 : q = Tree.nil → s3.parent s3.sentinel = some fa := by
      intro hq
      subst hq
      rw [ev03.sentinel]
      exact hp3
    obtain ⟨s4, n4, t4, ts, ws4, rs4, e4t, e4, hts, hws4, hrs4, ev4, h4⟩ :=
      @delete_fixup_right_rest_traced_spec _ _ _
      (Frame.rgt wa Color.BLACK wl wk wv :: p) q fa ra _ _ _ _ _ _ _ _ ev3.wf hcur3
    rw [ev03.sentinel] at e4 e4t hws4
    have hramem : ra ∈ (plug (Frame.rgt fa fc
        (Tree.node wa Color.RED wl wk wv (Tree.node ra rc rl rk rv rr)) fk fv :: p) q).addrs :=
      mem_addrs_plug.2 (Or.inr (by simp [pathAddrs, Tree.addrs]))
    have hk3 : Rotated.ok s.sentinel (s.heap s.sentinel) ⟨q.ptr s.sentinel, false, s3⟩ :=
      Rotated.ok_rgt (P := Frame.rgt wa Color.BLACK wl wk wv :: p) ev03 hwf hcur
    refine ⟨s4, n4, wa :: ra :: ts, (wa, Color.BLACK) :: (fa, Color.RED) :: ws4,
      ⟨q.ptr s.sentinel, false, s3⟩ :: rs4, ?_, ?_, ?_,
      not_mem_writes_cons (Or.inr rfl) (not_mem_writes_cons (Or.inl hfane) hws4), ?_, ?_⟩
    · simp only [delete_fixup_right_traced, hp0, andThen_some, hl0, hc0, if_true, e1, hp1, e2,
        hp2, e3, hp3, hl3]
      simp [e4t]
    · simp only [delete_fixup_right, hp0, andThen_some, hl0, hc0, if_true, e1, hp1, e2, hp2, e3,
        hp3, hl3]
      simpa using e4
    · intro x hx
      simp only [List.mem_cons] at hx
      rcases hx with rfl | rfl | hx
      · exact hwamem
      · exact hramem
      · exact ev03.perm.mem_iff.1 (hts x hx)
    · intro r hr
      rcases List.mem_cons.1 hr with rfl | hr
      · exact hk3
      · exact Rotated.ok_of_evolves ev03 hwf (hrs4 r hr)
    · rcases h4 with ⟨h5, rfl, r1, rfl⟩ | ⟨h5, rfl⟩
      · exact Or.inr (Or.inr ⟨_, _, by simp [delCase, h5], ev03.trans ev4, _, _, _, _, rfl⟩)
      · exact Or.inr (Or.inl ⟨_, by simp [delCase, h5], ev03.trans ev4, rfl⟩)
  · obtain ⟨s4, n4, t4, ts, ws4, rs4, e4t, e4, hts, hws4, hrs4, ev4, h4⟩ :=
      delete_fixup_right_rest_traced_spec hwf hcur
    refine ⟨s4, n4, wa :: ts, ws4, rs4, ?_, ?_, ?_, hws4, hrs4, ?_⟩
    · simp only [delete_fixup_right_traced, hp0, andThen_some, hl0, hc0, hwc, if_false]
      simp [e4t]
    · simp only [delete_fixup_right, hp0, andThen_some, hl0, hc0, hwc, if_false]
      simpa using e4
    · intro x hx
      simp only [List.mem_cons] at hx
      rcases hx with rfl | hx
      · exact hwamem
      · exact hts x hx
    · rcases h4 with ⟨h5, rfl, r1, rfl⟩ | ⟨h5, rfl⟩
      · exact Or.inl ⟨_, by simp [delCase, hwc, h5], ev4, _, _, _, _, _, rfl⟩
      · exact Or.inr (Or.inl ⟨_, by simp [delCase, hwc, h5], ev4, rfl⟩)

/-- The loop of `delete_fixup` is left at once at the root and at a RED node: no run of
the body is recorded, and the one colour write is that of `node->_c = BLACK`. -/
theorem delete_fixup_traced_exit {s s1 : RBT K V} {p : List (Frame K V)} {t : Tree K V}
    (hwf : WF s (plug p t)) (h : t.color = Color.RED ∨ t.ptr s.sentinel = s.root) (fuel : Nat)
    (e : delete_fixup (fuel + 1) s (t.ptr s.sentinel) = some s1) :
    delete_fixup_traced (fuel + 1) s (t.ptr s.sentinel) =
      some (s1, 0, [], false, [(t.ptr s.sentinel, Color.BLACK)], []) := by
  have hc := hwf.color_ptr
  by_cases hr : t.ptr s.sentinel = s.root
  · simp only [delete_fixup, hr, ne_eq, not_true, if_false, andThen_some] at e
    simp only [delete_fixup_traced, hr, ne_eq, not_true, if_false, andThen_some]
    have e2 : s.setColor s.root Color.BLACK = some s1 := by simpa using e
    simp [e2]
  · have hred : t.color = Color.RED := h.resolve_right hr
    simp only [delete_fixup, ne_eq, hr, not_false_eq_true, if_true, hc, andThen_some, hred] at e
    simp only [delete_fixup_traced, ne_eq, hr, not_false_eq_true, if_true, hc, andThen_some,
      hred]
    have e2 : s.setColor (t.ptr s.sentinel) Color.BLACK = some s1 := by simpa using e
    simp [e2]

/-- The record of `delete_fixup` started at the root of a subtree at the end of a path:
the result is that of `delete_fixup`, the body of the loop is run at most once for every
step of the path, every value of the sibling `temp` is a node of the tree,
`printf("here")` is not run, and no colour write stores RED at the sentinel. -/
theorem delete_fixup_traced_spec : ∀ (fuel : Nat) (p : List (Frame K V)) (s : RBT K V)
    (q : Tree K V),
    WF s (plug p q) → (q = Tree.nil → s.parent s.sentinel = some (parentOf s.sentinel p)) →
    ctxOK p (q.bh + 1) → q.balanced → (q.setColor Color.BLACK).noRedRed → p.length < fuel →
    ∃ s1 iters ts ws rs, delete_fixup_traced fuel s (q.ptr s.sentinel) =
        some (s1, iters, ts, false, ws, rs) ∧
      delete_fixup fuel s (q.ptr s.sentinel) = some s1 ∧ iters ≤ p.length ∧
      (∀ x ∈ ts, x ∈ (plug p q).addrs) ∧ (s.sentinel, Color.RED) ∉ ws ∧
      (∀ r ∈ rs, r.ok s.sentinel (s.heap s.sentinel)) ∧
      Evolves s (plug p q) s1 (delFix p q)
  | 0, _, _, _, _, _, _, _, _, hlen => absurd hlen (Nat.not_lt_zero _)
  | fuel + 1, [], s, q, hwf, _, _, _, _, _ => by
    obtain ⟨s1, e1, ev1⟩ := delete_fixup_exit (p := []) hwf (Or.inr hwf.root.symm) fuel
    exact ⟨s1, 0, [], _, [], delete_fixup_traced_exit (p := []) hwf (Or.inr hwf.root.symm) fuel
      e1, e1, Nat.le_refl _, by simp, not_mem_writes_cons (Or.inr rfl) (List.not_mem_nil _),
      by simp, by simpa [delFix] using ev1⟩
  | fuel + 1, f :: p, s, q, hwf, hcur, hctx, hqb, hqn, hlen => by
    by_cases hq : q.color = Color.RED
    · obtain ⟨s1, e1, ev1⟩ := delete_fixup_exit hwf (Or.inl hq) fuel
      exact ⟨s1, 0, [], _, [], delete_fixup_traced_exit hwf (Or.inl hq) fuel e1, e1,
        Nat.zero_le _, by simp, not_mem_writes_cons (Or.inr rfl) (List.not_mem_nil _),
        by simp, by simpa [delFix, hq] using ev1⟩
    · have hqc : q.color = Color.BLACK := Color.eq_black_of_ne_red hq
      have hqn1 : q.noRedRed := by rw [← setColor_of_color hqc]; exact hqn
      simp only [ctxOK] at hctx
      obtain ⟨h1, h2, h3, h4, h5⟩ := hctx
      have hv := delCase_valid (f := f) rfl hqb hqn1 h1 h2 h3 (fun hr => (h4 hr).1)
      have hne := hwf.ptr_ne_root
      have hc := hwf.color_ptr
      have hfuel : ∃ fuel1, fuel = fuel1 + 1 := by
        cases fuel with
        | zero => simp at hlen
        | succ m => exact ⟨m, rfl⟩
      have hpos : 0 < f.sib.bh := by omega
      have key : ∃ s1 n1 ts ws rs, delete_fixup (fuel + 1) s (q.ptr s.sentinel) =
            delete_fixup fuel s1 n1 ∧
          delete_fixup_traced (fuel + 1) s (q.ptr s.sentinel) =
            (delete_fixup_traced fuel s1 n1).andThen (fun x =>
              some (x.1, x.2.1 + 1, ts ++ x.2.2.1, x.2.2.2.1, ws ++ x.2.2.2.2.1,
                rs ++ x.2.2.2.2.2)) ∧
          (∀ x ∈ ts, x ∈ (plug (f :: p) q).addrs) ∧ (s.sentinel, Color.RED) ∉ ws ∧
          (∀ r ∈ rs, r.ok s.sentinel (s.heap s.sentinel)) ∧
          ((∃ t1, delCase f q = DelStep.up t1 ∧ Evolves s (plug (f :: p) q) s1 (plug p t1) ∧
              ∃ c1 l1 k1 v1 r1, t1 = Tree.node n1 c1 l1 k1 v1 r1) ∨
            (∃ t1, delCase f q = DelStep.root t1 ∧ Evolves s (plug (f :: p) q) s1 (plug p t1) ∧
              n1 = s1.root) ∨
            (∃ g t1, delCase f q = DelStep.stop g t1 ∧
              Evolves s (plug (f :: p) q) s1 (plug (g :: p) t1) ∧
              ∃ l1 k1 v1 r1, t1 = Tree.node n1 Color.RED l1 k1 v1 r1)) := by
        cases f with
        | lft fa fc fk fv w =>
          simp only [parentOf_cons, addr_lft] at hcur
          have hp0 := Evolves.cursor (a := fa) (Evolves.refl hwf) hwf rfl hcur
          have hl0 := left_of_heap (WF.heap_focus (p := p) (a := fa) hwf)
          obtain ⟨s1, n1, ts, ws, rs, et, e, hts, hws, hrs, hcase⟩ :=
            delete_fixup_left_traced_spec hwf hcur hpos
          refine ⟨s1, n1, ts, ws, rs, ?_, ?_, hts, hws, hrs, hcase⟩
          · simp only [delete_fixup, ne_eq, hne, not_false_eq_true, if_true, hc, andThen_some,
              hqc, decide_True, hp0, hl0, e]
          · simp only [delete_fixup_traced, ne_eq, hne, not_false_eq_true, if_true, hc,
              andThen_some, hqc, decide_True, hp0, hl0, et, Bool.false_or]
        | rgt fa fc w fk fv =>
          simp only [parentOf_cons, addr_rgt] at hcur
          have hp0 := Evolves.cursor (a := fa) (Evolves.refl hwf) hwf rfl hcur
          have hl0 := left_of_heap (WF.heap_focus (p := p) (a := fa) hwf)
          obtain ⟨wa, wc, wl, wk, wv, wr, rfl⟩ := bh_pos_node hpos
          have hnw : q.ptr s.sentinel ≠ wa := by
            have h := WF.ne_sib_ptr (p := p) (f := Frame.lft fa fc fk fv q) (a := wa) hwf
            exact fun e => h e.symm
          obtain ⟨s1, n1, ts, ws, rs, et, e, hts, hws, hrs, hcase⟩ :=
            delete_fixup_right_traced_spec hwf hcur hpos h2
          refine ⟨s1, n1, ts, ws, rs, ?_, ?_, hts, hws, hrs, hcase⟩
          · simp only [ptr_node] at hl0
            simp only [delete_fixup, ne_eq, hne, not_false_eq_true, if_true, hc, andThen_some,
              hqc, decide_True, hp0, hl0, hnw, if_false, e]
          · simp only [ptr_node] at hl0
            simp only [delete_fixup_traced, ne_eq, hne, not_false_eq_true, if_true, hc,
              andThen_some, hqc, decide_True, hp0, hl0, hnw, if_false, et, Bool.false_or]
      obtain ⟨s1, n1, ts, ws, rs, e, et, hts, hws, hrs, hcase⟩ := key
      rw [e, et]
      rcases hcase with ⟨t1, hd, ev, c1, l1, k1, v1, r1, rfl⟩ | ⟨t1, hd, ev, rfl⟩ |
        ⟨g, t1, hd, ev, l1, k1, v1, r1, rfl⟩
      · obtain ⟨d1, d2, d3, d4⟩ := hv.1 _ hd
        obtain ⟨s2, it2, ts2, ws2, rs2, e2t, e2, hit2, hts2, hws2, hrs2, ev2⟩ :=
          delete_fixup_traced_spec fuel p s1 _
          ev.wf (fun h => by cases h)
          (by rw [d2]; exact h5) d3 d4 (by simp only [List.length_cons] at hlen; omega)
        rw [ptr_node] at e2 e2t
        rw [ev.sentinel] at hws2
        refine ⟨s2, it2 + 1, ts ++ ts2, ws ++ ws2, rs ++ rs2, ?_, e2, ?_, ?_, ?_, ?_,
          ev.trans ?_⟩
        · rw [e2t]; rfl
        · simp only [List.length_cons]; omega
        · intro x hx
          rcases List.mem_append.1 hx with h | h
          · exact hts x h
          · exact ev.perm.mem_iff.1 (hts2 x h)
        · simp only [List.mem_append, not_or]
          exact ⟨hws, hws2⟩
        · intro r hr
          rcases List.mem_append.1 hr with h | h
          · exact hrs r h
          · exact Rotated.ok_of_evolves ev hwf (hrs2 r h)
        · simpa [delFix, hq, hd] using ev2
      · obtain ⟨fuel1, rfl⟩ := hfuel
        obtain ⟨s2, e2, ev2⟩ := delete_fixup_exit (p := []) ev.wf (Or.inr ev.wf.root.symm) fuel1
        have e2t := delete_fixup_traced_exit (p := []) ev.wf (Or.inr ev.wf.root.symm) fuel1 e2
        rw [← ev.wf.root] at e2 e2t
        refine ⟨s2, 1, ts ++ [], ws ++ [(s1.root, Color.BLACK)], rs ++ [], ?_, e2, ?_, ?_, ?_, ?_,
          ev.trans ?_⟩
        · rw [e2t]; rfl
        · simp only [List.length_cons]; omega
        · intro x hx
          rw [List.append_nil] at hx
          exact hts x hx
        · simp only [List.mem_append, not_or]
          exact ⟨hws, not_mem_writes_cons (Or.inr rfl) (List.not_mem_nil _)⟩
        · intro r hr
          rw [List.append_nil] at hr
          exact hrs r hr
        · simpa [delFix, hq, hd] using ev2
      · obtain ⟨fuel1, rfl⟩ := hfuel
        obtain ⟨s2, e2, ev2⟩ := delete_fixup_exit (p := g :: p) ev.wf (Or.inl rfl) fuel1
        have e2t := delete_fixup_traced_exit (p := g :: p) ev.wf (Or.inl rfl) fuel1 e2
        rw [ptr_node] at e2 e2t
        refine ⟨s2, 1, ts ++ [], ws ++ [(n1, Color.BLACK)], rs ++ [], ?_, e2, ?_, ?_, ?_, ?_,
          ev.trans ?_⟩
        · rw [e2t]; rfl
        · simp only [List.length_cons]; omega
        · intro x hx
          rw [List.append_nil] at hx
          exact hts x hx
        · simp only [List.mem_append, not_or]
          exact ⟨hws, not_mem_writes_cons (Or.inr rfl) (List.not_mem_nil _)⟩
        · intro r hr
          rw [List.append_nil] at hr
          exact hrs r hr
        · simpa [delFix, hq, hd] using ev2



/-! ### Keys and values stay at their addresses -/

theorem cells_setColor (c : Color) (t : Tree K V) : (t.setColor c).cells = t.cells := by
  cases t <;> rfl

theorem cells_plug_congr : ∀ (p : List (Frame K V)) {t t1 : Tree K V},
    t1.cells = t.cells → (plug p t1).cells = (plug p t).cells
  | [], _, _, h => h
  | Frame.lft a c k v r :: p, t, t1, h =>
    cells_plug_congr p (by simp only [fill_lft, Tree.cells, h])
  | Frame.rgt a c l k v :: p, t, t1, h =>
    cells_plug_congr p (by simp only [fill_rgt, Tree.cells, h])

theorem mem_cells_addrs : ∀ (t : Tree K V) (n : Nat × K × V), n ∈ t.cells → n.1 ∈ t.addrs
  | Tree.nil, n, hn => by cases hn
  | Tree.node x c l k v r, n, hn => by
    simp only [Tree.cells, List.mem_cons, List.mem_append] at hn
    simp only [Tree.addrs, List.mem_cons, List.mem_append]
    rcases hn with hn | rfl | hn
    · exact Or.inr (Or.inl (mem_cells_addrs l n hn))
    · exact Or.inl rfl
    · exact Or.inr (Or.inr (mem_cells_addrs r n hn))

/-- Every node of a tree lies in the store with its key and value. -/
theorem Rep.cell {h : Nat → Option (Node K V)} {sent : Nat} :
    ∀ {t : Tree K V} {par : Nat}, Rep h sent par t →
      ∀ n ∈ t.cells, (h n.1).map Node.k = some n.2.1 ∧ (h n.1).map Node.v = some n.2.2
  | Tree.nil, _, _, n, hn => by cases hn
  | Tree.node x c l k v r, par, hr, n, hn => by
    simp only [Tree.cells, List.mem_cons, List.mem_append] at hn
    rcases hn with hn | rfl | hn
    · exact Rep.cell hr.2.1 n hn
    · simp [hr.1]
    · exact Rep.cell hr.2.2 n hn

theorem delCaseL_cells (fa : Nat) (fc : Color) (fk : K) (fv : V) (q w : Tree K V) :
    (∀ t1, delCaseL fa fc fk fv q w = Sum.inl t1 →
        t1.cells = (Tree.node fa fc q fk fv w).cells) ∧
      (∀ t1, delCaseL fa fc fk fv q w = Sum.inr t1 →
        t1.cells = (Tree.node fa fc q fk fv w).cells) := by
  cases w with
  | nil => simp [delCaseL]
  | node wa wc wl wk wv wr =>
    by_cases hbb : wl.color = Color.BLACK ∧ wr.color = Color.BLACK
    · simp [delCaseL, hbb, Tree.cells]
    · by_cases hwr : wr.color = Color.BLACK
      · have hwl : ¬ wl.color = Color.BLACK := fun h => hbb ⟨h, hwr⟩
        cases wl with
        | nil => exact absurd rfl hwl
        | node la lc ll lk lv lr =>
          simp only [color_node] at hwl
          simp [delCaseL, hwr, hwl, Tree.cells]
      · simp [delCaseL, hwr, Tree.cells, cells_setColor]

theorem delCaseR_cells (fa : Nat) (fc : Color) (fk : K) (fv : V) (q w : Tree K V) :
    (∀ t1, delCaseR fa fc fk fv q w = Sum.inl t1 →
        t1.cells = (Tree.node fa fc w fk fv q).cells) ∧
      (∀ t1, delCaseR fa fc fk fv q w = Sum.inr t1 →
        t1.cells = (Tree.node fa fc w fk fv q).cells) := by
  cases w with
  | nil => simp [delCaseR]
  | node wa wc wl wk wv wr =>
    by_cases hbb : wl.color = Color.BLACK ∧ wr.color = Color.BLACK
    · simp [delCaseR, hbb, Tree.cells]
    · by_cases hwl : wl.color = Color.BLACK
      · have hwr : ¬ wr.color = Color.BLACK := fun h => hbb ⟨hwl, h⟩
        cases wr with
        | nil => exact absurd rfl hwr
        | node ra rc rl rk rv rr =>
          simp only [color_node] at hwr
          simp [delCaseR, hwl, hwr, Tree.cells]
      · simp [delCaseR, hwl, Tree.cells, cells_setColor]

/-- One run of the body of the loop of `delete_fixup` keeps the addresses, keys and
values of the in-order sequence. -/
theorem delCase_cells (f : Frame K V) (q : Tree K V) :
    (∀ t1, delCase f q = DelStep.up t1 → t1.cells = (f.fill q).cells) ∧
      (∀ t1, delCase f q = DelStep.root t1 → t1.cells = (f.fill q).cells) ∧
      (∀ g t1, delCase f q = DelStep.stop g t1 →
        (g.fill (t1.setColor Color.BLACK)).cells = (f.fill q).cells) := by
  cases f with
  | lft fa fc fk fv w =>
    by_cases hw : w.color = Color.RED
    · obtain ⟨wa, wl, wk, wv, wr, rfl⟩ := color_red_node hw
      have h := delCaseL_cells fa Color.RED fk fv q wl
      cases hd : delCaseL fa Color.RED fk fv q wl with
      | inl t2 =>
        have := h.1 t2 hd
        simp [delCase, hd, Tree.cells, cells_setColor, this]
      | inr t2 =>
        have := h.2 t2 hd
        simp [delCase, hd, Tree.cells, this]
    · have h := delCaseL_cells fa fc fk fv q w
      cases hd : delCaseL fa fc fk fv q w with
      | inl t2 =>
        have := h.1 t2 hd
        simp [delCase, hd, hw, this]
      | inr t2 =>
        have := h.2 t2 hd
        simp [delCase, hd, hw, this]
  | rgt fa fc w fk fv =>
    by_cases hw : w.color = Color.RED
    · obtain ⟨wa, wl, wk, wv, wr, rfl⟩ := color_red_node hw
      have h := delCaseR_cells fa Color.RED fk fv q wr
      cases hd : delCaseR fa Color.RED fk fv q wr with
      | inl t2 =>
        have := h.1 t2 hd
        simp [delCase, hd, Tree.cells, cells_setColor, this]
      | inr t2 =>
        have := h.2 t2 hd
        simp [delCase, hd, Tree.cells, this]
    · have h := delCaseR_cells fa fc fk fv q w
      cases hd : delCaseR fa fc fk fv q w with
      | inl t2 =>
        have := h.1 t2 hd
        simp [delCase, hd, hw, this]
      | inr t2 =>
        have := h.2 t2 hd
        simp [delCase, hd, hw, this]

/-- `delete_fixup` keeps the addresses, keys and values of the in-order sequence. -/
theorem delFix_cells : ∀ (p : List (Frame K V)) (q : Tree K V),
    (delFix p q).cells = (plug p q).cells
  | [], q => by simp [delFix, cells_setColor]
  | f :: p, q => by
    by_cases hq : q.color = Color.RED
    · simp only [delFix, hq, if_true]
      exact cells_plug_congr (f :: p) (cells_setColor _ _)
    · have h := delCase_cells f q
      cases hd : delCase f q with
      | up t1 =>
        simp only [delFix, hq, if_false, hd, plug_cons]
        rw [delFix_cells p t1]
        exact cells_plug_congr p (h.1 t1 hd)
      | root t1 =>
        simp only [delFix, hq, if_false, hd, plug_cons, cells_setColor]
        exact cells_plug_congr p (h.2.1 t1 hd)
      | stop g t1 =>
        simp only [delFix, hq, if_false, hd, plug_cons]
        exact cells_plug_congr p (h.2.2 g t1 hd)

/-! ### The first part of `inner_delete` -/

/-- The splice of `inner_delete` changes no field of the sentinel but its parent link,
and not even that when the child `q` is a node. -/
theorem splice_butParent {s s1 s2 : RBT K V} {a q par : Nat}
    (e1 : s.setParent q par = some s1)
    (e2 : (if par = s.sentinel then some (s1.setRoot q)
        else (s1.left par).andThen fun npl =>
          if a = npl then s1.setLeft par q else s1.setRight par q) = some s2) :
    (s2.heap s.sentinel).map Node.butParent = (s.heap s.sentinel).map Node.butParent := by
  have h1 : (s1.heap s.sentinel).map Node.butParent =
      (s.heap s.sentinel).map Node.butParent := by
    simp only [RBT.setParent] at e1
    cases hq : s.heap q with
    | none => simp [hq] at e1
    | some n =>
      simp only [hq, Option.map_some', Option.some.injEq] at e1
      subst e1
      by_cases hz : s.sentinel = q
      · subst hz
        simp [hq, Node.butParent]
      · simp [hz]
  have h2 : s2.heap s.sentinel = s1.heap s.sentinel := by
    by_cases hp : par = s.sentinel
    · rw [if_pos hp] at e2
      cases e2
      rfl
    · rw [if_neg hp] at e2
      obtain ⟨npl, -, e3⟩ := andThen_eq_some.1 e2
      have hne : s.sentinel ≠ par := fun e => hp e.symm
      split at e3
      · simp only [RBT.setLeft] at e3
        cases hx : s1.heap par with
        | none => simp [hx] at e3
        | some n =>
          simp only [hx, Option.map_some', Option.some.injEq] at e3
          subst e3
          simp [hne]
      · simp only [RBT.setRight] at e3
        cases hx : s1.heap par with
        | none => simp [hx] at e3
        | some n =>
          simp only [hx, Option.map_some', Option.some.injEq] at e3
          subst e3
          simp [hne]
  rw [h2, h1]

/-- The first part of `inner_delete` for a node with at most one child: the node itself
is spliced out. -/
theorem inner_delete_splice_one {s : RBT K V} {p : List (Frame K V)} {a : Nat} {c : Color}
    {l r q : Tree K V} {k : K} {v : V} (hwf : WF s (plug p (Tree.node a c l k v r)))
    (hq : (l = Tree.nil ∧ q = r) ∨ (r = Tree.nil ∧ q = l)) :
    ∃ s1, inner_delete_splice s a = some (s1, a, q.ptr s.sentinel) ∧
      Spliced s (plug p (Tree.node a c l k v r)) s1 a
        ⟨k, v, c, l.ptr s.sentinel, r.ptr s.sentinel, parentOf s.sentinel p⟩ p q := by
  have hh := hwf.heap_focus
  have hl := left_of_heap hh
  have hr := right_of_heap hh
  have hp := parent_of_heap hh
  simp only at hl hr hp
  have hone : (if l.ptr s.sentinel = s.sentinel then some true
      else (s.right a).andThen fun nr => some (decide (nr = s.sentinel))) = some true := by
    rcases hq with ⟨rfl, -⟩ | ⟨rfl, -⟩
    · simp
    · by_cases h : l.ptr s.sentinel = s.sentinel <;> simp [h, hr]
  have hqq : (if l.ptr s.sentinel ≠ s.sentinel then some (l.ptr s.sentinel) else s.right a)
      = some (q.ptr s.sentinel) := by
    rcases hq with ⟨rfl, rfl⟩ | ⟨rfl, rfl⟩
    · simp [hr]
    · by_cases h : q.ptr s.sentinel = s.sentinel
      · simp [h, hr]
      · simp [h]
  obtain ⟨s1, s2, e1, hs1, hp1, e2, wf2, hs2, hz2, hn2, ha2, fr2, cur2⟩ := splice_spec hwf hq
  obtain ⟨-, -, hnd, hst, hsp⟩ := hwf.unplug
  have hmt : a ∉ (plug p q).addrs := by
    rw [mem_addrs_plug]
    simp only [Tree.addrs, List.cons_append, List.nodup_cons, List.mem_append, not_or] at hnd
    rcases hq with ⟨-, rfl⟩ | ⟨-, rfl⟩
    · exact fun h => h.elim hnd.1.1.2 hnd.1.2
    · exact fun h => h.elim hnd.1.1.1 hnd.1.2
  have has : a ≠ s.sentinel := hwf.ptr_ne_sentinel
  refine ⟨s2, ?_, ⟨wf2, hs2, hz2, hn2, hh, ha2.trans hh, hmt, has,
    mem_addrs_plug.2 (Or.inl (by simp [Tree.addrs])), ?_, by rw [hs2]; exact cur2, fr2,
    splice_butParent e1 e2⟩⟩
  · simp only [inner_delete_splice, hl, andThen_some, hone, if_true, hqq, hp, e1, hp1, hs1, e2]
    simp
  · intro x h
    rw [mem_addrs_plug] at h ⊢
    rcases h with h | h
    · left
      rcases hq with ⟨-, rfl⟩ | ⟨-, rfl⟩ <;> simp [Tree.addrs, h]
    · exact Or.inr h

theorem mem_cells_plug : ∀ (p : List (Frame K V)) (t : Tree K V) (x : Nat × K × V),
    x ∈ t.cells → x ∈ (plug p t).cells
  | [], _, _, h => h
  | Frame.lft a c k v r :: p, t, x, h =>
    mem_cells_plug p _ x (by simp [Tree.cells, h])
  | Frame.rgt a c l k v :: p, t, x, h =>
    mem_cells_plug p _ x (by simp [Tree.cells, h])

/-- The first part of `inner_delete` for a node with two children: the successor `m`,
the leftmost node of the right subtree, is spliced out and its key and value go into the
node. -/
theorem inner_delete_splice_two {s : RBT K V} {p pm : List (Frame K V)} {a ma : Nat}
    {c mc : Color} {l r mr : Tree K V} {k mk : K} {v mv : V}
    (hwf : WF s (plug p (Tree.node a c l k v r))) (hl : l ≠ Tree.nil) (hr : r ≠ Tree.nil)
    (hm : leftmost [] r = (pm, Tree.node ma mc Tree.nil mk mv mr))
    (hplug : plug pm (Tree.node ma mc Tree.nil mk mv mr) = r) :
    ∃ s1, inner_delete_splice s a = some (s1, ma, mr.ptr s.sentinel) ∧
      Spliced s (plug p (Tree.node a c l k v r)) s1 ma
        ⟨mk, mv, mc, s.sentinel, mr.ptr s.sentinel,
          parentOf s.sentinel (pm ++ Frame.rgt a c l k v :: p)⟩
        (pm ++ Frame.rgt a c l mk mv :: p) mr ∧
      ma ≠ a ∧ (a, mk, mv) ∈ (plug (pm ++ Frame.rgt a c l mk mv :: p) mr).cells := by
  have hh := hwf.heap_focus
  have hl0 := left_of_heap hh
  have hr0 := right_of_heap hh
  simp only at hl0 hr0
  have hlne : l.ptr s.sentinel ≠ s.sentinel := by
    cases l with
    | nil => exact absurd rfl hl
    | node la lc ll lk lv lr => exact WF.ptr_ne_sentinel (p := Frame.lft a c k v r :: p) hwf
  have hrne : r.ptr s.sentinel ≠ s.sentinel := by
    cases r with
    | nil => exact absurd rfl hr
    | node ra rc rl rk rv rr => exact WF.ptr_ne_sentinel (p := Frame.rgt a c l k v :: p) hwf
  have htree : plug (pm ++ Frame.rgt a c l k v :: p) (Tree.node ma mc Tree.nil mk mv mr) =
      plug p (Tree.node a c l k v r) := by
    rw [plug_append, hplug]; rfl
  have hsucc : successor_down s.next s (r.ptr s.sentinel) = some ma := by
    have h := successor_down_spec s.next r (Frame.rgt a c l k v :: p) hwf hr (by
      have h1 := height_le_length_addrs r
      have h2 := hwf.length_addrs_lt
      have h3 := (addrs_plug (Frame.rgt a c l k v :: p) r).length_eq
      rw [plug_cons, fill_rgt] at h3
      simp only [List.length_append] at h3
      omega)
    rw [leftmost_append, hm] at h
    exact h
  have hwfm : WF s (plug (pm ++ Frame.rgt a c l k v :: p) (Tree.node ma mc Tree.nil mk mv mr)) := by
    rw [htree]; exact hwf
  have hhm := hwfm.heap_focus
  have hlm := left_of_heap hhm
  have hrm := right_of_heap hhm
  have hpm := parent_of_heap hhm
  simp only [ptr_nil] at hlm hrm hpm hhm
  obtain ⟨s1, s2, e1, hs1, hp1, e2, wf2, hs2, hz2, hn2, ha2, fr2, cur2⟩ :=
    splice_spec (q := mr) hwfm (Or.inl ⟨rfl, rfl⟩)
  obtain ⟨-, -, hnd, hst, hsp⟩ := hwfm.unplug
  have hmt : ma ∉ (plug (pm ++ Frame.rgt a c l k v :: p) mr).addrs := by
    rw [mem_addrs_plug]
    simp only [Tree.addrs, List.cons_append, List.nodup_cons, List.mem_append, not_or,
      List.nil_append] at hnd
    exact fun h => h.elim hnd.1.1 hnd.1.2
  have hma : ma ≠ a := by
    simp only [Tree.addrs, List.cons_append, List.nodup_cons, List.mem_append, not_or,
      List.nil_append] at hnd
    intro e
    apply hnd.1.2
    rw [e]
    clear * -
    induction pm with
    | nil => simp [pathAddrs]
    | cons f pm ih => simp [pathAddrs, ih]
  have hms : ma ≠ s.sentinel := hwfm.ptr_ne_sentinel
  have h2m : s2.heap ma = some ⟨mk, mv, mc, s.sentinel, mr.ptr s.sentinel,
      parentOf s.sentinel (pm ++ Frame.rgt a c l k v :: p)⟩ := ha2.trans hhm
  have e20 : plug (pm ++ Frame.rgt a c l k v :: p) mr =
      plug p (Tree.node a c l k v (plug pm mr)) := by
    rw [plug_append]; rfl
  have wf2a : WF s2 (plug p (Tree.node a c l k v (plug pm mr))) := by
    rw [← e20]; exact wf2
  obtain ⟨s3, e3, ev3⟩ := setKey_focus wf2a mk
  have h3m : s3.heap ma = s2.heap ma := ev3.frame ma (by rw [← e20]; exact hmt)
  obtain ⟨s4, e4, ev4⟩ := setVal_focus ev3.wf mv
  have ev24 := ev3.trans ev4
  have h4m : s4.heap ma = s2.heap ma := ev24.frame ma (by rw [← e20]; exact hmt)
  have e40 : plug (pm ++ Frame.rgt a c l mk mv :: p) mr =
      plug p (Tree.node a c l mk mv (plug pm mr)) := by
    rw [plug_append]; rfl
  have wf4 : WF s4 (plug (pm ++ Frame.rgt a c l mk mv :: p) mr) := by
    rw [e40]; exact ev4.wf
  have hs4 : s4.sentinel = s.sentinel := ev24.sentinel.trans hs2
  have hsub4 : ∀ x, x ∈ (plug (pm ++ Frame.rgt a c l mk mv :: p) mr).addrs →
      x ∈ (plug (pm ++ Frame.rgt a c l k v :: p) mr).addrs := by
    intro x h
    rw [e20]
    rw [e40] at h
    exact ev24.perm.mem_iff.1 h
  have hmt4 : ma ∉ (plug (pm ++ Frame.rgt a c l mk mv :: p) mr).addrs :=
    fun h => hmt (hsub4 _ h)
  have hcur4 : mr = Tree.nil → s4.parent s4.sentinel =
      some (parentOf s4.sentinel (pm ++ Frame.rgt a c l mk mv :: p)) := by
    intro hq
    have h := cur2 hq
    rw [hs4, parentOf_append_cons s.sentinel pm p (Frame.rgt a c l mk mv)
      (Frame.rgt a c l k v) rfl]
    simp only [RBT.parent] at h ⊢
    rw [ev24.frame _ (by rw [← e20, ← hs2]; exact wf2.sent_notin)]
    exact h
  have hsubT : ∀ x, x ∈ (plug (pm ++ Frame.rgt a c l mk mv :: p) mr).addrs →
      x ∈ (plug p (Tree.node a c l k v r)).addrs := by
    intro x h
    have h := hsub4 x h
    rw [← htree]
    rw [mem_addrs_plug] at h ⊢
    rcases h with h | h
    · exact Or.inl (by simp [Tree.addrs, h])
    · exact Or.inr h
  refine ⟨s4, ?_, ⟨wf4, hs4, ev24.size.trans hz2, ev24.next.trans hn2, hhm, h4m.trans h2m,
    hmt4, hms, ?_, hsubT, hcur4, ?_, ?_⟩, hma, ?_⟩
  · have hone : (if l.ptr s.sentinel = s.sentinel then some true
        else (s.right a).andThen fun nr => some (decide (nr = s.sentinel))) = some false := by
      simp [hlne, hr0, hrne]
    have hsuc : successor s a = some ma := by
      simp only [successor, hr0, andThen_some, ne_eq, hrne, not_false_eq_true, if_true, hsucc]
    have hk2 : s2.key ma = some mk := key_of_heap h2m
    have hv3 : s3.val ma = some mv := val_of_heap (h3m.trans h2m)
    simp only [inner_delete_splice, hl0, andThen_some, hone, hsuc, hlm, hrm, hpm, e1, hp1, hs1,
      e2]
    simp only [Bool.false_eq_true, if_false, andThen_some, ne_eq, not_true_eq_false, hlm, hrm,
      hpm, e1, hp1, hs1, e2, hma, not_false_eq_true, if_true, hk2, e3, hv3, e4]
  · rw [← htree]
    exact mem_addrs_plug.2 (Or.inl (by simp [Tree.addrs]))
  · intro x hx hxs
    have hx2 : x ∉ (plug (pm ++ Frame.rgt a c l k v :: p) mr).addrs := by
      intro h
      apply hx
      rw [← htree]
      rw [mem_addrs_plug] at h ⊢
      rcases h with h | h
      · exact Or.inl (by simp [Tree.addrs, h])
      · exact Or.inr h
    rw [ev24.frame x (by rw [← e20]; exact hx2), fr2 x (by rw [htree]; exact hx) hxs]
  · rw [ev24.frame _ (by rw [← e20, ← hs2]; exact wf2.sent_notin)]
    exact splice_butParent e1 e2
  · rw [e40]
    exact mem_cells_plug p _ _ (by simp [Tree.cells])

/-- The second part of `inner_delete`, after the splice: `delete_fixup` runs from the
child `q` when the spliced node was BLACK, with the record of `delete_fixup_traced_spec`
and from a cursor whose depth is the length of the path, and the spliced node is
freed. -/
theorem inner_delete_finish_full {s s1 : RBT K V} {t : Tree K V} {p : List (Frame K V)}
    {q : Tree K V} {m : Nat} {n : Node K V} (hsp : Spliced s t s1 m n p q)
    (hv : n.c = Color.BLACK → ctxOK p (q.bh + 1) ∧ q.balanced ∧
      (q.setColor Color.BLACK).noRedRed) :
    ∃ sF, ((s1.color m).andThen fun pc =>
        (if pc = Color.BLACK then delete_fixup s1.next s1 (q.ptr s.sentinel)
          else some s1).andThen fun s2 => s2.free m) = some sF ∧
      WF sF (if n.c = Color.BLACK then delFix p q else plug p q) ∧
      sF.sentinel = s.sentinel ∧ sF.size = s.size ∧ sF.next = s.next ∧ sF.heap m = none ∧
      (∀ x, x ∉ t.addrs → x ≠ s.sentinel → sF.heap x = s.heap x) ∧
      (sF.heap s.sentinel).map Node.butParent = (s.heap s.sentinel).map Node.butParent ∧
      s1.color m = some n.c ∧
      (n.c = Color.BLACK → ∃ s2 iters ts ws rs,
        delete_fixup_traced s1.next s1 (q.ptr s.sentinel) =
          some (s2, iters, ts, false, ws, rs) ∧
        delete_fixup s1.next s1 (q.ptr s.sentinel) = some s2 ∧
        depth s1.next s1 (q.ptr s.sentinel) = some p.length ∧ iters ≤ p.length ∧
        (∀ x ∈ ts, x ∈ (plug p q).addrs) ∧ (s.sentinel, Color.RED) ∉ ws ∧
        ∀ r ∈ rs, r.ok s.sentinel (s1.heap s.sentinel)) := by
  have hc := color_of_heap hsp.new
  have hlen : p.length < s1.next := by have := hsp.wf.path_length_lt; omega
  have hms : m ≠ s1.sentinel := by rw [hsp.sentinel]; exact hsp.ne_sent
  have hsn : s.sentinel ∉ (plug p q).addrs := by rw [← hsp.sentinel]; exact hsp.wf.sent_notin
  by_cases hb : n.c = Color.BLACK
  · obtain ⟨h1, h2, h3⟩ := hv hb
    obtain ⟨s2, iters, ts, ws, rs, e1t, e1, hit, hts, hws, hrs, ev1⟩ :=
      delete_fixup_traced_spec s1.next p s1 q hsp.wf hsp.cur h1 h2 h3 hlen
    have hd := depth_spec p q s1.next hsp.wf (fun h _ => hsp.cur h) hlen
    rw [hsp.sentinel] at e1 e1t hd hws hrs
    have hm1 : s2.heap m = some n := (ev1.frame m hsp.notin).trans hsp.new
    obtain ⟨s3, e2, wf2, a2, b2, c2, -, fr, f2⟩ := free_spec ev1.wf hm1
      (fun h => hsp.notin (ev1.perm.mem_iff.1 h)) (by rw [ev1.sentinel]; exact hms)
    refine ⟨s3, ?_, by simpa [hb] using wf2, (a2.trans ev1.sentinel).trans hsp.sentinel,
      (b2.trans ev1.size).trans hsp.size, (c2.trans ev1.next).trans hsp.next, fr, ?_, ?_, hc,
      fun _ => ⟨s2, iters, ts, ws, rs, e1t, e1, hd, hit, hts, hws, hrs⟩⟩
    · simp only [hc, andThen_some, hb, if_true, e1, e2]
    · intro x hx hxs
      have hxm : x ≠ m := fun e => hx (e ▸ hsp.mem)
      rw [f2 x hxm, ev1.frame x (fun h => hx (hsp.sub x h)), hsp.frame x hx hxs]
    · rw [f2 _ (Ne.symm hsp.ne_sent), ev1.frame _ hsn]
      exact hsp.sent
  · obtain ⟨s3, e2, wf2, a2, b2, c2, -, fr, f2⟩ := free_spec hsp.wf hsp.new hsp.notin hms
    refine ⟨s3, ?_, by simpa [hb] using wf2, a2.trans hsp.sentinel, b2.trans hsp.size,
      c2.trans hsp.next, fr, ?_, ?_, hc, fun h => absurd h hb⟩
    · simp only [hc, andThen_some, hb, if_false, e2]
    · intro x hx hxs
      have hxm : x ≠ m := fun e => hx (e ▸ hsp.mem)
      rw [f2 x hxm, hsp.frame x hx hxs]
    · rw [f2 _ (Ne.symm hsp.ne_sent)]
      exact hsp.sent

/-- `inner_delete` called with the node at the end of a path in a valid tree, in full:
the splice, the run of `delete_fixup` with its record, and the state at the end, in
which the spliced node is freed, the tree is `delAt` and no field of the sentinel but its
parent link has changed. -/
theorem inner_delete_full {s : RBT K V} {p : List (Frame K V)} {a : Nat} {c : Color}
    {l r : Tree K V} {k : K} {v : V} (hwf : WF s (plug p (Tree.node a c l k v r)))
    (hb : (plug p (Tree.node a c l k v r)).balanced)
    (hn : (plug p (Tree.node a c l k v r)).noRedRed) :
    ∃ s1 m n P q sF,
      inner_delete_splice s a = some (s1, m, q.ptr s.sentinel) ∧
      Spliced s (plug p (Tree.node a c l k v r)) s1 m n P q ∧
      inner_delete s a = some sF ∧ WF sF (delAt p (Tree.node a c l k v r)) ∧
      sF.sentinel = s.sentinel ∧ sF.size = s.size ∧ sF.next = s.next ∧ sF.heap m = none ∧
      (∀ x, x ∉ (plug p (Tree.node a c l k v r)).addrs → x ≠ s.sentinel →
        sF.heap x = s.heap x) ∧
      (sF.heap s.sentinel).map Node.butParent = (s.heap s.sentinel).map Node.butParent ∧
      s1.color m = some n.c ∧
      (n.c = Color.BLACK → ∃ s2 iters ts ws rs,
        delete_fixup_traced s1.next s1 (q.ptr s.sentinel) =
          some (s2, iters, ts, false, ws, rs) ∧
        delete_fixup s1.next s1 (q.ptr s.sentinel) = some s2 ∧
        depth s1.next s1 (q.ptr s.sentinel) = some P.length ∧ iters ≤ P.length ∧
        (∀ x ∈ ts, x ∈ (plug P q).addrs) ∧ (s.sentinel, Color.RED) ∉ ws ∧
        ∀ r ∈ rs, r.ok s.sentinel (s1.heap s.sentinel)) ∧
      (l = Tree.nil ∨ r = Tree.nil → m = a) ∧
      (l ≠ Tree.nil → r ≠ Tree.nil → m ≠ a ∧ successor s a = some m ∧
        (a, n.k, n.v) ∈ (delAt p (Tree.node a c l k v r)).cells) := by
  have one : ∀ q, (l = Tree.nil ∧ q = r) ∨ (r = Tree.nil ∧ q = l) →
      delAt p (Tree.node a c l k v r) = (if c = Color.BLACK then delFix p q else plug p q) →
      ∃ s1 m n P q sF,
      inner_delete_splice s a = some (s1, m, q.ptr s.sentinel) ∧
      Spliced s (plug p (Tree.node a c l k v r)) s1 m n P q ∧
      inner_delete s a = some sF ∧ WF sF (delAt p (Tree.node a c l k v r)) ∧
      sF.sentinel = s.sentinel ∧ sF.size = s.size ∧ sF.next = s.next ∧ sF.heap m = none ∧
      (∀ x, x ∉ (plug p (Tree.node a c l k v r)).addrs → x ≠ s.sentinel →
        sF.heap x = s.heap x) ∧
      (sF.heap s.sentinel).map Node.butParent = (s.heap s.sentinel).map Node.butParent ∧
      s1.color m = some n.c ∧
      (n.c = Color.BLACK → ∃ s2 iters ts ws rs,
        delete_fixup_traced s1.next s1 (q.ptr s.sentinel) =
          some (s2, iters, ts, false, ws, rs) ∧
        delete_fixup s1.next s1 (q.ptr s.sentinel) = some s2 ∧
        depth s1.next s1 (q.ptr s.sentinel) = some P.length ∧ iters ≤ P.length ∧
        (∀ x ∈ ts, x ∈ (plug P q).addrs) ∧ (s.sentinel, Color.RED) ∉ ws ∧
        ∀ r ∈ rs, r.ok s.sentinel (s1.heap s.sentinel)) ∧
      (l = Tree.nil ∨ r = Tree.nil → m = a) ∧
      (l ≠ Tree.nil → r ≠ Tree.nil → m ≠ a ∧ successor s a = some m ∧
        (a, n.k, n.v) ∈ (delAt p (Tree.node a c l k v r)).cells) := by
    intro q hq hdel
    obtain ⟨s1, e, hsp⟩ := inner_delete_splice_one hwf hq
    obtain ⟨sF, eF, wfF, h1, h2, h3, h4, h5, h6, h7, h8⟩ := inner_delete_finish_full hsp (by
      intro hc
      simp only at hc
      subst hc
      exact splice_ctx p a l r q k v hq hb hn)
    refine ⟨s1, a, _, p, q, sF, e, hsp, ?_, by rw [hdel]; exact wfF, h1, h2, h3, h4, h5, h6,
      h7, h8, fun _ => rfl, ?_⟩
    · rw [inner_delete_eq, e]
      exact eF
    · intro hl hr
      rcases hq with ⟨h, -⟩ | ⟨h, -⟩
      · exact absurd h hl
      · exact absurd h hr
  cases l with
  | nil => exact one r (Or.inl ⟨rfl, rfl⟩) (by simp [delAt])
  | node la lc ll lk lv lr =>
    cases r with
    | nil => exact one _ (Or.inr ⟨rfl, rfl⟩) (by simp [delAt])
    | node ra rc rl rk rv rr =>
      obtain ⟨pm, ma, mc, mk, mv, mr, hm, hplug, -⟩ :=
        leftmost_spec (Tree.node ra rc rl rk rv rr) (by simp)
      obtain ⟨s1, e, hsp, hma, hcell⟩ := inner_delete_splice_two hwf (by simp) (by simp) hm hplug
      have hv : mc = Color.BLACK → ctxOK (pm ++ Frame.rgt a c (Tree.node la lc ll lk lv lr)
          mk mv :: p) (mr.bh + 1) ∧ mr.balanced ∧ (mr.setColor Color.BLACK).noRedRed := by
        intro hc
        subst hc
        have hv1 := valid_setKV p a c (Tree.node la lc ll lk lv lr)
          (Tree.node ra rc rl rk rv rr) k mk v mv hb hn
        rw [← hplug] at hv1
        have e : plug p (Tree.node a c (Tree.node la lc ll lk lv lr) mk mv
            (plug pm (Tree.node ma Color.BLACK Tree.nil mk mv mr)))
            = plug (pm ++ Frame.rgt a c (Tree.node la lc ll lk lv lr) mk mv :: p)
              (Tree.node ma Color.BLACK Tree.nil mk mv mr) := by
          rw [plug_append]; rfl
        rw [e] at hv1
        exact splice_ctx _ ma Tree.nil mr mr mk mv (Or.inl ⟨rfl, rfl⟩) hv1.1 hv1.2
      obtain ⟨sF, eF, wfF, h1, h2, h3, h4, h5, h6, h7, h8⟩ := inner_delete_finish_full hsp hv
      have hdel : delAt p (Tree.node a c (Tree.node la lc ll lk lv lr) k v
          (Tree.node ra rc rl rk rv rr)) =
          (if mc = Color.BLACK then
            delFix (pm ++ Frame.rgt a c (Tree.node la lc ll lk lv lr) mk mv :: p) mr
          else plug (pm ++ Frame.rgt a c (Tree.node la lc ll lk lv lr) mk mv :: p) mr) := by
        simp only [delAt, hm]
      obtain ⟨b, hb1, -, hb3⟩ := successor_spec hwf
      have hbm : b = ma := by
        have := (hb3 (by simp)).1
        rw [hm] at this
        exact this
      subst hbm
      refine ⟨s1, b, _, _, mr, sF, e, hsp, ?_, by rw [hdel]; exact wfF, h1, h2, h3, h4, h5,
        h6, h7, h8, fun h => ?_, fun _ _ => ⟨hma, hb1, ?_⟩⟩
      · rw [inner_delete_eq, e]
        exact eF
      · rcases h with h | h <;> cases h
      · rw [hdel]
        by_cases hc : mc = Color.BLACK
        · rw [if_pos hc, delFix_cells]
          exact hcell
        · rw [if_neg hc]
          exact hcell

/-- `tree_delete` of a key that is stored, in full: the node found for the key is the
node of the key in the tree, and `inner_delete` is run from it. -/
theorem tree_delete_full {s : RBT Int V} {t : Tree Int V} (h : Inv s t) (k : Int) (w : V)
    (hk : t.toList.lookup k = some w) :
    ∃ p a c l r sF, plug p (Tree.node a c l k w r) = t ∧ inner_find less s k = some a ∧
      a ≠ s.sentinel ∧ inner_delete s a = some sF ∧
      tree_delete less s k =
        some (true, { sF with size := (sF.size + 2 ^ 32 - 1) % 2 ^ 32 }) := by
  obtain ⟨p, t1, hs, hp, -, hl, hr, hstop⟩ := search_sorted h.sorted k
  have hwf : WF s (plug p t1) := by rw [hp]; exact h.wf
  have hf := inner_find_spec less k h.wf
  rw [hs] at hf
  simp only at hf
  rcases hstop with rfl | ⟨a, c, l, v, r, rfl, hl2, hr2⟩
  · exfalso
    rw [← hp, toList_plug, lookup_eq_none_of_ne] at hk
    · cases hk
    · intro y hy
      simp only [Tree.toList, List.append_nil, List.mem_append] at hy
      rcases hy with hy | hy
      · exact ne_of_lt (hl y hy)
      · exact ne_of_gt (hr y hy)
  · have hvw : v = w := by
      rw [← hp, toList_plug] at hk
      simp only [Tree.toList, List.append_assoc] at hk
      rw [lookup_append_of_lt _ _ (fun y hy => ne_of_lt (hl y hy)),
        lookup_append_of_lt _ _ (fun y hy => ne_of_lt (hl2 y hy))] at hk
      simpa [List.lookup_cons] using hk
    subst hvw
    have hh := hwf.heap_focus
    have hne := hwf.ptr_ne_sentinel
    have hbal : (plug p (Tree.node a c l k v r)).balanced := by rw [hp]; exact h.bal
    have hnrr : (plug p (Tree.node a c l k v r)).noRedRed := by rw [hp]; exact h.nrr
    obtain ⟨s1, e1, -⟩ := inner_delete_spec hwf hbal hnrr
    refine ⟨p, a, c, l, r, s1, hp, hf, hne, e1, ?_⟩
    simp [tree_delete, hf, landing, hne, key_of_heap hh, e1]

/-- `tree_insert` touches no node outside the tree but the new one, and not the
sentinel. -/
theorem tree_insert_frame {s : RBT Int V} {t : Tree Int V} (h : Inv s t) (k : Int) (v : V) :
    ∃ b s1, tree_insert less s k v = some (b, s1) ∧ s1.sentinel = s.sentinel ∧
      ∀ x, x ∉ t.addrs → x ≠ s.next → s1.heap x = s.heap x := by
  cases hk : t.toList.lookup k with
  | some w => exact ⟨false, s, tree_insert_dup h k v w hk, rfl, fun _ _ _ => rfl⟩
  | none =>
    obtain ⟨p, t1, hs, hp, hdir, hl, hr, hstop⟩ := search_sorted h.sorted k
    have hwf : WF s (plug p t1) := by rw [hp]; exact h.wf
    have hf := inner_find_spec less k h.wf
    rw [hs] at hf
    simp only at hf
    rcases hstop with rfl | ⟨a, c, l, v1, r, rfl, hl2, -⟩
    · have hrb : rootBlack p := rootBlack_of_color p Tree.nil (by rw [hp]; exact h.black)
      obtain ⟨s1, e1, -, hsent1, -, -, hfr⟩ := inner_insert_spec less k v hwf hdir hrb
      obtain ⟨s2, t2, e2, -⟩ := tree_insert_new h k v hk
      have e3 : tree_insert less s k v =
          some (true, { s1 with size := (s1.size + 1) % 2 ^ 32 }) := by
        have hx : ∃ y, tree_insert less s k v = some (true, y) := ⟨s2, e2⟩
        simp only [tree_insert, hf, landing, andThen_some, e1] at hx ⊢
        obtain ⟨y, hy⟩ := hx
        obtain ⟨d, hd, hy⟩ := andThen_eq_some.1 hy
        rw [hd]
        simp only [andThen_some]
        cases d with
        | true => simp at hy
        | false => simp
      exact ⟨true, _, e3, hsent1, fun x hx hxn => hfr x (by rw [hp]; exact hx) hxn⟩
    · exfalso
      rw [← hp, toList_plug] at hk
      simp only [Tree.toList, List.append_assoc] at hk
      rw [lookup_append_of_lt _ _ (fun y hy => ne_of_lt (hl y hy)),
        lookup_append_of_lt _ _ (fun y hy => ne_of_lt (hl2 y hy))] at hk
      simp [List.lookup_cons] at hk

/-! ### The sentinel under the calls of the public interface -/

theorem WF.heap_mem {s : RBT K V} {t : Tree K V} (hwf : WF s t) {a : Nat} (ha : a ∈ t.addrs) :
    ∃ n, s.heap a = some n := by
  obtain ⟨n, hn, -⟩ := Rep.links hwf.rep a ha
  exact ⟨n, hn⟩

/-- One call of `tree_insert`, `tree_delete` or `tree_clear`: the invariant is kept; no
node outside the tree is touched other than the sentinel and the node at the fresh
address; of the sentinel no field but the parent link is changed, and only `tree_delete`
changes that. -/
theorem step_frame {s : RBT Int V} {t : Tree Int V} (h : Inv s t) (op : Op Int V) :
    ∃ s1 t1, step less s op = some s1 ∧ Inv s1 t1 ∧ s1.sentinel = s.sentinel ∧
      (s1.heap s.sentinel).map Node.butParent = (s.heap s.sentinel).map Node.butParent ∧
      ((∀ k, op ≠ Op.delete k) → s1.heap s.sentinel = s.heap s.sentinel) ∧
      (∀ x, x ∉ t.addrs → x ≠ s.sentinel → x ≠ s.next → s1.heap x = s.heap x) := by
  obtain ⟨s1, t1, e, hi⟩ := step_inv h op
  refine ⟨s1, t1, e, hi, ?_⟩
  cases op with
  | insert k v =>
    obtain ⟨b, s2, e2, hs2, hfr⟩ := tree_insert_frame h k v
    have e3 : s2 = s1 := by
      simp only [step, e2, andThen_some, Option.some.injEq] at e
      exact e
    subst e3
    have hsent : s2.heap s.sentinel = s.heap s.sentinel :=
      hfr _ h.wf.sent_notin (Nat.ne_of_lt h.wf.sent_lt)
    exact ⟨hs2, by rw [hsent], fun _ => hsent, fun x hx _ hxn => hfr x hx hxn⟩
  | delete k =>
    cases hk : t.toList.lookup k with
    | none =>
      have e2 := tree_delete_absent h k hk
      have e3 : s = s1 := by
        simp only [step, e2, andThen_some, Option.some.injEq] at e
        exact e
      subst e3
      exact ⟨rfl, rfl, fun _ => rfl, fun _ _ _ _ => rfl⟩
    | some w =>
      obtain ⟨p, a, c, l, r, sF, hp, -, -, e1, e2⟩ := tree_delete_full h k w hk
      have e3 : { sF with size := (sF.size + 2 ^ 32 - 1) % 2 ^ 32 } = s1 := by
        simp only [step, e2, andThen_some, Option.some.injEq] at e
        exact e
      subst e3
      have hwf : WF s (plug p (Tree.node a c l k w r)) := by rw [hp]; exact h.wf
      obtain ⟨s2, m, n, P, q, sF2, -, -, e4, -, h1, -, -, -, h5, h6, -⟩ :=
        inner_delete_full hwf (by rw [hp]; exact h.bal) (by rw [hp]; exact h.nrr)
      have e5 : sF2 = sF := Option.some.inj (e4.symm.trans e1)
      subst e5
      refine ⟨h1, h6, fun hne => absurd rfl (hne k), fun x hx hxs _ => ?_⟩
      exact h5 x (by rw [hp]; exact hx) hxs
  | clear =>
    obtain ⟨s2, e2, -, -, -, hs2, -, hfr, -⟩ := tree_clear_spec h.wf
    have e3 : s2 = s1 := by
      simp only [step, e2, Option.some.injEq] at e
      exact e
    subst e3
    have hsent : s2.heap s.sentinel = s.heap s.sentinel := hfr _ h.wf.sent_notin
    exact ⟨hs2, by rw [hsent], fun _ => hsent, fun x hx _ _ => hfr x hx⟩

/-- One call keeps the child links of the sentinel null. -/
theorem step_nullLinks {s s1 : RBT Int V} {t : Tree Int V} (h : Inv s t) (hn : NullLinks s)
    (op : Op Int V) (e : step less s op = some s1) : NullLinks s1 := by
  obtain ⟨s2, t1, e2, -, hs, hb, -, hfr⟩ := step_frame h op
  have e3 : s2 = s1 := Option.some.inj (e2.symm.trans e)
  subst e3
  obtain ⟨h0, hl, hr⟩ := hn
  have h0s : (0 : Nat) ≠ s.sentinel := by
    intro e0
    obtain ⟨n, hn, -⟩ := h.wf.heap_sentinel
    rw [← e0, h0] at hn
    cases hn
  have h0t : (0 : Nat) ∉ t.addrs := by
    intro hm
    obtain ⟨n, hn⟩ := h.wf.heap_mem hm
    rw [h0] at hn
    cases hn
  have h0n : (0 : Nat) ≠ s.next := by
    have := h.wf.sent_lt
    omega
  refine ⟨by rw [hfr 0 h0t h0s h0n]; exact h0, ?_, ?_⟩
  · simp only [RBT.left] at hl ⊢
    rw [hs]
    cases hx : s.heap s.sentinel with
    | none => simp [hx] at hl
    | some x =>
      cases hy : s2.heap s.sentinel with
      | none => simp [hx, hy] at hb
      | some y =>
        simp only [hx, hy, Option.map_some', Option.some.injEq, Node.butParent,
          Prod.mk.injEq] at hb hl ⊢
        rw [hb.2.2.2.1, hl]
  · simp only [RBT.right] at hr ⊢
    rw [hs]
    cases hx : s.heap s.sentinel with
    | none => simp [hx] at hr
    | some x =>
      cases hy : s2.heap s.sentinel with
      | none => simp [hx, hy] at hb
      | some y =>
        simp only [hx, hy, Option.map_some', Option.some.injEq, Node.butParent,
          Prod.mk.injEq] at hb hr ⊢
        rw [hb.2.2.2.2, hr]

theorem foldl_step_nullLinks : ∀ (ops : List (Op Int V)) (s : RBT Int V) (t : Tree Int V),
    Inv s t → NullLinks s →
    ∃ s1 t1, ops.foldl (fun os op => os.andThen fun s => step less s op) (some s) = some s1 ∧
      Inv s1 t1 ∧ NullLinks s1
  | [], s, t, h, hn => ⟨s, t, rfl, h, hn⟩
  | op :: ops, s, t, h, hn => by
    obtain ⟨s1, t1, e, h1⟩ := step_inv h op
    obtain ⟨s2, t2, e2, h2⟩ := foldl_step_nullLinks ops s1 t1 h1 (step_nullLinks h hn op e)
    exact ⟨s2, t2, by simpa [List.foldl_cons, e] using e2, h2⟩

/-- In every state reached by a sequence of calls the child links of the sentinel are
null. -/
theorem run_nullLinks [Inhabited V] {ops : List (Op Int V)} {s : RBT Int V}
    (hs : run less ops = some s) : NullLinks s := by
  obtain ⟨s1, t1, e, -, hn⟩ := foldl_step_nullLinks ops (RBT.new : RBT Int V) Tree.nil Inv.new
    ⟨rfl, rfl, rfl⟩
  have e2 : s1 = s := Option.some.inj (e.symm.trans hs)
  rw [← e2]
  exact hn

/-! ### The calls of the public interface, in full -/

theorem follow_setSize (s : RBT K V) (z : Nat) : ∀ (d : List Bool) (a : Nat),
    follow { s with size := z } a d = follow s a d
  | [], _ => rfl
  | b :: d, a => by
    simp only [follow]
    split
    · rfl
    · cases b
      · show (RBT.left s a).andThen _ = (RBT.left s a).andThen _
        cases RBT.left s a with
        | none => rfl
        | some c => exact follow_setSize s z d c
      · show (RBT.right s a).andThen _ = (RBT.right s a).andThen _
        cases RBT.right s a with
        | none => rfl
        | some c => exact follow_setSize s z d c

/-- The child links of the sentinel are still null after the first part of
`inner_delete`. -/
theorem Spliced.nullLinks {s s1 : RBT K V} {t : Tree K V} {m : Nat} {n : Node K V}
    {p : List (Frame K V)} {q : Tree K V} (hsp : Spliced s t s1 m n p q) (hwf : WF s t)
    (hn : NullLinks s) : NullLinks s1 := by
  obtain ⟨h0, hl, hr⟩ := hn
  have hb := hsp.sent
  have h0s : (0 : Nat) ≠ s.sentinel := by
    intro e0
    obtain ⟨x, hx, -⟩ := hwf.heap_sentinel
    rw [← e0, h0] at hx
    cases hx
  have h0t : (0 : Nat) ∉ t.addrs := by
    intro hm
    obtain ⟨x, hx⟩ := hwf.heap_mem hm
    rw [h0] at hx
    cases hx
  refine ⟨by rw [hsp.frame 0 h0t h0s]; exact h0, ?_, ?_⟩
  · simp only [RBT.left] at hl ⊢
    rw [hsp.sentinel]
    cases hx : s.heap s.sentinel with
    | none => simp [hx] at hl
    | some x =>
      cases hy : s1.heap s.sentinel with
      | none => simp [hx, hy] at hb
      | some y =>
        simp only [hx, hy, Option.map_some', Option.some.injEq, Node.butParent,
          Prod.mk.injEq] at hb hl ⊢
        rw [hb.2.2.2.1, hl]
  · simp only [RBT.right] at hr ⊢
    rw [hsp.sentinel]
    cases hx : s.heap s.sentinel with
    | none => simp [hx] at hr
    | some x =>
      cases hy : s1.heap s.sentinel with
      | none => simp [hx, hy] at hb
      | some y =>
        simp only [hx, hy, Option.map_some', Option.some.injEq, Node.butParent,
          Prod.mk.injEq] at hb hr ⊢
        rw [hb.2.2.2.2, hr]

theorem sum_replicate_zero (m : Nat) (c : Color) :
    ((List.replicate m (c, 0)).map Prod.snd).sum = 0 := by
  induction m with
  | zero => rfl
  | succ m ih => simp [List.replicate_succ, ih]

/-- A record of `insert_fixup` of the shape of `insert_fixup_traced_spec` counts at most
two rotations. -/
theorem rotations_le_two {tr : List (Color × Nat)} {m : Nat}
    (h : tr = List.replicate m (Color.RED, 0) ∨
      ∃ r, tr = List.replicate m (Color.RED, 0) ++ [(Color.BLACK, r)] ∧ 1 ≤ r ∧ r ≤ 2) :
    (tr.map Prod.snd).sum ≤ 2 := by
  rcases h with rfl | ⟨r, rfl, -, hr⟩
  · rw [sum_replicate_zero]; omega
  · rw [List.map_append, List.sum_append, sum_replicate_zero]
    simpa using hr

/-- `tree_insert` of a key that is not stored, in full: the new node is linked at the
end of the path of the search, at the depth that is the length of the path, and
`insert_fixup` is run from it, in a state in which the sentinel is BLACK, with the
record of `insert_fixup_traced_spec`. -/
theorem tree_insert_full {s : RBT Int V} {t : Tree Int V} (h : Inv s t) (k : Int) (v : V)
    (hk : t.toList.lookup k = none) :
    ∃ p s1 sF tr ws, plug p Tree.nil = t ∧
      inner_find less s k = some (parentOf s.sentinel p) ∧
      inner_insert_link less s k v (parentOf s.sentinel p) = some (s1, s.next) ∧
      depth s1.next s1 s.next = some p.length ∧
      insert_fixup_traced s1.next s1 s.next = some (sF, tr, ws) ∧
      insert_fixup s1.next s1 s.next = some sF ∧
      tree_insert less s k v = some (true, { sF with size := (sF.size + 1) % 2 ^ 32 }) ∧
      2 * tr.length ≤ p.length ∧
      (s1.color s1.sentinel = some Color.BLACK ∧ (s1.sentinel, Color.RED) ∉ ws) ∧
      ∃ m, (tr = List.replicate m (Color.RED, 0) ∨
        ∃ r, tr = List.replicate m (Color.RED, 0) ++ [(Color.BLACK, r)] ∧ 1 ≤ r ∧ r ≤ 2) := by
  obtain ⟨p, t1, hs, hp, hdir, hl, hr, hstop⟩ := search_sorted h.sorted k
  have hwf : WF s (plug p t1) := by rw [hp]; exact h.wf
  have hf := inner_find_spec less k h.wf
  rw [hs] at hf
  simp only at hf
  rcases hstop with rfl | ⟨a, c, l, v1, r, rfl, hl2, -⟩
  · have hrb : rootBlack p := rootBlack_of_color p Tree.nil (by rw [hp]; exact h.black)
    obtain ⟨s1, e1, wf1, -, -, hn1, -⟩ := inner_insert_link_spec less k v hwf hdir
    have hlen : p.length < s1.next := by have := wf1.path_length_lt; omega
    obtain ⟨sF, tr, ws, eFt, eF, htl, hws, m, hshape⟩ := insert_fixup_traced_spec s1.next p s1
      s.next Color.RED Tree.nil k v Tree.nil wf1 hrb hlen
    have hd := depth_spec p (Tree.node s.next Color.RED Tree.nil k v Tree.nil) s1.next wf1
      (fun hx _ => by cases hx) hlen
    rw [ptr_node] at hd
    have e2 : inner_insert less s k v (parentOf s.sentinel p) = some sF := by
      rw [inner_insert_eq, e1]
      exact eF
    obtain ⟨s2, t2, e3, -⟩ := tree_insert_new h k v hk
    have e4 : tree_insert less s k v =
        some (true, { sF with size := (sF.size + 1) % 2 ^ 32 }) := by
      have hx : ∃ y, tree_insert less s k v = some (true, y) := ⟨s2, e3⟩
      simp only [tree_insert, hf, landing, andThen_some, e2] at hx ⊢
      obtain ⟨y, hy⟩ := hx
      obtain ⟨d, hd, hy⟩ := andThen_eq_some.1 hy
      rw [hd]
      simp only [andThen_some]
      cases d with
      | true => simp at hy
      | false => simp
    exact ⟨p, s1, sF, tr, ws, hp, hf, e1, hd, eFt, eF, e4, htl, ⟨wf1.sent_black, hws⟩, m,
      hshape⟩
  · exfalso
    rw [← hp, toList_plug] at hk
    simp only [Tree.toList, List.append_assoc] at hk
    rw [lookup_append_of_lt _ _ (fun y hy => ne_of_lt (hl y hy)),
      lookup_append_of_lt _ _ (fun y hy => ne_of_lt (hl2 y hy))] at hk
    simp [List.lookup_cons] at hk

/-- C23: deletion of a node with two children splices out its successor, for
`RedBlackTree<int, int>`.  In every state reached by a sequence of calls and for every
stored key `k`, `tree_delete(k)` returns true, and with `a` the node that `inner_find`
returns for `k`: when both child links of `a` are not the sentinel, the node `m` that
`successor(a)` returns is another node, the leftmost node of the right subtree of `a`
(it is reached from the right child along left links and its left link is the
sentinel); after the call `m` is freed, and `a` is still a node reached from the root
and holds the key and the value that `m` held before.  When a child link of `a` is the
sentinel, `a` itself is freed. -/
theorem C23_delete_splices_successor (ops : List (Op Int Int)) (s : RBT Int Int) (k w : Int)
    (hs : run less ops = some s) (hk : tree_find less s k = some (some w)) :
    ∃ a s1, inner_find less s k = some a ∧ tree_delete less s k = some (true, s1) ∧
      (∀ la ra, s.left a = some la → s.right a = some ra → la ≠ s.sentinel →
        ra ≠ s.sentinel →
        ∃ m, successor s a = some m ∧ m ≠ a ∧ s.left m = some s.sentinel ∧
          (∃ j, follow s ra (List.replicate j false) = some m) ∧
          s1.heap m = none ∧ s1.key a = s.key m ∧ s1.val a = s.val m ∧
          (∃ mk, s.key m = some mk) ∧ ∃ d, follow s1 s1.root d = some a) ∧
      (s.left a = some s.sentinel ∨ s.right a = some s.sentinel → s1.heap a = none) := by
  obtain ⟨t, hi⟩ := run_inv_of hs
  have hlk : t.toList.lookup k = some w := by
    have := tree_find_spec hi k
    rw [hk] at this
    exact (Option.some.inj this).symm
  obtain ⟨p, a, c, l, r, sF, hp, hfind, hne, e1, e2⟩ := tree_delete_full hi k w hlk
  have hwf : WF s (plug p (Tree.node a c l k w r)) := by rw [hp]; exact hi.wf
  obtain ⟨s2, m, n, P, q, sF2, -, hsp, e4, wfF, h1, -, -, hfree, -, -, -, -, hone, htwo⟩ :=
    inner_delete_full hwf (by rw [hp]; exact hi.bal) (by rw [hp]; exact hi.nrr)
  have e5 : sF2 = sF := Option.some.inj (e4.symm.trans e1)
  subst e5
  have hh := hwf.heap_focus
  have hl0 := left_of_heap hh
  have hr0 := right_of_heap hh
  simp only at hl0 hr0
  refine ⟨a, _, hfind, e2, ?_, ?_⟩
  · intro la ra hla hra hlne hrne
    have ela : la = l.ptr s.sentinel := Option.some.inj (hla.symm.trans hl0)
    have era : ra = r.ptr s.sentinel := Option.some.inj (hra.symm.trans hr0)
    have hln : l ≠ Tree.nil := by
      rintro rfl
      exact hlne ela
    have hrn : r ≠ Tree.nil := by
      rintro rfl
      exact hrne era
    obtain ⟨hma, hsucc, hcell⟩ := htwo hln hrn
    obtain ⟨b, hb1, -, hb3⟩ := successor_spec hwf
    have hbm : b = m := Option.some.inj (hb1.symm.trans hsucc)
    subst hbm
    obtain ⟨-, j, hj1, hj2⟩ := hb3 hrn
    have hcellF := Rep.cell wfF.rep _ hcell
    have hfol := follow_exists wfF.rep wfF.sent_notin a (mem_cells_addrs _ _ hcell)
    obtain ⟨d, hd⟩ := hfol
    rw [← wfF.root] at hd
    refine ⟨b, hsucc, hma, hj2, ⟨j, era ▸ hj1⟩, hfree, ?_, ?_, ⟨n.k, key_of_heap hsp.old⟩,
      d, ?_⟩
    · rw [key_of_heap hsp.old]
      exact hcellF.1
    · rw [val_of_heap hsp.old]
      exact hcellF.2
    · rw [follow_setSize]
      exact hd
  · intro h
    have hm : m = a := by
      apply hone
      rcases h with h | h
      · left
        cases l with
        | nil => rfl
        | node la lc ll lk lv lr =>
          have e : la = s.sentinel := Option.some.inj (hl0.symm.trans h)
          exact absurd e (WF.ptr_ne_sentinel (p := Frame.lft a c k w r :: p) hwf)
      · right
        cases r with
        | nil => rfl
        | node ra rc rl rk rv rr =>
          have e : ra = s.sentinel := Option.some.inj (hr0.symm.trans h)
          exact absurd e (WF.ptr_ne_sentinel (p := Frame.rgt a c l k w :: p) hwf)
    rw [← hm]
    exact hfree

/-- C23 at the state of the scenario with the key 20, whose node, at address 3, has the
two children 10 and 30: the node of 30, at address 4, is freed and the node at address 3
holds the key 30 afterwards. -/
theorem C23_delete_splices_successor_witness :
    ∃ a s1, inner_find less demoState 20 = some a ∧
      tree_delete less demoState 20 = some (true, s1) ∧
      (∀ la ra, demoState.left a = some la → demoState.right a = some ra →
        la ≠ demoState.sentinel → ra ≠ demoState.sentinel →
        ∃ m, successor demoState a = some m ∧ m ≠ a ∧
          demoState.left m = some demoState.sentinel ∧
          (∃ j, follow demoState ra (List.replicate j false) = some m) ∧
          s1.heap m = none ∧ s1.key a = demoState.key m ∧ s1.val a = demoState.val m ∧
          (∃ mk, demoState.key m = some mk) ∧ ∃ d, follow s1 s1.root d = some a) ∧
      (demoState.left a = some demoState.sentinel ∨
        demoState.right a = some demoState.sentinel → s1.heap a = none) :=
  C23_delete_splices_successor demoOps demoState 20 2 rfl rfl

/-- C24: the sentinel stays BLACK, for `RedBlackTree<int, int>`.  After every sequence of
tree_insert, tree_delete and tree_clear calls on the empty tree the calls return and the
sentinel is a node of colour BLACK in the state `s` reached.  And no colour write of a
fixup in a next call stores RED at the sentinel: for a key that is not stored, the
sentinel is BLACK in the state in which `tree_insert` calls `insert_fixup` from the new
node, and the colour writes of that call, that of `_root->_c = BLACK` at its end
included, hold no write of RED at the sentinel; for a key that is stored, the sentinel
is BLACK in the state after the splice of `tree_delete`, and when the spliced node is
BLACK, so that `delete_fixup` is called, the colour writes of that call, that of
`node->_c = BLACK` at its end included, hold no write of RED at the sentinel. -/
theorem C24_sentinel_black (ops : List (Op Int Int)) :
    ∃ s, run less ops = some s ∧ s.color s.sentinel = some Color.BLACK ∧
      (∀ k v, tree_find less s k = some none →
        ∃ a s1 x sF tr ws, inner_find less s k = some a ∧
          inner_insert_link less s k v a = some (s1, x) ∧
          s1.color s1.sentinel = some Color.BLACK ∧
          insert_fixup_traced s1.next s1 x = some (sF, tr, ws) ∧
          insert_fixup s1.next s1 x = some sF ∧
          tree_insert less s k v = some (true, { sF with size := (sF.size + 1) % 2 ^ 32 }) ∧
          (s1.sentinel, Color.RED) ∉ ws) ∧
      (∀ k w, tree_find less s k = some (some w) →
        ∃ a s1 m q mc sF, inner_find less s k = some a ∧
          inner_delete_splice s a = some (s1, m, q) ∧
          s1.color s1.sentinel = some Color.BLACK ∧ s1.color m = some mc ∧
          tree_delete less s k = some (true, sF) ∧
          (mc = Color.BLACK → ∃ s2 iters temps ws rs,
            delete_fixup_traced s1.next s1 q = some (s2, iters, temps, false, ws, rs) ∧
            delete_fixup s1.next s1 q = some s2 ∧ (s1.sentinel, Color.RED) ∉ ws)) := by
  obtain ⟨s, t, hs, hi⟩ := run_inv ops
  refine ⟨s, hs, hi.wf.sent_black, ?_, ?_⟩
  · intro k v hk
    have hlk : t.toList.lookup k = none := by
      have := tree_find_spec hi k
      rw [hk] at this
      exact (Option.some.inj this).symm
    obtain ⟨p1, s1, sF, tr, ws, -, hfind, e1, -, e2, e3, e4, -, ⟨hb, hws⟩, -⟩ :=
      tree_insert_full hi k v hlk
    exact ⟨_, s1, _, sF, tr, ws, hfind, e1, hb, e2, e3, e4, hws⟩
  · intro k w hk
    have hlk : t.toList.lookup k = some w := by
      have := tree_find_spec hi k
      rw [hk] at this
      exact (Option.some.inj this).symm
    obtain ⟨p, a, c, l, r, sF, hp, hfind, hne, e1, e2⟩ := tree_delete_full hi k w hlk
    have hwf : WF s (plug p (Tree.node a c l k w r)) := by rw [hp]; exact hi.wf
    obtain ⟨s1, m, n, P, q, sF2, esp, hsp, -, -, -, -, -, -, -, -, hcol, htr, -⟩ :=
      inner_delete_full hwf (by rw [hp]; exact hi.bal) (by rw [hp]; exact hi.nrr)
    refine ⟨a, s1, m, _, n.c, _, hfind, esp, hsp.wf.sent_black, hcol, e2, fun hb => ?_⟩
    obtain ⟨s2, iters, ts, ws, rs, h1, h2, -, -, -, hws, -⟩ := htr hb
    rw [← hsp.sentinel] at hws
    exact ⟨s2, iters, ts, ws, rs, h1, h2, hws⟩

/-- C25 fails for tree_delete: in the state reached by inserting 10, 20 and 30, the
parent link of the sentinel is null, and after `tree_delete(10)`, which splices out a
leaf, it is the address of the node of 20, the parent of the deleted node. -/
theorem C25_sentinel_parent_written :
    ∃ s1, run less demoOps = some demoState ∧
      tree_delete less demoState 10 = some (true, s1) ∧
      s1.sentinel = demoState.sentinel ∧
      demoState.parent demoState.sentinel = some 0 ∧
      s1.parent s1.sentinel = some 3 ∧ demoState.key 3 = some 20 :=
  ⟨_, rfl, rfl, rfl, rfl, rfl, rfl⟩

/-- C25, amended: the sentinel keeps every field but its parent link, for
`RedBlackTree<int, int>`.  In every state reached by a sequence of calls, every
tree_insert and tree_clear call returns and leaves the sentinel pointer and every field
of the sentinel node as they were; every tree_delete call returns and leaves the
sentinel pointer and the colour, key, value, left and right link of the sentinel node as
they were (its parent link may be written); every tree_find call returns, and gives no
new state. -/
theorem C25_sentinel_fields (ops : List (Op Int Int)) (s : RBT Int Int)
    (hs : run less ops = some s) :
    (∀ k v, ∃ b s1, tree_insert less s k v = some (b, s1) ∧ s1.sentinel = s.sentinel ∧
      s1.heap s1.sentinel = s.heap s.sentinel) ∧
    (∀ k, ∃ b s1, tree_delete less s k = some (b, s1) ∧ s1.sentinel = s.sentinel ∧
      (s1.heap s1.sentinel).map Node.butParent = (s.heap s.sentinel).map Node.butParent) ∧
    (∃ s1, tree_clear s = some s1 ∧ s1.sentinel = s.sentinel ∧
      s1.heap s1.sentinel = s.heap s.sentinel) ∧
    (∀ k, ∃ r, tree_find less s k = some r) := by
  obtain ⟨t, hi⟩ := run_inv_of hs
  refine ⟨fun k v => ?_, fun k => ?_, ?_, fun k => ⟨_, tree_find_spec hi k⟩⟩
  · obtain ⟨s1, t1, e, -, h1, -, h3, -⟩ := step_frame hi (Op.insert k v)
    simp only [step] at e
    obtain ⟨r, hr, e2⟩ := andThen_eq_some.1 e
    cases e2
    refine ⟨r.1, r.2, hr, h1, ?_⟩
    rw [h1]
    exact h3 (fun k h => by cases h)
  · obtain ⟨s1, t1, e, -, h1, h2, -⟩ := step_frame hi (Op.delete k)
    simp only [step] at e
    obtain ⟨r, hr, e2⟩ := andThen_eq_some.1 e
    cases e2
    refine ⟨r.1, r.2, hr, h1, ?_⟩
    rw [h1]
    exact h2
  · obtain ⟨s1, t1, e, -, h1, -, h3, -⟩ := step_frame hi Op.clear
    simp only [step] at e
    refine ⟨s1, e, h1, ?_⟩
    rw [h1]
    exact h3 (fun k h => by cases h)

/-- C25, amended, at the state of the scenario. -/
theorem C25_sentinel_fields_witness :
    (∀ k v, ∃ b s1, tree_insert less demoState k v = some (b, s1) ∧
      s1.sentinel = demoState.sentinel ∧
      s1.heap s1.sentinel = demoState.heap demoState.sentinel) ∧
    (∀ k, ∃ b s1, tree_delete less demoState k = some (b, s1) ∧
      s1.sentinel = demoState.sentinel ∧
      (s1.heap s1.sentinel).map Node.butParent =
        (demoState.heap demoState.sentinel).map Node.butParent) ∧
    (∃ s1, tree_clear demoState = some s1 ∧ s1.sentinel = demoState.sentinel ∧
      s1.heap s1.sentinel = demoState.heap demoState.sentinel) ∧
    (∀ k, ∃ r, tree_find less demoState k = some r) :=
  C25_sentinel_fields demoOps demoState rfl

/-- In the state after inserting 10, 20, 30 and 40 the key 10 is stored with the
value 1. -/
theorem demoState4_find : tree_find less demoState4 10 = some (some 1) := by
  obtain ⟨t, hi⟩ := run_inv_of demoState_run
  have h40 : t.toList.lookup 40 = none := by
    have h := tree_find_spec hi 40
    have e : tree_find less demoState 40 = some none := rfl
    rw [e] at h
    exact (Option.some.inj h).symm
  have h10 : t.toList.lookup 10 = some 1 := by
    have h := tree_find_spec hi 10
    have e : tree_find less demoState 10 = some (some 1) := rfl
    rw [e] at h
    exact (Option.some.inj h).symm
  obtain ⟨s1, t1, e1, hi1, -, -, l1, l2, hl, hl1, -⟩ := tree_insert_new hi 40 4 h40
  have hrun : run less demoOps4 = some s1 := by
    rw [demoOps4, run_append, demoState_run]
    simp [step, e1]
  have e4 : demoState4 = s1 := by
    have h : run less demoOps4 = some demoState4 := rfl
    exact Option.some.inj (h.symm.trans hrun)
  rw [e4, tree_find_spec hi1 10, hl1, lookup_insert_ne 4 (by decide) l1 l2, ← hl, h10]

/-- C28: the sibling in delete_fixup is never the sentinel, for `RedBlackTree<int, int>`.
In every state reached by a sequence of calls and for every stored key `k`,
`tree_delete(k)` returns true; with `a` the node that `inner_find` returns for `k`, the
first part of `inner_delete(a)` ends in a state `s1` with a spliced node `m` and its
child `q`; in `s1` the child links of the sentinel are null and no node lies at the
null address; and when `m` is BLACK, so that `delete_fixup(q)` is called, the call
returns, every value that the sibling `temp` takes in it is a node of the store other
than the sentinel, and the test `temp == _sentinel` before case 4 never holds. -/
theorem C28_sibling_not_sentinel (ops : List (Op Int Int)) (s : RBT Int Int) (k w : Int)
    (hs : run less ops = some s) (hk : tree_find less s k = some (some w)) :
    ∃ a s1 m q mc sF, inner_find less s k = some a ∧
      inner_delete_splice s a = some (s1, m, q) ∧ s1.color m = some mc ∧
      tree_delete less s k = some (true, sF) ∧ NullLinks s1 ∧
      (mc = Color.BLACK → ∃ s2 iters temps ws rs,
        delete_fixup_traced s1.next s1 q = some (s2, iters, temps, false, ws, rs) ∧
        delete_fixup s1.next s1 q = some s2 ∧
        ∀ x ∈ temps, x ≠ s1.sentinel ∧ s1.heap x ≠ none) := by
  obtain ⟨t, hi⟩ := run_inv_of hs
  have hlk : t.toList.lookup k = some w := by
    have := tree_find_spec hi k
    rw [hk] at this
    exact (Option.some.inj this).symm
  obtain ⟨p, a, c, l, r, sF, hp, hfind, hne, e1, e2⟩ := tree_delete_full hi k w hlk
  have hwf : WF s (plug p (Tree.node a c l k w r)) := by rw [hp]; exact hi.wf
  obtain ⟨s1, m, n, P, q, sF2, esp, hsp, -, -, -, -, -, -, -, -, hcol, htr, -⟩ :=
    inner_delete_full hwf (by rw [hp]; exact hi.bal) (by rw [hp]; exact hi.nrr)
  refine ⟨a, s1, m, _, n.c, _, hfind, esp, hcol, e2, hsp.nullLinks hwf (run_nullLinks hs),
    fun hb => ?_⟩
  obtain ⟨s2, iters, ts, ws, rs, h1, h2, -, -, hts, -⟩ := htr hb
  refine ⟨s2, iters, ts, ws, rs, h1, h2, fun x hx => ⟨?_, ?_⟩⟩
  · exact ne_of_mem_of_not_mem (hts x hx) hsp.wf.sent_notin
  · obtain ⟨y, hy⟩ := hsp.wf.heap_mem (hts x hx)
    rw [hy]
    exact fun h => by cases h

/-- C28 at the state after inserting 10, 20, 30 and 40, with the key 10: its node is a
BLACK leaf, so `delete_fixup` is called from the sentinel, and its sibling is the node of
30. -/
theorem C28_sibling_not_sentinel_witness :
    ∃ a s1 m q mc sF, inner_find less demoState4 10 = some a ∧
      inner_delete_splice demoState4 a = some (s1, m, q) ∧ s1.color m = some mc ∧
      tree_delete less demoState4 10 = some (true, sF) ∧ NullLinks s1 ∧
      (mc = Color.BLACK → ∃ s2 iters temps ws rs,
        delete_fixup_traced s1.next s1 q = some (s2, iters, temps, false, ws, rs) ∧
        delete_fixup s1.next s1 q = some s2 ∧
        ∀ x ∈ temps, x ≠ s1.sentinel ∧ s1.heap x ≠ none) :=
  C28_sibling_not_sentinel demoOps4 demoState4 10 1 rfl demoState4_find

/-- C29: insert_fixup stops after the rotation case.  When `insert_fixup` is started at a
node of a well formed tree whose root is BLACK, with fuel for the length of the path to
the node, it returns, and the runs of the body of the loop are: some runs in which the
uncle is RED and no rotation is made, and then at most one run in which the uncle is
BLACK and one or two rotations are made, which is the last run; so at most two rotations
are made in all.  And for `RedBlackTree<int, int>`, in every state reached by a sequence
of calls, `tree_insert` of a key that is not stored returns true and makes its rotations
in one call of `insert_fixup`, from the new node, which makes at most two. -/
theorem C29_insert_rotations {s : RBT K V} {p : List (Frame K V)} {n : Nat} {nc : Color}
    {nl nr : Tree K V} {nk : K} {nv : V} (hwf : WF s (plug p (Tree.node n nc nl nk nv nr)))
    (hrb : rootBlack p) :
    (∀ fuel, p.length < fuel → ∃ s1 tr ws m, insert_fixup_traced fuel s n = some (s1, tr, ws) ∧
      insert_fixup fuel s n = some s1 ∧
      (tr = List.replicate m (Color.RED, 0) ∨
        ∃ r, tr = List.replicate m (Color.RED, 0) ++ [(Color.BLACK, r)] ∧ 1 ≤ r ∧ r ≤ 2) ∧
      (tr.map Prod.snd).sum ≤ 2) ∧
    (∀ (ops : List (Op Int Int)) (st : RBT Int Int) (k v : Int), run less ops = some st →
      tree_find less st k = some none →
      ∃ a s1 x sF tr ws, inner_find less st k = some a ∧
        inner_insert_link less st k v a = some (s1, x) ∧
        insert_fixup_traced s1.next s1 x = some (sF, tr, ws) ∧
        tree_insert less st k v = some (true, { sF with size := (sF.size + 1) % 2 ^ 32 }) ∧
        (tr.map Prod.snd).sum ≤ 2) := by
  constructor
  · intro fuel hlen
    obtain ⟨s1, tr, ws, e1, e2, -, -, m, hshape⟩ :=
      insert_fixup_traced_spec fuel p s n nc nl nk nv nr hwf hrb hlen
    exact ⟨s1, tr, ws, m, e1, e2, hshape, rotations_le_two hshape⟩
  · intro ops st k v hs hk
    obtain ⟨t, hi⟩ := run_inv_of hs
    have hlk : t.toList.lookup k = none := by
      have := tree_find_spec hi k
      rw [hk] at this
      exact (Option.some.inj this).symm
    obtain ⟨p1, s1, sF, tr, ws, -, hfind, e1, -, e2, -, e3, -, -, m, hshape⟩ :=
      tree_insert_full hi k v hlk
    exact ⟨_, s1, _, sF, tr, ws, hfind, e1, e2, e3, rotations_le_two hshape⟩

/-- C29 at the state of the scenario, for `insert_fixup` started at the node of 30, at
address 4, the right child of the BLACK root. -/
theorem C29_insert_rotations_witness :
    (∀ fuel, [Frame.rgt 3 Color.BLACK (Tree.node 2 Color.RED Tree.nil 10 1 Tree.nil)
        (20 : Int) (2 : Int)].length < fuel →
      ∃ s1 tr ws m, insert_fixup_traced fuel demoState 4 = some (s1, tr, ws) ∧
      insert_fixup fuel demoState 4 = some s1 ∧
      (tr = List.replicate m (Color.RED, 0) ∨
        ∃ r, tr = List.replicate m (Color.RED, 0) ++ [(Color.BLACK, r)] ∧ 1 ≤ r ∧ r ≤ 2) ∧
      (tr.map Prod.snd).sum ≤ 2) ∧
    (∀ (ops : List (Op Int Int)) (st : RBT Int Int) (k v : Int), run less ops = some st →
      tree_find less st k = some none →
      ∃ a s1 x sF tr ws, inner_find less st k = some a ∧
        inner_insert_link less st k v a = some (s1, x) ∧
        insert_fixup_traced s1.next s1 x = some (sF, tr, ws) ∧
        tree_insert less st k v = some (true, { sF with size := (sF.size + 1) % 2 ^ 32 }) ∧
        (tr.map Prod.snd).sum ≤ 2) :=
  @C29_insert_rotations Int Int demoState
    [Frame.rgt 3 Color.BLACK (Tree.node 2 Color.RED Tree.nil 10 1 Tree.nil) 20 2]
    4 Color.RED Tree.nil Tree.nil 30 3 demoState_wf rfl

/-- C30: the fixup loops terminate, for `RedBlackTree<int, int>`.  In every state `s`
reached by a sequence of calls: for a key that is not stored, the `insert_fixup` that
`tree_insert` calls from the new node returns, and the number of runs of the body of its
loop is at most the depth of the new node, the number of parent links from it up to the
root; for a key that is stored, the `delete_fixup` that `tree_delete` calls, when the
spliced node is BLACK, from the child `q` of the spliced node returns, and the number of
runs of the body of its loop is at most the depth of `q`. -/
theorem C30_fixups_terminate (ops : List (Op Int Int)) (s : RBT Int Int) (k v : Int)
    (hs : run less ops = some s) :
    (tree_find less s k = some none →
      ∃ a s1 x d sF tr ws, inner_find less s k = some a ∧
        inner_insert_link less s k v a = some (s1, x) ∧ depth s1.next s1 x = some d ∧
        insert_fixup_traced s1.next s1 x = some (sF, tr, ws) ∧
        insert_fixup s1.next s1 x = some sF ∧ tr.length ≤ d) ∧
    (∀ w, tree_find less s k = some (some w) →
      ∃ a s1 m q mc, inner_find less s k = some a ∧
        inner_delete_splice s a = some (s1, m, q) ∧ s1.color m = some mc ∧
        (mc = Color.BLACK → ∃ d sF iters temps here ws rs, depth s1.next s1 q = some d ∧
          delete_fixup_traced s1.next s1 q = some (sF, iters, temps, here, ws, rs) ∧
          delete_fixup s1.next s1 q = some sF ∧ iters ≤ d)) := by
  obtain ⟨t, hi⟩ := run_inv_of hs
  constructor
  · intro hk
    have hlk : t.toList.lookup k = none := by
      have := tree_find_spec hi k
      rw [hk] at this
      exact (Option.some.inj this).symm
    obtain ⟨p1, s1, sF, tr, ws, -, hfind, e1, hd, e2, e3, -, hlen, -⟩ :=
      tree_insert_full hi k v hlk
    exact ⟨_, s1, _, _, sF, tr, ws, hfind, e1, hd, e2, e3, by omega⟩
  · intro w hk
    have hlk : t.toList.lookup k = some w := by
      have := tree_find_spec hi k
      rw [hk] at this
      exact (Option.some.inj this).symm
    obtain ⟨p, a, c, l, r, sF, hp, hfind, hne, e1, e2⟩ := tree_delete_full hi k w hlk
    have hwf : WF s (plug p (Tree.node a c l k w r)) := by rw [hp]; exact hi.wf
    obtain ⟨s1, m, n, P, q, sF2, esp, hsp, -, -, -, -, -, -, -, -, hcol, htr, -⟩ :=
      inner_delete_full hwf (by rw [hp]; exact hi.bal) (by rw [hp]; exact hi.nrr)
    refine ⟨a, s1, m, _, n.c, hfind, esp, hcol, fun hb => ?_⟩
    obtain ⟨s2, iters, ts, ws, rs, h1, h2, h3, h4, -⟩ := htr hb
    exact ⟨_, s2, iters, ts, false, ws, rs, h3, h1, h2, h4⟩

/-- C30 at the state after inserting 10, 20, 30 and 40, with the key 10, which is stored
in a BLACK leaf, and the value 0. -/
theorem C30_fixups_terminate_witness :
    (tree_find less demoState4 10 = some none →
      ∃ a s1 x d sF tr ws, inner_find less demoState4 10 = some a ∧
        inner_insert_link less demoState4 10 0 a = some (s1, x) ∧
        depth s1.next s1 x = some d ∧
        insert_fixup_traced s1.next s1 x = some (sF, tr, ws) ∧
        insert_fixup s1.next s1 x = some sF ∧ tr.length ≤ d) ∧
    (∀ w, tree_find less demoState4 10 = some (some w) →
      ∃ a s1 m q mc, inner_find less demoState4 10 = some a ∧
        inner_delete_splice demoState4 a = some (s1, m, q) ∧ s1.color m = some mc ∧
        (mc = Color.BLACK → ∃ d sF iters temps here ws rs, depth s1.next s1 q = some d ∧
          delete_fixup_traced s1.next s1 q = some (sF, iters, temps, here, ws, rs) ∧
          delete_fixup s1.next s1 q = some sF ∧ iters ≤ d)) :=
  C30_fixups_terminate demoOps4 demoState4 10 0 rfl

/-! ### The blocking queue (`simple_blocking_queue.hpp`) in a run with a single thread -/

/-- On a queue that is not empty `PopBack` stores the element at the front in `*t` and
removes the element at the back. -/
theorem PopBack_cons {T : Type} (moved : T → T) (x : T) (xs : List T) (m : Nat) :
    SimpleBlockingQueue.PopBack moved ⟨x :: xs, m⟩ = some (x, ⟨(moved x :: xs).dropLast, m⟩) :=
  rfl

/-- C33 fails on the code: on the queue of `int` holding 1 at the front and 2 at the
back, `PopBack(&t)` stores 1 in `t`, the element at the front, and not 2, the element at
the back, and leaves the queue holding 1; `PopBackWithTimeout(&t, 5)`, called with 0 in
`t`, returns true and does the same; `PopFront(&t)` stores 1 and leaves the queue
holding 2. -/
theorem C33_pop_back_stores_front :
    SimpleBlockingQueue.PopBack id (⟨[1, 2], 8⟩ : SimpleBlockingQueue Int) =
      some (1, ⟨[1], 8⟩) ∧
    SimpleBlockingQueue.PopBackWithTimeout id (⟨[1, 2], 8⟩ : SimpleBlockingQueue Int) 0 5 =
      (true, 1, ⟨[1], 8⟩) ∧
    SimpleBlockingQueue.PopFront (⟨[1, 2], 8⟩ : SimpleBlockingQueue Int) =
      some (1, ⟨[2], 8⟩) ∧
    ([1, 2] : List Int).getLast? = some 2 :=
  ⟨rfl, rfl, rfl, rfl⟩

/-! ### The height of reachable trees -/

/-- In a balanced tree without a RED node with a RED child, the longest path has at most
twice as many nodes as the black height, and one more when the root is RED. -/
theorem height_le_two_bh : ∀ t : Tree K V, t.balanced → t.noRedRed →
    t.height ≤ 2 * t.bh + (if t.color = Color.RED then 1 else 0)
  | Tree.nil, _, _ => by simp [Tree.height]
  | Tree.node a c l k v r, hb, hn => by
    obtain ⟨h1, h2, h3⟩ := hb
    obtain ⟨h4, h5, h6⟩ := hn
    have ihl := height_le_two_bh l h2 h5
    have ihr := height_le_two_bh r h3 h6
    simp only [Tree.height, Tree.bh, Tree.color]
    cases c with
    | RED =>
      obtain ⟨hl, hr⟩ := h4 rfl
      simp only [hl, hr, show ¬ Color.BLACK = Color.RED from by decide, if_false,
        Nat.add_zero] at ihl ihr
      simp only [show ¬ Color.RED = Color.BLACK from by decide, if_false, if_true]
      omega
    | BLACK =>
      simp only [show ¬ Color.BLACK = Color.RED from by decide, if_false, if_true,
        Nat.add_zero]
      have e1 : (if l.color = Color.RED then 1 else 0) ≤ 1 := by split <;> omega
      have e2 : (if r.color = Color.RED then 1 else 0) ≤ 1 := by split <;> omega
      omega

/-- A red-black tree with a BLACK root and `n` nodes has a longest path of `h` nodes with
`2^h ≤ (n + 1)^2`. -/
theorem two_pow_height_le {t : Tree K V} (hb : t.balanced) (hn : t.noRedRed)
    (hc : t.color = Color.BLACK) : 2 ^ t.height ≤ (t.count + 1) ^ 2 := by
  have h1 := height_le_two_bh t hb hn
  simp only [hc, show ¬ Color.BLACK = Color.RED from by decide, if_false, Nat.add_zero] at h1
  have h2 := two_pow_bh_le t hb
  calc 2 ^ t.height ≤ 2 ^ (2 * t.bh) := Nat.pow_le_pow_right (by decide) h1
    _ = (2 ^ t.bh) ^ 2 := by rw [Nat.mul_comm, Nat.pow_mul]
    _ ≤ (t.count + 1) ^ 2 := Nat.pow_le_pow_left h2 2

/-- The loop of `inner_find` with its count: the result is that of `inner_find_loop`, and
at most as many nodes are visited as the longest path of the subtree has. -/
theorem inner_find_loop_traced_spec (comp : K → K → Bool) (k : K) {s : RBT K V} :
    ∀ (fuel : Nat) (t : Tree K V) (p : List (Frame K V)), WF s (plug p t) → t.height < fuel →
      ∃ n, inner_find_loop_traced comp k fuel s (t.ptr s.sentinel) (parentOf s.sentinel p) =
          some (landing s.sentinel (search comp k p t).1 (search comp k p t).2, n) ∧
        n ≤ t.height
  | 0, _, _, _, h => absurd h (Nat.not_lt_zero _)
  | fuel + 1, Tree.nil, p, _, _ => ⟨0, by simp [inner_find_loop_traced, search, landing], Nat.le_refl _⟩
  | fuel + 1, Tree.node a c l x v r, p, hwf, hh => by
    have ha := hwf.heap_focus
    have hne := hwf.ptr_ne_sentinel
    simp only [Tree.height] at hh ⊢
    simp only [inner_find_loop_traced, ptr_node, ne_eq, hne, not_false_eq_true, if_true,
      key_of_heap ha, andThen_some, left_of_heap ha, right_of_heap ha, search]
    split
    · obtain ⟨n, e, hn⟩ := inner_find_loop_traced_spec comp k fuel l (Frame.lft a c x v r :: p)
        hwf (by omega)
      simp only [parentOf_cons, addr_lft] at e
      exact ⟨n + 1, by rw [e]; rfl, by omega⟩
    · split
      · obtain ⟨n, e, hn⟩ := inner_find_loop_traced_spec comp k fuel r
          (Frame.rgt a c l x v :: p) hwf (by omega)
        simp only [parentOf_cons, addr_rgt] at e
        exact ⟨n + 1, by rw [e]; rfl, by omega⟩
      · exact ⟨1, rfl, by omega⟩

/-- C31, as stated, fails: after `tree_insert` was called with each of the 2^32 values of
`int`, `tree_size()` returns 0 while the tree is not empty, so that with `h` the number
of nodes on its longest path, `2^h` is more than `(tree_size() + 1)^2 = 1`. -/
theorem C31_height_size_wraps : ∃ s t, run less (insertsUpTo (2 ^ 32)) = some s ∧
    s.tree = some t ∧ t.count = 2 ^ 32 ∧ tree_size s = 0 ∧
    ¬ 2 ^ t.height ≤ (tree_size s + 1) ^ 2 := by
  obtain ⟨s, t, hs, ht, hc, hz⟩ := insertsUpTo_count (2 ^ 32)
  have hz0 : tree_size s = 0 := by rw [hz, Nat.mod_self]
  refine ⟨s, t, hs, ht, hc, hz0, ?_⟩
  rw [hz0]
  cases t with
  | nil => simp [Tree.count] at hc
  | node a c l k v r =>
    simp only [Tree.height, Nat.zero_add, Nat.one_pow, not_le]
    exact Nat.one_lt_two_pow (by omega)

/-- C31, amended: logarithmic height in the number of nodes.  After every sequence of
`tree_insert`, `tree_delete` and `tree_clear` calls on a freshly constructed tree, with
`h` the number of nodes on the longest path from the root down to a sentinel and `n` the
number of nodes of the tree, `2^h ≤ (n + 1)^2`; `tree_size()` is `n` modulo 2^32, so
that `2^h ≤ (tree_size() + 1)^2` when the tree has fewer than 2^32 nodes; and for every
key `inner_find` returns after visiting at most `h` nodes. -/
theorem C31_logarithmic_height (ops : List (Op Int Int)) :
    ∃ s t, run less ops = some s ∧ s.tree = some t ∧
      2 ^ t.height ≤ (t.count + 1) ^ 2 ∧ tree_size s = t.count % 2 ^ 32 ∧
      (t.count < 2 ^ 32 → 2 ^ t.height ≤ (tree_size s + 1) ^ 2) ∧
      ∀ k, ∃ a n, inner_find_traced less s k = some (a, n) ∧ inner_find less s k = some a ∧
        n ≤ t.height ∧ 2 ^ n ≤ (t.count + 1) ^ 2 := by
  obtain ⟨s, t, hs, hi⟩ := run_inv ops
  have hh := two_pow_height_le hi.bal hi.nrr hi.black
  refine ⟨s, t, hs, hi.wf.tree_eq, hh, hi.size, ?_, ?_⟩
  · intro hlt
    have e : tree_size s = t.count := hi.size.trans (Nat.mod_eq_of_lt hlt)
    rw [e]
    exact hh
  · intro k
    obtain ⟨n, e, hn⟩ := inner_find_loop_traced_spec less k s.next t [] hi.wf (by
      have h1 := height_le_length_addrs t
      have h2 := hi.wf.length_addrs_lt
      omega)
    rw [← hi.wf.root] at e
    exact ⟨_, n, e, inner_find_spec less k hi.wf, hn,
      (Nat.pow_le_pow_right (by decide) hn).trans hh⟩

/-! ### The sentinel under the rotations -/

/-- C32: rotations never write to the sentinel.  In a well formed state, for a node `x`
of the tree: when the right child of `x` is not the sentinel, `left_rotate(x)` returns
and leaves the node at the sentinel as it was, every field of it, so that the parent
link of the sentinel is what it was, also when the subtree moved across is the sentinel;
the same holds of `right_rotate(x)` when the left child of `x` is not the sentinel.  And
for `RedBlackTree<int, int>`, in every state reached by a sequence of calls and for
every stored key, when `tree_delete` calls `delete_fixup` from the child `q` of the
spliced node, in the state right after each rotation that `delete_fixup` makes the
sentinel holds what it held after the splice, and the parent link of the cursor names a
node, not the sentinel, whose child link on the side of the cursor is the cursor: when
the cursor is the sentinel, this node is the one that `inner_delete` stored in the
parent link of the sentinel. -/
theorem C32_rotations_keep_sentinel {s : RBT K V} {p : List (Frame K V)} {x : Nat} {c : Color}
    {l r : Tree K V} {k : K} {v : V} (hwf : WF s (plug p (Tree.node x c l k v r))) :
    (r ≠ Tree.nil → ∃ s1, left_rotate s x = some s1 ∧ s1.sentinel = s.sentinel ∧
        s1.heap s.sentinel = s.heap s.sentinel ∧ s1.parent s.sentinel = s.parent s.sentinel) ∧
    (l ≠ Tree.nil → ∃ s1, right_rotate s x = some s1 ∧ s1.sentinel = s.sentinel ∧
        s1.heap s.sentinel = s.heap s.sentinel ∧ s1.parent s.sentinel = s.parent s.sentinel) ∧
    (∀ (ops : List (Op Int Int)) (st : RBT Int Int) (key w : Int), run less ops = some st →
      tree_find less st key = some (some w) →
      ∃ a s1 m q mc, inner_find less st key = some a ∧
        inner_delete_splice st a = some (s1, m, q) ∧ s1.color m = some mc ∧
        (mc = Color.BLACK → ∃ s2 iters temps ws rs,
          delete_fixup_traced s1.next s1 q = some (s2, iters, temps, false, ws, rs) ∧
          delete_fixup s1.next s1 q = some s2 ∧
          ∀ e ∈ rs, e.state.heap s1.sentinel = s1.heap s1.sentinel ∧
            ∃ P, e.state.parent e.cursor = some P ∧ P ≠ s1.sentinel ∧
              (if e.isLeft then e.state.left P else e.state.right P) = some e.cursor ∧
              (e.cursor = s1.sentinel → s1.parent s1.sentinel = some P))) := by
  refine ⟨fun hr => ?_, fun hl => ?_, ?_⟩
  · cases r with
    | nil => exact absurd rfl hr
    | node y cy b ky vy g =>
      obtain ⟨s1, e1, ev1⟩ := left_rotate_spec hwf
      have hh := ev1.frame _ hwf.sent_notin
      exact ⟨s1, e1, ev1.sentinel, hh, by simp only [RBT.parent, hh]⟩
  · cases l with
    | nil => exact absurd rfl hl
    | node y cy a ky vy b =>
      obtain ⟨s1, e1, ev1⟩ := right_rotate_spec hwf
      have hh := ev1.frame _ hwf.sent_notin
      exact ⟨s1, e1, ev1.sentinel, hh, by simp only [RBT.parent, hh]⟩
  · intro ops st key w hs hk
    obtain ⟨t, hi⟩ := run_inv_of hs
    have hlk : t.toList.lookup key = some w := by
      have := tree_find_spec hi key
      rw [hk] at this
      exact (Option.some.inj this).symm
    obtain ⟨p1, a, c1, l1, r1, sF, hp, hfind, hne, e1, e2⟩ := tree_delete_full hi key w hlk
    have hwf1 : WF st (plug p1 (Tree.node a c1 l1 key w r1)) := by rw [hp]; exact hi.wf
    obtain ⟨s1, m, n, P, q, sF2, esp, hsp, -, -, -, -, -, -, -, -, hcol, htr, -⟩ :=
      inner_delete_full hwf1 (by rw [hp]; exact hi.bal) (by rw [hp]; exact hi.nrr)
    refine ⟨a, s1, m, _, n.c, hfind, esp, hcol, fun hb => ?_⟩
    obtain ⟨s2, iters, ts, ws, rs, h1, h2, -, -, -, -, hrs⟩ := htr hb
    refine ⟨s2, iters, ts, ws, rs, h1, h2, fun e he => ?_⟩
    obtain ⟨hh, Q, hq1, hq2, hq3⟩ := hrs e he
    rw [← hsp.sentinel] at hh hq2
    refine ⟨hh, Q, hq1, hq2, hq3, fun hc => ?_⟩
    rw [hc] at hq1
    simp only [RBT.parent, hh] at hq1
    exact hq1

/-- C32 at the state of the scenario, for the rotations at the root, at address 3, whose
children are nodes, and for `tree_delete(10)` in the state after inserting 10, 20, 30 and
40, where the node of 10 is a BLACK leaf, so that `delete_fixup` is called with the
sentinel as cursor and rotates at the root. -/
theorem C32_rotations_keep_sentinel_witness :
    (∃ s1, left_rotate demoState 3 = some s1 ∧ s1.sentinel = demoState.sentinel ∧
        s1.heap demoState.sentinel = demoState.heap demoState.sentinel ∧
        s1.parent demoState.sentinel = demoState.parent demoState.sentinel) ∧
    (∃ s1, right_rotate demoState 3 = some s1 ∧ s1.sentinel = demoState.sentinel ∧
        s1.heap demoState.sentinel = demoState.heap demoState.sentinel ∧
        s1.parent demoState.sentinel = demoState.parent demoState.sentinel) ∧
    (∃ a s1 m q mc, inner_find less demoState4 10 = some a ∧
        inner_delete_splice demoState4 a = some (s1, m, q) ∧ s1.color m = some mc ∧
        (mc = Color.BLACK → ∃ s2 iters temps ws rs,
          delete_fixup_traced s1.next s1 q = some (s2, iters, temps, false, ws, rs) ∧
          delete_fixup s1.next s1 q = some s2 ∧
          ∀ e ∈ rs, e.state.heap s1.sentinel = s1.heap s1.sentinel ∧
            ∃ P, e.state.parent e.cursor = some P ∧ P ≠ s1.sentinel ∧
              (if e.isLeft then e.state.left P else e.state.right P) = some e.cursor ∧
              (e.cursor = s1.sentinel → s1.parent s1.sentinel = some P))) :=
  have h := @C32_rotations_keep_sentinel Int Int demoState [] 3 Color.BLACK
    (Tree.node 2 Color.RED Tree.nil 10 1 Tree.nil) (Tree.node 4 Color.RED Tree.nil 30 3 Tree.nil)
    20 2 demoState_wf
  ⟨h.1 (fun e => by cases e), h.2.1 (fun e => by cases e),
    h.2.2 demoOps4 demoState4 10 1 rfl demoState4_find⟩

end Proofs

end SimpleLib
